import Mathlib

/-!
# cij-vm: a verification development for the JIT back end

Shallow embedding of parts of `dlaxar/cij-vm` (AMD64 encoder `CodeBuilder`,
operand model `Operands.hpp`, interval model `LifetimeAnalyzer.hpp`, the lifetime
analysis `LifetimeAnalyzer.cpp`, the linear scan `RegisterAllocator.cpp` with
`StackAllocator.cpp`, and the machine emitter `MachineCompiler.cpp`).

Conventions of the embedding:

* a byte is a `Nat`; every store into the code buffer truncates with `% 256`
  exactly where the C++ parameter type `u8` truncates;
* the code buffer `_buf` is a `List Nat`, functions that append to it take the
  buffer and return the new buffer;
* `RegOp` / `XMMOp` are the `u8` values of the C++ enums (`RAX = 0` ... `R15 = 15`,
  `NONE = 0xFF`);
* signed machine integers (`i32`, `i64`) are `Int`, with explicit wrap-around
  where the C++ code converts;
* `std::map` and `std::set` are lists sorted by the comparator; `std::vector` and
  `std::deque` are lists;
* a C++ function that can throw or has undefined behaviour returns `Except Err`;
  a `while` loop without an evident bound takes a fuel argument and fails with
  `Err.nonTermination` when the fuel runs out.
-/

namespace Cij

/-! ## Operands.hpp -/

/-- The enum `OperandSize`. -/
inductive OperandSize where
  | BYTE
  | WORD
  | DWORD
  | QWORD
  deriving DecidableEq, Repr

/-! The enum `RegOp : u8` is embedded as the encoded value, a `Nat`. -/

def RAX : Nat := 0
def RCX : Nat := 1
def RDX : Nat := 2
def RBX : Nat := 3
def RSP : Nat := 4
def RBP : Nat := 5
def RSI : Nat := 6
def RDI : Nat := 7
def R8 : Nat := 8
def R9 : Nat := 9
def R10 : Nat := 10
def R11 : Nat := 11
def R12 : Nat := 12
def R13 : Nat := 13
def R14 : Nat := 14
def R15 : Nat := 15
def NONE : Nat := 255

/-! The enum `XMMOp : u8` is embedded as the encoded value, a `Nat` (`XMMNONE = 0xFF`). -/

def XMMNONE : Nat := 255

/-- The function `isExtended(RegOp)`: `reg >= R8`. -/
def isExtended (reg : Nat) : Bool := decide (R8 ≤ reg)

/-- The struct `MemOp`: `base`, `index`, `scale` (u8) and `offset` (i32). -/
structure MemOp where
  base : Nat
  index : Nat
  scale : Nat
  offset : Int
  deriving DecidableEq, Repr

/-- The class `RegMemOp`: a general register, an XMM register or a memory operand. -/
inductive RegMemOp where
  | reg (r : Nat)
  | xmm (x : Nat)
  | mem (m : MemOp)
  deriving DecidableEq, Repr

namespace RegMemOp

def isReg : RegMemOp → Bool
  | reg _ => true
  | _ => false

def isXMM : RegMemOp → Bool
  | xmm _ => true
  | _ => false

def isMem : RegMemOp → Bool
  | mem _ => true
  | _ => false

end RegMemOp

/-! ## CodeBuilder.hpp: primitive emitters -/

/-- The template `internal::fitsInto<i8>(i32)`: `static_cast<i8>(val) == val`. -/
def fitsIntoI8 (val : Int) : Bool := decide ((val + 128) % 256 - 128 = val)

/-- The template `internal::fitsInto<i32>(i64)`: `static_cast<i32>(val) == val`. -/
def fitsIntoI32 (val : Int) : Bool :=
  decide ((val + 2147483648) % 4294967296 - 2147483648 = val)

/-- Count of trailing zero bits of a non-zero value, at most `fuel` of them. -/
def ctz : Nat → Nat → Nat
  | 0, _ => 0
  | fuel + 1, v => if v % 2 = 1 then 0 else 1 + ctz fuel (v / 2)

/-- The function `internal::log2(u8 val)`: `__builtin_ctz(val)` (undefined in C++ for
`val = 0`, where this model gives 8). -/
def log2 (val : Nat) : Nat := ctz 8 (val % 256)

/-- The private `CodeBuilder::byte(u8 value)`: `_buf.push_back(value)`. -/
def byte (buf : List Nat) (value : Nat) : List Nat := buf ++ [value % 256]

/-- A signed value converted to `u8`. -/
def u8OfInt (v : Int) : Nat := (v % 256).toNat

/-- The function `CodeBuilder::dword(i32 value)`: four bytes, least significant first;
`value >> k` is the arithmetic shift. -/
def dword (buf : List Nat) (value : Int) : List Nat :=
  buf ++ [u8OfInt value, u8OfInt (value / 256), u8OfInt (value / 65536),
          u8OfInt (value / 16777216)]

/-- The function `CodeBuilder::qword(i64 value)`: eight bytes, least significant first. -/
def qword (buf : List Nat) (value : Int) : List Nat :=
  buf ++ [u8OfInt value, u8OfInt (value / 256), u8OfInt (value / 65536),
          u8OfInt (value / 16777216), u8OfInt (value / 4294967296),
          u8OfInt (value / 1099511627776), u8OfInt (value / 281474976710656),
          u8OfInt (value / 72057594037927936)]

/-- The function `CodeBuilder::opcode(u8 byte0)`. -/
def opcode (buf : List Nat) (byte0 : Nat) : List Nat := byte buf byte0

/-- The function `CodeBuilder::dopcode(u16 shrt)`: high byte, then low byte. -/
def dopcode (buf : List Nat) (shrt : Nat) : List Nat := byte (byte buf (shrt >>> 8)) shrt

/-- The value `(w << 3) | (r << 2) | (x << 1) | b` of `rex` and `force_rex`. -/
def rexFlags (w r x b : Bool) : Nat :=
  (w.toNat <<< 3) ||| (r.toNat <<< 2) ||| (x.toNat <<< 1) ||| b.toNat

/-- The function `CodeBuilder::rex`: the prefix is emitted only when a flag is set. -/
def rex (buf : List Nat) (w r x b : Bool) : List Nat :=
  if rexFlags w r x b ≠ 0 then byte buf (0x40 ||| rexFlags w r x b) else buf

/-- The function `CodeBuilder::force_rex`: the prefix is emitted always. -/
def force_rex (buf : List Nat) (w r x b : Bool) : List Nat :=
  byte buf (0x40 ||| rexFlags w r x b)

/-- The function `CodeBuilder::modrm(u8 mod, u8 reg, u8 rm)`. -/
def modrm (buf : List Nat) (mod reg rm : Nat) : List Nat :=
  byte buf ((mod <<< 6) ||| ((reg &&& 0b111) <<< 3) ||| (rm &&& 0b111))

/-- The function `CodeBuilder::sib(RegOp base, RegOp index, u8 scale)`. -/
def sib (buf : List Nat) (base index : Nat) (scale : Nat) : List Nat :=
  byte buf ((log2 scale <<< 6) ||| ((index &&& 0b111) <<< 3) ||| (base &&& 0b111))

/-- The function `CodeBuilder::prefixes(OperandSize size, RegOp reg, RegMemOp rm)`.
For an XMM operand the C++ reads the union through `rm.mem()`; the model gives no
`x` and no `b` flag there (no caller of `prefixes` passes an XMM operand). -/
def prefixes (buf : List Nat) (size : OperandSize) (reg : Nat) (rm : RegMemOp) : List Nat :=
  let buf1 := if size = OperandSize.WORD then byte buf 0x66 else buf
  let w := decide (size = OperandSize.QWORD)
  let r := if reg = NONE then false else isExtended reg
  let x := match rm with
    | RegMemOp.mem m => if m.index = NONE then false else isExtended m.index
    | _ => false
  let b := match rm with
    | RegMemOp.reg g => isExtended g
    | RegMemOp.mem m => if m.base = NONE then false else isExtended m.base
    | RegMemOp.xmm _ => false
  match rm with
  | RegMemOp.reg g =>
    if size = OperandSize.BYTE ∧ (RBX < reg ∨ RBX < g) then force_rex buf1 w r x b
    else rex buf1 w r x b
  | _ => rex buf1 w r x b

/-- The function `CodeBuilder::operands(RegOp reg, RegOp rm)`. -/
def operandsReg (buf : List Nat) (reg rm : Nat) : List Nat :=
  modrm buf 0b11 (reg &&& 0b111) (rm &&& 0b111)

/-- The function `CodeBuilder::operands(RegOp reg, MemOp rm)`. -/
def operandsMem (buf : List Nat) (reg : Nat) (rm : MemOp) : List Nat :=
  if rm.index = NONE then
    if rm.offset = 0 then
      if rm.base &&& 0b111 = 0b100 then
        sib (modrm buf 0b00 reg 0b100) rm.base 0b100 1
      else if rm.base &&& 0b111 = 0b101 then
        byte (modrm buf 0b01 reg 0b101) 0
      else
        modrm buf 0b00 reg rm.base
    else if fitsIntoI8 rm.offset then
      if rm.base &&& 0b111 = 0b100 then
        byte (sib (modrm buf 0b01 reg 0b100) rm.base 0b100 1) (u8OfInt rm.offset)
      else
        byte (modrm buf 0b01 reg rm.base) (u8OfInt rm.offset)
    else
      if rm.base &&& 0b111 = 0b100 then
        dword (sib (modrm buf 0b10 reg 0b100) rm.base 0b100 1) rm.offset
      else
        dword (modrm buf 0b10 reg rm.base) rm.offset
  else
    if rm.offset = 0 then
      if rm.base &&& 0b111 = 0b101 then
        byte (sib (modrm buf 0b01 reg 0b100) rm.base rm.index rm.scale) 0
      else
        sib (modrm buf 0b00 reg 0b100) rm.base rm.index rm.scale
    else if fitsIntoI8 rm.offset then
      byte (sib (modrm buf 0b01 reg 0b100) rm.base rm.index rm.scale) (u8OfInt rm.offset)
    else
      dword (sib (modrm buf 0b10 reg 0b100) rm.base rm.index rm.scale) rm.offset

/-- The function `CodeBuilder::operands(RegOp reg, RegMemOp rm)`. For an XMM operand
the C++ takes the memory branch on the union; the model emits the register form of
the XMM number there (no caller passes one). -/
def operands (buf : List Nat) (reg : Nat) (rm : RegMemOp) : List Nat :=
  match rm with
  | RegMemOp.reg g => operandsReg buf reg g
  | RegMemOp.mem m => operandsMem buf reg m
  | RegMemOp.xmm x => operandsReg buf reg x

/-! ## CodeBuilder.hpp: the `mov` family, `movimm`, `set` -/

/-- The function `CodeBuilder::mov(RegOp src, RegMemOp dst, OperandSize size)`. -/
def movRegToRegMem (buf : List Nat) (src : Nat) (dst : RegMemOp) (size : OperandSize) :
    List Nat :=
  match dst with
  | RegMemOp.reg d =>
    if size = OperandSize.BYTE ∧ (RBX < src ∨ RBX < d) then
      operands (opcode (force_rex buf false (isExtended src) false (isExtended d)) 0x88)
        src dst
    else
      operands (opcode (prefixes buf size src dst)
        (if size = OperandSize.BYTE then 0x88 else 0x89)) src dst
  | _ =>
    operands (opcode (prefixes buf size src dst)
      (if size = OperandSize.BYTE then 0x88 else 0x89)) src dst

/-- The function `CodeBuilder::mov(RegOp src, RegOp dst, OperandSize size)`: a move of
a register onto itself emits nothing. -/
def movRegToReg (buf : List Nat) (src dst : Nat) (size : OperandSize) : List Nat :=
  if src = dst then buf else movRegToRegMem buf src (RegMemOp.reg dst) size

/-- The function `CodeBuilder::mov(RegMemOp src, RegOp dst, OperandSize size)`. -/
def movRegMemToReg (buf : List Nat) (src : RegMemOp) (dst : Nat) (size : OperandSize) :
    List Nat :=
  operands (opcode (prefixes buf size dst src)
    (if size = OperandSize.BYTE then 0x8A else 0x8B)) dst src

/-- The function `CodeBuilder::movimm(i64 imm, RegOp dst)`. -/
def movimm (buf : List Nat) (imm : Int) (dst : Nat) : List Nat :=
  if imm = 0 then
    let buf1 := if isExtended dst then rex buf true true false true else buf
    modrm (opcode buf1 0x31) 0b11 (dst &&& 0b111) (dst &&& 0b111)
  else if fitsIntoI32 imm then
    dword (modrm (opcode (rex buf true false false (isExtended dst)) 0xC7) 0b11 0b000
      (dst &&& 0b111)) ((imm + 2147483648) % 4294967296 - 2147483648)
  else
    qword (opcode (rex buf true false false (isExtended dst)) (0xB8 ||| (dst &&& 0b111))) imm

/-- The enum `internal::Comparison : u16` (the two opcode bytes of `setcc`). -/
inductive Comparison where
  | EQ
  | NEQ
  | LT
  | GTE
  | LTE
  | GT
  deriving DecidableEq, Repr

/-- The `u16` value of a `Comparison`. -/
def Comparison.code : Comparison → Nat
  | Comparison.EQ => 0x0F94
  | Comparison.NEQ => 0x0F95
  | Comparison.LT => 0x0F9C
  | Comparison.GTE => 0x0F9D
  | Comparison.LTE => 0x0F9E
  | Comparison.GT => 0x0F9F

/-- The function `CodeBuilder::set(internal::Comparison on, RegOp dst)`. -/
def set (buf : List Nat) (cc : Comparison) (dst : Nat) : List Nat :=
  modrm (dopcode (rex buf false false false (isExtended dst)) cc.code) 0b11 0 (dst &&& 0b111)

/-! ## Operands.hpp: the orderings used by `std::map` and `std::set` -/

/-- The operator `MemOp::operator<`. -/
def MemOp.lt (a other : MemOp) : Bool :=
  if a.base < other.base then true
  else if a.base = other.base ∧ a.index < other.index then true
  else if a.base = other.base ∧ a.index = other.index ∧ a.scale < other.scale then true
  else if a.base = other.base ∧ a.index = other.index ∧ a.scale = other.scale then
    decide (a.offset < other.offset)
  else false

/-- The operator `RegMemOp::operator<`. -/
def RegMemOp.lt : RegMemOp → RegMemOp → Bool
  | RegMemOp.reg a, RegMemOp.reg b => decide (a < b)
  | RegMemOp.reg _, _ => true
  | _, RegMemOp.reg _ => false
  | RegMemOp.xmm a, RegMemOp.xmm b => decide (a < b)
  | RegMemOp.xmm _, RegMemOp.mem _ => true
  | RegMemOp.mem _, RegMemOp.xmm _ => false
  | RegMemOp.mem a, RegMemOp.mem b => MemOp.lt a b

/-! ## Ordered containers

`std::set<K>` is a list kept sorted by the comparison `lt`; `std::map<K, V>` is
a list of pairs kept sorted by key. Two keys are the same key when neither is
less than the other. -/

/-- Key equivalence of an ordered container: `!(a < b) && !(b < a)`. -/
def keyEquiv {K : Type} (lt : K → K → Bool) (a b : K) : Bool := !lt a b && !lt b a

/-- The call `std::set::insert`: ordered insertion, an equivalent key is kept. -/
def osInsert {K : Type} (lt : K → K → Bool) (x : K) : List K → List K
  | [] => [x]
  | y :: ys =>
    if lt x y then x :: y :: ys
    else if lt y x then y :: osInsert lt x ys
    else y :: ys

/-- The call `std::set::erase(key)`. -/
def osErase {K : Type} (lt : K → K → Bool) (x : K) (s : List K) : List K :=
  s.filter (fun y => !keyEquiv lt x y)

/-- The call `std::map::insert`: ordered insertion, an existing key keeps its value. -/
def omInsert {K V : Type} (lt : K → K → Bool) (k : K) (v : V) : List (K × V) → List (K × V)
  | [] => [(k, v)]
  | (k1, v1) :: rest =>
    if lt k k1 then (k, v) :: (k1, v1) :: rest
    else if lt k1 k then (k1, v1) :: omInsert lt k v rest
    else (k1, v1) :: rest

/-- The lookup of `std::map::count`, `operator[]` on a present key and `at`. -/
def omFind {K V : Type} (lt : K → K → Bool) (k : K) : List (K × V) → Option V
  | [] => none
  | (k1, v1) :: rest => if keyEquiv lt k k1 then some v1 else omFind lt k rest

/-- The call `std::map::erase(key)`. -/
def omErase {K V : Type} (lt : K → K → Bool) (k : K) (m : List (K × V)) : List (K × V) :=
  m.filter (fun p => !keyEquiv lt k p.1)

/-- The update through the reference that `std::map::at` returns. -/
def omAdjust {K V : Type} (lt : K → K → Bool) (k : K) (f : V → V) (m : List (K × V)) :
    List (K × V) :=
  m.map (fun p => if keyEquiv lt k p.1 then (p.1, f p.2) else p)

/-! ## MachineCompiler: `topologicallySort` -/

/-- The struct `SpillMovOp`: a move from `first` to `second` of `size` bytes. -/
structure SpillMovOp where
  first : RegMemOp
  second : RegMemOp
  size : OperandSize
  deriving DecidableEq, Repr

/-- The locals `edges`, `sizes` and `S` of `topologicallySort`. -/
structure SortGraph where
  edges : List (RegMemOp × RegMemOp)
  sizes : List (RegMemOp × List (RegMemOp × OperandSize))
  S : List RegMemOp

/-- One iteration of the first loop of `topologicallySort`. -/
def SortGraph.add (g : SortGraph) (pair : SpillMovOp) : SortGraph :=
  let edges := omInsert RegMemOp.lt pair.second pair.first g.edges
  let sizes0 := if (omFind RegMemOp.lt pair.second g.sizes).isNone
    then omInsert RegMemOp.lt pair.second [] g.sizes else g.sizes
  let sizes := omAdjust RegMemOp.lt pair.second
    (omInsert RegMemOp.lt pair.first pair.size) sizes0
  let S := osInsert RegMemOp.lt pair.second (osInsert RegMemOp.lt pair.first g.S)
  ⟨edges, sizes, S⟩

/-- The first loop of `topologicallySort`: `edges` maps a destination to its
source, `sizes` a destination and a source to the size, `S` holds every operand. -/
def buildGraph (vector : List SpillMovOp) : SortGraph :=
  vector.foldl SortGraph.add ⟨[], [], []⟩

/-- The second loop: every operand that is the source of an edge leaves `S`. -/
def eraseSources (edges : List (RegMemOp × RegMemOp)) (S : List RegMemOp) : List RegMemOp :=
  edges.foldl (fun S pair => osErase RegMemOp.lt pair.2 S) S

/-- The `while(!S.empty())` loop. The result is the pair of the remaining `edges` and
`L`; `none` stands for the `std::out_of_range` of `sizes.at(n).at(y)` and for an
exhausted `fuel` (the number of iterations allowed). -/
def sortLoop (sizes : List (RegMemOp × List (RegMemOp × OperandSize))) :
    Nat → List (RegMemOp × RegMemOp) → List RegMemOp → List SpillMovOp →
    Option (List (RegMemOp × RegMemOp) × List SpillMovOp)
  | _, edges, [], L => some (edges, L)
  | 0, _, _ :: _, _ => none
  | fuel + 1, edges, n :: S, L =>
    let S1 := osErase RegMemOp.lt n (n :: S)
    match omFind RegMemOp.lt n edges with
    | some y =>
      match (omFind RegMemOp.lt n sizes).bind (omFind RegMemOp.lt y) with
      | some sz =>
        sortLoop sizes fuel (omErase RegMemOp.lt n edges) (osInsert RegMemOp.lt y S1)
          (L ++ [⟨y, n, sz⟩])
      | none => none
    | none => sortLoop sizes fuel edges S1 L

/-- The function `MachineCompiler::topologicallySort`. Every iteration of the loop
removes an edge or shrinks `S`, so `2 * edges.length + S.length` iterations suffice. -/
def topologicallySort (vector : List SpillMovOp) : Option (List SpillMovOp) :=
  let g := buildGraph vector
  let S := eraseSources g.edges g.S
  match sortLoop g.sizes (2 * g.edges.length + S.length) g.edges S [] with
  | none => none
  | some (edges, L) => if edges ≠ [] then some [] else some L

/-! ## Move lists: cycles, valid orders, execution -/

/-- A cycle: a non-empty sequence of moves in which each move reads what the next one
writes and the last move reads what the first one writes. -/
def IsCycle : List SpillMovOp → Prop
  | [] => False
  | a :: t => List.Chain (fun x y => x.first = y.second) a t ∧
      ((a :: t).getLast (List.cons_ne_nil a t)).first = a.second

/-- The move list contains a cycle. -/
def ContainsCycle (moves : List SpillMovOp) : Prop :=
  ∃ c, (∀ m ∈ c, m ∈ moves) ∧ IsCycle c

/-- No move writes a location that a later move of the order still reads. -/
def ValidOrder (L : List SpillMovOp) : Prop :=
  L.Pairwise (fun a b => a.second ≠ b.first)

/-- Executing moves one after another on a store of locations. -/
def execMoves {V : Type} (store : RegMemOp → V) : List SpillMovOp → RegMemOp → V
  | [] => store
  | m :: rest => execMoves (fun x => if x = m.second then store m.first else store x) rest

/-! ### Auxiliary notions for the proof of the sort -/

/-- What the first loop of `topologicallySort` establishes for a move list with
pairwise distinct destinations. -/
structure BuildInv (v : List SpillMovOp) (g : SortGraph) : Prop where
  edges_perm : g.edges.Perm (v.map (fun m => (m.second, m.first)))
  sizes_none : ∀ k, omFind RegMemOp.lt k g.sizes = none ↔ omFind RegMemOp.lt k g.edges = none
  sizes_at : ∀ m ∈ v,
    (omFind RegMemOp.lt m.second g.sizes).bind (omFind RegMemOp.lt m.first) = some m.size
  mem_S : ∀ x, x ∈ g.S ↔ ∃ m ∈ v, x = m.first ∨ x = m.second

/-- The invariant of the `while(!S.empty())` loop for a move list `v` with pairwise
distinct destinations. -/
structure LoopInv (v : List SpillMovOp) (edges : List (RegMemOp × RegMemOp))
    (S : List RegMemOp) (L : List SpillMovOp) : Prop where
  keys_nodup : (edges.map Prod.fst).Nodup
  edges_sub : ∀ p ∈ edges, ∃ m ∈ v, m.second = p.1 ∧ m.first = p.2
  done_perm : L.Perm (v.filter (fun m => (omFind RegMemOp.lt m.second edges).isNone))
  progress : ∀ p ∈ edges, p.1 ∈ S ∨ ∃ q ∈ edges, q.2 = p.1

/-! ## LifetimeAnalyzer.hpp: `Lifespan` and the range list of an `Interval` -/

/-- The struct `Lifespan`: the closed range of LIR positions `from .. to` (both `i32`). -/
structure Lifespan where
  from_ : Int
  to_ : Int
  deriving DecidableEq, Repr

/-- The operator `Lifespan::operator<`: by `from` only. -/
def Lifespan.lt (a other : Lifespan) : Bool := decide (a.from_ < other.from_)

/-- The operator `Lifespan::operator==`: `!(other < *this) && !(other > *this)`. -/
def Lifespan.eqv (a other : Lifespan) : Bool := !Lifespan.lt other a && !Lifespan.lt a other

/-- The loop of `Interval::addRange` over the remaining ranges, with the current
`newSpan` and `merged`; the result is the rewritten list and the final `merged`. -/
def addRangeLoop : List Lifespan → Lifespan → Bool → List Lifespan × Bool
  | [], _, merged => ([], merged)
  | oldSpan :: rest, newSpan, merged =>
    if newSpan.from_ ≤ oldSpan.to_ ∧ oldSpan.from_ ≤ newSpan.to_ then
      let ext : Lifespan := ⟨min oldSpan.from_ newSpan.from_, max oldSpan.to_ newSpan.to_⟩
      if merged ∧ Lifespan.eqv ext newSpan then
        addRangeLoop rest newSpan true
      else
        let r := addRangeLoop rest ext true
        (ext :: r.1, r.2)
    else
      let r := addRangeLoop rest newSpan merged
      (oldSpan :: r.1, r.2)

/-- The function `Interval::addRange` on the range list `lifespans`; `none` stands for
`InvalidRangeOrderException`. -/
def addRange (lifespans : List Lifespan) (newSpan : Lifespan) : Option (List Lifespan) :=
  match lifespans with
  | front :: _ =>
    if newSpan.from_ > front.from_ then none
    else
      let r := addRangeLoop lifespans newSpan false
      if r.2 then some r.1 else some (newSpan :: r.1)
  | [] => some [newSpan]

/-- The function `Interval::covers(u16 position)` on the range list. -/
def covers (lifespans : List Lifespan) (position : Nat) : Bool :=
  lifespans.any (fun l => decide (l.from_ ≤ (position : Int) ∧ l.to_ ≥ (position : Int)))

/-! ## MachineCompiler::run: emission of jumps and back-patching

Every `CodeBuilder` method except `byte(value, idx)` and `quad` only appends to
`_buf` (through the private `byte(u8)`), and `run` calls `quad` only in its last
loop. The machine code that `run` appends for anything that is not a `JMP` or `JNZ`
(edge moves, spill moves, every other LIR instruction) is therefore a parameter of
the embedding: the byte string `EmitStep.code`. -/

/-- What `run` emits at one place of a block: some appended machine code, or the
`case lir::JMP` / `case lir::JNZ` of the instruction switch with its `jump.target`. -/
inductive EmitStep where
  | code (bytes : List Nat)
  | jmp (target : Nat)
  | jnz (target : Nat)
  deriving DecidableEq, Repr

/-- One block as `run` walks it: `index`, the edge moves that are inserted before the
block address is saved, and the steps after it (edge moves at the target, spill moves,
instructions). -/
structure EmitBlock where
  index : Nat
  edgeCode : List Nat
  steps : List EmitStep
  deriving Repr

/-- The builder buffer and the locals `insertBlockAddressAt` (`blockIndex ↦ {rip, where
to insert}`) and `blockAddresses` of `run`. -/
structure EmitState where
  buf : List Nat
  insertBlockAddressAt : List (Nat × List (Nat × Nat))
  blockAddresses : List (Nat × Nat)
  deriving Repr

/-- The order of the `u16` keys. -/
def natLt (a b : Nat) : Bool := decide (a < b)

/-- The operator `<` of `std::pair<u32, u32>`. -/
def pairLt (a b : Nat × Nat) : Bool :=
  decide (a.1 < b.1) || (!decide (b.1 < a.1) && decide (a.2 < b.2))

/-- The function `CodeBuilder::offset()`: `_buf.size()` as `u32`. -/
def offset (buf : List Nat) : Nat := buf.length % 4294967296

/-- The statement `insertBlockAddressAt[target].insert({rip, offset})`. -/
def recordJump (m : List (Nat × List (Nat × Nat))) (target rip off : Nat) :
    List (Nat × List (Nat × Nat)) :=
  let m0 := if (omFind natLt target m).isNone then omInsert natLt target [] m else m
  omAdjust natLt target (osInsert pairLt (rip, off)) m0

/-- The statement `blockAddresses[index] = address`. -/
def assignAddress (m : List (Nat × Nat)) (index address : Nat) : List (Nat × Nat) :=
  let m0 := if (omFind natLt index m).isNone then omInsert natLt index 0 m else m
  omAdjust natLt index (fun _ => address) m0

/-- One step of the instruction loop of `run`. For `JMP`: `jmp_riprel()` (opcode `E9`,
`offptr = offset()`, `dword(0)`) and the record; for `JNZ`: `jmp_nz_riprel()` (opcode
`0F 85`). -/
def emitStep (st : EmitState) : EmitStep → EmitState
  | EmitStep.code bytes => { st with buf := st.buf ++ bytes }
  | EmitStep.jmp target =>
    let b1 := opcode st.buf 0xE9
    let offptr := offset b1
    let b2 := dword b1 0
    { st with buf := b2,
              insertBlockAddressAt := recordJump st.insertBlockAddressAt target (offset b2) offptr }
  | EmitStep.jnz target =>
    let b1 := byte (byte st.buf 0x0F) 0x85
    let offptr := offset b1
    let b2 := dword b1 0
    { st with buf := b2,
              insertBlockAddressAt := recordJump st.insertBlockAddressAt target (offset b2) offptr }

/-- One iteration of `for(Block const& block : blocks)` in `run`. -/
def emitBlock (st : EmitState) (b : EmitBlock) : EmitState :=
  let buf1 := st.buf ++ b.edgeCode
  b.steps.foldl emitStep
    { st with buf := buf1, blockAddresses := assignAddress st.blockAddresses b.index (offset buf1) }

/-- The block loop of `run`, started on the function header `header`. -/
def emitBlocks (header : List Nat) (blocks : List EmitBlock) : EmitState :=
  blocks.foldl emitBlock ⟨header, [], []⟩

/-- The public `CodeBuilder::byte(u8 value, u32 idx)`: `_buf[idx] = value`. -/
def byteAt (buf : List Nat) (value idx : Nat) : List Nat := buf.set idx (value % 256)

/-- The function `CodeBuilder::quad(u32 value, u32 idx)`. -/
def quad (buf : List Nat) (value idx : Nat) : List Nat :=
  byteAt (byteAt (byteAt (byteAt buf value idx)
    (value >>> 8) ((idx + 1) % 4294967296))
    (value >>> 16) ((idx + 2) % 4294967296))
    (value >>> 24) ((idx + 3) % 4294967296)

/-- The value of `blockAddresses[blockIndex]` in the patch loop (0 for a new key). -/
def addressOf (blockAddresses : List (Nat × Nat)) (blockIndex : Nat) : Nat :=
  (omFind natLt blockIndex blockAddresses).getD 0

/-- The last loop of `run`: `builder.quad(blockAddresses[blockIndex] - rip, insertPoint)`
for every recorded pair, the subtraction being that of `u32`. -/
def patchJumps (st : EmitState) : List Nat :=
  st.insertBlockAddressAt.foldl (fun buf pair =>
    pair.2.foldl (fun buf1 ripAndInsertPoint =>
      quad buf1 ((addressOf st.blockAddresses pair.1 + 4294967296 - ripAndInsertPoint.1)
        % 4294967296) ripAndInsertPoint.2) buf) st.buf

/-- The code buffer after `MachineCompiler::run`. -/
def runCode (header : List Nat) (blocks : List EmitBlock) : List Nat :=
  patchJumps (emitBlocks header blocks)

/-! ### The layout of the emitted code -/

/-- The number of bytes a step appends. -/
def EmitStep.size : EmitStep → Nat
  | EmitStep.code bytes => bytes.length
  | EmitStep.jmp _ => 5
  | EmitStep.jnz _ => 6

/-- The number of bytes of a list of steps. -/
def stepsSize : List EmitStep → Nat
  | [] => 0
  | s :: rest => s.size + stepsSize rest

/-- The jumps of a list of steps that starts at code offset `off`: the offset of the
4-byte placeholder of each `JMP` and `JNZ`, with its target block. -/
def stepSites (off : Nat) : List EmitStep → List (Nat × Nat)
  | [] => []
  | EmitStep.code bytes :: rest => stepSites (off + bytes.length) rest
  | EmitStep.jmp target :: rest => (off + 1, target) :: stepSites (off + 5) rest
  | EmitStep.jnz target :: rest => (off + 2, target) :: stepSites (off + 6) rest

/-- The number of bytes of a block. -/
def EmitBlock.size (b : EmitBlock) : Nat := b.edgeCode.length + stepsSize b.steps

/-- The jumps of the blocks laid out from code offset `off`. -/
def jumpSites (off : Nat) : List EmitBlock → List (Nat × Nat)
  | [] => []
  | b :: rest => stepSites (off + b.edgeCode.length) b.steps ++ jumpSites (off + b.size) rest

/-- The code offset at the start of the block with index `B` (after its leading edge
moves), for blocks laid out from offset `off`; the last block with that index counts,
and `none` means that no block has the index. -/
def blockStart (off : Nat) (B : Nat) : List EmitBlock → Option Nat
  | [] => none
  | b :: rest =>
    match blockStart (off + b.size) B rest with
    | some a => some a
    | none => if b.index = B then some (off + b.edgeCode.length) else none

/-- The number of bytes of a list of blocks. -/
def blocksSize : List EmitBlock → Nat
  | [] => 0
  | b :: rest => b.size + blocksSize rest

/-! ### Auxiliary notions for the proof of the patching -/

/-- The jump sites lie between `lo` and `hi`, in increasing order, at least five bytes
apart (an opcode byte and a four-byte placeholder each). -/
def SitesOK (lo hi : Nat) (sites : List (Nat × Nat)) : Prop :=
  sites.Pairwise (fun a b => a.1 + 5 ≤ b.1) ∧ ∀ s ∈ sites, lo + 1 ≤ s.1 ∧ s.1 + 4 ≤ hi



/-- The pair `{rip, insert point}` is recorded for block `t` (looked up by key). -/
def RecMem (m : List (Nat × List (Nat × Nat))) (t rip ip : Nat) : Prop :=
  ∃ set, omFind natLt t m = some set ∧ (rip, ip) ∈ set

/-- Every recorded pair belongs to one of the jump sites `sites`. -/
def Legit (sites : List (Nat × Nat)) (m : List (Nat × List (Nat × Nat))) : Prop :=
  ∀ e ∈ m, ∀ r ∈ e.2, (r.2, e.1) ∈ sites ∧ r.1 = r.2 + 4

/-- Every jump site of `sites` is recorded. -/
def Complete (sites : List (Nat × Nat)) (m : List (Nat × List (Nat × Nat))) : Prop :=
  ∀ s ∈ sites, RecMem m s.2 (s.1 + 4) s.1

/-- The patches of the last loop of `run`, in the order of the loop: insert point and
value. -/
def patchList (st : EmitState) : List (Nat × Nat) :=
  st.insertBlockAddressAt.flatMap (fun pair =>
    pair.2.map (fun r =>
      (r.2, (addressOf st.blockAddresses pair.1 + 4294967296 - r.1) % 4294967296)))

/-- Applying patches one after another. -/
def applyPatches (buf : List Nat) (ps : List (Nat × Nat)) : List Nat :=
  ps.foldl (fun b p => quad b p.2 p.1) buf

/-! ## LIR instructions, intervals and blocks -/

/-- The ways a C++ function of the embedding fails: `InvalidResultException`,
`std::runtime_error`, undefined behaviour (an index out of bounds, `front()` or
`back()` of an empty container, a dereferenced end iterator), `std::out_of_range` of
`map::at`, `InvalidIntervalSplittingException`, `StackModificationException`, a loop
that does not end within the iterations the embedding allows,
`InvalidRangeOrderException`, `BytecodeLoaderException`, `TypeNotPackedException`,
`std::logic_error` and `NotImplementedException`. -/
inductive Err where
  | invalidResult
  | runtimeError
  | undefined
  | outOfRange
  | invalidSplit
  | stackModification
  | nonTermination
  | invalidRangeOrder
  | bytecodeLoader
  | typeNotPacked
  | logicError
  | notImplemented
  deriving DecidableEq, Repr

/-- The enum `lir::Operation`. -/
inductive Operation where
  | MOV | PHI | CMP | SET | NOT | NEG | TEST | JMP | JNZ | ADD | SUB | MUL | DIV | RET | CQO
  | CALL | ALLOC | MOV_MEM | CALL_IDX_IN_REG | FMOV | FADD | MOV_I2F | NOP
  deriving DecidableEq, Repr

/-- The struct `lir::PhiEdge`. -/
structure PhiEdge where
  vreg : Nat
  block : Nat
  deriving DecidableEq, Repr

/-- The struct `lir::PhiOp`. -/
structure PhiOp where
  dst : Nat
  edges : List PhiEdge
  deriving DecidableEq, Repr

/-- The function `PhiOp::inputOf(u16 block)`. -/
def PhiOp.inputOf (p : PhiOp) (block : Nat) : Except Err Nat :=
  match p.edges.find? (fun edge => decide (edge.block = block)) with
  | some edge => Except.ok edge.vreg
  | none => Except.error Err.invalidResult

/-- The enum `lir::FlagOpMode`. -/
inductive FlagOpMode where
  | LT | LTE | EQ | NEQ | GTE | GT
  deriving DecidableEq, Repr

/-- The anonymous union of `lir::Instruction`, by the member that is constructed. -/
inductive Payload where
  | mov (isImm : Bool) (imm : Int) (src dst : Nat) (size : OperandSize)
  | phi (p : PhiOp)
  | cmp (l r : Nat)
  | flag (reg : Nat) (mode : FlagOpMode)
  | unary (dst : Nat)
  | binary (dst src : Nat)
  | ternary (dst : List Nat) (srcA srcB : Nat)
  | jump (target : Nat)
  | call (isVoid : Bool) (dst : Nat) (args clears : List Nat) (function : Int)
  | alloc (dst bytes : Nat)
  | memmov (a base : Nat) (offset : Int) (isIndexed : Bool) (index scale : Nat)
      (size : OperandSize) (toMem : Bool)
  | reg_call (isVoid : Bool) (dst : Nat) (args clears : List Nat) (idxReg : Nat)
  | none
  deriving DecidableEq, Repr

/-- The struct `lir::Instruction`. -/
structure Instruction where
  operation : Operation
  id : Nat
  payload : Payload
  deriving DecidableEq, Repr

/-- The enum `allocator::StackType`. -/
inductive StackType where
  | PARAMETER | ARGUMENT | SCRATCH
  deriving DecidableEq, Repr

/-- The struct `allocator::StackSlot`. -/
structure StackSlot where
  type : StackType
  size : OperandSize
  index : Nat
  deriving DecidableEq, Repr

/-- The struct `bytecode::Type`. -/
structure BType where
  isArray : Bool
  baseType : Nat
  deriving DecidableEq, Repr

/-- The function `bytecode::Type::size()`. -/
def BType.size (t : BType) : OperandSize :=
  if t.isArray then OperandSize.QWORD
  else if t.baseType = 0 then OperandSize.QWORD
  else if t.baseType = 1 ∨ t.baseType = 2 then OperandSize.BYTE
  else if t.baseType = 3 ∨ t.baseType = 4 then OperandSize.WORD
  else if t.baseType = 5 ∨ t.baseType = 7 then OperandSize.DWORD
  else OperandSize.QWORD

/-- The struct `lir::Usage`. -/
structure Usage where
  mustHaveReg : Bool
  deriving DecidableEq, Repr

/-- The struct `Interval` of `LifetimeAnalyzer.hpp`. The member `stack` has no
initialiser: it is `none` until a slot is assigned. -/
structure Interval where
  lifespans : List Lifespan
  vr : Nat
  type : BType
  _reg : Nat
  _xmm : Nat
  stack : Option StackSlot
  argument : Bool
  phi : Bool
  definingPhi : Instruction
  hasFollower : Bool
  isFixed : Bool
  usages : List (Int × Usage)
  deriving DecidableEq, Repr

/-- The function `Interval::start()`: `lifespans.front().from`. -/
def Interval.start (i : Interval) : Except Err Int :=
  match i.lifespans.head? with
  | some l => Except.ok l.from_
  | none => Except.error Err.undefined

/-- The function `Interval::end()`: `lifespans.back().to`. -/
def Interval.end_ (i : Interval) : Except Err Int :=
  match i.lifespans.getLast? with
  | some l => Except.ok l.to_
  | none => Except.error Err.undefined

/-- The struct `bytecode::Block`. -/
structure BlockInfo where
  instructionCount : Nat
  successors : List Nat
  predecessors : List Nat
  deriving DecidableEq, Repr

/-- The struct `jit::Block`. -/
structure Block where
  blockInfo : BlockInfo
  index : Nat
  lirs : List Instruction
  deriving DecidableEq, Repr

/-- The function `Block::fromLIR()`: `lirs.front().id`. -/
def Block.fromLIR (b : Block) : Except Err Nat :=
  match b.lirs.head? with
  | some i => Except.ok i.id
  | none => Except.error Err.undefined

/-- The function `Block::toLIR()`: `lirs.back().id`. -/
def Block.toLIR (b : Block) : Except Err Nat :=
  match b.lirs.getLast? with
  | some i => Except.ok i.id
  | none => Except.error Err.undefined

/-! ## MachineCompiler: `intervalFor` and the edge moves of `run` -/

/-- The function `MachineCompiler::intervalFor(u16 id, lir::vr vr)`: the first interval
of `vr` with `start() <= id && end() >= id`. -/
def intervalFor : List Interval → Nat → Nat → Except Err Interval
  | [], _, _ => Except.error Err.invalidResult
  | interval :: rest, id, vr =>
    if interval.vr = vr then
      match interval.start, interval.end_ with
      | Except.ok s, Except.ok e =>
        if s ≤ (id : Int) ∧ e ≥ (id : Int) then Except.ok interval
        else intervalFor rest id vr
      | _, _ => Except.error Err.undefined
    else intervalFor rest id vr

/-- A `for` loop over `xs` whose body may raise. -/
def loopE {σ α : Type} (body : σ → α → Except Err σ) : σ → List α → Except Err σ
  | st, [] => Except.ok st
  | st, x :: xs =>
    match body st x with
    | Except.ok st1 => loopE body st1 xs
    | Except.error e => Except.error e

/-- The register `moveFrom` of the edge-move part of `run` for `interval`, whose
`start()` is `start`, on the edge from `predecessor` to the block whose first LIR id is
`sFrom`; `none` stands for the `continue` of an interval that starts at the head of the
successor without being a phi interval. -/
def edgeSource (intervals : List Interval) (predecessor : Block) (sFrom : Nat) (start : Int)
    (interval : Interval) : Except Err (Option Nat) :=
  if start = (sFrom : Int) then
    if interval.phi then
      match interval.definingPhi.payload with
      | Payload.phi p =>
        match p.inputOf predecessor.index with
        | Except.error e => Except.error e
        | Except.ok operand =>
          match predecessor.toLIR with
          | Except.error e => Except.error e
          | Except.ok pTo =>
            match intervalFor intervals pTo operand with
            | Except.error e => Except.error e
            | Except.ok i => Except.ok (some i._reg)
      | _ => Except.error Err.undefined
    else Except.ok none
  else
    match predecessor.toLIR with
    | Except.error e => Except.error e
    | Except.ok pTo =>
      match intervalFor intervals pTo interval.vr with
      | Except.error e => Except.error e
      | Except.ok i => Except.ok (some i._reg)

/-- The body of `for(Interval const& interval : intervals)` in the edge-move part of
`run`, up to the test `moveFrom != moveTo`: the move that is recorded for `interval`
on the edge from `predecessor` to `successor`, if any. -/
def edgeMove (intervals : List Interval) (predecessor successor : Block)
    (interval : Interval) : Except Err (Option SpillMovOp) :=
  if interval.isFixed then Except.ok none
  else
    match successor.fromLIR with
    | Except.error e => Except.error e
    | Except.ok sFrom =>
      if covers interval.lifespans sFrom then
        match interval.start with
        | Except.error e => Except.error e
        | Except.ok start =>
          match edgeSource intervals predecessor sFrom start interval with
          | Except.error e => Except.error e
          | Except.ok none => Except.ok none
          | Except.ok (some moveFrom) =>
            match intervalFor intervals sFrom interval.vr with
            | Except.error e => Except.error e
            | Except.ok i =>
              if moveFrom ≠ i._reg then
                Except.ok (some ⟨RegMemOp.reg moveFrom, RegMemOp.reg i._reg, interval.type.size⟩)
              else Except.ok none
      else Except.ok none

/-- The locals `edgeInstructions` and `conditionalEdgeInstructionsAtTarget` of `run`. -/
structure EdgeState where
  edgeInstructions : List (Nat × List (Nat × List SpillMovOp))
  conditionalEdgeInstructionsAtTarget : List (Nat × Nat)
  deriving Repr

/-- The statement `edgeInstructions[p][s].push_back(m)`. -/
def pushEdge (E : List (Nat × List (Nat × List SpillMovOp))) (p s : Nat) (m : SpillMovOp) :
    List (Nat × List (Nat × List SpillMovOp)) :=
  let E0 := if (omFind natLt p E).isNone then omInsert natLt p [] E else E
  omAdjust natLt p (fun inner =>
    let inner0 := if (omFind natLt s inner).isNone then omInsert natLt s [] inner else inner
    omAdjust natLt s (fun v => v ++ [m]) inner0) E0

/-- The edge-move list of the edge `(p, s)`; empty when none was recorded. -/
def lookupEdge (E : List (Nat × List (Nat × List SpillMovOp))) (p s : Nat) : List SpillMovOp :=
  ((omFind natLt p E).bind (omFind natLt s)).getD []

/-- The body of `for(Interval const& interval : intervals)`. -/
def edgeIntervalBody (intervals : List Interval) (predecessor successor : Block)
    (st : EdgeState) (interval : Interval) : Except Err EdgeState :=
  match edgeMove intervals predecessor successor interval with
  | Except.error e => Except.error e
  | Except.ok none => Except.ok st
  | Except.ok (some m) =>
    match predecessor.lirs.getLast? with
    | none => Except.error Err.undefined
    | some last =>
      let cond : Except Err (List (Nat × Nat)) :=
        if last.operation = Operation.JNZ then
          if successor.blockInfo.predecessors.length = 1 then
            Except.ok (assignAddress st.conditionalEdgeInstructionsAtTarget successor.index
              predecessor.index)
          else Except.error Err.runtimeError
        else Except.ok st.conditionalEdgeInstructionsAtTarget
      match cond with
      | Except.error e => Except.error e
      | Except.ok c =>
        Except.ok ⟨pushEdge st.edgeInstructions predecessor.index successor.index m, c⟩

/-- The body of `for(u16 sIndex : predecessor.blockInfo.successors)`. -/
def edgeSuccessorBody (blocks : List Block) (intervals : List Interval) (predecessor : Block)
    (st : EdgeState) (sIndex : Nat) : Except Err EdgeState :=
  match blocks[sIndex]? with
  | none => Except.error Err.undefined
  | some successor => loopE (edgeIntervalBody intervals predecessor successor) st intervals

/-- The first loop nest of `MachineCompiler::run`: the edge moves of all CFG edges. -/
def edgeMoves (blocks : List Block) (intervals : List Interval) : Except Err EdgeState :=
  loopE (fun st predecessor =>
    loopE (edgeSuccessorBody blocks intervals predecessor) st predecessor.blockInfo.successors)
    ⟨[], []⟩ blocks

/-- The edge move of an interval in the words of the specification, for general
registers: `interval` is not fixed and covers the first LIR id of `successor`; the
value is read at the last LIR id of `predecessor` from the interval `a` of the same
virtual register (of the phi input coming from `predecessor` when `interval` starts at
the head of `successor` and is a phi interval) and at the first LIR id of `successor`
from the interval `b`; the general registers `_reg` of `a` and `b` differ, and `m` is the
move from the former to the latter. -/
def EdgeMoveOf (intervals : List Interval) (predecessor successor : Block)
    (interval : Interval) (m : SpillMovOp) : Prop :=
  interval.isFixed = false ∧
  ∃ (sFrom pTo : Nat) (start : Int) (srcVr : Nat) (a b : Interval),
    successor.fromLIR = Except.ok sFrom ∧ predecessor.toLIR = Except.ok pTo ∧
    covers interval.lifespans sFrom = true ∧ interval.start = Except.ok start ∧
    ((start ≠ (sFrom : Int) ∧ srcVr = interval.vr) ∨
      (start = (sFrom : Int) ∧ interval.phi = true ∧
        ∃ p, interval.definingPhi.payload = Payload.phi p ∧
          p.inputOf predecessor.index = Except.ok srcVr)) ∧
    intervalFor intervals pTo srcVr = Except.ok a ∧
    intervalFor intervals sFrom interval.vr = Except.ok b ∧
    a._reg ≠ b._reg ∧
    m = ⟨RegMemOp.reg a._reg, RegMemOp.reg b._reg, interval.type.size⟩

/-! ## StackAllocator and `MachineCompiler::operandFor` -/

/-- The class `allocator::StackAllocator` (all counters are `u16`). -/
structure StackAllocator where
  bytesArguments : Nat
  bytesScratch : Nat
  padding : Nat
  frozen : Bool
  deriving DecidableEq, Repr

/-- The function `StackAllocator::getStackSize()`. -/
def StackAllocator.getStackSize (a : StackAllocator) : Nat :=
  (a.bytesArguments + a.padding + a.bytesScratch) % 65536

/-- The function `StackAllocator::getAddressing`; it raises before `freeze()`. -/
def StackAllocator.getAddressing (a : StackAllocator) (slot : StackSlot) : Except Err MemOp :=
  if !a.frozen then Except.error Err.runtimeError
  else match slot.type with
    | StackType.ARGUMENT => Except.ok ⟨RSP, NONE, 0, slot.index⟩
    | StackType.PARAMETER => Except.ok ⟨RSP, NONE, 0, a.getStackSize + 8 + slot.index⟩
    | StackType.SCRATCH => Except.ok ⟨RSP, NONE, 0, a.bytesArguments + a.padding + slot.index⟩

/-- The storage of an interval as `MachineCompiler::operandFor` and the spill moves of
`run` read it: the general register, else the XMM register, else the stack slot. -/
def storageOf (stack : StackAllocator) (i : Interval) : Except Err RegMemOp :=
  if i._reg ≠ NONE then Except.ok (RegMemOp.reg i._reg)
  else if i._xmm ≠ XMMNONE then Except.ok (RegMemOp.xmm i._xmm)
  else match i.stack with
    | none => Except.error Err.undefined
    | some slot =>
      match stack.getAddressing slot with
      | Except.ok m => Except.ok (RegMemOp.mem m)
      | Except.error e => Except.error e

/-- The function `MachineCompiler::operandFor(u16 instructionId, lir::vr vr)`. -/
def operandFor (intervals : List Interval) (stack : StackAllocator) (instructionId vr : Nat) :
    Except Err RegMemOp :=
  match intervalFor intervals instructionId vr with
  | Except.ok i => storageOf stack i
  | Except.error e => Except.error e

/-! ## LifetimeAnalyzer.hpp: the operations of `Interval` -/

/-- A signed value converted to `u16`. -/
def toU16 (x : Int) : Nat := (x % 65536).toNat

/-- A default-constructed `Interval`: `stack` is indeterminate in C++ and `none` here;
`vr` and the id of `definingPhi` are indeterminate in C++ and fixed here. -/
def Interval.fresh : Interval :=
  { lifespans := [], vr := 0, type := ⟨false, 0⟩, _reg := NONE, _xmm := XMMNONE,
    stack := none, argument := false, phi := false,
    definingPhi := ⟨Operation.NOP, 0, Payload.none⟩, hasFollower := false, isFixed := false,
    usages := [] }

/-- The loop of `Interval::split(u16 at)`: the ranges that stay and the ranges that
move to the new interval. -/
def splitLoop (pos : Int) : List Lifespan → List Lifespan × List Lifespan
  | [] => ([], [])
  | it :: rest =>
    if it.from_ = pos then ([], it :: rest)
    else if it.from_ < pos ∧ it.to_ ≥ pos then
      ([⟨it.from_, pos - 1⟩], ⟨pos, it.to_⟩ :: rest)
    else
      let r := splitLoop pos rest
      (it :: r.1, r.2)

/-- The function `Interval::split(u16 at)`: the interval as it is left in place and the
returned successor. -/
def Interval.split (i : Interval) (pos : Nat) : Except Err (Interval × Interval) :=
  let r := splitLoop (pos : Int) i.lifespans
  if r.1 = [] ∨ r.2 = [] then Except.error Err.invalidSplit
  else Except.ok
    ({ i with lifespans := r.1, hasFollower := true },
     { Interval.fresh with vr := i.vr, hasFollower := i.hasFollower, usages := i.usages,
                           type := i.type, lifespans := r.2 })

/-- The loop of `Interval::intersectsWith` and `Interval::intersect`: the first pair of
overlapping ranges. `fuel` bounds the iterations; an iteration that advances neither
iterator repeats for ever. -/
def intersectLoop : Nat → List Lifespan → List Lifespan → Except Err (Option (Lifespan × Lifespan))
  | _, [], _ => Except.ok none
  | _, _ :: _, [] => Except.ok none
  | 0, _ :: _, _ :: _ => Except.error Err.nonTermination
  | fuel + 1, that :: ts, those :: os =>
    if that.to_ < those.from_ then intersectLoop fuel ts (those :: os)
    else if those.to_ < that.from_ then intersectLoop fuel (that :: ts) os
    else if those.from_ ≤ that.to_ ∧ that.from_ ≤ those.to_ then Except.ok (some (that, those))
    else intersectLoop fuel (that :: ts) (those :: os)

/-- The function `Interval::intersectsWith`. -/
def Interval.intersectsWith (i other : Interval) : Except Err Bool :=
  match intersectLoop (i.lifespans.length + other.lifespans.length) i.lifespans
      other.lifespans with
  | Except.ok r => Except.ok r.isSome
  | Except.error e => Except.error e

/-- The function `Interval::intersect`: the start of the first overlap, as `u16`. -/
def Interval.intersect (i other : Interval) : Except Err Nat :=
  match intersectLoop (i.lifespans.length + other.lifespans.length) i.lifespans
      other.lifespans with
  | Except.ok (some (that, those)) =>
    if that.from_ ≤ those.from_ then Except.ok (toU16 those.from_)
    else Except.ok (toU16 that.from_)
  | Except.ok none => Except.error Err.invalidResult
  | Except.error e => Except.error e

/-- The function `Interval::hasUsage()`. -/
def Interval.hasUsage (i : Interval) : Except Err Bool :=
  match i.start with
  | Except.ok s => Except.ok (i.usages.any (fun pair => decide (pair.1 ≥ s)))
  | Except.error e => Except.error e

/-- The function `Interval::firstUsage()`. -/
def Interval.firstUsage (i : Interval) : Except Err Nat :=
  match i.start with
  | Except.ok s =>
    match i.usages.find? (fun pair => decide (pair.1 ≥ s)) with
    | some pair => Except.ok (toU16 pair.1)
    | none => Except.error Err.invalidResult
  | Except.error e => Except.error e

/-- The function `Interval::firstRegisterUsage()`. -/
def Interval.firstRegisterUsage (i : Interval) : Except Err Nat :=
  match i.start with
  | Except.ok s =>
    match i.usages.find? (fun pair => decide (pair.1 ≥ s) && pair.2.mustHaveReg) with
    | some pair => Except.ok (toU16 pair.1)
    | none => Except.error Err.invalidResult
  | Except.error e => Except.error e

/-- The function `Interval::hasRegisterUsage()`. -/
def Interval.hasRegisterUsage (i : Interval) : Except Err Bool :=
  match i.start, i.end_ with
  | Except.ok s, Except.ok e =>
    Except.ok (i.usages.any (fun pair =>
      decide (pair.1 ≥ s) && decide (pair.1 ≤ e) && pair.2.mustHaveReg))
  | Except.error e, _ => Except.error e
  | _, Except.error e => Except.error e

/-- The function `Interval::endOfHole(u16 startSearchAt)`. -/
def Interval.endOfHole (i : Interval) (startSearchAt : Nat) : Except Err Nat :=
  match i.lifespans.find? (fun span => decide (span.from_ ≥ (startSearchAt : Int))) with
  | some span => Except.ok (toU16 span.from_)
  | none => Except.error Err.invalidResult

/-- The function `bytecode::Type::isFloatingPoint()`. -/
def BType.isFloatingPoint (t : BType) : Bool :=
  !t.isArray && (decide (t.baseType = 7) || decide (t.baseType = 8))

/-- The function `bytecode::Type::isInteger()`. -/
def BType.isInteger (t : BType) : Bool := decide (t.baseType ≤ 6) || decide (t.baseType ≥ 9)

/-- The function `Interval::hasRegister()`. -/
def Interval.hasRegister (i : Interval) : Bool :=
  (i.type.isInteger && decide (i._reg ≠ NONE)) ||
  (i.type.isFloatingPoint && decide (i._xmm ≠ XMMNONE))

/-- The template `Interval::reg<RegType>()`: `_reg` for `RegOp`, `_xmm` for `XMMOp`. -/
def Interval.regOf (xmm : Bool) (i : Interval) : Nat := if xmm then i._xmm else i._reg

/-- The overloads `Interval::reg(RegOp)` and `Interval::reg(XMMOp)`. -/
def Interval.setReg (xmm : Bool) (i : Interval) (r : Nat) : Interval :=
  if xmm then { i with _xmm := r } else { i with _reg := r }

/-- The operator `Interval::operator<`. -/
def Interval.lt (a other : Interval) : Except Err Bool :=
  match a.start, other.start with
  | Except.ok s, Except.ok o =>
    if s < o then Except.ok true
    else if s = o ∧ a.argument = true ∧ other.argument = false then Except.ok true
    else if s = o ∧ a.argument = true ∧ other.argument = true then
      Except.ok (decide (a.vr < other.vr))
    else if s = o ∧ a.argument = false ∧ other.argument = false ∧ a.isFixed = true
        ∧ other.isFixed = false then Except.ok true
    else if s = o ∧ a.argument = other.argument ∧ a.isFixed = other.isFixed then
      match a.hasUsage, other.hasUsage with
      | Except.ok ha, Except.ok ho =>
        if ha = false ∧ ho = true then Except.ok true
        else if ha = true ∧ ho = true then
          match a.firstUsage, other.firstUsage with
          | Except.ok fa, Except.ok fo => Except.ok (decide (fa < fo))
          | Except.error e, _ => Except.error e
          | _, Except.error e => Except.error e
        else Except.ok false
      | Except.error e, _ => Except.error e
      | _, Except.error e => Except.error e
    else Except.ok false
  | Except.error e, _ => Except.error e
  | _, Except.error e => Except.error e

/-! ## StackAllocator: reservations -/

/-- The function `StackAllocator::reserveArgument(u16 index)`. -/
def StackAllocator.reserveArgument (a : StackAllocator) (index : Nat) :
    Except Err (StackSlot × StackAllocator) :=
  if a.frozen then Except.error Err.stackModification
  else Except.ok (⟨StackType.ARGUMENT, OperandSize.QWORD, (index * 8) % 65536⟩,
    { a with bytesArguments := (a.bytesArguments + 8) % 65536 })

/-- The function `StackAllocator::reserveScratch(OperandSize size)`. -/
def StackAllocator.reserveScratch (a : StackAllocator) :
    Except Err (StackSlot × StackAllocator) :=
  if a.frozen then Except.error Err.stackModification
  else Except.ok (⟨StackType.SCRATCH, OperandSize.QWORD, a.bytesScratch⟩,
    { a with bytesScratch := (a.bytesScratch + 8) % 65536 })

/-- The function `StackAllocator::freeze()`. -/
def StackAllocator.freeze (a : StackAllocator) : StackAllocator :=
  let intermediateSize := (a.bytesScratch + a.bytesArguments) % 65536
  let padding :=
    if intermediateSize % 16 = 8 then 0
    else if intermediateSize % 16 < 8 then 8 - intermediateSize % 16
    else 16 - (intermediateSize % 16 - 8)
  { a with frozen := true, padding := padding }

/-! ## RegisterAllocator.cpp: linear scan -/

/-- The struct `StackSpillMovOp`. -/
structure StackSpillMovOp where
  source : RegMemOp
  target : StackSlot
  size : OperandSize
  deriving DecidableEq, Repr

/-- The `Architecture` template parameter of `RegisterAllocation`. -/
structure Arch where
  registers : List Nat
  registersXmm : List Nat
  parameters : List Nat
  parametersFloat : List Nat
  calleeSaved : List Nat
  deriving Repr

/-- The class `AMD64`. -/
def AMD64 : Arch :=
  { registers := [RAX, RCX, RDX, RBX, RSI, RDI, R8, R9, R10, R11, R12, R13, R14, R15],
    registersXmm := [0, 1, 2, 3, 4, 5],
    parameters := [RDI, RSI, RDX, RCX, R8, R9],
    parametersFloat := [0, 1, 2, 3, 4, 5, 6, 7],
    calleeSaved := [RBX, R12, R13, R14, R15] }

/-- What `RegisterAllocation` is constructed from, besides the intervals: the number of
parameters of `function`, `usages`, `fixedToVR`, `fixedXMMToVR`, `overflowArgToVR`,
`vrTypes` and `hintSame` (maps and sets as sorted lists), the architecture, and `pick`:
the element that `std::priority_queue::top` yields for the queue content together with
the content that `pop` leaves. The standard leaves open which of several equivalent
elements is on top, so the queue order is a parameter of the embedding. -/
structure AllocEnv where
  arch : Arch
  nParams : Nat
  usages : List (Nat × List (Int × Usage))
  fixedToVR : List (Nat × Nat)
  fixedXMMToVR : List (Nat × Nat)
  overflowArgToVR : List (Nat × Nat)
  vrTypes : List (Nat × BType)
  hintSame : List (List Nat)
  pick : List Interval → Option (Interval × List Interval)

/-- The members of `RegisterAllocation` that change during the scan; `unhandled` is the
content of the priority queue. -/
structure AllocState where
  unhandled : List Interval
  active : List Interval
  inactive : List Interval
  fixed : List Interval
  handled : List Interval
  usedRegisters : List Nat
  stackAllocator : StackAllocator
  fixedToInterval : List (Nat × Interval)
  fixedXMMToInterval : List (Nat × Interval)
  stackFrameSpills : List StackSpillMovOp
  deriving Repr

/-- The local `current` of the scan together with the state. -/
structure Work where
  current : Interval
  st : AllocState
  deriving Repr

/-- The call `map::at(key)`. -/
def omAt {V : Type} (m : List (Nat × V)) (k : Nat) : Except Err V :=
  match omFind natLt k m with
  | some v => Except.ok v
  | none => Except.error Err.outOfRange

/-- The statement `map[key] = value`. -/
def omAssign {V : Type} (k : Nat) (v : V) (m : List (Nat × V)) : List (Nat × V) :=
  omAdjust natLt k (fun _ => v)
    (if (omFind natLt k m).isNone then omInsert natLt k v m else m)

/-- The function `mapAssign`: assigns iff the map contains the key. -/
def mapAssign {V : Type} (m : List (Nat × V)) (k : Nat) (v : V) : List (Nat × V) :=
  omAdjust natLt k (fun _ => v) m

/-- The call `std::max_element` on (key, value) pairs compared by value: the first
greatest element. -/
def maxElement : List (Nat × Int) → Option (Nat × Int)
  | [] => none
  | p :: rest =>
    match maxElement rest with
    | none => some p
    | some q => if p.2 < q.2 then some q else some p

/-- The first loop of `linearScan` for one interval: `usages`, and the fixed registers
and argument slots. -/
def initInterval (env : AllocEnv) (acc : List Interval × List Interval × StackAllocator)
    (i0 : Interval) : Except Err (List Interval × List Interval × StackAllocator) :=
  match omAt env.usages i0.vr with
  | Except.error e => Except.error e
  | Except.ok u =>
    let i1 : Interval := { i0 with usages := u }
    let r1 := env.fixedToVR.foldl (fun (r : Interval × List Interval) pair =>
      if r.1.vr = pair.2 then
        let i : Interval := { r.1 with isFixed := true, _reg := pair.1 }
        (i, r.2 ++ [i])
      else r) (i1, acc.2.1)
    let r2 := env.fixedXMMToVR.foldl (fun (r : Interval × List Interval) pair =>
      if r.1.vr = pair.2 then
        let i : Interval := { r.1 with isFixed := true, _xmm := pair.1 }
        (i, r.2 ++ [i])
      else r) r1
    match loopE (fun (r : Interval × List Interval × StackAllocator) (pair : Nat × Nat) =>
        if r.1.vr = pair.2 then
          match r.2.2.reserveArgument pair.1 with
          | Except.error e => Except.error e
          | Except.ok (slot, sa) =>
            let i : Interval := { r.1 with isFixed := true, _reg := NONE, stack := some slot }
            Except.ok (i, r.2.1 ++ [i], sa)
        else Except.ok r) (r2.1, r2.2, acc.2.2) env.overflowArgToVR with
    | Except.error e => Except.error e
    | Except.ok r3 => Except.ok (acc.1 ++ [r3.1], r3.2.1, r3.2.2)

/-- The state of the parameter loop of `linearScan`: the state, the two parameter
iterators (as the registers not yet handed out) and `overflowIndex`. -/
structure PreludeState where
  st : AllocState
  params : List Nat
  floatParams : List Nat
  overflowIndex : Nat
  deriving Repr

/-- One iteration of `for(u16 i = 0; i != function.parameters.size(); ++i)`. -/
def preludeStep (env : AllocEnv) (ps : PreludeState) : Except Err PreludeState :=
  match env.pick ps.st.unhandled with
  | none => Except.error Err.undefined
  | some (current, rest) =>
    let st1 : AllocState := { ps.st with unhandled := rest }
    if current.lifespans = [] then Except.ok { ps with st := st1 }
    else
      match omAt env.vrTypes current.vr with
      | Except.error e => Except.error e
      | Except.ok ty =>
        if ty.isFloatingPoint ∧ ps.floatParams ≠ [] then
          Except.ok { ps with
            st := { st1 with active := st1.active ++
              [{ current with _xmm := ps.floatParams.headD 0 }] },
            floatParams := ps.floatParams.tail }
        else if ty.isInteger ∧ ps.params ≠ [] then
          Except.ok { ps with
            st := { st1 with active := st1.active ++
              [{ current with _reg := ps.params.headD 0 }] },
            params := ps.params.tail }
        else
          let c1 : Interval :=
            { current with
              stack := some ⟨StackType.PARAMETER, OperandSize.QWORD, ps.overflowIndex⟩ }
          let ov := (ps.overflowIndex + 8) % 65536
          match c1.hasRegisterUsage with
          | Except.error e => Except.error e
          | Except.ok true =>
            match c1.firstRegisterUsage with
            | Except.error e => Except.error e
            | Except.ok pos =>
              match c1.split pos with
              | Except.error e => Except.error e
              | Except.ok (c2, tailOfCurrent) =>
                Except.ok { ps with
                  st := { st1 with unhandled := tailOfCurrent :: st1.unhandled,
                                   active := st1.active ++ [c2] },
                  overflowIndex := ov }
          | Except.ok false =>
            Except.ok { ps with st := { st1 with active := st1.active ++ [c1] },
                                overflowIndex := ov }

/-- The loop `for each interval it in active` of the scan: the intervals that stay,
those that move to `handled` and those that move to `inactive`. -/
def migrateActive (position : Int) :
    List Interval → Except Err (List Interval × List Interval × List Interval)
  | [] => Except.ok ([], [], [])
  | interval :: rest =>
    match interval.end_, migrateActive position rest with
    | Except.ok e, Except.ok r =>
      if e < position then Except.ok (r.1, interval :: r.2.1, r.2.2)
      else if !covers interval.lifespans (toU16 position) then
        Except.ok (r.1, r.2.1, interval :: r.2.2)
      else Except.ok (interval :: r.1, r.2.1, r.2.2)
    | Except.error e, _ => Except.error e
    | _, Except.error e => Except.error e

/-- The loop `for each interval it in inactive` of the scan: the intervals that stay,
those that move to `handled` and those that move to `active`. -/
def migrateInactive (position : Int) :
    List Interval → Except Err (List Interval × List Interval × List Interval)
  | [] => Except.ok ([], [], [])
  | interval :: rest =>
    match interval.end_, migrateInactive position rest with
    | Except.ok e, Except.ok r =>
      if e < position then Except.ok (r.1, interval :: r.2.1, r.2.2)
      else if covers interval.lifespans (toU16 position) then
        Except.ok (r.1, r.2.1, interval :: r.2.2)
      else Except.ok (interval :: r.1, r.2.1, r.2.2)
    | Except.error e, _ => Except.error e
    | _, Except.error e => Except.error e

/-- The two migration loops at the start of an iteration of the scan. -/
def migrate (position : Int) (st : AllocState) : Except Err AllocState :=
  match migrateActive position st.active with
  | Except.error e => Except.error e
  | Except.ok a =>
    match migrateInactive position (st.inactive ++ a.2.2) with
    | Except.error e => Except.error e
    | Except.ok b =>
      Except.ok { st with active := a.1 ++ b.2.2, inactive := b.1,
                          handled := st.handled ++ a.2.1 ++ b.2.1 }

/-- The loop over `inactive` in `handleIntervalBeingPushedOffRegister`: every interval
that is not fixed and sits on `reg` is split at the end of its lifetime hole; the result
is the rewritten list and the tails, in the order they are pushed. -/
def splitInactive (xmm : Bool) (reg : Nat) (start : Int) :
    List Interval → Except Err (List Interval × List Interval)
  | [] => Except.ok ([], [])
  | it :: rest =>
    if !it.isFixed ∧ it.regOf xmm = reg then
      match it.endOfHole (toU16 start) with
      | Except.error e => Except.error e
      | Except.ok endOfHole =>
        match it.split endOfHole with
        | Except.error e => Except.error e
        | Except.ok (it1, tailOfInactiveInterval) =>
          match splitInactive xmm reg start rest with
          | Except.error e => Except.error e
          | Except.ok r => Except.ok (it1 :: r.1, tailOfInactiveInterval :: r.2)
    else
      match splitInactive xmm reg start rest with
      | Except.error e => Except.error e
      | Except.ok r => Except.ok (it :: r.1, r.2)

/-- The first interval of `active` on `reg` is split at `pos`: the rewritten list and
the tail; `none` when no interval of `active` is on `reg`. -/
def splitOnReg (xmm : Bool) (reg : Nat) (pos : Nat) :
    List Interval → Except Err (Option (List Interval × Interval))
  | [] => Except.ok none
  | a :: rest =>
    if a.regOf xmm = reg then
      match a.split pos with
      | Except.error e => Except.error e
      | Except.ok (a1, tailOfOnReg) => Except.ok (some (a1 :: rest, tailOfOnReg))
    else
      match splitOnReg xmm reg pos rest with
      | Except.error e => Except.error e
      | Except.ok none => Except.ok none
      | Except.ok (some r) => Except.ok (some (a :: r.1, r.2))

/-- The function `handleIntervalBeingPushedOffRegister<RegType>(current, unhandled, reg)`. -/
def handleIntervalBeingPushedOffRegister (xmm : Bool) (reg : Nat) (w : Work) : Except Err Work :=
  if !w.st.active.any (fun a => decide (a.regOf xmm = reg)) then Except.ok w
  else
    match w.current.start with
    | Except.error e => Except.error e
    | Except.ok start =>
      match splitOnReg xmm reg (toU16 start) w.st.active with
      | Except.error e => Except.error e
      | Except.ok none => Except.ok w
      | Except.ok (some (active1, tailOfOnReg)) =>
        match splitInactive xmm reg start w.st.inactive with
        | Except.error e => Except.error e
        | Except.ok (inactive1, tails) =>
          Except.ok { w with st := { w.st with
            active := active1, inactive := inactive1,
            unhandled := tails.reverse ++ tailOfOnReg :: w.st.unhandled } }

/-- The two loops over `inactive` and `fixed` of `tryAllocateFreeRegister`. -/
def limitFreeUntil (xmm : Bool) (current : Interval) (freeUntilPos : List (Nat × Nat))
    (others : List Interval) : Except Err (List (Nat × Nat)) :=
  loopE (fun m it =>
    match it.intersectsWith current with
    | Except.error e => Except.error e
    | Except.ok false => Except.ok m
    | Except.ok true =>
      match omFind natLt (it.regOf xmm) m with
      | none => Except.ok m
      | some old =>
        match it.intersect current with
        | Except.error e => Except.error e
        | Except.ok p => Except.ok (mapAssign m (it.regOf xmm) (min p old))) freeUntilPos others

/-- The registers that `chooseFreeRegister` collects from the hints: for every set of
`hintSame` that contains `current.vr`, the registers of the handled intervals of the
set that have a register. -/
def registersFromHints (env : AllocEnv) (xmm : Bool) (current : Interval)
    (handled : List Interval) : List Nat :=
  env.hintSame.foldl (fun acc sameSet =>
    if current.vr ∈ sameSet then
      sameSet.foldl (fun acc1 x1 =>
        handled.foldl (fun acc2 interval =>
          if interval.vr = x1 ∧ interval.hasRegister then
            osInsert natLt (interval.regOf xmm) acc2
          else acc2) acc1) acc
    else acc) []

/-- The call `std::max_element` on registers compared by `freeUntilPos.at(reg)`. -/
def maxByFreeUntil (freeUntilPos : List (Nat × Nat)) : List Nat → Except Err (Option Nat)
  | [] => Except.ok none
  | r :: rest =>
    match maxByFreeUntil freeUntilPos rest with
    | Except.error e => Except.error e
    | Except.ok none => Except.ok (some r)
    | Except.ok (some q) =>
      match omAt freeUntilPos r, omAt freeUntilPos q with
      | Except.ok vr, Except.ok vq => if vr < vq then Except.ok (some q) else Except.ok (some r)
      | Except.error e, _ => Except.error e
      | _, Except.error e => Except.error e

/-- The function `chooseFreeRegister`. -/
def chooseFreeRegister (env : AllocEnv) (xmm : Bool) (current : Interval)
    (handled : List Interval) (freeUntilPos : List (Nat × Nat)) : Except Err Nat :=
  let fallback : Except Err Nat :=
    match maxElement (freeUntilPos.map (fun p => (p.1, (p.2 : Int)))) with
    | some p => Except.ok p.1
    | none => Except.error Err.undefined
  match registersFromHints env xmm current handled with
  | [] => fallback
  | r :: rest =>
    match maxByFreeUntil freeUntilPos (r :: rest) with
    | Except.error e => Except.error e
    | Except.ok none => fallback
    | Except.ok (some reg) =>
      match omAt freeUntilPos reg with
      | Except.error e => Except.error e
      | Except.ok v => if v ≠ 0 then Except.ok reg else fallback

/-- The register that `tryAllocateFreeRegister` chooses, with its `freeUntilPos`. -/
def freeRegisterChoice (env : AllocEnv) (xmm : Bool) (w : Work) : Except Err (Nat × Nat) :=
  let registers := if xmm then env.arch.registersXmm else env.arch.registers
  let f0 : List (Nat × Nat) := registers.foldl (fun m reg => omAssign reg 65535 m) []
  let f1 := w.st.active.foldl (fun m it => mapAssign m (it.regOf xmm) 0) f0
  match limitFreeUntil xmm w.current f1 w.st.inactive with
  | Except.error e => Except.error e
  | Except.ok f2 =>
    match limitFreeUntil xmm w.current f2 w.st.fixed with
    | Except.error e => Except.error e
    | Except.ok f3 =>
      match chooseFreeRegister env xmm w.current w.st.handled f3 with
      | Except.error e => Except.error e
      | Except.ok reg => Except.ok (reg, (omFind natLt reg f3).getD 0)

/-- The function `tryAllocateFreeRegister<RegType>(current, unhandled)`. -/
def tryAllocateFreeRegister (env : AllocEnv) (xmm : Bool) (w : Work) :
    Except Err (Bool × Work) :=
  match freeRegisterChoice env xmm w with
  | Except.error e => Except.error e
  | Except.ok (reg, freeUntil) =>
    if freeUntil = 0 then Except.ok (false, w)
    else
      match w.current.end_ with
      | Except.error e => Except.error e
      | Except.ok e =>
        if e < (freeUntil : Int) then
          Except.ok (true, { w with current := w.current.setReg xmm reg })
        else
          match (w.current.setReg xmm reg).split freeUntil with
          | Except.error e1 => Except.error e1
          | Except.ok (c1, tail) =>
            Except.ok (true, { current := c1,
                               st := { w.st with unhandled := tail :: w.st.unhandled } })

/-- The value that `allocateBlockedRegister` assigns for an interval `it`: the first
use of `it.vr` at or after the start of `current` (the dereferenced result of
`std::find_if`). -/
def nextUseOf (env : AllocEnv) (start : Int) (it : Interval) : Except Err Int :=
  match omAt env.usages it.vr with
  | Except.error e => Except.error e
  | Except.ok u =>
    match u.find? (fun use => decide (use.1 ≥ start)) with
    | some use => Except.ok use.1
    | none => Except.error Err.undefined

/-- The register that `allocateBlockedRegister` chooses, with its `nextUsePos`. -/
def blockedRegisterChoice (env : AllocEnv) (xmm : Bool) (w : Work) : Except Err (Nat × Int) :=
  let registers := if xmm then env.arch.registersXmm else env.arch.registers
  let n0 : List (Nat × Int) := registers.foldl (fun m reg => omAssign reg 65535 m) []
  match loopE (fun (m : List (Nat × Int)) (it : Interval) =>
      if it.isFixed then Except.ok (omErase natLt (it.regOf xmm) m)
      else
        match w.current.start with
        | Except.error e => Except.error e
        | Except.ok start =>
          match nextUseOf env start it with
          | Except.error e => Except.error e
          | Except.ok v => Except.ok (mapAssign m (it.regOf xmm) v)) n0 w.st.active with
  | Except.error e => Except.error e
  | Except.ok n1 =>
    match loopE (fun (m : List (Nat × Int)) (it : Interval) =>
        match it.intersectsWith w.current with
        | Except.error e => Except.error e
        | Except.ok false => Except.ok m
        | Except.ok true =>
          if it.isFixed then Except.ok (omErase natLt (it.regOf xmm) m)
          else
            match w.current.start with
            | Except.error e => Except.error e
            | Except.ok start =>
              match nextUseOf env start it with
              | Except.error e => Except.error e
              | Except.ok v => Except.ok (mapAssign m (it.regOf xmm) v)) n1 w.st.inactive with
    | Except.error e => Except.error e
    | Except.ok n2 =>
      match loopE (fun (m : List (Nat × Int)) (it : Interval) =>
          match it.intersectsWith w.current with
          | Except.error e => Except.error e
          | Except.ok false => Except.ok m
          | Except.ok true => Except.ok (omErase natLt (it.regOf xmm) m)) n2 w.st.fixed with
      | Except.error e => Except.error e
      | Except.ok n3 =>
        match maxElement n3 with
        | none => Except.error Err.undefined
        | some p => Except.ok (p.1, p.2)

/-- The stack slot of a spilled `current`: the slot of a handled predecessor part that
is on the stack, else a new scratch slot (the cast `(u8) f._reg` is the identity on the
`u8` enum `RegOp`). -/
def spillSlot (w : Work) (startsAt : Int) :
    Except Err (Option StackSlot × StackAllocator) :=
  match loopE (fun (found : Option Interval) (f : Interval) =>
      match found with
      | some x => Except.ok (some x)
      | none =>
        if f.hasFollower ∧ f.vr = w.current.vr then
          match f.end_ with
          | Except.error e => Except.error e
          | Except.ok e =>
            if e + 1 = startsAt ∧ f._reg = NONE ∧ f._xmm = XMMNONE then Except.ok (some f)
            else Except.ok none
        else Except.ok none) none w.st.handled with
  | Except.error e => Except.error e
  | Except.ok (some predecessor) => Except.ok (predecessor.stack, w.st.stackAllocator)
  | Except.ok none =>
    match w.st.stackAllocator.reserveScratch with
    | Except.error e => Except.error e
    | Except.ok (slot, sa) => Except.ok (some slot, sa)

/-- The side effect of reading `map[key]`: a default-constructed interval is inserted
when the key is absent. -/
def touch (k : Nat) (m : List (Nat × Interval)) : List (Nat × Interval) :=
  if (omFind natLt k m).isNone then omInsert natLt k Interval.fresh m else m

/-- The end of `allocateBlockedRegister`: `current` is split where it meets the fixed
interval of its register. -/
def splitAtFixed (w : Work) : Except Err Work :=
  let fixedReg := (omFind natLt w.current._reg w.st.fixedToInterval).getD Interval.fresh
  let m1 := touch w.current._reg w.st.fixedToInterval
  match w.current.intersectsWith fixedReg with
  | Except.error e => Except.error e
  | Except.ok true =>
    match w.current.intersect fixedReg with
    | Except.error e => Except.error e
    | Except.ok pos =>
      match w.current.split pos with
      | Except.error e => Except.error e
      | Except.ok (c1, tailOfCurrent) =>
        Except.ok { current := c1,
                    st := { w.st with fixedToInterval := m1,
                                      unhandled := tailOfCurrent :: w.st.unhandled } }
  | Except.ok false =>
    let fixedXmm := (omFind natLt w.current._xmm w.st.fixedXMMToInterval).getD Interval.fresh
    let m2 := touch w.current._xmm w.st.fixedXMMToInterval
    match w.current.intersectsWith fixedXmm with
    | Except.error e => Except.error e
    | Except.ok true =>
      match w.current.intersect fixedXmm with
      | Except.error e => Except.error e
      | Except.ok pos =>
        match w.current.split pos with
        | Except.error e => Except.error e
        | Except.ok (c1, tailOfCurrent) =>
          Except.ok { current := c1,
                      st := { w.st with fixedToInterval := m1, fixedXMMToInterval := m2,
                                        unhandled := tailOfCurrent :: w.st.unhandled } }
    | Except.ok false =>
      Except.ok { current := w.current,
                  st := { w.st with fixedToInterval := m1, fixedXMMToInterval := m2 } }

/-- The spill branch of `allocateBlockedRegister`: `current` goes to the stack and is
split before its first use that needs a register. -/
def spillCurrent (w : Work) : Except Err Work :=
  match w.current.start with
  | Except.error e => Except.error e
  | Except.ok startsAt =>
    match spillSlot w startsAt with
    | Except.error e => Except.error e
    | Except.ok (slot, sa) =>
      let c1 : Interval := { w.current with stack := slot }
      let st1 : AllocState := { w.st with stackAllocator := sa }
      match c1.hasRegisterUsage with
      | Except.error e => Except.error e
      | Except.ok false => Except.ok { current := c1, st := st1 }
      | Except.ok true =>
        match c1.firstRegisterUsage with
        | Except.error e => Except.error e
        | Except.ok pos =>
          match c1.split pos with
          | Except.error e => Except.error e
          | Except.ok (c2, tailOfCurrent) =>
            Except.ok { current := c2,
                        st := { st1 with unhandled := tailOfCurrent :: st1.unhandled } }

/-- The function `allocateBlockedRegister<RegType>(current, unhandled)`. -/
def allocateBlockedRegister (env : AllocEnv) (xmm : Bool) (w : Work) : Except Err Work :=
  match blockedRegisterChoice env xmm w with
  | Except.error e => Except.error e
  | Except.ok (reg, nextUse) =>
    let spill : Except Err Bool :=
      match w.current.hasUsage with
      | Except.error e => Except.error e
      | Except.ok false => Except.ok true
      | Except.ok true =>
        match w.current.firstUsage with
        | Except.error e => Except.error e
        | Except.ok fu => Except.ok (decide ((fu : Int) > nextUse))
    match spill with
    | Except.error e => Except.error e
    | Except.ok true =>
      match spillCurrent w with
      | Except.error e => Except.error e
      | Except.ok w1 => splitAtFixed w1
    | Except.ok false =>
      match handleIntervalBeingPushedOffRegister xmm reg
          { w with current := w.current.setReg xmm reg } with
      | Except.error e => Except.error e
      | Except.ok w1 => splitAtFixed w1

/-- The branch `if(current.isFixed)` of the scan for one register class: every pair of
`fixedToVR` (or `fixedXMMToVR`) that names the register of `current.vr`. -/
def fixedBranch (xmm : Bool) (fixedMap : List (Nat × Nat)) (w : Work) : Except Err Work :=
  loopE (fun (w0 : Work) (pair : Nat × Nat) =>
    if w0.current.vr = pair.2 then
      let c1 : Interval := ({ w0.current with isFixed := true }).setReg xmm pair.1
      let st1 : AllocState :=
        if xmm then { w0.st with fixedXMMToInterval := omAssign pair.1 c1 w0.st.fixedXMMToInterval }
        else { w0.st with fixedToInterval := omAssign pair.1 c1 w0.st.fixedToInterval }
      handleIntervalBeingPushedOffRegister xmm pair.1 { current := c1, st := st1 }
    else Except.ok w0) w fixedMap

/-- The branch `else` of `if(current.isFixed)`: `tryAllocateFreeRegister`, and
`allocateBlockedRegister` when that fails. -/
def volatileBranch (env : AllocEnv) (ty : BType) (w : Work) : Except Err Work :=
  match tryAllocateFreeRegister env (!ty.isInteger) w with
  | Except.error e => Except.error e
  | Except.ok (true, w1) => Except.ok w1
  | Except.ok (false, w1) =>
    if ty.isInteger then allocateBlockedRegister env false w1
    else if ty.isFloatingPoint then allocateBlockedRegister env true w1
    else Except.ok w1

/-- The end of an iteration of the scan: `current` goes to `active` when it has a
register of its class, else to `handled`. -/
def placeCurrent (ty : BType) (w : Work) : AllocState :=
  if ty.isInteger ∧ w.current._reg ≠ NONE then
    { w.st with active := w.st.active ++ [w.current],
                usedRegisters := osInsert natLt w.current._reg w.st.usedRegisters }
  else if ty.isFloatingPoint ∧ w.current._xmm ≠ XMMNONE then
    { w.st with active := w.st.active ++ [w.current] }
  else
    { w.st with handled := w.st.handled ++ [w.current] }

/-- One iteration of `while(!unhandled.empty())`. -/
def scanStep (env : AllocEnv) (st : AllocState) : Except Err AllocState :=
  match env.pick st.unhandled with
  | none => Except.error Err.undefined
  | some (top, rest) =>
    match omAt env.vrTypes top.vr with
    | Except.error e => Except.error e
    | Except.ok ty =>
      let current : Interval := { top with type := ty }
      let st1 : AllocState := { st with unhandled := rest }
      if current.lifespans = [] then Except.ok st1
      else
        match current.start with
        | Except.error e => Except.error e
        | Except.ok position =>
          match migrate position st1 with
          | Except.error e => Except.error e
          | Except.ok st2 =>
            let w : Work := { current := current, st := st2 }
            let r : Except Err Work :=
              if current.isFixed then
                if ty.isInteger then fixedBranch false env.fixedToVR w
                else fixedBranch true env.fixedXMMToVR w
              else volatileBranch env ty w
            match r with
            | Except.error e => Except.error e
            | Except.ok w1 => Except.ok (placeCurrent ty w1)

/-- The loop `while(!unhandled.empty())`; `fuel` bounds the number of iterations. -/
def scanLoop (env : AllocEnv) : Nat → AllocState → Except Err AllocState
  | 0, st => if st.unhandled = [] then Except.ok st else Except.error Err.nonTermination
  | fuel + 1, st =>
    if st.unhandled = [] then Except.ok st
    else
      match scanStep env st with
      | Except.error e => Except.error e
      | Except.ok st1 => scanLoop env fuel st1

/-- The parameter loop of `linearScan`: `n` iterations. -/
def prelude (env : AllocEnv) : Nat → PreludeState → Except Err PreludeState
  | 0, ps => Except.ok ps
  | n + 1, ps =>
    match preludeStep env ps with
    | Except.error e => Except.error e
    | Except.ok ps1 => prelude env n ps1

/-- The end of `linearScan`: a scratch slot for every used callee-saved register. -/
def calleeSavedSpills (env : AllocEnv) (st : AllocState) : Except Err AllocState :=
  loopE (fun (s : AllocState) (reg : Nat) =>
    if reg ∈ env.arch.calleeSaved then
      match s.stackAllocator.reserveScratch with
      | Except.error e => Except.error e
      | Except.ok (stackSlot, sa) =>
        Except.ok { s with stackAllocator := sa,
                           stackFrameSpills := s.stackFrameSpills ++
                             [⟨RegMemOp.reg reg, stackSlot, OperandSize.QWORD⟩] }
    else Except.ok s) st st.usedRegisters

/-- The state of a freshly constructed `RegisterAllocation`. -/
def AllocState.init : AllocState :=
  { unhandled := [], active := [], inactive := [], fixed := [], handled := [],
    usedRegisters := [], stackAllocator := ⟨0, 0, 0, false⟩, fixedToInterval := [],
    fixedXMMToInterval := [], stackFrameSpills := [] }

/-- The function `RegisterAllocation::linearScan()` on the intervals `lifespans`. -/
def linearScan (env : AllocEnv) (fuel : Nat) (lifespans : List Interval) :
    Except Err AllocState :=
  match loopE (initInterval env) ([], [], AllocState.init.stackAllocator) lifespans with
  | Except.error e => Except.error e
  | Except.ok (lifespans1, fixed, sa) =>
    let st0 : AllocState :=
      { AllocState.init with unhandled := lifespans1, fixed := fixed, stackAllocator := sa }
    match prelude env env.nParams
        ⟨st0, env.arch.parameters, env.arch.parametersFloat, 0⟩ with
    | Except.error e => Except.error e
    | Except.ok ps =>
      match scanLoop env fuel ps.st with
      | Except.error e => Except.error e
      | Except.ok st1 =>
        calleeSavedSpills env
          { st1 with handled := st1.handled ++ st1.active ++ st1.inactive }

/-- The function `RegisterAllocation::run()`: the state with the result list `handled`
and the frozen stack allocator. -/
def RegisterAllocation.run (env : AllocEnv) (fuel : Nat) (lifespans : List Interval) :
    Except Err AllocState :=
  match linearScan env fuel lifespans with
  | Except.error e => Except.error e
  | Except.ok st => Except.ok { st with stackAllocator := st.stackAllocator.freeze }

/-- The top of the priority queue as a search for a least element: the first element
that no later element is `operator<`-smaller than, in the order of a left-to-right
scan. -/
def pickMin (l : List Interval) : Option (Interval × List Interval) :=
  match l with
  | [] => none
  | x :: rest =>
    let m := rest.foldl (fun best c =>
      match c.lt best with
      | Except.ok true => c
      | _ => best) x
    some (m, l.erase m)

/-! ## Instruction.hpp: `dst()`, `inputs()`, `clears()`

Reading a member of the union that was not constructed is undefined. -/

/-- The function `Instruction::dst()`. -/
def Instruction.dst (i : Instruction) : Except Err (List Nat) :=
  match i.operation with
  | Operation.MOV | Operation.FMOV | Operation.MOV_I2F =>
    match i.payload with
    | Payload.mov _ _ _ dst _ => Except.ok [dst]
    | _ => Except.error Err.undefined
  | Operation.PHI =>
    match i.payload with
    | Payload.phi p => Except.ok [p.dst]
    | _ => Except.error Err.undefined
  | Operation.CMP | Operation.TEST | Operation.JMP | Operation.JNZ | Operation.RET =>
    Except.ok []
  | Operation.SET =>
    match i.payload with
    | Payload.flag reg _ => Except.ok [reg]
    | _ => Except.error Err.undefined
  | Operation.MUL | Operation.CQO | Operation.SUB | Operation.ADD | Operation.FADD =>
    match i.payload with
    | Payload.binary dst _ => Except.ok [dst]
    | _ => Except.error Err.undefined
  | Operation.DIV =>
    match i.payload with
    | Payload.ternary dst _ _ => Except.ok dst
    | _ => Except.error Err.undefined
  | Operation.NEG | Operation.NOT =>
    match i.payload with
    | Payload.unary dst => Except.ok [dst]
    | _ => Except.error Err.undefined
  | Operation.CALL =>
    match i.payload with
    | Payload.call isVoid dst _ _ _ => Except.ok (if isVoid then [] else [dst])
    | _ => Except.error Err.undefined
  | Operation.ALLOC =>
    match i.payload with
    | Payload.alloc dst _ => Except.ok [dst]
    | _ => Except.error Err.undefined
  | Operation.MOV_MEM =>
    match i.payload with
    | Payload.memmov a _ _ _ _ _ _ toMem => Except.ok (if toMem then [] else [a])
    | _ => Except.error Err.undefined
  | Operation.CALL_IDX_IN_REG =>
    match i.payload with
    | Payload.reg_call isVoid dst _ _ _ => Except.ok (if isVoid then [] else [dst])
    | _ => Except.error Err.undefined
  | Operation.NOP => Except.error Err.invalidResult

/-- The function `Instruction::inputs()`. -/
def Instruction.inputs (i : Instruction) : Except Err (List Nat) :=
  match i.operation with
  | Operation.MOV | Operation.FMOV | Operation.MOV_I2F =>
    match i.payload with
    | Payload.mov isImm _ src _ _ => Except.ok (if isImm then [] else [src])
    | _ => Except.error Err.undefined
  | Operation.PHI =>
    match i.payload with
    | Payload.phi p => Except.ok (p.edges.map (fun edge => edge.vreg))
    | _ => Except.error Err.undefined
  | Operation.CMP =>
    match i.payload with
    | Payload.cmp l r => Except.ok [l, r]
    | _ => Except.error Err.undefined
  | Operation.TEST =>
    match i.payload with
    | Payload.flag reg _ => Except.ok [reg]
    | _ => Except.error Err.undefined
  | Operation.SET | Operation.JMP | Operation.JNZ | Operation.RET | Operation.ALLOC =>
    Except.ok []
  | Operation.NEG | Operation.NOT =>
    match i.payload with
    | Payload.unary dst => Except.ok [dst]
    | _ => Except.error Err.undefined
  | Operation.CQO =>
    match i.payload with
    | Payload.binary _ src => Except.ok [src]
    | _ => Except.error Err.undefined
  | Operation.DIV =>
    match i.payload with
    | Payload.ternary _ srcA srcB => Except.ok [srcA, srcB]
    | _ => Except.error Err.undefined
  | Operation.MUL | Operation.SUB | Operation.ADD | Operation.FADD =>
    match i.payload with
    | Payload.binary dst src => Except.ok [src, dst]
    | _ => Except.error Err.undefined
  | Operation.CALL =>
    match i.payload with
    | Payload.call _ _ args _ _ => Except.ok args
    | _ => Except.error Err.undefined
  | Operation.MOV_MEM =>
    match i.payload with
    | Payload.memmov a base _ isIndexed index _ _ toMem =>
      Except.ok ((if isIndexed then [index] else []) ++ [base] ++ (if toMem then [a] else []))
    | _ => Except.error Err.undefined
  | Operation.CALL_IDX_IN_REG =>
    match i.payload with
    | Payload.reg_call _ _ args _ _ => Except.ok args
    | _ => Except.error Err.undefined
  | Operation.NOP => Except.error Err.invalidResult

/-- The function `Instruction::clears()`; for `CALL_IDX_IN_REG` the source reads
`call.clears`, which lies where `reg_call.clears` lies. -/
def Instruction.clears (i : Instruction) : Except Err (List Nat) :=
  match i.operation with
  | Operation.CALL =>
    match i.payload with
    | Payload.call _ _ _ clears _ => Except.ok clears
    | _ => Except.error Err.undefined
  | Operation.CALL_IDX_IN_REG =>
    match i.payload with
    | Payload.reg_call _ _ _ clears _ => Except.ok clears
    | _ => Except.error Err.undefined
  | _ => Except.ok []

/-! ## LifetimeAnalyzer.cpp: `LifetimeAnalyzer::run` -/

/-- The member function `Interval::addRange`. -/
def Interval.addRange (i : Interval) (newSpan : Lifespan) : Except Err Interval :=
  match Cij.addRange i.lifespans newSpan with
  | some l => Except.ok { i with lifespans := l }
  | none => Except.error Err.invalidRangeOrder

/-- An update of `intervals[idx]`; an index out of range is undefined. -/
def updateAt (intervals : List Interval) (idx : Nat) (f : Interval → Except Err Interval) :
    Except Err (List Interval) :=
  match intervals[idx]? with
  | none => Except.error Err.undefined
  | some iv =>
    match f iv with
    | Except.error e => Except.error e
    | Except.ok iv1 => Except.ok (intervals.set idx iv1)

/-- The function `Block::isLoopHeader`. -/
def Block.isLoopHeader (b : Block) (blocks : List Block) : Bool :=
  (blocks.drop b.index).any (fun it => it.blockInfo.successors.contains b.index)

/-- The function `Block::getLoopEnd`. -/
def Block.getLoopEnd (b : Block) (blocks : List Block) : Nat :=
  (blocks.drop b.index).foldl (fun max it =>
    if it.blockInfo.successors.contains b.index then it.index else max) 0

/-- The set `live` at the end of block `b`: the `liveIn` of the successors and the phi
inputs that come from `b`. `liveIns` holds the member `liveIn` of every block, by
position. -/
def liveOut (blocks : List Block) (liveIns : List (List Nat)) (b : Block) :
    Except Err (List Nat) :=
  loopE (fun (live : List Nat) (blockIndex : Nat) =>
    match blocks[blockIndex]? with
    | none => Except.error Err.undefined
    | some successor =>
      let live1 := (liveIns.getD blockIndex []).foldl (fun s x => osInsert natLt x s) live
      loopE (fun (l : List Nat) (instruction : Instruction) =>
        if instruction.operation = Operation.PHI then
          match instruction.payload with
          | Payload.phi p =>
            match p.inputOf b.index with
            | Except.ok v => Except.ok (osInsert natLt v l)
            | Except.error e => Except.error e
          | _ => Except.error Err.undefined
        else Except.ok l) live1 successor.lirs) [] b.blockInfo.successors

/-- The body of the loop over the instructions of `b` (in reverse) for one instruction
that is not a phi. -/
def analyseInstruction (b : Block) (st : List Interval × List Nat) (instruction : Instruction) :
    Except Err (List Interval × List Nat) :=
  if instruction.operation = Operation.PHI then Except.ok st
  else
    match instruction.dst with
    | Except.error e => Except.error e
    | Except.ok output =>
      match loopE (fun (s : List Interval × List Nat) (dstIdx : Nat) =>
          match updateAt s.1 dstIdx (fun iv =>
              let r : Except Err Interval :=
                if iv.lifespans = [] then
                  match b.lirs.getLast? with
                  | none => Except.error Err.undefined
                  | some lastI => iv.addRange ⟨-1, lastI.id⟩
                else Except.ok iv
              match r with
              | Except.error e => Except.error e
              | Except.ok iv1 =>
                match iv1.lifespans with
                | [] => Except.error Err.undefined
                | front :: rest =>
                  Except.ok { iv1 with lifespans := { front with from_ := instruction.id } :: rest })
          with
          | Except.error e => Except.error e
          | Except.ok ivs => Except.ok (ivs, osErase natLt dstIdx s.2)) st output with
      | Except.error e => Except.error e
      | Except.ok st1 =>
        match instruction.inputs with
        | Except.error e => Except.error e
        | Except.ok inputOperands =>
          match loopE (fun (s : List Interval × List Nat) (operand : Nat) =>
              match b.fromLIR with
              | Except.error e => Except.error e
              | Except.ok fromLIR =>
                match updateAt s.1 operand (fun iv => iv.addRange ⟨fromLIR, instruction.id⟩) with
                | Except.error e => Except.error e
                | Except.ok ivs => Except.ok (ivs, osInsert natLt operand s.2)) st1 inputOperands with
          | Except.error e => Except.error e
          | Except.ok st2 =>
            match instruction.clears with
            | Except.error e => Except.error e
            | Except.ok clears =>
              loopE (fun (s : List Interval × List Nat) (clear : Nat) =>
                match updateAt s.1 clear
                    (fun iv => iv.addRange ⟨instruction.id, instruction.id⟩) with
                | Except.error e => Except.error e
                | Except.ok ivs => Except.ok (ivs, s.2)) st2 clears

/-- The body of the loop over the phi nodes of `b`. -/
def analysePhi (st : List Interval × List Nat) (instruction : Instruction) :
    Except Err (List Interval × List Nat) :=
  if instruction.operation ≠ Operation.PHI then Except.ok st
  else
    match instruction.payload with
    | Payload.phi p =>
      match updateAt st.1 p.dst
          (fun iv => Except.ok { iv with phi := true, definingPhi := instruction }) with
      | Except.error e => Except.error e
      | Except.ok ivs => Except.ok (ivs, osErase natLt p.dst st.2)
    | _ => Except.error Err.undefined

/-- The body of the loop over the blocks (in reverse) of `LifetimeAnalyzer::run`, for
the block at position `pos`. -/
def analyseBlock (blocks : List Block) (st : List Interval × List (List Nat))
    (pb : Nat × Block) : Except Err (List Interval × List (List Nat)) :=
  let b := pb.2
  match liveOut blocks st.2 b with
  | Except.error e => Except.error e
  | Except.ok live =>
    match loopE (fun (ivs : List Interval) (operand : Nat) =>
        match b.fromLIR, b.toLIR with
        | Except.ok f, Except.ok t => updateAt ivs operand (fun iv => iv.addRange ⟨f, t⟩)
        | Except.error e, _ => Except.error e
        | _, Except.error e => Except.error e) st.1 live with
    | Except.error e => Except.error e
    | Except.ok ivs1 =>
      match loopE (analyseInstruction b) (ivs1, live) b.lirs.reverse with
      | Except.error e => Except.error e
      | Except.ok st2 =>
        match loopE analysePhi st2 b.lirs.reverse with
        | Except.error e => Except.error e
        | Except.ok st3 =>
          let r : Except Err (List Interval) :=
            if b.isLoopHeader blocks then
              loopE (fun (ivs : List Interval) (operand : Nat) =>
                match b.fromLIR, blocks[b.getLoopEnd blocks]? with
                | Except.ok f, some loopEnd =>
                  match loopEnd.toLIR with
                  | Except.ok t => updateAt ivs operand (fun iv => iv.addRange ⟨f, t⟩)
                  | Except.error e => Except.error e
                | Except.error e, _ => Except.error e
                | _, none => Except.error Err.undefined) st3.1 st3.2
            else Except.ok st3.1
          match r with
          | Except.error e => Except.error e
          | Except.ok ivs4 => Except.ok (ivs4, st.2.set pb.1 st3.2)

/-- The function `LifetimeAnalyzer::run` for a function with `nParams` parameters whose
LIR has the blocks `blocks` and `lirCount` virtual registers. -/
def LifetimeAnalyzer.run (nParams : Nat) (blocks : List Block) (lirCount : Nat) :
    Except Err (List Interval) :=
  let intervals := (List.range lirCount).map (fun vrIndex => { Interval.fresh with vr := vrIndex })
  match loopE (analyseBlock blocks) (intervals, blocks.map (fun _ => [])) blocks.enum.reverse with
  | Except.error e => Except.error e
  | Except.ok st =>
    loopE (fun (ivs : List Interval) (i : Nat) =>
      updateAt ivs i (fun iv =>
        match iv.lifespans with
        | [] => Except.error Err.undefined
        | front :: rest =>
          Except.ok { iv with argument := true, lifespans := { front with from_ := -1 } :: rest }))
      st.1 (List.range nParams)

/-- The pipeline of `JitEngine::compile` from the LIR to the allocation: the intervals
of `LifetimeAnalyzer::run` are handed to `RegisterAllocation::run`. -/
def allocate (env : AllocEnv) (fuel : Nat) (blocks : List Block) (lirCount : Nat) :
    Except Err AllocState :=
  match LifetimeAnalyzer.run env.nParams blocks lirCount with
  | Except.error e => Except.error e
  | Except.ok liveIntervals => RegisterAllocation.run env fuel liveIntervals

/-! ## bytecode.hpp and bytecode.cpp: the loader

The stream is the list of the bytes that are still to be read; a read that needs more
bytes than there are raises `BytecodeLoaderException` (`checkForErrors`). -/

namespace Bytecode

/-- The enum `Opcode`. -/
inductive Opcode where
  | NOP | LOAD | STORE | LOAD_IDX | STORE_IDX | CONST | ADD | SUB | MUL | DIV | MOD | NEG
  | GT | GTE | EQ | NEQ | LTE | LT | AND | OR | NOT | NEW | GOTO | IF_GOTO | LENGTH | PHI
  | CALL | SPECIAL | CALL_VOID | SPECIAL_VOID | RET_VOID | RETURN | ALLOCATE | OBJ_LOAD
  | OBJ_STORE | GLOB_LOAD | GLOB_STORE | VOID_MEMBER_CALL | MEMBER_CALL
  deriving DecidableEq, Repr

/-- The value of an enumerator of `Opcode`. -/
def Opcode.value : Opcode → Nat
  | NOP => 0 | LOAD => 1 | STORE => 2 | LOAD_IDX => 129 | STORE_IDX => 130 | CONST => 3
  | ADD => 4 | SUB => 5 | MUL => 6 | DIV => 7 | MOD => 8 | NEG => 9
  | GT => 10 | GTE => 11 | EQ => 12 | NEQ => 13 | LTE => 14 | LT => 15
  | AND => 18 | OR => 19 | NOT => 20 | NEW => 21 | GOTO => 22 | IF_GOTO => 23
  | LENGTH => 25 | PHI => 26 | CALL => 28 | SPECIAL => 29 | CALL_VOID => 30
  | SPECIAL_VOID => 31 | RET_VOID => 32 | RETURN => 33 | ALLOCATE => 100 | OBJ_LOAD => 101
  | OBJ_STORE => 102 | GLOB_LOAD => 103 | GLOB_STORE => 104 | VOID_MEMBER_CALL => 105
  | MEMBER_CALL => 106

/-- All enumerators of `Opcode`, in the order of the declaration. -/
def Opcode.all : List Opcode :=
  [NOP, LOAD, STORE, LOAD_IDX, STORE_IDX, CONST, ADD, SUB, MUL, DIV, MOD, NEG,
   GT, GTE, EQ, NEQ, LTE, LT, AND, OR, NOT, NEW, GOTO, IF_GOTO, LENGTH, PHI,
   CALL, SPECIAL, CALL_VOID, SPECIAL_VOID, RET_VOID, RETURN, ALLOCATE, OBJ_LOAD,
   OBJ_STORE, GLOB_LOAD, GLOB_STORE, VOID_MEMBER_CALL, MEMBER_CALL]

/-- The conversion `static_cast<Opcode>(byte)`: the enumerator with that value; `none`
stands for a value of the enum that no enumerator names. -/
def Opcode.ofByte (byte : Nat) : Option Opcode :=
  Opcode.all.find? (fun op => decide (op.value = byte))

/-- The struct `PhiEdge` of the bytecode. -/
structure PhiEdge where
  temp : Nat
  block : Nat
  deriving DecidableEq, Repr

/-- The anonymous union of `bytecode::Instruction`, by the member that holds a value;
`none` when no member has been written. A `u16` that the source leaves indeterminate is
0 here. -/
inductive Payload where
  | unary (dstIdx srcIdx : Nat)
  | binary (dstIdx lsrcIdx rsrcIdx : Nat)
  | constant (dstIdx : Nat) (type : BType) (value : Int)
  | array (memoryIdx indexIdx valueIdx : Nat)
  | alloc (dstIdx : Nat) (type : BType) (sizeIdx : Nat)
  | jump (branchIdx conditionIdx : Nat)
  | call (dstIdx functionIdx : Nat) (args : List Nat)
  | member_call (dstIdx ptrIdx functionIdx : Nat) (args : List Nat)
  | phi (dstIdx : Nat) (args : List PhiEdge)
  | obj_alloc (dstIdx typeId : Nat)
  | access (ptrIdx typeId fieldIdx valueIdx : Nat)
  | global (globalIdx value : Nat)
  | none
  deriving DecidableEq, Repr

/-- The struct `bytecode::Instruction`. -/
structure Instruction where
  opcode : Opcode
  id : Nat
  payload : Payload
  deriving DecidableEq, Repr

/-- The constructor `Instruction(Opcode op)`: the call opcodes construct a `CallOp`, the
member-call opcodes a `MemberCallOp`, `PHI` a `PhiOp`. -/
def Instruction.ofOpcode (op : Opcode) : Instruction :=
  match op with
  | Opcode.CALL | Opcode.SPECIAL | Opcode.CALL_VOID | Opcode.SPECIAL_VOID =>
    ⟨op, 0, Payload.call 0 0 []⟩
  | Opcode.VOID_MEMBER_CALL | Opcode.MEMBER_CALL => ⟨op, 0, Payload.member_call 0 0 0 []⟩
  | Opcode.PHI => ⟨op, 0, Payload.phi 0 []⟩
  | _ => ⟨op, 0, Payload.none⟩

/-- The read `read<u8>`. -/
def readU8 (is : List Nat) : Except Err (Nat × List Nat) :=
  match is with
  | b :: rest => Except.ok (b % 256, rest)
  | [] => Except.error Err.bytecodeLoader

/-- The read `read<u16>`: two bytes, little endian. -/
def readU16 (is : List Nat) : Except Err (Nat × List Nat) :=
  match is with
  | b0 :: b1 :: rest => Except.ok (b0 % 256 + 256 * (b1 % 256), rest)
  | _ => Except.error Err.bytecodeLoader

/-- The value of the bytes `bs`, little endian, as an unsigned number. -/
def leValue : List Nat → Nat
  | [] => 0
  | b :: rest => b % 256 + 256 * leValue rest

/-- The read `read<i32>`: four bytes, little endian, two's complement. -/
def readI32 (is : List Nat) : Except Err (Int × List Nat) :=
  match is with
  | b0 :: b1 :: b2 :: b3 :: rest =>
    let v := leValue [b0, b1, b2, b3]
    Except.ok (if v < 2147483648 then (v : Int) else (v : Int) - 4294967296, rest)
  | _ => Except.error Err.bytecodeLoader

/-- The read `read<i64>`: eight bytes, little endian, two's complement. -/
def readI64 (is : List Nat) : Except Err (Int × List Nat) :=
  match is with
  | b0 :: b1 :: b2 :: b3 :: b4 :: b5 :: b6 :: b7 :: rest =>
    let v := leValue [b0, b1, b2, b3, b4, b5, b6, b7]
    Except.ok (if v < 9223372036854775808 then (v : Int)
               else (v : Int) - 18446744073709551616, rest)
  | _ => Except.error Err.bytecodeLoader

/-- The loop of `doRead(std::istream&, OverloadTag<std::vector<T>>)` for `length`
elements. -/
def readElements {T : Type} (readT : List Nat → Except Err (T × List Nat)) :
    Nat → List Nat → Except Err (List T × List Nat)
  | 0, is => Except.ok ([], is)
  | length + 1, is =>
    match readT is with
    | Except.error e => Except.error e
    | Except.ok (x, rest) =>
      match readElements readT length rest with
      | Except.error e => Except.error e
      | Except.ok (xs, rest1) => Except.ok (x :: xs, rest1)

/-- The function `doRead(std::istream&, OverloadTag<std::vector<T>>)`: a `u16` length,
then the elements. -/
def readVector {T : Type} (readT : List Nat → Except Err (T × List Nat)) (is : List Nat) :
    Except Err (List T × List Nat) :=
  match readU16 is with
  | Except.error e => Except.error e
  | Except.ok (length, rest) => readElements readT length rest

/-- The function `doRead(std::istream&, OverloadTag<Type>)`. -/
def readType (is : List Nat) : Except Err (BType × List Nat) :=
  match readU8 is with
  | Except.error e => Except.error e
  | Except.ok (byte, rest) => Except.ok (⟨decide (byte / 128 ≠ 0), byte % 128⟩, rest)

/-- The function `doRead(std::istream&, OverloadTag<PhiEdge>)`. -/
def readPhiEdge (is : List Nat) : Except Err (PhiEdge × List Nat) :=
  match readU16 is with
  | Except.error e => Except.error e
  | Except.ok (temp, rest) =>
    match readU16 rest with
    | Except.error e => Except.error e
    | Except.ok (block, rest1) => Except.ok (⟨temp, block⟩, rest1)

/-- The function `doRead(std::istream&, OverloadTag<Opcode>)`: the opcodes of the
`switch` are returned, every other value raises. -/
def readOpcode (is : List Nat) : Except Err (Opcode × List Nat) :=
  match readU8 is with
  | Except.error e => Except.error e
  | Except.ok (byte, rest) =>
    match Opcode.ofByte byte with
    | Option.none => Except.error Err.bytecodeLoader
    | some op =>
      match op with
      | Opcode.LOAD | Opcode.LOAD_IDX | Opcode.CONST | Opcode.ADD | Opcode.SUB | Opcode.MUL
      | Opcode.DIV | Opcode.MOD | Opcode.NEG | Opcode.GT | Opcode.GTE | Opcode.EQ
      | Opcode.NEQ | Opcode.LTE | Opcode.LT | Opcode.AND | Opcode.OR | Opcode.NOT
      | Opcode.NEW | Opcode.STORE | Opcode.STORE_IDX | Opcode.GOTO | Opcode.IF_GOTO
      | Opcode.LENGTH | Opcode.PHI | Opcode.CALL | Opcode.SPECIAL | Opcode.CALL_VOID
      | Opcode.SPECIAL_VOID | Opcode.RET_VOID | Opcode.RETURN | Opcode.ALLOCATE
      | Opcode.OBJ_LOAD | Opcode.OBJ_STORE | Opcode.GLOB_LOAD | Opcode.GLOB_STORE
      | Opcode.VOID_MEMBER_CALL | Opcode.MEMBER_CALL => Except.ok (op, rest)
      | _ => Except.error Err.bytecodeLoader

/-- The immediate of a `CONST` instruction of base type `baseType`, as the inner
`switch` of `doRead(std::istream&, OverloadTag<Instruction>)` reads it. -/
def readConstValue (baseType : Nat) (is : List Nat) : Except Err (Int × List Nat) :=
  if baseType = 0 then Except.ok (0, is)
  else if baseType = 1 ∨ baseType = 2 then
    match readU8 is with
    | Except.error e => Except.error e
    | Except.ok (v, rest) => Except.ok ((v : Int), rest)
  else if baseType = 3 ∨ baseType = 4 then
    match readU16 is with
    | Except.error e => Except.error e
    | Except.ok (v, rest) => Except.ok ((v : Int), rest)
  else if baseType = 5 ∨ baseType = 7 then readI32 is
  else if baseType = 6 ∨ baseType = 8 then readI64 is
  else Except.error Err.bytecodeLoader

/-- Two reads `read<u16>` one after the other. -/
def readU16x2 (is : List Nat) : Except Err ((Nat × Nat) × List Nat) :=
  match readU16 is with
  | Except.error e => Except.error e
  | Except.ok (a, rest) =>
    match readU16 rest with
    | Except.error e => Except.error e
    | Except.ok (b, rest1) => Except.ok ((a, b), rest1)

/-- The reads `read<u16>`, `read<u8>`, `read<u8>` of the object accesses. -/
def readAccess (is : List Nat) : Except Err ((Nat × Nat × Nat) × List Nat) :=
  match readU16 is with
  | Except.error e => Except.error e
  | Except.ok (ptrIdx, rest) =>
    match readU8 rest with
    | Except.error e => Except.error e
    | Except.ok (typeId, rest1) =>
      match readU8 rest1 with
      | Except.error e => Except.error e
      | Except.ok (fieldIdx, rest2) => Except.ok ((ptrIdx, typeId, fieldIdx), rest2)

/-- The payload of an instruction with opcode `op`, as the outer `switch` of
`doRead(std::istream&, OverloadTag<Instruction>)` reads it; `LOAD`, `STORE` and `NOP`
have no case and reach `default`. -/
def readPayload (op : Opcode) (is : List Nat) : Except Err (Payload × List Nat) :=
  match op with
  | Opcode.NEG | Opcode.NOT | Opcode.RETURN =>
    match readU16 is with
    | Except.error e => Except.error e
    | Except.ok (srcIdx, rest) => Except.ok (Payload.unary 0 srcIdx, rest)
  | Opcode.CONST =>
    match readType is with
    | Except.error e => Except.error e
    | Except.ok (type, rest) =>
      if type.isArray then Except.error Err.bytecodeLoader
      else
        match readConstValue type.baseType rest with
        | Except.error e => Except.error e
        | Except.ok (value, rest1) => Except.ok (Payload.constant 0 type value, rest1)
  | Opcode.ADD | Opcode.SUB | Opcode.MUL | Opcode.DIV | Opcode.MOD | Opcode.GT | Opcode.GTE
  | Opcode.EQ | Opcode.NEQ | Opcode.LTE | Opcode.LT | Opcode.AND | Opcode.OR =>
    match readU16x2 is with
    | Except.error e => Except.error e
    | Except.ok ((lsrcIdx, rsrcIdx), rest) => Except.ok (Payload.binary 0 lsrcIdx rsrcIdx, rest)
  | Opcode.LOAD_IDX =>
    match readU16x2 is with
    | Except.error e => Except.error e
    | Except.ok ((memoryIdx, indexIdx), rest) => Except.ok (Payload.array memoryIdx indexIdx 0, rest)
  | Opcode.STORE_IDX =>
    match readU16x2 is with
    | Except.error e => Except.error e
    | Except.ok ((memoryIdx, indexIdx), rest) =>
      match readU16 rest with
      | Except.error e => Except.error e
      | Except.ok (valueIdx, rest1) => Except.ok (Payload.array memoryIdx indexIdx valueIdx, rest1)
  | Opcode.NEW =>
    match readType is with
    | Except.error e => Except.error e
    | Except.ok (type, rest) =>
      match readU16 rest with
      | Except.error e => Except.error e
      | Except.ok (sizeIdx, rest1) => Except.ok (Payload.alloc 0 type sizeIdx, rest1)
  | Opcode.GOTO =>
    match readU16 is with
    | Except.error e => Except.error e
    | Except.ok (branchIdx, rest) => Except.ok (Payload.jump branchIdx 0, rest)
  | Opcode.IF_GOTO =>
    match readU16x2 is with
    | Except.error e => Except.error e
    | Except.ok ((conditionIdx, branchIdx), rest) =>
      Except.ok (Payload.jump branchIdx conditionIdx, rest)
  | Opcode.LENGTH =>
    match readU16 is with
    | Except.error e => Except.error e
    | Except.ok (memoryIdx, rest) => Except.ok (Payload.array memoryIdx 0 0, rest)
  | Opcode.PHI =>
    match readVector readPhiEdge is with
    | Except.error e => Except.error e
    | Except.ok (args, rest) => Except.ok (Payload.phi 0 args, rest)
  | Opcode.SPECIAL | Opcode.SPECIAL_VOID =>
    match readU8 is with
    | Except.error e => Except.error e
    | Except.ok (functionIdx, rest) =>
      match readVector readU16 rest with
      | Except.error e => Except.error e
      | Except.ok (args, rest1) => Except.ok (Payload.call 0 functionIdx args, rest1)
  | Opcode.CALL | Opcode.CALL_VOID =>
    match readU16 is with
    | Except.error e => Except.error e
    | Except.ok (functionIdx, rest) =>
      match readVector readU16 rest with
      | Except.error e => Except.error e
      | Except.ok (args, rest1) => Except.ok (Payload.call 0 functionIdx args, rest1)
  | Opcode.RET_VOID => Except.ok (Payload.none, is)
  | Opcode.ALLOCATE =>
    match readU8 is with
    | Except.error e => Except.error e
    | Except.ok (typeId, rest) => Except.ok (Payload.obj_alloc 0 typeId, rest)
  | Opcode.OBJ_LOAD =>
    match readAccess is with
    | Except.error e => Except.error e
    | Except.ok ((ptrIdx, typeId, fieldIdx), rest) =>
      Except.ok (Payload.access ptrIdx typeId fieldIdx 0, rest)
  | Opcode.OBJ_STORE =>
    match readAccess is with
    | Except.error e => Except.error e
    | Except.ok ((ptrIdx, typeId, fieldIdx), rest) =>
      match readU16 rest with
      | Except.error e => Except.error e
      | Except.ok (valueIdx, rest1) => Except.ok (Payload.access ptrIdx typeId fieldIdx valueIdx, rest1)
  | Opcode.GLOB_LOAD =>
    match readU16 is with
    | Except.error e => Except.error e
    | Except.ok (globalIdx, rest) => Except.ok (Payload.global globalIdx 0, rest)
  | Opcode.GLOB_STORE =>
    match readU16x2 is with
    | Except.error e => Except.error e
    | Except.ok ((globalIdx, value), rest) => Except.ok (Payload.global globalIdx value, rest)
  | Opcode.VOID_MEMBER_CALL | Opcode.MEMBER_CALL =>
    match readU8 is with
    | Except.error e => Except.error e
    | Except.ok (functionIdx, rest) =>
      match readVector readU16 rest with
      | Except.error e => Except.error e
      | Except.ok (args, rest1) =>
        match args with
        | [] => Except.error Err.undefined
        | ptrIdx :: _ => Except.ok (Payload.member_call 0 ptrIdx functionIdx args, rest1)
  | _ => Except.error Err.bytecodeLoader

/-- The function `doRead(std::istream&, OverloadTag<Instruction>)`. -/
def readInstruction (is : List Nat) : Except Err (Instruction × List Nat) :=
  match readOpcode is with
  | Except.error e => Except.error e
  | Except.ok (op, rest) =>
    match readPayload op rest with
    | Except.error e => Except.error e
    | Except.ok (payload, rest1) => Except.ok (⟨op, (Instruction.ofOpcode op).id, payload⟩, rest1)

/-- The struct `Local`; the name is the list of its bytes. -/
structure Local where
  type : BType
  name : List Nat
  deriving DecidableEq, Repr

/-- The struct `Field`. -/
structure Field where
  typeId : Nat
  name : List Nat
  offset : Nat
  deriving DecidableEq, Repr

/-- The struct `StructType`. -/
structure StructType where
  id : Nat
  name : List Nat
  fields : List Field
  vTable : List Nat
  _size : Nat
  deriving DecidableEq, Repr

/-- The struct `Function`; `variables_` is the member `variables`. -/
structure Function where
  name : List Nat
  parameters : List Local
  returnType : BType
  variables_ : List Local
  instructions : List Instruction
  blocks : List BlockInfo
  temporyCount : Nat
  temporaryTypes : List BType
  deriving DecidableEq, Repr

/-- The struct `Program`; `types` is a `std::map<u8, StructType>`. -/
structure Program where
  globals : List Field
  types : List (Nat × StructType)
  functions : List Function
  deriving Repr

/-- The body of the `switch` of `countTemporaries` for an instruction with opcode `op`
and the union `payload`: the union after the assignment of `result++` to the member
that the case names, and the new `result`. `CONST` is numbered through `unary.dstIdx`,
which lies where `constant.dstIdx` lies; an assignment to a member of a union that holds
another member is undefined here. `NOP` has no case and reaches `default`. -/
def countStep (op : Opcode) (payload : Payload) (result : Nat) : Except Err (Payload × Nat) :=
  match op with
  | Opcode.STORE | Opcode.STORE_IDX | Opcode.GOTO | Opcode.IF_GOTO | Opcode.CALL_VOID
  | Opcode.SPECIAL_VOID | Opcode.RET_VOID | Opcode.RETURN | Opcode.OBJ_STORE
  | Opcode.GLOB_STORE | Opcode.VOID_MEMBER_CALL => Except.ok (payload, result)
  | Opcode.LOAD | Opcode.NEG | Opcode.NOT | Opcode.CONST =>
    match payload with
    | Payload.unary _ srcIdx => Except.ok (Payload.unary result srcIdx, (result + 1) % 65536)
    | Payload.constant _ type value =>
      Except.ok (Payload.constant result type value, (result + 1) % 65536)
    | Payload.none => Except.ok (Payload.unary result 0, (result + 1) % 65536)
    | _ => Except.error Err.undefined
  | Opcode.ADD | Opcode.SUB | Opcode.MUL | Opcode.DIV | Opcode.MOD | Opcode.GT | Opcode.GTE
  | Opcode.EQ | Opcode.NEQ | Opcode.LTE | Opcode.LT | Opcode.AND | Opcode.OR =>
    match payload with
    | Payload.binary _ lsrcIdx rsrcIdx =>
      Except.ok (Payload.binary result lsrcIdx rsrcIdx, (result + 1) % 65536)
    | Payload.none => Except.ok (Payload.binary result 0 0, (result + 1) % 65536)
    | _ => Except.error Err.undefined
  | Opcode.NEW =>
    match payload with
    | Payload.alloc _ type sizeIdx =>
      Except.ok (Payload.alloc result type sizeIdx, (result + 1) % 65536)
    | Payload.none => Except.ok (Payload.alloc result ⟨false, 0⟩ 0, (result + 1) % 65536)
    | _ => Except.error Err.undefined
  | Opcode.LENGTH | Opcode.LOAD_IDX =>
    match payload with
    | Payload.array memoryIdx indexIdx _ =>
      Except.ok (Payload.array memoryIdx indexIdx result, (result + 1) % 65536)
    | Payload.none => Except.ok (Payload.array 0 0 result, (result + 1) % 65536)
    | _ => Except.error Err.undefined
  | Opcode.CALL | Opcode.SPECIAL =>
    match payload with
    | Payload.call _ functionIdx args =>
      Except.ok (Payload.call result functionIdx args, (result + 1) % 65536)
    | _ => Except.error Err.undefined
  | Opcode.PHI =>
    match payload with
    | Payload.phi _ args => Except.ok (Payload.phi result args, (result + 1) % 65536)
    | _ => Except.error Err.undefined
  | Opcode.ALLOCATE =>
    match payload with
    | Payload.obj_alloc _ typeId =>
      Except.ok (Payload.obj_alloc result typeId, (result + 1) % 65536)
    | Payload.none => Except.ok (Payload.obj_alloc result 0, (result + 1) % 65536)
    | _ => Except.error Err.undefined
  | Opcode.OBJ_LOAD =>
    match payload with
    | Payload.access ptrIdx typeId fieldIdx _ =>
      Except.ok (Payload.access ptrIdx typeId fieldIdx result, (result + 1) % 65536)
    | Payload.none => Except.ok (Payload.access 0 0 0 result, (result + 1) % 65536)
    | _ => Except.error Err.undefined
  | Opcode.GLOB_LOAD =>
    match payload with
    | Payload.global globalIdx _ =>
      Except.ok (Payload.global globalIdx result, (result + 1) % 65536)
    | Payload.none => Except.ok (Payload.global 0 result, (result + 1) % 65536)
    | _ => Except.error Err.undefined
  | Opcode.MEMBER_CALL =>
    match payload with
    | Payload.member_call _ ptrIdx functionIdx args =>
      Except.ok (Payload.member_call result ptrIdx functionIdx args, (result + 1) % 65536)
    | _ => Except.error Err.undefined
  | Opcode.NOP => Except.error Err.bytecodeLoader

/-- The loop of `countTemporaries` from the instruction id `instructionId` and the
counter `result` (both `u16`): the rewritten instructions and the final `result`. -/
def countLoop : List Instruction → Nat → Nat → Except Err (List Instruction × Nat)
  | [], _, result => Except.ok ([], result)
  | instr :: rest, instructionId, result =>
    match countStep instr.opcode instr.payload result with
    | Except.error e => Except.error e
    | Except.ok (payload, result1) =>
      match countLoop rest ((instructionId + 1) % 65536) result1 with
      | Except.error e => Except.error e
      | Except.ok (out, r) => Except.ok (⟨instr.opcode, instructionId, payload⟩ :: out, r)

/-- The function `countTemporaries(parameters, instructions)`: the returned count and
the instructions as the call leaves them. -/
def countTemporaries (parameters : List Local) (instructions : List Instruction) :
    Except Err (Nat × List Instruction) :=
  match countLoop instructions 0 (parameters.length % 65536) with
  | Except.error e => Except.error e
  | Except.ok (out, result) => Except.ok (result, out)

/-- The read `v[i]` of a `std::vector`; an index out of range is undefined. -/
def vecGet {T : Type} (v : List T) (i : Nat) : Except Err T :=
  match v[i]? with
  | some x => Except.ok x
  | none => Except.error Err.undefined

/-- The read `v.at(i)` of a `std::vector`. -/
def vecAt {T : Type} (v : List T) (i : Nat) : Except Err T :=
  match v[i]? with
  | some x => Except.ok x
  | none => Except.error Err.outOfRange

/-- The operator `Type::operator==`. -/
def typeEq (a other : BType) : Bool :=
  (a.isArray == other.isArray) &&
    (a.baseType == other.baseType || a.baseType == 0 || other.baseType == 0)

/-- The function `Function::local(u16 idx)`. -/
def Function.local_ (f : Function) (idx : Nat) : Except Err Local :=
  if f.parameters.length > idx then vecGet f.parameters idx
  else
    let idx1 := (idx - f.parameters.length) % 65536
    if f.variables_.length > idx1 then vecGet f.variables_ idx1
    else Except.error Err.outOfRange

/-- A write through `f.temporaryTypes[currentTemporary]` that is followed by
`currentTemporary++`: `g` gives the new entry from the old one. -/
def store (types : List BType) (currentTemporary : Nat) (g : BType → BType) :
    Except Err (List BType × Nat) :=
  match types[currentTemporary]? with
  | some t => Except.ok (types.set currentTemporary (g t), currentTemporary + 1)
  | none => Except.error Err.undefined

/-- The test that the comparison case and the arithmetic case of
`assignTypesToTemporaries` make on the operands `lsrcIdx` and `rsrcIdx`: the type of the
left operand when no exception is raised. -/
def operandsAgree (types : List BType) (lsrcIdx rsrcIdx : Nat) : Except Err BType :=
  match vecGet types lsrcIdx with
  | Except.error e => Except.error e
  | Except.ok tl =>
    if tl.isArray then Except.error Err.bytecodeLoader
    else
      match vecGet types rsrcIdx with
      | Except.error e => Except.error e
      | Except.ok tr =>
        if tr.isArray then Except.error Err.bytecodeLoader
        else if typeEq tl tr then Except.ok tl
        else Except.error Err.bytecodeLoader

/-- The body of the instruction loop of `assignTypesToTemporaries(p, f)`; the state is
`f.temporaryTypes` and `currentTemporary`. -/
def assignStep (p : Program) (f : Function) (st : List BType × Nat) (instr : Instruction) :
    Except Err (List BType × Nat) :=
  let types := st.1
  let currentTemporary := st.2
  match instr.opcode with
  | Opcode.GT | Opcode.GTE | Opcode.EQ | Opcode.NEQ | Opcode.LTE | Opcode.LT =>
    match instr.payload with
    | Payload.binary _ lsrcIdx rsrcIdx =>
      match operandsAgree types lsrcIdx rsrcIdx with
      | Except.error e => Except.error e
      | Except.ok _ => store types currentTemporary (fun t => ⟨t.isArray, 1⟩)
    | _ => Except.error Err.undefined
  | Opcode.LOAD =>
    match instr.payload with
    | Payload.unary _ srcIdx =>
      match f.local_ srcIdx with
      | Except.error e => Except.error e
      | Except.ok l => store types currentTemporary (fun _ => l.type)
    | _ => Except.error Err.undefined
  | Opcode.LOAD_IDX =>
    match instr.payload with
    | Payload.array memoryIdx _ _ =>
      match vecAt types memoryIdx with
      | Except.error e => Except.error e
      | Except.ok t =>
        if !t.isArray then Except.error Err.bytecodeLoader
        else store types currentTemporary (fun _ => ⟨false, t.baseType⟩)
    | _ => Except.error Err.undefined
  | Opcode.CONST =>
    match instr.payload with
    | Payload.constant _ type _ =>
      if type.isArray then Except.error Err.bytecodeLoader
      else store types currentTemporary (fun _ => type)
    | _ => Except.error Err.undefined
  | Opcode.ADD | Opcode.SUB | Opcode.MUL | Opcode.DIV | Opcode.MOD | Opcode.AND | Opcode.OR =>
    match instr.payload with
    | Payload.binary _ lsrcIdx rsrcIdx =>
      match operandsAgree types lsrcIdx rsrcIdx with
      | Except.error e => Except.error e
      | Except.ok tl => store types currentTemporary (fun _ => tl)
    | _ => Except.error Err.undefined
  | Opcode.NOT =>
    match instr.payload with
    | Payload.unary _ srcIdx =>
      match vecGet types srcIdx with
      | Except.error e => Except.error e
      | Except.ok t =>
        if t.baseType ≠ 1 ∨ t.isArray = true then Except.error Err.bytecodeLoader
        else store types currentTemporary (fun _ => t)
    | _ => Except.error Err.undefined
  | Opcode.NEG =>
    match instr.payload with
    | Payload.unary _ srcIdx =>
      match vecGet types srcIdx with
      | Except.error e => Except.error e
      | Except.ok t =>
        if t.isArray then Except.error Err.bytecodeLoader
        else store types currentTemporary (fun _ => t)
    | _ => Except.error Err.undefined
  | Opcode.CALL =>
    match instr.payload with
    | Payload.call _ functionIdx _ =>
      match vecGet p.functions functionIdx with
      | Except.error e => Except.error e
      | Except.ok callee => store types currentTemporary (fun _ => callee.returnType)
    | _ => Except.error Err.undefined
  | Opcode.LENGTH =>
    match instr.payload with
    | Payload.array memoryIdx _ _ =>
      match vecGet types memoryIdx with
      | Except.error e => Except.error e
      | Except.ok t =>
        if !t.isArray then Except.error Err.bytecodeLoader
        else store types currentTemporary (fun _ => ⟨false, 5⟩)
    | _ => Except.error Err.undefined
  | Opcode.NEW =>
    match instr.payload with
    | Payload.alloc _ type _ => store types currentTemporary (fun _ => ⟨true, type.baseType⟩)
    | _ => Except.error Err.undefined
  | Opcode.PHI =>
    match instr.payload with
    | Payload.phi _ (front :: _) =>
      match vecGet types front.temp with
      | Except.error e => Except.error e
      | Except.ok t => store types currentTemporary (fun _ => t)
    | _ => Except.error Err.undefined
  | Opcode.ALLOCATE =>
    match instr.payload with
    | Payload.obj_alloc _ typeId => store types currentTemporary (fun _ => ⟨false, typeId % 256⟩)
    | _ => Except.error Err.undefined
  | Opcode.OBJ_LOAD =>
    match instr.payload with
    | Payload.access _ typeId fieldIdx _ =>
      match omAt p.types typeId with
      | Except.error e => Except.error e
      | Except.ok s =>
        match vecGet s.fields fieldIdx with
        | Except.error e => Except.error e
        | Except.ok field =>
          store types currentTemporary
            (fun _ => ⟨decide (field.typeId % 256 / 128 ≠ 0), field.typeId % 128⟩)
    | _ => Except.error Err.undefined
  | Opcode.GLOB_LOAD =>
    match instr.payload with
    | Payload.global globalIdx _ =>
      match vecGet p.globals globalIdx with
      | Except.error e => Except.error e
      | Except.ok field => store types currentTemporary (fun _ => ⟨false, field.typeId % 256⟩)
    | _ => Except.error Err.undefined
  | Opcode.MEMBER_CALL =>
    match instr.payload with
    | Payload.member_call _ ptrIdx functionIdx _ =>
      match vecGet types ptrIdx with
      | Except.error e => Except.error e
      | Except.ok t =>
        match omAt p.types t.baseType with
        | Except.error e => Except.error e
        | Except.ok s =>
          match vecGet s.vTable functionIdx with
          | Except.error e => Except.error e
          | Except.ok index =>
            match vecAt p.functions index with
            | Except.error e => Except.error e
            | Except.ok calledF => store types currentTemporary (fun _ => calledF.returnType)
    | _ => Except.error Err.undefined
  | _ => Except.ok (types, currentTemporary)

/-- The state of `assignTypesToTemporaries(p, f)` before the instruction loop: the
vector resized to `f.temporyCount` default types, then the types of the parameters. -/
def assignParameters (f : Function) : Except Err (List BType × Nat) :=
  loopE (fun st (l : Local) => store st.1 st.2 (fun _ => l.type))
    (List.replicate f.temporyCount ⟨false, 0⟩, 0) f.parameters

/-- The function `assignTypesToTemporaries(p, f)`: the function `f` as the call leaves
it. -/
def assignTypesToTemporaries (p : Program) (f : Function) : Except Err Function :=
  match assignParameters f with
  | Except.error e => Except.error e
  | Except.ok st0 =>
    match loopE (assignStep p f) st0 f.instructions with
    | Except.error e => Except.error e
    | Except.ok st1 => Except.ok { f with temporaryTypes := st1.1 }

/-- The opcodes that the specification calls defining. -/
def Opcode.defines (op : Opcode) : Bool :=
  match op with
  | Opcode.LOAD | Opcode.NEG | Opcode.NOT | Opcode.CONST
  | Opcode.ADD | Opcode.SUB | Opcode.MUL | Opcode.DIV | Opcode.MOD | Opcode.AND | Opcode.OR
  | Opcode.GT | Opcode.GTE | Opcode.EQ | Opcode.NEQ | Opcode.LTE | Opcode.LT
  | Opcode.NEW | Opcode.LENGTH | Opcode.LOAD_IDX | Opcode.CALL | Opcode.SPECIAL | Opcode.PHI
  | Opcode.ALLOCATE | Opcode.OBJ_LOAD | Opcode.GLOB_LOAD | Opcode.MEMBER_CALL => true
  | _ => false

/-- The destination field of an instruction, by the member that its union holds:
`dstIdx` of the members that have one, `valueIdx` of `array` and `access`, `value` of
`global`. -/
def Instruction.destination (i : Instruction) : Option Nat :=
  match i.payload with
  | Payload.unary dstIdx _ => some dstIdx
  | Payload.binary dstIdx _ _ => some dstIdx
  | Payload.constant dstIdx _ _ => some dstIdx
  | Payload.array _ _ valueIdx => some valueIdx
  | Payload.alloc dstIdx _ _ => some dstIdx
  | Payload.call dstIdx _ _ => some dstIdx
  | Payload.member_call dstIdx _ _ _ => some dstIdx
  | Payload.phi dstIdx _ => some dstIdx
  | Payload.obj_alloc dstIdx _ => some dstIdx
  | Payload.access _ _ _ valueIdx => some valueIdx
  | Payload.global _ valueIdx => some valueIdx
  | Payload.jump _ _ => none
  | Payload.none => none

/-- The union of a defining instruction holds the member that the instruction reader
fills for its opcode. -/
def Instruction.fits (i : Instruction) : Bool :=
  match i.opcode with
  | Opcode.LOAD | Opcode.NEG | Opcode.NOT =>
    match i.payload with
    | Payload.unary _ _ => true
    | _ => false
  | Opcode.CONST =>
    match i.payload with
    | Payload.constant _ _ _ => true
    | _ => false
  | Opcode.ADD | Opcode.SUB | Opcode.MUL | Opcode.DIV | Opcode.MOD | Opcode.AND | Opcode.OR
  | Opcode.GT | Opcode.GTE | Opcode.EQ | Opcode.NEQ | Opcode.LTE | Opcode.LT =>
    match i.payload with
    | Payload.binary _ _ _ => true
    | _ => false
  | Opcode.NEW =>
    match i.payload with
    | Payload.alloc _ _ _ => true
    | _ => false
  | Opcode.LENGTH | Opcode.LOAD_IDX =>
    match i.payload with
    | Payload.array _ _ _ => true
    | _ => false
  | Opcode.CALL | Opcode.SPECIAL =>
    match i.payload with
    | Payload.call _ _ _ => true
    | _ => false
  | Opcode.PHI =>
    match i.payload with
    | Payload.phi _ _ => true
    | _ => false
  | Opcode.ALLOCATE =>
    match i.payload with
    | Payload.obj_alloc _ _ => true
    | _ => false
  | Opcode.OBJ_LOAD =>
    match i.payload with
    | Payload.access _ _ _ _ => true
    | _ => false
  | Opcode.GLOB_LOAD =>
    match i.payload with
    | Payload.global _ _ => true
    | _ => false
  | Opcode.MEMBER_CALL =>
    match i.payload with
    | Payload.member_call _ _ _ _ => true
    | _ => false
  | _ => true

/-- The number of defining instructions of a list. -/
def definingCount (instructions : List Instruction) : Nat :=
  (instructions.filter (fun i => i.opcode.defines)).length

/-- The function `Instruction::dstIdx()`: the destination member that the case of the
opcode names, no value for the opcodes whose case is `break`, and `std::runtime_error`
for the opcodes that reach `default`. Reading a member that the union does not hold is
undefined. -/
def Instruction.dstIdx (i : Instruction) : Except Err (Option Nat) :=
  match i.opcode with
  | Opcode.LOAD | Opcode.NEG | Opcode.NOT =>
    match i.payload with
    | Payload.unary dstIdx _ => Except.ok (some dstIdx)
    | _ => Except.error Err.undefined
  | Opcode.ADD | Opcode.SUB | Opcode.MUL | Opcode.DIV | Opcode.MOD | Opcode.GT | Opcode.GTE
  | Opcode.EQ | Opcode.NEQ | Opcode.LTE | Opcode.LT | Opcode.AND | Opcode.OR =>
    match i.payload with
    | Payload.binary dstIdx _ _ => Except.ok (some dstIdx)
    | _ => Except.error Err.undefined
  | Opcode.CONST =>
    match i.payload with
    | Payload.constant dstIdx _ _ => Except.ok (some dstIdx)
    | _ => Except.error Err.undefined
  | Opcode.LENGTH | Opcode.LOAD_IDX =>
    match i.payload with
    | Payload.array _ _ valueIdx => Except.ok (some valueIdx)
    | _ => Except.error Err.undefined
  | Opcode.NEW =>
    match i.payload with
    | Payload.alloc dstIdx _ _ => Except.ok (some dstIdx)
    | _ => Except.error Err.undefined
  | Opcode.CALL | Opcode.SPECIAL =>
    match i.payload with
    | Payload.call dstIdx _ _ => Except.ok (some dstIdx)
    | _ => Except.error Err.undefined
  | Opcode.PHI =>
    match i.payload with
    | Payload.phi dstIdx _ => Except.ok (some dstIdx)
    | _ => Except.error Err.undefined
  | Opcode.NOP | Opcode.STORE | Opcode.STORE_IDX | Opcode.RETURN | Opcode.RET_VOID
  | Opcode.CALL_VOID | Opcode.SPECIAL_VOID | Opcode.GOTO | Opcode.IF_GOTO
  | Opcode.OBJ_STORE => Except.ok none
  | Opcode.ALLOCATE =>
    match i.payload with
    | Payload.obj_alloc dstIdx _ => Except.ok (some dstIdx)
    | _ => Except.error Err.undefined
  | Opcode.OBJ_LOAD | Opcode.GLOB_LOAD | Opcode.GLOB_STORE | Opcode.VOID_MEMBER_CALL
  | Opcode.MEMBER_CALL => Except.error Err.runtimeError

/-- A body with an object load, a global load and a member call:
`OBJ_LOAD`, `GLOB_LOAD`, `MEMBER_CALL`, `GLOB_STORE`, `VOID_MEMBER_CALL`. -/
def objectBody : List Instruction :=
  [⟨Opcode.OBJ_LOAD, 0, Payload.access 0 1 0 0⟩,
   ⟨Opcode.GLOB_LOAD, 0, Payload.global 0 0⟩,
   ⟨Opcode.MEMBER_CALL, 0, Payload.member_call 0 0 2 [0]⟩,
   ⟨Opcode.GLOB_STORE, 0, Payload.global 0 1⟩,
   ⟨Opcode.VOID_MEMBER_CALL, 0, Payload.member_call 0 0 2 [0]⟩]

/-- A body for the numbering of temporaries: two constants, their sum, a store into an
array and a return. -/
def sumBody : List Instruction :=
  [⟨Opcode.CONST, 0, Payload.constant 0 ⟨false, 5⟩ 7⟩,
   ⟨Opcode.CONST, 0, Payload.constant 0 ⟨false, 5⟩ 8⟩,
   ⟨Opcode.ADD, 0, Payload.binary 0 1 2⟩,
   ⟨Opcode.STORE_IDX, 0, Payload.array 0 1 3⟩,
   ⟨Opcode.RETURN, 0, Payload.unary 0 3⟩]

/-- The bytes of the instruction list `SPECIAL 3 ()`, `CONST INT32 1`. -/
def specialBytes : List Nat :=
  [0x02, 0x00, 0x1d, 0x03, 0x00, 0x00, 0x03, 0x05, 0x01, 0x00, 0x00, 0x00]

/-- The instructions of `specialBytes` as `countTemporaries` numbers them. -/
def specialBody : List Instruction :=
  [⟨Opcode.SPECIAL, 0, Payload.call 0 3 []⟩,
   ⟨Opcode.CONST, 1, Payload.constant 1 ⟨false, 5⟩ 1⟩]

/-- A function without parameters whose body is `specialBody`. -/
def specialFunction : Function :=
  ⟨[], [], ⟨false, 0⟩, [], specialBody, [], 2, []⟩

/-- The bytes of the instruction list `CONST VOID`, `CONST INT32 1`, `ADD t0 t1`. -/
def voidBytes : List Nat :=
  [0x03, 0x00, 0x03, 0x00, 0x03, 0x05, 0x01, 0x00, 0x00, 0x00, 0x04, 0x00, 0x00, 0x01, 0x00]

/-- The instructions of `voidBytes` as `countTemporaries` numbers them. -/
def voidBody : List Instruction :=
  [⟨Opcode.CONST, 0, Payload.constant 0 ⟨false, 0⟩ 0⟩,
   ⟨Opcode.CONST, 1, Payload.constant 1 ⟨false, 5⟩ 1⟩,
   ⟨Opcode.ADD, 2, Payload.binary 2 0 1⟩]

/-- A function without parameters whose body is `voidBody`. -/
def voidFunction : Function :=
  ⟨[], [], ⟨false, 0⟩, [], voidBody, [], 3, []⟩

/-- The list `CONST INT32 1`, `CONST INT64 1`, `LT t0 t1`, numbered. -/
def mixedBody : List Instruction :=
  [⟨Opcode.CONST, 0, Payload.constant 0 ⟨false, 5⟩ 1⟩,
   ⟨Opcode.CONST, 1, Payload.constant 1 ⟨false, 6⟩ 1⟩,
   ⟨Opcode.LT, 2, Payload.binary 2 0 1⟩]

/-- A function without parameters whose body is `mixedBody`. -/
def mixedFunction : Function :=
  ⟨[], [], ⟨false, 0⟩, [], mixedBody, [], 3, []⟩

end Bytecode

/-! ## bytecode.hpp: the layout of struct types -/

/-- The value of an enumerator of `OperandSize`. -/
def OperandSize.value : OperandSize → Nat
  | OperandSize.BYTE => 1
  | OperandSize.WORD => 2
  | OperandSize.DWORD => 4
  | OperandSize.QWORD => 8

/-- The function `Field::getSize()`. -/
def Bytecode.Field.getSize (f : Bytecode.Field) : Except Err OperandSize :=
  if f.typeId = 0 then Except.error Err.runtimeError
  else if f.typeId = 1 ∨ f.typeId = 2 then Except.ok OperandSize.BYTE
  else if f.typeId = 3 ∨ f.typeId = 4 then Except.ok OperandSize.WORD
  else if f.typeId = 7 ∨ f.typeId = 5 then Except.ok OperandSize.DWORD
  else if f.typeId = 8 ∨ f.typeId = 6 then Except.ok OperandSize.QWORD
  else if f.typeId < 9 then Except.error Err.runtimeError
  else Except.ok OperandSize.QWORD

/-- The constructor `StructType(id, name, fields, vTable)`: `_size` is 0. -/
def Bytecode.StructType.new (id : Nat) (name : List Nat) (fields : List Bytecode.Field)
    (vTable : List Nat) : Bytecode.StructType :=
  ⟨id, name, fields, vTable, 0⟩

/-- The loop of `StructType::calculateSize()` from the `u16` value `sum`: the fields
with their offsets and the final `sum`. -/
def Bytecode.calculateLoop : List Bytecode.Field → Nat → Except Err (List Bytecode.Field × Nat)
  | [], sum => Except.ok ([], sum)
  | field :: rest, sum =>
    match field.getSize with
    | Except.error e => Except.error e
    | Except.ok size =>
      match Bytecode.calculateLoop rest ((sum + size.value) % 65536) with
      | Except.error e => Except.error e
      | Except.ok (fields, total) => Except.ok ({ field with offset := sum } :: fields, total)

/-- The function `StructType::calculateSize()`: the returned sum and the struct type as
the call leaves it. -/
def Bytecode.StructType.calculateSize (s : Bytecode.StructType) :
    Except Err (Nat × Bytecode.StructType) :=
  match Bytecode.calculateLoop s.fields 8 with
  | Except.error e => Except.error e
  | Except.ok (fields, sum) => Except.ok (sum, { s with fields := fields })

/-- The function `StructType::getSize()`: the returned size and the struct type as the
call leaves it. -/
def Bytecode.StructType.getSize (s : Bytecode.StructType) :
    Except Err (Nat × Bytecode.StructType) :=
  if s._size ≠ 0 then Except.ok (s._size, s)
  else
    match s.calculateSize with
    | Except.error e => Except.error e
    | Except.ok (sum, s1) => Except.ok (sum, { s1 with _size := sum })

/-- The function `StructType::getOffset(u16 fieldIdx)`. -/
def Bytecode.StructType.getOffset (s : Bytecode.StructType) (fieldIdx : Nat) : Except Err Nat :=
  if s._size = 0 then Except.error Err.typeNotPacked
  else
    match Bytecode.vecGet s.fields fieldIdx with
    | Except.error e => Except.error e
    | Except.ok field => Except.ok field.offset

/-- The function `StructType::getFieldSize(u16 fieldIdx)`. -/
def Bytecode.StructType.getFieldSize (s : Bytecode.StructType) (fieldIdx : Nat) :
    Except Err OperandSize :=
  if s._size = 0 then Except.error Err.typeNotPacked
  else
    match Bytecode.vecGet s.fields fieldIdx with
    | Except.error e => Except.error e
    | Except.ok field => field.getSize

/-- The byte size of a field: the value of `Field::getSize()`, 0 where it raises. -/
def fieldBytes (f : Bytecode.Field) : Nat :=
  match f.getSize with
  | Except.ok size => size.value
  | Except.error _ => 0

/-- The sum of the byte sizes of a list of fields. -/
def fieldsBytes (fields : List Bytecode.Field) : Nat := (fields.map fieldBytes).sum

/-- A struct type with the fields `INT8`, `INT32` and a pointer. -/
def sampleStruct : Bytecode.StructType :=
  Bytecode.StructType.new 9 [] [⟨2, [], 0⟩, ⟨5, [], 0⟩, ⟨12, [], 0⟩] []

/-- A struct type with 8191 fields of type `INT64`. -/
def wideStruct : Bytecode.StructType :=
  Bytecode.StructType.new 9 [] (List.replicate 8191 ⟨6, [], 0⟩) []

/-- The function `Interval::addRange` together with the range list that the call leaves
in the interval: the list after the call, and whether the call raised
`InvalidRangeOrderException`. -/
def addRangeEffect (lifespans : List Lifespan) (newSpan : Lifespan) : List Lifespan × Bool :=
  match lifespans with
  | front :: _ =>
    if newSpan.from_ > front.from_ then (lifespans, true)
    else
      let r := addRangeLoop lifespans newSpan false
      if r.2 then (r.1, false) else (newSpan :: r.1, false)
  | [] => ([newSpan], false)

/-! ## CodeHeap.cpp

The bitmap `_bitmap` is the list of its bits. A page is named by its index in the heap:
the address of a segment is `_heap.get() + index * PAGE_SIZE`. The system calls behind
`pagesChangeResidence` and `pagesChangeAccess` are outside the embedding; whether they
succeed is a parameter. -/

/-- The constant `PAGE_SIZE`. -/
def PAGE_SIZE : Int := 4096

/-- The function `pagesFor(i64 size)`; `/` and `%` truncate towards zero. -/
def pagesFor (size : Int) : Int :=
  Int.tdiv size PAGE_SIZE + (if Int.tmod size PAGE_SIZE ≠ 0 then 1 else 0)

/-- Whether `pagesChangeResidence(address, size, COMMITTED)` and
`pagesChangeAccess(address, size, READ | WRITE)` return (rather than raise
`std::runtime_error`) for the page `index` and the size `size`. -/
structure PageSystem where
  commit : Nat → Int → Bool
  protect : Nat → Int → Bool

/-- A `CodeSegment` that `CodeHeap::allocate` returns: the page of its address and the
`allocationSize` that its deleter hands to `deallocate`. -/
structure CodeSegment where
  index : Nat
  allocationSize : Int
  deriving DecidableEq, Repr

/-- The search `for(i = 0; i != _bitmap.size(); ++i) if(!_bitmap[i])` of
`CodeHeap::allocate`: the first index whose bit is clear. -/
def firstClear : List Bool → Option Nat
  | [] => none
  | bit :: rest =>
    if !bit then some 0
    else
      match firstClear rest with
      | some i => some (i + 1)
      | none => none

/-- The function `CodeHeap::allocate(i64 requestedSize)`: the bitmap after the call, and
the segment or the exception (`std::logic_error`, or `std::runtime_error` of a system
call or of a full heap). -/
def CodeHeap.allocate (sys : PageSystem) (bitmap : List Bool) (requestedSize : Int) :
    List Bool × Except Err CodeSegment :=
  let pagesNeeded := pagesFor requestedSize
  if pagesNeeded > 1 then (bitmap, Except.error Err.logicError)
  else
    match firstClear bitmap with
    | some i =>
      let bitmap1 := bitmap.set i true
      let allocationSize := pagesNeeded * PAGE_SIZE
      if !sys.commit i allocationSize then (bitmap1, Except.error Err.runtimeError)
      else if !sys.protect i allocationSize then (bitmap1, Except.error Err.runtimeError)
      else (bitmap1, Except.ok ⟨i, allocationSize⟩)
    | none => (bitmap, Except.error Err.runtimeError)

/-- The loop `for(std::size_t i = 0; i != pages; ++i) _bitmap.set(index + i, false)` of
`CodeHeap::deallocate` with `count` iterations to go; `bitset::set` raises
`std::out_of_range` for a position beyond the bitmap. -/
def clearLoop : Nat → List Bool → Nat → Except Err (List Bool)
  | 0, bitmap, _ => Except.ok bitmap
  | count + 1, bitmap, position =>
    if position < bitmap.length then clearLoop count (bitmap.set position false) (position + 1)
    else Except.error Err.outOfRange

/-- The function `CodeHeap::deallocate(void* address, i64 size)` for the address of the
page `index`: the bitmap after the call. The comparison `i != pages` converts `pages`
to `std::size_t`; an exception of the system call is caught. -/
def CodeHeap.deallocate (bitmap : List Bool) (index : Nat) (size : Int) :
    Except Err (List Bool) :=
  clearLoop (pagesFor size % 18446744073709551616).toNat bitmap index

/-- The release of a segment: its deleter calls `deallocate(mem, allocationSize)`. -/
def CodeSegment.release (bitmap : List Bool) (segment : CodeSegment) : Except Err (List Bool) :=
  CodeHeap.deallocate bitmap segment.index segment.allocationSize

/-- A system whose calls succeed. -/
def PageSystem.reliable : PageSystem := ⟨fun _ _ => true, fun _ _ => true⟩

/-! ## Operands.hpp: the equality of operands -/

/-- The operator `MemOp::operator==`. -/
def MemOp.eq (a other : MemOp) : Bool :=
  decide (a.base = other.base) && decide (a.index = other.index) &&
    decide (a.scale = other.scale) && decide (a.offset = other.offset)

/-- The operator `RegMemOp::operator==`. -/
def RegMemOp.eq : RegMemOp → RegMemOp → Bool
  | RegMemOp.reg a, RegMemOp.reg b => decide (a = b)
  | RegMemOp.reg _, _ => false
  | RegMemOp.xmm a, RegMemOp.xmm b => decide (a = b)
  | RegMemOp.xmm _, _ => false
  | RegMemOp.mem a, RegMemOp.mem b => MemOp.eq a b
  | RegMemOp.mem _, _ => false

/-- The lexicographic order of memory operands by `(base, index, scale, offset)`, as the
specification words it. -/
def MemOp.lexLt (a b : MemOp) : Prop :=
  a.base < b.base ∨ (a.base = b.base ∧ (a.index < b.index ∨ (a.index = b.index ∧
    (a.scale < b.scale ∨ (a.scale = b.scale ∧ a.offset < b.offset)))))

/-! ## LIRCompiler.cpp: `buildCall`

The members of `LIRCompiler` that `buildCall` reads and writes are the state
`LirState`; `*id` is passed along as a `u16`, the iterators over the parameter registers
are the lists of the registers that are still to come. A member of a union that the
source leaves indeterminate is 0. -/

/-- The members `callerSaved()`, `callerSavedFloat()`, `parameters()` and
`parametersFloat()` of the `Architecture` template parameter of `LIRCompiler`. -/
structure CallArch where
  callerSaved : List Nat
  callerSavedFloat : List Nat
  parameters : List Nat
  parametersFloat : List Nat
  deriving Repr

/-- The class `AMD64` as `LIRCompiler` uses it. -/
def AMD64.calls : CallArch :=
  { callerSaved := [RAX, RDI, RSI, RDX, RCX, R8, R9, R10, R11],
    callerSavedFloat := [0, 1, 2, 3, 4, 5, 6, 7, 8, 9, 10, 11, 12, 13, 14],
    parameters := [RDI, RSI, RDX, RCX, R8, R9],
    parametersFloat := [0, 1, 2, 3, 4, 5, 6, 7] }

/-- The members of `LIRCompiler` that `buildCall` uses. -/
structure LirState where
  nextVR : Nat
  temporaryToVR : List (Nat × Nat)
  unknownToKnownVR : List (Nat × Nat)
  usages : List (Nat × List (Int × Usage))
  fixedToVR : List (Nat × Nat)
  fixedXMMToVR : List (Nat × Nat)
  overflowArgToVR : List (Nat × Nat)
  vrTypes : List (Nat × BType)
  deriving Repr

/-- The order of the `i32` keys. -/
def intLt (a b : Int) : Bool := decide (a < b)

/-- The function `LIRCompiler::use(vr, id, mustHaveReg)`:
`usages[vr].insert({(u16)(*id - 1), {mustHaveReg}})`. -/
def LirState.use (st : LirState) (vr : Nat) (id : Nat) (mustHaveReg : Bool) : LirState :=
  let usages0 := if (omFind natLt vr st.usages).isNone
    then omInsert natLt vr [] st.usages else st.usages
  let key : Int := ((toU16 ((id : Int) - 1) : Nat) : Int)
  let usages1 := omAdjust natLt vr (omInsert intLt key ⟨mustHaveReg⟩) usages0
  { st with usages := usages1 }

/-- The function `LIRCompiler::vrForFixed(RegOp reg)`. -/
def LirState.vrForFixed (st : LirState) (reg : Nat) : LirState × Nat :=
  match omFind natLt reg st.fixedToVR with
  | some v => (st, v)
  | none =>
    ({ st with nextVR := (st.nextVR + 1) % 65536,
               fixedToVR := omInsert natLt reg st.nextVR st.fixedToVR,
               vrTypes := omAssign st.nextVR ⟨false, 6⟩ st.vrTypes }, st.nextVR)

/-- The function `LIRCompiler::vrForFixedXMM(XMMOp reg)`. -/
def LirState.vrForFixedXMM (st : LirState) (reg : Nat) : LirState × Nat :=
  match omFind natLt reg st.fixedXMMToVR with
  | some v => (st, v)
  | none =>
    ({ st with nextVR := (st.nextVR + 1) % 65536,
               fixedXMMToVR := omInsert natLt reg st.nextVR st.fixedXMMToVR,
               vrTypes := omAssign st.nextVR ⟨false, 8⟩ st.vrTypes }, st.nextVR)

/-- The function `LIRCompiler::vrForStackArgument(u16 overflowCount, Type type)`. -/
def LirState.vrForStackArgument (st : LirState) (overflowCount : Nat) (type : BType) :
    LirState × Nat :=
  match omFind natLt overflowCount st.overflowArgToVR with
  | some v => (st, v)
  | none =>
    ({ st with nextVR := (st.nextVR + 1) % 65536,
               overflowArgToVR := omInsert natLt overflowCount st.nextVR st.overflowArgToVR,
               vrTypes := omAssign st.nextVR type st.vrTypes }, st.nextVR)

/-- The function `LIRCompiler::vrForTemporary(u16 temporary)`; `temporaryTypes` is
`function.temporaryTypes`. -/
def LirState.vrForTemporary (st : LirState) (temporaryTypes : List BType) (temporary : Nat) :
    Except Err (LirState × Nat) :=
  let first : Except Err LirState :=
    match omFind natLt temporary st.temporaryToVR with
    | some _ => Except.ok st
    | none =>
      match temporaryTypes[temporary]? with
      | none => Except.error Err.outOfRange
      | some type =>
        Except.ok { st with nextVR := (st.nextVR + 1) % 65536,
                            temporaryToVR := omInsert natLt temporary st.nextVR st.temporaryToVR,
                            vrTypes := omAssign st.nextVR type st.vrTypes }
  match first with
  | Except.error e => Except.error e
  | Except.ok st1 =>
    match omFind natLt temporary st1.temporaryToVR with
    | none => Except.error Err.undefined
    | some old =>
      if old > st1.nextVR then
        match temporaryTypes[temporary]? with
        | none => Except.error Err.outOfRange
        | some type =>
          let n := st1.nextVR
          Except.ok ({ st1 with nextVR := (n + 1) % 65536,
                                unknownToKnownVR := omAssign old n st1.unknownToKnownVR,
                                temporaryToVR := omAssign temporary n st1.temporaryToVR,
                                vrTypes := omAssign n type st1.vrTypes }, n)
      else Except.ok (st1, old)

/-- The statement `clearRegisters.erase(std::find(clearRegisters.begin(),
clearRegisters.end(), vr))`; erasing the end iterator is undefined. -/
def eraseFound (clearRegisters : List Nat) (vr : Nat) : Except Err (List Nat) :=
  if vr ∈ clearRegisters then Except.ok (clearRegisters.erase vr)
  else Except.error Err.undefined

/-- The two loops of `buildCall` that fill `clearRegisters`. -/
def fillClear (arch : CallArch) (st : LirState) : LirState × List Nat :=
  let r := arch.callerSaved.foldl (fun (s : LirState × List Nat) reg =>
    let v := s.1.vrForFixed reg
    (v.1, s.2 ++ [v.2])) (st, [])
  arch.callerSavedFloat.foldl (fun (s : LirState × List Nat) reg =>
    let v := s.1.vrForFixedXMM reg
    (v.1, s.2 ++ [v.2])) r

/-- What `buildCall` carries through its argument loop: the compiler state, `*id`, the
emitted instructions, `paramIterator` and `paramIteratorFloat` as the registers still
to come, `clearRegisters`, `arguments` and `overflowArgument`. -/
structure CallBuild where
  st : LirState
  id : Nat
  lirs : List Instruction
  paramIterator : List Nat
  paramIteratorFloat : List Nat
  clearRegisters : List Nat
  arguments : List Nat
  overflowArgument : Nat
  deriving Repr

/-- The function `LIRCompiler::loadJitEngine`. -/
def loadJitEngine (c : CallBuild) : Except Err CallBuild :=
  let id1 := (c.id + 1) % 65536
  let b := c.st.vrForFixed RBP
  let st1 := b.1.use b.2 id1 true
  match c.paramIterator with
  | [] => Except.error Err.undefined
  | reg :: rest =>
    let a := st1.vrForFixed reg
    let st2 := a.1.use a.2 id1 true
    match eraseFound c.clearRegisters a.2 with
    | Except.error e => Except.error e
    | Except.ok clear =>
      let movEngine : Instruction :=
        ⟨Operation.MOV_MEM, c.id, Payload.memmov a.2 b.2 (-8) false 0 0 OperandSize.QWORD false⟩
      Except.ok { c with st := st2, id := id1, paramIterator := rest,
                         clearRegisters := clear, lirs := c.lirs ++ [movEngine] }

/-- The body of the loop of `buildCall` over `tmpArguments`. -/
def passArgument (c : CallBuild) (arg : Nat) : Except Err CallBuild :=
  match omAt c.st.vrTypes arg with
  | Except.error e => Except.error e
  | Except.ok type =>
    let id1 := (c.id + 1) % 65536
    match type.isFloatingPoint, c.paramIteratorFloat, type.isInteger, c.paramIterator with
    | true, reg :: rest, _, _ =>
      let d := c.st.vrForFixedXMM reg
      let st1 := (d.1.use d.2 id1 true).use arg id1 false
      match omAt st1.vrTypes arg with
      | Except.error e => Except.error e
      | Except.ok srcType =>
        match eraseFound c.clearRegisters d.2 with
        | Except.error e => Except.error e
        | Except.ok clear =>
          let move : Instruction :=
            ⟨Operation.MOV, c.id, Payload.mov false 0 arg d.2 srcType.size⟩
          Except.ok { c with st := st1, id := id1, paramIteratorFloat := rest,
                             clearRegisters := clear, arguments := c.arguments ++ [d.2],
                             lirs := c.lirs ++ [move] }
    | _, _, true, reg :: rest =>
      let d := c.st.vrForFixed reg
      let st1 := (d.1.use d.2 id1 true).use arg id1 false
      match omAt st1.vrTypes arg with
      | Except.error e => Except.error e
      | Except.ok srcType =>
        match eraseFound c.clearRegisters d.2 with
        | Except.error e => Except.error e
        | Except.ok clear =>
          let move : Instruction :=
            ⟨Operation.MOV, c.id, Payload.mov false 0 arg d.2 srcType.size⟩
          Except.ok { c with st := st1, id := id1, paramIterator := rest,
                             clearRegisters := clear, arguments := c.arguments ++ [d.2],
                             lirs := c.lirs ++ [move] }
    | _, _, _, _ =>
      let d := c.st.vrForStackArgument c.overflowArgument type
      let st1 := (d.1.use d.2 id1 false).use arg id1 true
      let move : Instruction :=
        ⟨Operation.MOV, c.id, Payload.mov false 0 arg d.2 OperandSize.QWORD⟩
      Except.ok { c with st := st1, id := id1,
                         overflowArgument := (c.overflowArgument + 1) % 65536,
                         arguments := c.arguments ++ [d.2],
                         lirs := c.lirs ++ [move] }

/-- The destination register of a call that is not void: the fixed register of `XMM0`
for a floating-point temporary, of `RAX` otherwise. -/
def returnRegister (st : LirState) (temporaryTypes : List BType) (dstIdx : Nat) :
    Except Err (LirState × Nat × Nat) :=
  match st.vrForTemporary temporaryTypes dstIdx with
  | Except.error e => Except.error e
  | Except.ok (st1, dstVr) =>
    match omAt st1.vrTypes dstVr with
    | Except.error e => Except.error e
    | Except.ok type =>
      let r := if type.isFloatingPoint then st1.vrForFixedXMM 0 else st1.vrForFixed RAX
      Except.ok (r.1, dstVr, r.2)

/-- The loop of `buildCall` over `arguments`: `use(arg, id, argIndex++ <
parameters.size())`. -/
def useArguments (arch : CallArch) (id : Nat) : LirState → Nat → List Nat → LirState
  | st, _, [] => st
  | st, argIndex, arg :: rest =>
    useArguments arch id (st.use arg id (decide (argIndex < arch.parameters.length)))
      ((argIndex + 1) % 65536) rest

/-- The part of `buildCall` between the filling of `clearRegisters` and the argument
loop: a member call takes the register of `RAX` out of `clearRegisters`, a call of a
function with a negative index loads the engine pointer. -/
def prepareCall (c0 : CallBuild) (isMember : Bool) (fIdx : Int) : Except Err CallBuild :=
  if isMember then
    let rax := c0.st.vrForFixed RAX
    match eraseFound c0.clearRegisters rax.2 with
    | Except.error e => Except.error e
    | Except.ok clear => Except.ok { c0 with st := rax.1, clearRegisters := clear }
  else if fIdx < 0 then loadJitEngine c0
  else Except.ok c0

/-- The part of `buildCall` after the argument loop: the call instruction is built and
appended, then the move of the result. -/
def finishCall (arch : CallArch) (temporaryTypes : List BType) (c2 : CallBuild) (fIdx : Int)
    (isMember : Bool) (dstIdxOrVoid : Nat) : Except Err (LirState × Nat × List Instruction) :=
  let id1 := (c2.id + 1) % 65536
  let isVoid := decide (dstIdxOrVoid = 65535)
  let built : Except Err (LirState × Nat × Nat) :=
    if isMember then
      let rax := c2.st.vrForFixed RAX
      let st1 := rax.1.use rax.2 id1 true
      if isVoid then Except.ok (st1, 0, rax.2)
      else
        match returnRegister st1 temporaryTypes dstIdxOrVoid with
        | Except.error e => Except.error e
        | Except.ok (st2, _, dst) => Except.ok (st2.use dst id1 true, dst, rax.2)
    else if isVoid then Except.ok (c2.st, 0, 0)
    else
      match returnRegister c2.st temporaryTypes dstIdxOrVoid with
      | Except.error e => Except.error e
      | Except.ok (st2, _, dst) => Except.ok (st2.use dst id1 true, dst, 0)
  match built with
  | Except.error e => Except.error e
  | Except.ok (st3, dst, idxReg) =>
    let st4 := useArguments arch id1 st3 0 c2.arguments
    let st5 := c2.clearRegisters.foldl (fun s saved => s.use saved id1 true) st4
    let call : Instruction :=
      if isMember then
        ⟨Operation.CALL_IDX_IN_REG, c2.id,
          Payload.reg_call isVoid dst c2.arguments c2.clearRegisters idxReg⟩
      else
        ⟨Operation.CALL, c2.id, Payload.call isVoid dst c2.arguments c2.clearRegisters fIdx⟩
    let lirs1 := c2.lirs ++ [call]
    if dstIdxOrVoid ≠ 65535 then
      match returnRegister st5 temporaryTypes dstIdxOrVoid with
      | Except.error e => Except.error e
      | Except.ok (st6, dstVr, returnVr) =>
        let id2 := (id1 + 1) % 65536
        let st7 := st6.use returnVr id2 true
        match omAt st7.vrTypes returnVr with
        | Except.error e => Except.error e
        | Except.ok type =>
          let st8 := st7.use dstVr id2 false
          let saveResult : Instruction :=
            ⟨Operation.MOV, id1, Payload.mov false 0 returnVr dstVr type.size⟩
          Except.ok (st8, id2, lirs1 ++ [saveResult])
    else Except.ok (st5, id1, lirs1)

/-- The function `LIRCompiler::buildCall`: the compiler state, `*id` and `lirs` as the
call leaves them. -/
def buildCall (arch : CallArch) (temporaryTypes : List BType) (st : LirState)
    (lirs : List Instruction) (fIdx : Int) (isMember : Bool) (id : Nat)
    (tmpArguments : List Nat) (dstIdxOrVoid : Nat) :
    Except Err (LirState × Nat × List Instruction) :=
  let filled := fillClear arch st
  let c0 : CallBuild := ⟨filled.1, id, lirs, arch.parameters, arch.parametersFloat, filled.2, [], 0⟩
  match prepareCall c0 isMember fIdx with
  | Except.error e => Except.error e
  | Except.ok c1 =>
    match loopE passArgument c1 tmpArguments with
    | Except.error e => Except.error e
    | Except.ok c2 => finishCall arch temporaryTypes c2 fIdx isMember dstIdxOrVoid

/-- The three maps of `LIRCompiler` that name virtual registers of machine places. -/
inductive Bank where
  | fixed | xmm | stack
  deriving DecidableEq, Repr

/-- The entry of a register (or stack argument) in `fixedToVR`, `fixedXMMToVR` or
`overflowArgToVR`. -/
def LirState.look (st : LirState) (bank : Bank) (key : Nat) : Option Nat :=
  match bank with
  | Bank.fixed => omFind natLt key st.fixedToVR
  | Bank.xmm => omFind natLt key st.fixedXMMToVR
  | Bank.stack => omFind natLt key st.overflowArgToVR

/-- The numbering of the fixed virtual registers is sound: every entry of the three
maps is below `nextVR`, and no two entries name the same virtual register. -/
def LirState.Sound (st : LirState) : Prop :=
  (∀ bank key v, st.look bank key = some v → v < st.nextVR) ∧
  (∀ bank key bank1 key1 v, st.look bank key = some v → st.look bank1 key1 = some v →
    bank = bank1 ∧ key = key1)

/-- Every entry of the three maps of `st` is an entry of `st1`. -/
def LirState.Keeps (st st1 : LirState) : Prop :=
  ∀ bank key v, st.look bank key = some v → st1.look bank key = some v

/-- The `clears` member of a `CALL` or `CALL_IDX_IN_REG` instruction and its `args`. -/
def callLists (i : Instruction) : Option (List Nat × List Nat) :=
  match i.payload with
  | Payload.call _ _ args clears _ => some (args, clears)
  | Payload.reg_call _ _ args clears _ => some (args, clears)
  | _ => none

/-- An empty compiler state. -/
def LirState.empty : LirState := ⟨0, [], [], [], [], [], [], []⟩

/-- The state of `buildCall` during its argument loop agrees with the list `filled` of
the registers that `clearRegisters` was filled with and the list `extra` of the
registers that were taken out before the loop: the numbering is sound, every register
of `filled` is an entry of `fixedToVR` or `fixedXMMToVR`, and `clearRegisters` holds,
once each, the registers of `filled` that are neither in `arguments` nor in `extra`. -/
def CallBuild.Tracks (filled extra : List Nat) (c : CallBuild) : Prop :=
  c.st.Sound ∧ c.clearRegisters.Nodup ∧
  (∀ v ∈ filled, ∃ bank key, bank ≠ Bank.stack ∧ c.st.look bank key = some v) ∧
  (∀ v, v ∈ c.clearRegisters ↔ v ∈ filled ∧ v ∉ c.arguments ∧ v ∉ extra)

/-- A compiler state with two temporaries: virtual register 0 of type `INT32` and
virtual register 1 of type `FLP64`. -/
def callState : LirState :=
  { LirState.empty with nextVR := 2, temporaryToVR := [(0, 0), (1, 1)],
                        vrTypes := [(0, ⟨false, 5⟩), (1, ⟨false, 8⟩)] }

/-- What `buildCall` leaves for the call of the function with index -1 (a special
function, so the engine pointer is loaded) with the arguments `callState` holds, no
result, and `*id` 7. -/
def callResult : LirState × Nat × List Instruction :=
  match buildCall AMD64.calls [⟨false, 5⟩, ⟨false, 8⟩] callState [] (-1) false 7 [0, 1] 65535 with
  | Except.ok r => r
  | Except.error _ => (LirState.empty, 0, [])

/-! ## MachineCompiler::insertEdgeInstructions and the push/pop fallback -/

/-- The function `CodeBuilder::push(RegOp src)`. -/
def push (buf : List Nat) (src : Nat) : List Nat :=
  opcode (rex buf false false false (isExtended src)) (0x50 ||| (src &&& 0b111))

/-- The function `CodeBuilder::pop(RegOp dst)`. -/
def pop (buf : List Nat) (dst : Nat) : List Nat :=
  opcode (rex buf false false false (isExtended dst)) (0x58 ||| (dst &&& 0b111))

/-- The first loop of the fallback of `insertEdgeInstructions`: every source is pushed,
in the order of the list. -/
def pushSources : List SpillMovOp → List Nat → Except Err (List Nat)
  | [], buf => Except.ok buf
  | pair :: rest, buf =>
    if !pair.first.isReg || !pair.second.isReg then Except.error Err.runtimeError
    else
      match pair.first with
      | RegMemOp.reg src => pushSources rest (push buf src)
      | _ => Except.error Err.undefined

/-- The second loop of the fallback, over the list in reverse: every destination is
popped. -/
def popDestinations : List SpillMovOp → List Nat → Except Err (List Nat)
  | [], buf => Except.ok buf
  | pair :: rest, buf =>
    match pair.second with
    | RegMemOp.reg dst => popDestinations rest (pop buf dst)
    | _ => Except.error Err.undefined

/-- The loop of `insertEdgeInstructions` over a topological sorting. -/
def moveSorted : List SpillMovOp → List Nat → Except Err (List Nat)
  | [], buf => Except.ok buf
  | pair :: rest, buf =>
    match pair.first, pair.second with
    | RegMemOp.reg src, second => moveSorted rest (movRegToRegMem buf src second pair.size)
    | first, RegMemOp.reg dst => moveSorted rest (movRegMemToReg buf first dst pair.size)
    | _, _ => Except.error Err.notImplemented

/-- The function `MachineCompiler::insertEdgeInstructions` on the builder buffer, for
`edge = edgeInstructions[predecessor][successor]` and
`sorted = sortedInstructions[predecessor][successor]`. -/
def insertEdgeInstructions (buf : List Nat) (edge sorted : List SpillMovOp) :
    Except Err (List Nat) :=
  if edge.isEmpty then Except.ok buf
  else if sorted.isEmpty then
    match pushSources edge buf with
    | Except.error e => Except.error e
    | Except.ok buf1 => popDestinations edge.reverse buf1
  else moveSorted sorted buf

/-! ### The machine, as far as `push` and `pop` of a register go

The processor is not part of the repository. A state holds the sixteen general
registers (register 4 is the stack pointer) and the memory as quadwords by address;
values and addresses are 64-bit. -/

/-- A machine state: the general registers by number and the quadword stored at each
address. -/
structure Machine where
  regs : Nat → Nat
  mem : Nat → Nat

/-- The instruction `push r`: the stack pointer goes down by 8 and the value that `r`
had is stored there. -/
def Machine.push (m : Machine) (r : Nat) : Machine :=
  let sp := (m.regs RSP + 18446744073709551608) % 18446744073709551616
  ⟨fun x => if x = RSP then sp else m.regs x, fun a => if a = sp then m.regs r else m.mem a⟩

/-- The instruction `pop r`: the quadword at the stack pointer is loaded, the stack
pointer goes up by 8, then `r` receives the quadword. -/
def Machine.pop (m : Machine) (r : Nat) : Machine :=
  let sp := m.regs RSP
  ⟨fun x => if x = r then m.mem sp
    else if x = RSP then (sp + 8) % 18446744073709551616 else m.regs x, m.mem⟩

/-- The machine runs a byte string made of `push r` (`50+r`, or `41 50+r` for `r8` to
`r15`) and `pop r` (`58+r`, `41 58+r`) instructions; `ext` tells that the prefix `41`
has just been read. Any other byte is outside this semantics. -/
def execStack : List Nat → Bool → Machine → Option Machine
  | [], false, m => some m
  | [], true, _ => none
  | b :: rest, ext, m =>
    if b = 0x41 ∧ ext = false then execStack rest true m
    else if 0x50 ≤ b ∧ b < 0x58 then
      execStack rest false (m.push (b - 0x50 + (if ext then 8 else 0)))
    else if 0x58 ≤ b ∧ b < 0x60 then
      execStack rest false (m.pop (b - 0x58 + (if ext then 8 else 0)))
    else none

/-- A move between two general registers `rax` to `r15` other than the stack pointer. -/
def generalMove (p : SpillMovOp) : Bool :=
  match p.first, p.second with
  | RegMemOp.reg s, RegMemOp.reg d => decide (s < 16 ∧ d < 16 ∧ s ≠ RSP ∧ d ≠ RSP)
  | _, _ => false

/-- The bytes of the pushes of the sources of a list of register moves. -/
def pushesOf : List SpillMovOp → List Nat
  | [] => []
  | pair :: rest =>
    match pair.first with
    | RegMemOp.reg s => push [] s ++ pushesOf rest
    | _ => pushesOf rest

/-- The bytes of the pops of the destinations of a list of register moves. -/
def popsOf : List SpillMovOp → List Nat
  | [] => []
  | pair :: rest =>
    match pair.second with
    | RegMemOp.reg d => pop [] d ++ popsOf rest
    | _ => popsOf rest

/-- The moves of a swap of `rax` and `r9`. -/
def swapMoves : List SpillMovOp :=
  [⟨RegMemOp.reg RAX, RegMemOp.reg R9, OperandSize.QWORD⟩,
   ⟨RegMemOp.reg R9, RegMemOp.reg RAX, OperandSize.QWORD⟩]

/-- A machine state with the stack pointer at 4096 and the value `100 + r` in every other
register `r`. -/
def sampleMachine : Machine := ⟨fun r => if r = RSP then 4096 else 100 + r, fun _ => 0⟩

/-! ## LifetimeAnalyzer::run: definitions and parameters -/

/-- The body of the loop `for(lir::vr dstIdx : output)` of `LifetimeAnalyzer::run` for
the instruction `instruction` of block `b`, as `analyseInstruction` has it. -/
def defineOutput (b : Block) (instruction : Instruction) (s : List Interval × List Nat)
    (dstIdx : Nat) : Except Err (List Interval × List Nat) :=
  match updateAt s.1 dstIdx (fun iv =>
      let r : Except Err Interval :=
        if iv.lifespans = [] then
          match b.lirs.getLast? with
          | none => Except.error Err.undefined
          | some lastI => iv.addRange ⟨-1, lastI.id⟩
        else Except.ok iv
      match r with
      | Except.error e => Except.error e
      | Except.ok iv1 =>
        match iv1.lifespans with
        | [] => Except.error Err.undefined
        | front :: rest =>
          Except.ok { iv1 with lifespans := { front with from_ := instruction.id } :: rest })
  with
  | Except.error e => Except.error e
  | Except.ok ivs => Except.ok (ivs, osErase natLt dstIdx s.2)

/-- A block with a dead definition: `(0) mov i0, $1; (1) ret`. -/
def deadBlock : Block :=
  ⟨⟨2, [], []⟩, 0, [⟨Operation.MOV, 0, Payload.mov true 1 0 0 OperandSize.DWORD⟩,
                     ⟨Operation.RET, 1, Payload.none⟩]⟩

/-- The one block `(0) ret` of a function that does not use its parameter. -/
def idleBlock : Block := ⟨⟨1, [], []⟩, 0, [⟨Operation.RET, 0, Payload.none⟩]⟩

/-- The one block `(0) test i0; (1) ret` of a function that uses its parameter. -/
def testBlock : Block :=
  ⟨⟨2, [], []⟩, 0, [⟨Operation.TEST, 0, Payload.flag 0 FlagOpMode.EQ⟩,
                     ⟨Operation.RET, 1, Payload.none⟩]⟩

/-! ## Auxiliary notions for the order of intervals -/

/-- What `Interval::operator<` reads of an interval: `start()`, `argument`, `vr`,
`isFixed`, `hasUsage()` and, where there is a usage, `firstUsage()`. -/
structure OrderKey where
  start : Int
  argument : Bool
  vr : Nat
  isFixed : Bool
  hasUsage : Bool
  firstUsage : Nat
  deriving DecidableEq, Repr

/-- The key of an interval; 0 stands where `start()` or `firstUsage()` has no value. -/
def Interval.orderKey (i : Interval) : OrderKey :=
  let s : Int := match i.lifespans.head? with
    | some front => front.from_
    | none => 0
  let u : Nat := match i.usages.find? (fun pair => decide (pair.1 ≥ s)) with
    | some pair => toU16 pair.1
    | none => 0
  ⟨s, i.argument, i.vr, i.isFixed, i.usages.any (fun pair => decide (pair.1 ≥ s)), u⟩

/-- The tests of `Interval::operator<` on keys. -/
def keyLt (a b : OrderKey) : Bool :=
  if a.start < b.start then true
  else if a.start = b.start ∧ a.argument = true ∧ b.argument = false then true
  else if a.start = b.start ∧ a.argument = true ∧ b.argument = true then decide (a.vr < b.vr)
  else if a.start = b.start ∧ a.argument = false ∧ b.argument = false ∧ a.isFixed = true
      ∧ b.isFixed = false then true
  else if a.start = b.start ∧ a.argument = b.argument ∧ a.isFixed = b.isFixed then
    if a.hasUsage = false ∧ b.hasUsage = true then true
    else if a.hasUsage = true ∧ b.hasUsage = true then decide (a.firstUsage < b.firstUsage)
    else false
  else false

/-- The order of the specification on keys: by start; among equal starts argument
intervals first, by `vr`; then fixed before non-fixed; then intervals without a use
before intervals with one; then by the earlier first use. -/
def keyBefore (a b : OrderKey) : Prop :=
  a.start < b.start ∨ (a.start = b.start ∧
    ((a.argument = true ∧ b.argument = false) ∨
     (a.argument = true ∧ b.argument = true ∧ a.vr < b.vr) ∨
     (a.argument = false ∧ b.argument = false ∧
       ((a.isFixed = true ∧ b.isFixed = false) ∨
        (a.isFixed = b.isFixed ∧
          ((a.hasUsage = false ∧ b.hasUsage = true) ∨
           (a.hasUsage = true ∧ b.hasUsage = true ∧ a.firstUsage < b.firstUsage)))))))

/-- The rank of a key among the keys of one start position. -/
def OrderKey.rank (k : OrderKey) : Nat × Nat × Nat × Nat :=
  if k.argument then (0, k.vr, 0, 0)
  else (1, if k.isFixed then 0 else 1, if k.hasUsage then 1 else 0,
    if k.hasUsage then k.firstUsage else 0)

/-- Three intervals that start at 0: a fixed one, one with its first use at 2 and one
with its first use at 4. -/
def orderedIntervals : Interval × Interval × Interval :=
  ({ Interval.fresh with vr := 0, lifespans := [⟨0, 5⟩], isFixed := true },
   { Interval.fresh with vr := 1, lifespans := [⟨0, 3⟩], usages := [(2, ⟨true⟩)] },
   { Interval.fresh with vr := 2, lifespans := [⟨0, 9⟩], usages := [(4, ⟨false⟩)] })

/-! ## CodeBuilder `neg` / `not_` and the cases NEG and NOT of `MachineCompiler::run` -/

/-- The function `CodeBuilder::not_(RegOp dst)`: always a 64-bit operation. -/
def not_ (buf : List Nat) (dst : Nat) : List Nat :=
  modrm (opcode (rex buf true false false (isExtended dst)) 0xF7) 0b11 2 dst

/-- The function `CodeBuilder::neg(RegOp dst, OperandSize size)`. -/
def neg (buf : List Nat) (dst : Nat) (size : OperandSize) : List Nat :=
  modrm (opcode (prefixes buf size dst (RegMemOp.reg dst))
    (if size = OperandSize.BYTE then 0xF6 else 0xF7)) 0b11 3 dst

/-- The accessor `RegMemOp::reg()`: the union member `_rop`, which is indeterminate
unless the operand was constructed from a general register. -/
def RegMemOp.rop : RegMemOp → Except Err Nat
  | RegMemOp.reg r => Except.ok r
  | _ => Except.error Err.undefined

/-- The body of `case lir::NOT` in the switch of `MachineCompiler::run`:
`operandFor(id, instruction.unary.dst)`, then `builder.not_(reg.reg())`. -/
def caseNOT (intervals : List Interval) (stack : StackAllocator) (buf : List Nat)
    (id dst : Nat) : Except Err (List Nat) :=
  match operandFor intervals stack id dst with
  | Except.error e => Except.error e
  | Except.ok operand =>
    match operand.rop with
    | Except.error e => Except.error e
    | Except.ok r => Except.ok (not_ buf r)

/-- The body of `case lir::NEG` in the switch of `MachineCompiler::run`:
`operandFor(id, instruction.unary.dst)`, then
`builder.neg(reg.reg(), vrTypes.at(instruction.unary.dst).size())`. -/
def caseNEG (intervals : List Interval) (stack : StackAllocator) (vrTypes : List (Nat × BType))
    (buf : List Nat) (id dst : Nat) : Except Err (List Nat) :=
  match operandFor intervals stack id dst with
  | Except.error e => Except.error e
  | Except.ok operand =>
    match operand.rop with
    | Except.error e => Except.error e
    | Except.ok r =>
      match omAt vrTypes dst with
      | Except.error e => Except.error e
      | Except.ok type => Except.ok (neg buf r type.size)

/-- The cases `lir::NEG` and `lir::NOT` of the switch over `instruction.operation` in
`MachineCompiler::run`, with `id = instruction.id`. The block of `case lir::NEG` does not
end in `break`, so control continues in the block of `case lir::NOT`, which ends in
`break`. The other cases of the switch are outside this definition, which raises
`notImplemented` for them. -/
def runUnary (intervals : List Interval) (stack : StackAllocator)
    (vrTypes : List (Nat × BType)) (buf : List Nat) (instruction : Instruction) :
    Except Err (List Nat) :=
  match instruction.operation, instruction.payload with
  | Operation.NEG, Payload.unary dst =>
    match caseNEG intervals stack vrTypes buf instruction.id dst with
    | Except.error e => Except.error e
    | Except.ok buf1 => caseNOT intervals stack buf1 instruction.id dst
  | Operation.NOT, Payload.unary dst => caseNOT intervals stack buf instruction.id dst
  | Operation.NEG, _ => Except.error Err.undefined
  | Operation.NOT, _ => Except.error Err.undefined
  | _, _ => Except.error Err.notImplemented

/-- An interval of virtual register 0 that lives from 0 to 3 in the general register
`reg`. -/
def unaryInterval (reg : Nat) (type : BType) : Interval :=
  { Interval.fresh with lifespans := [⟨0, 3⟩], vr := 0, type := type, _reg := reg }

/-! ## Common positions of two range lists -/

/-- The position `p` lies in a range of the list. -/
def InRanges (l : List Lifespan) (p : Int) : Prop := ∃ a ∈ l, a.from_ ≤ p ∧ p ≤ a.to_

/-- The position `p` lies in a range of both lists. -/
def Common (l m : List Lifespan) (p : Int) : Prop := InRanges l p ∧ InRanges m p

/-- Two parameter intervals: both begin at -1, before the first instruction. -/
def entryIntervals : Interval × Interval :=
  ({ Interval.fresh with vr := 0, argument := true, lifespans := [⟨-1, 3⟩] },
   { Interval.fresh with vr := 1, argument := true, lifespans := [⟨-1, 5⟩] })

/-- Two intervals with holes: `[0,2] [10,12]` and `[4,6] [11,20]`. -/
def holeIntervals : Interval × Interval :=
  ({ Interval.fresh with vr := 3, lifespans := [⟨0, 2⟩, ⟨10, 12⟩] },
   { Interval.fresh with vr := 4, lifespans := [⟨4, 6⟩, ⟨11, 20⟩] })

/-! ## A three-block scenario for the edge moves

Block 0 (LIR ids 0..1) jumps over block 1 (ids 2..3) to block 2 (ids 4..5); virtual
register 5 has two intervals, `[0,2]` and `[3,5]` (it was split at id 3). -/

/-- An instruction without operands. -/
def lirOf (op : Operation) (id : Nat) : Instruction := ⟨op, id, Payload.none⟩

/-- The blocks of the scenario. -/
def demoBlocks : List Block :=
  [⟨⟨2, [2], []⟩, 0, [lirOf Operation.NOP 0, ⟨Operation.JMP, 1, Payload.jump 2⟩]⟩,
   ⟨⟨2, [2], []⟩, 1, [lirOf Operation.NOP 2, ⟨Operation.JMP, 3, Payload.jump 2⟩]⟩,
   ⟨⟨2, [], [0, 1]⟩, 2, [lirOf Operation.NOP 4, lirOf Operation.RET 5]⟩]

/-- An interval of virtual register 5 with one range and the given registers. -/
def demoInterval (lo hi : Int) (reg xmm : Nat) (type : BType) : Interval :=
  { lifespans := [⟨lo, hi⟩], vr := 5, type := type, _reg := reg, _xmm := xmm,
    stack := some ⟨StackType.SCRATCH, OperandSize.QWORD, 0⟩, argument := false, phi := false,
    definingPhi := lirOf Operation.NOP 0, hasFollower := false, isFixed := false, usages := [] }

/-- Virtual register 5 in RCX up to id 2 and in RAX from id 3 on. -/
def demoIntervalsReg : List Interval :=
  [demoInterval 0 2 RCX XMMNONE ⟨false, 6⟩, demoInterval 3 5 RAX XMMNONE ⟨false, 6⟩]

/-- Virtual register 5 in XMM1 up to id 2 and in XMM0 from id 3 on. -/
def demoIntervalsXmm : List Interval :=
  [demoInterval 0 2 NONE 1 ⟨false, 8⟩, demoInterval 3 5 NONE 0 ⟨false, 8⟩]

/-! ## A function with a phi node

Block 0 is `(0) mov i0, $1; (1) jmp block 1`, block 1 is
`(2) phi 1 = (0 from 0); (3) test i1; (4) ret`; the usages, types and hints are those
that `LIRCompiler` records for these instructions. -/

/-- The two blocks of the function. -/
def phiBlocks : List Block :=
  [ ⟨⟨2, [1], []⟩, 0, [⟨Operation.MOV, 0, Payload.mov true 1 0 0 OperandSize.DWORD⟩,
                        ⟨Operation.JMP, 1, Payload.jump 1⟩]⟩,
    ⟨⟨3, [], [0]⟩, 1, [⟨Operation.PHI, 2, Payload.phi ⟨1, [⟨0, 0⟩]⟩⟩,
                        ⟨Operation.TEST, 3, Payload.flag 1 FlagOpMode.EQ⟩,
                        ⟨Operation.RET, 4, Payload.none⟩]⟩ ]

/-- The phi node of block 1. -/
def phiNode : Instruction := ⟨Operation.PHI, 2, Payload.phi ⟨1, [⟨0, 0⟩]⟩⟩

/-- What `RegisterAllocation<AMD64>` is constructed from for the function. -/
def phiEnv : AllocEnv :=
  { arch := AMD64, nParams := 0,
    usages := [(0, [(0, ⟨true⟩)]), (1, [(2, ⟨false⟩), (3, ⟨false⟩)])],
    fixedToVR := [], fixedXMMToVR := [], overflowArgToVR := [],
    vrTypes := [(0, ⟨false, 5⟩), (1, ⟨false, 5⟩)],
    hintSame := [[0, 1]],
    pick := pickMin }

/-- The intervals that `LifetimeAnalyzer::run` computes for the function. -/
def phiIntervals : List Interval :=
  [ { Interval.fresh with vr := 0, lifespans := [⟨0, 1⟩] },
    { Interval.fresh with vr := 1, lifespans := [⟨2, 3⟩], phi := true, definingPhi := phiNode } ]

/-- The interval of `i0` after the allocation. -/
def phiHandled0 : Interval :=
  { Interval.fresh with vr := 0, lifespans := [⟨0, 1⟩], type := ⟨false, 5⟩, _reg := RAX,
                        usages := [(0, ⟨true⟩)] }

/-- The interval of `i1` after the allocation. -/
def phiHandled1 : Interval :=
  { Interval.fresh with vr := 1, lifespans := [⟨2, 3⟩], type := ⟨false, 5⟩, _reg := RAX,
                        phi := true, definingPhi := phiNode,
                        usages := [(2, ⟨false⟩), (3, ⟨false⟩)] }

/-- The state of the allocation after `run` for the function. -/
def phiResult : AllocState :=
  { unhandled := [], active := [phiHandled1], inactive := [], fixed := [],
    handled := [phiHandled0, phiHandled1], usedRegisters := [RAX],
    stackAllocator := ⟨0, 0, 8, true⟩, fixedToInterval := [], fixedXMMToInterval := [],
    stackFrameSpills := [] }

/-! ## A function with two overlapping loops

Block 0 is `(0) mov i0, $1; (1) jmp block 1`, block 1 is `(2) jmp block 2`, block 2 is
`(3) jmp block 3`, block 3 is `(4) test i0; (5) jnz block 1` and falls through to block
4, block 4 is `(6) test i0; (7) jnz block 2` and falls through to block 5, block 5 is
`(8) ret`. The loop of header 1 ends in block 3, the loop of header 2 in block 4. -/

/-- The six blocks of the function. -/
def loopBlocks : List Block :=
  [ ⟨⟨2, [1], []⟩, 0, [⟨Operation.MOV, 0, Payload.mov true 1 0 0 OperandSize.DWORD⟩,
                        ⟨Operation.JMP, 1, Payload.jump 1⟩]⟩,
    ⟨⟨1, [2], [0, 3]⟩, 1, [⟨Operation.JMP, 2, Payload.jump 2⟩]⟩,
    ⟨⟨1, [3], [1, 4]⟩, 2, [⟨Operation.JMP, 3, Payload.jump 3⟩]⟩,
    ⟨⟨2, [1, 4], [2]⟩, 3, [⟨Operation.TEST, 4, Payload.flag 0 FlagOpMode.EQ⟩,
                            ⟨Operation.JNZ, 5, Payload.jump 1⟩]⟩,
    ⟨⟨2, [2, 5], [3]⟩, 4, [⟨Operation.TEST, 6, Payload.flag 0 FlagOpMode.EQ⟩,
                            ⟨Operation.JNZ, 7, Payload.jump 2⟩]⟩,
    ⟨⟨1, [], [4]⟩, 5, [⟨Operation.RET, 8, Payload.none⟩]⟩ ]

/-- The instruction `(6) test i0` of block 4. -/
def loopTest : Instruction := ⟨Operation.TEST, 6, Payload.flag 0 FlagOpMode.EQ⟩

/-- The intervals that `LifetimeAnalyzer::run` computes for the function. -/
def loopIntervals : List Interval :=
  [ { Interval.fresh with vr := 0, lifespans := [⟨0, 1⟩, ⟨2, 5⟩] } ]

/-- An interval with a lifetime hole between its two ranges. -/
def gapInterval : Interval :=
  { Interval.fresh with vr := 3, lifespans := [⟨0, 2⟩, ⟨10, 12⟩] }

/-- The follower lookup of the spill-move part of `MachineCompiler::run`: the first
interval `f` with `f.vr == vr && f.start() == startsAt`; the source dereferences the
result of `std::find_if` without a test, which is undefined when no interval matches. -/
def followerOf : List Interval → Nat → Nat → Except Err Interval
  | [], _, _ => Except.error Err.undefined
  | f :: rest, startsAt, vr =>
    if f.vr = vr then
      match f.start with
      | Except.error e => Except.error e
      | Except.ok s => if s = (startsAt : Int) then Except.ok f else followerOf rest startsAt vr
    else followerOf rest startsAt vr

/-! ## Sequences of reservations of the stack allocator -/

/-- A call of `reserveArgument(index)` or of `reserveScratch(size)`. -/
inductive Reservation where
  | argument (index : Nat)
  | scratch
  deriving DecidableEq, Repr

/-- The calls of a sequence, one after the other, on the allocator `a`. -/
def reserveAll : StackAllocator → List Reservation → Except Err StackAllocator
  | a, [] => Except.ok a
  | a, Reservation.argument index :: rest =>
    match a.reserveArgument index with
    | Except.error e => Except.error e
    | Except.ok r => reserveAll r.2 rest
  | a, Reservation.scratch :: rest =>
    match a.reserveScratch with
    | Except.error e => Except.error e
    | Except.ok r => reserveAll r.2 rest

/-! ## The slots of a sequence of reservations -/

/-- The calls of a sequence, one after the other, on the allocator `a`, with the slots
that the calls return. -/
def reserveSlots : StackAllocator → List Reservation →
    Except Err (List StackSlot × StackAllocator)
  | a, [] => Except.ok ([], a)
  | a, Reservation.argument index :: rest =>
    match a.reserveArgument index with
    | Except.error e => Except.error e
    | Except.ok r =>
      match reserveSlots r.2 rest with
      | Except.error e => Except.error e
      | Except.ok q => Except.ok (r.1 :: q.1, q.2)
  | a, Reservation.scratch :: rest =>
    match a.reserveScratch with
    | Except.error e => Except.error e
    | Except.ok r =>
      match reserveSlots r.2 rest with
      | Except.error e => Except.error e
      | Except.ok q => Except.ok (r.1 :: q.1, q.2)

/-- The indices of the `reserveArgument` calls of a sequence. -/
def argumentIndices : List Reservation → List Nat
  | [] => []
  | Reservation.argument index :: rest => index :: argumentIndices rest
  | Reservation.scratch :: rest => argumentIndices rest

/-- The number of `reserveScratch` calls of a sequence. -/
def scratchCount : List Reservation → Nat
  | [] => 0
  | Reservation.argument _ :: rest => scratchCount rest
  | Reservation.scratch :: rest => scratchCount rest + 1

/-- The 8-byte regions at the offsets `o1` and `o2` from the stack pointer are
disjoint. -/
def RegionsDisjoint (o1 o2 : Int) : Prop := o1 + 8 ≤ o2 ∨ o2 + 8 ≤ o1

/-- The allocator addresses the slot at the offset `off` from `RSP`. -/
def StackAllocator.Addresses (a : StackAllocator) (slot : StackSlot) (off : Int) : Prop :=
  a.getAddressing slot = Except.ok ⟨RSP, NONE, 0, off⟩

/-! ## The result list `handled` as `MachineCompiler::intervalFor` reads it -/

/-- The test `interval.start() <= id && interval.end() >= id` of `intervalFor`. -/
def Interval.contains (i : Interval) (id : Int) : Bool :=
  match i.start, i.end_ with
  | Except.ok s, Except.ok e => decide (s ≤ id) && decide (e ≥ id)
  | _, _ => false

/-- The intervals of `handled` that `intervalFor(id, vr)` can return: those of `vr`
whose range from `start()` to `end()` contains `id`. -/
def holders (handled : List Interval) (vr : Nat) (id : Int) : List Interval :=
  handled.filter (fun i => decide (i.vr = vr) && i.contains id)

/-- An interval has a storage: a general register, an XMM register or a stack slot. -/
def Interval.hasStorage (i : Interval) : Bool :=
  decide (i._reg ≠ NONE) || decide (i._xmm ≠ XMMNONE) || i.stack.isSome

/-- The ranges of an interval are well formed: every range has `from <= to`, and every
range ends before the ranges behind it start. -/
def RangesOK (l : List Lifespan) : Prop :=
  (∀ a ∈ l, a.from_ ≤ a.to_) ∧ l.Pairwise (fun a b => a.to_ < b.from_)

/-- The range list is sorted by `from`. -/
def SortedByFrom (l : List Lifespan) : Prop := l.Pairwise (fun a b => a.from_ ≤ b.from_)

/-- Two ranges are disjoint: no position lies in both. -/
def Lifespan.Disjoint (a b : Lifespan) : Prop :=
  ∀ p : Int, ¬ ((a.from_ ≤ p ∧ p ≤ a.to_) ∧ (b.from_ ≤ p ∧ p ≤ b.to_))

/-- The ranges of the list are pairwise disjoint. -/
def PairwiseDisjoint (l : List Lifespan) : Prop := l.Pairwise Lifespan.Disjoint

/-- Every range of the list has `from <= to`. -/
def WellFormed (l : List Lifespan) : Prop := ∀ a ∈ l, a.from_ ≤ a.to_

/-! ### Auxiliary notions for the proof of the allocation -/

/-- The part of an interval that the proof follows: its register and its ranges. -/
def shape (i : Interval) : Nat × List Lifespan := (i.vr, i.lifespans)

/-- Every range of `l` ends before every range of `m` starts. -/
def Before (l m : List Lifespan) : Prop := ∀ a ∈ l, ∀ b ∈ m, a.to_ < b.from_

/-- Two range lists of one virtual register lie apart. -/
def Apart (a b : Nat × List Lifespan) : Prop := a.1 = b.1 → Before a.2 b.2 ∨ Before b.2 a.2

/-- Every range of `l` lies within a range of `m`. -/
def Within (l m : List Lifespan) : Prop :=
  ∀ a ∈ l, ∃ b ∈ m, b.from_ ≤ a.from_ ∧ a.to_ ≤ b.to_

/-- How the shapes of the intervals that the allocator holds evolve: they are
reordered, one is split in two, or one without ranges is dropped. -/
inductive Ev : List (Nat × List Lifespan) → List (Nat × List Lifespan) → Prop
  | perm {a b : List (Nat × List Lifespan)} : a.Perm b → Ev a b
  | split {v : Nat} {l h t : List Lifespan} {rest : List (Nat × List Lifespan)} (pos : Int) :
      splitLoop pos l = (h, t) → Ev ((v, l) :: rest) ((v, h) :: (v, t) :: rest)
  | drop {v : Nat} {rest : List (Nat × List Lifespan)} : Ev ((v, []) :: rest) rest
  | trans {a b c : List (Nat × List Lifespan)} : Ev a b → Ev b c → Ev a c

/-- The invariant of the shapes: well-formed ranges, the shapes of one register lie
apart, and every position that `C` names is covered. -/
structure Good (C : Nat → Nat → Prop) (S : List (Nat × List Lifespan)) : Prop where
  ranges : ∀ s ∈ S, RangesOK s.2
  apart : S.Pairwise Apart
  cover : ∀ v p, C v p → ∃ s ∈ S, s.1 = v ∧ covers s.2 p = true

/-- All intervals that the allocator holds. -/
def AllocState.parts (st : AllocState) : List Interval :=
  st.unhandled ++ st.active ++ st.inactive ++ st.handled

/-- All intervals that the allocator holds during an iteration. -/
def Work.parts (w : Work) : List Interval := w.current :: w.st.parts

/-- The intervals that have been given a place: `active`, `inactive` and `handled`. -/
def AllocState.held (st : AllocState) : List Interval := st.active ++ st.inactive ++ st.handled

/-- The storage invariant of the scan: every interval that has been given a place has
a storage, and so has every fixed interval that waits in `unhandled`. -/
def StorOK (st : AllocState) : Prop :=
  (∀ i ∈ st.held, i.hasStorage = true) ∧
  (∀ i ∈ st.unhandled, i.isFixed = true → i.hasStorage = true)

/-- Every key of the map `m` is one of `regs`. -/
def KeysIn {V : Type} (regs : List Nat) (m : List (Nat × V)) : Prop := ∀ p ∈ m, p.1 ∈ regs

/-- What the storage of the result relies on: the register lists of the architecture
and the keys of the fixed maps name registers (not `NONE`, not `XMMNONE`), every type
in `vrTypes` is an integer or a floating-point type, and no input interval is fixed
before the allocation. -/
structure StorageReady (env : AllocEnv) (lifespans : List Interval) : Prop where
  registers : NONE ∉ env.arch.registers
  registersXmm : XMMNONE ∉ env.arch.registersXmm
  parameters : NONE ∉ env.arch.parameters
  parametersFloat : XMMNONE ∉ env.arch.parametersFloat
  fixedToVR : ∀ p ∈ env.fixedToVR, p.1 ≠ NONE
  fixedXMMToVR : ∀ p ∈ env.fixedXMMToVR, p.1 ≠ XMMNONE
  vrTypes : ∀ p ∈ env.vrTypes, p.2.isInteger = true ∨ p.2.isFloatingPoint = true
  notFixed : ∀ i ∈ lifespans, i.isFixed = false

/-! ## The bytecode format as the specification words it -/

/-- The opcode values of the bytecode table: 0..15, 18..23, 25, 26, 28..33, 100..106,
129, 130. -/
def opcodeTable : List Nat :=
  List.range 16 ++ [18, 19, 20, 21, 22, 23] ++ [25, 26] ++ [28, 29, 30, 31, 32, 33] ++
    [100, 101, 102, 103, 104, 105, 106] ++ [129, 130]

/-- The little-endian bytes `bs` read as a two's-complement signed integer of
`bs.length` bytes. -/
def signedLE (bs : List Nat) : Int :=
  if Bytecode.leValue bs < 2 ^ (8 * bs.length - 1) then (Bytecode.leValue bs : Int)
  else (Bytecode.leValue bs : Int) - 2 ^ (8 * bs.length)

/-! ## Byte layouts as the specification words them -/

/-- The `k`-th byte (least significant first) of the two-complement encoding of `v` in
`8 * n` bits. -/
def leByte (n : Nat) (v : Int) (k : Nat) : Nat :=
  ((v % (2 : Int) ^ (8 * n)).toNat / 256 ^ k) % 256

/-- The little-endian two-complement encoding of `v` in `n` bytes. -/
def leBytes (n : Nat) (v : Int) : List Nat := (List.range n).map (leByte n v)

/-- The binary logarithm of a scale factor in `{1, 2, 4, 8}`. -/
def scaleLog (s : Nat) : Nat := if s = 1 then 0 else if s = 2 then 1 else if s = 4 then 2 else 3

/-- The bytes of a QWORD store `mov [mem], src` as the specification describes them:
REX, opcode `0x89`, ModRM, optional SIB, displacement. -/
def storeSpec (src : Nat) (m : MemOp) : List Nat :=
  let rexByte := 0x48 ||| (if R8 ≤ src then 4 else 0) |||
    (if m.index ≠ NONE ∧ R8 ≤ m.index then 2 else 0) ||| (if R8 ≤ m.base then 1 else 0)
  let rm := if m.index ≠ NONE ∨ m.base &&& 7 = 4 then 4 else m.base &&& 7
  let md := if m.offset = 0 ∧ m.base &&& 7 ≠ 5 then 0
    else if -128 ≤ m.offset ∧ m.offset ≤ 127 then 1 else 2
  let sibBytes := if rm = 4 then
      [if m.index ≠ NONE then
         (scaleLog m.scale <<< 6) ||| ((m.index &&& 7) <<< 3) ||| (m.base &&& 7)
       else (0 <<< 6) ||| (4 <<< 3) ||| (m.base &&& 7)]
    else []
  let disp := if md = 0 then [] else if md = 1 then leBytes 1 m.offset
    else leBytes 4 m.offset
  [rexByte, 0x89, (md <<< 6) ||| ((src &&& 7) <<< 3) ||| rm] ++ sibBytes ++ disp

/-- The bytes of `movimm` as the specification describes them. -/
def movimmSpec (imm : Int) (dst : Nat) : List Nat :=
  if imm = 0 then
    (if R8 ≤ dst then [0x4D] else []) ++ [0x31, (3 <<< 6) ||| ((dst &&& 7) <<< 3) ||| (dst &&& 7)]
  else if -2147483648 ≤ imm ∧ imm ≤ 2147483647 then
    [0x48 ||| (if R8 ≤ dst then 1 else 0), 0xC7, (3 <<< 6) ||| (0 <<< 3) ||| (dst &&& 7)]
      ++ leBytes 4 imm
  else
    [0x48 ||| (if R8 ≤ dst then 1 else 0), 0xB8 ||| (dst &&& 7)] ++ leBytes 8 imm

/-! ## JitEngine.cpp and SpecialFunctions.hpp: the function table -/

/-- The macro `SPECIAL_FUNCTIONS`. -/
def SPECIAL_FUNCTIONS : Nat := 8

/-- The special functions, by the macro pair `SPECIAL_F_IDX_*` / `SPECIAL_F_PTR_*`. -/
inductive SpecialFunction where
  | ALLOCATE | START | END | PRINT_FLOAT | ALLOC_ARRAY | PRINTA_INT | PRINT_DOUBLE | EXIT
  deriving DecidableEq, Repr

/-- The macro `SPECIAL_F_IDX_*` of a special function. -/
def SpecialFunction.idx : SpecialFunction → Nat
  | ALLOCATE => 0
  | START => 1
  | END => 2
  | PRINT_FLOAT => 3
  | ALLOC_ARRAY => 4
  | PRINTA_INT => 5
  | PRINT_DOUBLE => 6
  | EXIT => 7

/-- What an entry of `_functionTable` points to: `jit_stub`, `jit_member_stub`, the
function `SPECIAL_F_PTR_*` of a special function, the block of the globals, or the
engine itself. -/
inductive TableEntry where
  | jitStub
  | memberStub
  | special (f : SpecialFunction)
  | globals
  | engine
  deriving DecidableEq, Repr

/-- The assignment `v[i] = x` on a `std::vector`; an index out of range is undefined. -/
def vecSet {T : Type} (v : List T) (i : Nat) (x : T) : Except Err (List T) :=
  if i < v.length then Except.ok (v.set i x) else Except.error Err.undefined

/-- The set `virtualFunctionIndices` of the constructor of `JitEngine`: the entries of
all `vTable`s. -/
def virtualFunctionIndices (program : Bytecode.Program) : List Nat :=
  program.types.foldl (fun s typePair =>
    typePair.2.vTable.foldl (fun s1 fIdx => osInsert natLt fIdx s1) s) []

/-- The assignments of the constructor of `JitEngine` to the first entries of the table,
in the order of the source: the special functions at
`SPECIAL_FUNCTIONS - 1 - SPECIAL_F_IDX_*`, the globals at `SPECIAL_FUNCTIONS`, the engine
at `SPECIAL_FUNCTIONS + 1`. -/
def headAssignments : List (Nat × TableEntry) :=
  [(SPECIAL_FUNCTIONS - 1 - SpecialFunction.EXIT.idx, TableEntry.special SpecialFunction.EXIT),
   (SPECIAL_FUNCTIONS - 1 - SpecialFunction.PRINT_DOUBLE.idx,
     TableEntry.special SpecialFunction.PRINT_DOUBLE),
   (SPECIAL_FUNCTIONS - 1 - SpecialFunction.PRINTA_INT.idx,
     TableEntry.special SpecialFunction.PRINTA_INT),
   (SPECIAL_FUNCTIONS - 1 - SpecialFunction.ALLOC_ARRAY.idx,
     TableEntry.special SpecialFunction.ALLOC_ARRAY),
   (SPECIAL_FUNCTIONS - 1 - SpecialFunction.PRINT_FLOAT.idx,
     TableEntry.special SpecialFunction.PRINT_FLOAT),
   (SPECIAL_FUNCTIONS - 1 - SpecialFunction.START.idx, TableEntry.special SpecialFunction.START),
   (SPECIAL_FUNCTIONS - 1 - SpecialFunction.END.idx, TableEntry.special SpecialFunction.END),
   (SPECIAL_FUNCTIONS - 1 - SpecialFunction.ALLOCATE.idx,
     TableEntry.special SpecialFunction.ALLOCATE),
   (SPECIAL_FUNCTIONS, TableEntry.globals),
   (SPECIAL_FUNCTIONS + 1, TableEntry.engine)]

/-- The member `_functionTable` as the constructor `JitEngine::JitEngine` leaves it. -/
def JitEngine.functionTable (program : Bytecode.Program) : Except Err (List TableEntry) :=
  let t0 := List.replicate (program.functions.length + 1 + 1 + SPECIAL_FUNCTIONS)
    TableEntry.jitStub
  match loopE (fun t fIdx => vecSet t (fIdx + 1 + 1 + SPECIAL_FUNCTIONS) TableEntry.memberStub)
      t0 (virtualFunctionIndices program) with
  | Except.error e => Except.error e
  | Except.ok t1 => loopE (fun t p => vecSet t p.1 p.2) t1 headAssignments

/-- The position of the table that `JitEngine::execute` hands to the compiled code as
`fptable`: `_functionTable.data() + SPECIAL_FUNCTIONS + 1 + 1`. -/
def fptable : Nat := SPECIAL_FUNCTIONS + 1 + 1

/-- The function `JitEngine::specialFunctionIndex(u16 index)`. -/
def specialFunctionIndex (index : Nat) : Int := 0 - (index : Int) - 1 - 1 - 1

/-- The entry at the index `rel` relative to `fptable`. -/
def entryAt (table : List TableEntry) (rel : Int) : Option TableEntry :=
  if 0 ≤ (fptable : Int) + rel then table[((fptable : Int) + rel).toNat]? else none

/-- The entry that an 8-byte access at `[RBP + offset]` reads when `RBP` holds
`fptable`. -/
def entryAtOffset (table : List TableEntry) (offset : Int) : Option TableEntry :=
  if offset % 8 = 0 then entryAt table (offset / 8) else none

/-- The offset of the case `lir::CALL` of `MachineCompiler::run`:
`builder.call(RBP, instruction.call.function * 8)`. -/
def callOffset (function : Int) : Int := function * 8

/-- The offset of the load of the address of the globals in the cases `GLOB_LOAD` and
`GLOB_STORE` of `LIRCompiler`: `loadGlobalAddress.memmov.offset = (i32) -16`, with base
`vrForFixed(RBP)`. -/
def globalAddressOffset : Int := -16

/-- The offset of the load of the engine pointer in `LIRCompiler::loadJitEngine`:
`movEngine.memmov.offset = -8`, with base `vrForFixed(RBP)`. -/
def engineOffset : Int := -8

/-- A program with one type whose `vTable` names the function 1, and two functions. -/
def tableProgram : Bytecode.Program :=
  { globals := [],
    types := [(1, ⟨1, [], [], [1], 0⟩)],
    functions := [⟨[], [], ⟨false, 0⟩, [], [], [], 0, []⟩, ⟨[], [], ⟨false, 0⟩, [], [], [], 0, []⟩] }

/-- The function table of `tableProgram`: the eight special functions, the globals, the
engine, the stub of function 0 and the member stub of function 1. -/
def tableOfProgram : List TableEntry :=
  [TableEntry.special SpecialFunction.EXIT, TableEntry.special SpecialFunction.PRINT_DOUBLE,
   TableEntry.special SpecialFunction.PRINTA_INT, TableEntry.special SpecialFunction.ALLOC_ARRAY,
   TableEntry.special SpecialFunction.PRINT_FLOAT, TableEntry.special SpecialFunction.END,
   TableEntry.special SpecialFunction.START, TableEntry.special SpecialFunction.ALLOCATE,
   TableEntry.globals, TableEntry.engine, TableEntry.jitStub, TableEntry.memberStub]

/-! ## A parameter with a lifetime hole and a call in each branch

The function has one parameter `i0`; `i1` is the virtual register of the fixed register
`RDI`. Block 0 is `(0) test i0; (1) jnz block 2`, block 1 is
`(2) mov i1, $1; (3) call (i1); (4) jmp block 3`, block 2 is
`(5) mov i1, $2; (6) call (i1); (7) test i0`, block 3 is `(8) ret`. The parameter is not
live in block 1. -/

/-- The four blocks of the function. -/
def branchBlocks : List Block :=
  [ ⟨⟨2, [1, 2], []⟩, 0, [⟨Operation.TEST, 0, Payload.flag 0 FlagOpMode.EQ⟩,
                           ⟨Operation.JNZ, 1, Payload.jump 2⟩]⟩,
    ⟨⟨3, [3], [0]⟩, 1, [⟨Operation.MOV, 2, Payload.mov true 1 0 1 OperandSize.QWORD⟩,
                        ⟨Operation.CALL, 3, Payload.call true 0 [1] [] 0⟩,
                        ⟨Operation.JMP, 4, Payload.jump 3⟩]⟩,
    ⟨⟨3, [3], [0]⟩, 2, [⟨Operation.MOV, 5, Payload.mov true 2 0 1 OperandSize.QWORD⟩,
                        ⟨Operation.CALL, 6, Payload.call true 0 [1] [] 0⟩,
                        ⟨Operation.TEST, 7, Payload.flag 0 FlagOpMode.EQ⟩]⟩,
    ⟨⟨1, [], [1, 2]⟩, 3, [⟨Operation.RET, 8, Payload.none⟩]⟩ ]

/-- What `RegisterAllocation<AMD64>` is constructed from for the function: the usages of
the two registers, and `RDI` as the fixed register of `i1`. -/
def branchEnv : AllocEnv :=
  { arch := AMD64, nParams := 1,
    usages := [(0, [(-1, ⟨false⟩), (0, ⟨true⟩), (7, ⟨true⟩)]),
               (1, [(2, ⟨true⟩), (3, ⟨true⟩), (5, ⟨true⟩), (6, ⟨true⟩)])],
    fixedToVR := [(RDI, 1)], fixedXMMToVR := [], overflowArgToVR := [],
    vrTypes := [(0, ⟨false, 5⟩), (1, ⟨false, 6⟩)],
    hintSame := [],
    pick := pickMin }

/-- The intervals that `LifetimeAnalyzer::run` computes for the function. -/
def branchIntervals : List Interval :=
  [ { Interval.fresh with vr := 0, argument := true, lifespans := [⟨-1, 1⟩, ⟨5, 7⟩] },
    { Interval.fresh with vr := 1, lifespans := [⟨2, 3⟩, ⟨5, 6⟩] } ]

/-- The interval of the fixed register `RDI` after the allocation. -/
def fixedRdi : Interval :=
  { Interval.fresh with vr := 1, lifespans := [⟨2, 3⟩, ⟨5, 6⟩], type := ⟨false, 6⟩, _reg := RDI,
                        isFixed := true,
                        usages := [(2, ⟨true⟩), (3, ⟨true⟩), (5, ⟨true⟩), (6, ⟨true⟩)] }

/-- The interval of the parameter after the allocation. -/
def paramRdi : Interval :=
  { Interval.fresh with vr := 0, lifespans := [⟨-1, 1⟩, ⟨5, 7⟩], _reg := RDI, argument := true,
                        usages := [(-1, ⟨false⟩), (0, ⟨true⟩), (7, ⟨true⟩)] }

/-- The state of the allocation after `run` for the function. -/
def branchResult : AllocState :=
  { unhandled := [], active := [fixedRdi], inactive := [paramRdi],
    fixed := [{ fixedRdi with type := ⟨false, 0⟩ }], handled := [fixedRdi, paramRdi],
    usedRegisters := [RDI], stackAllocator := ⟨0, 0, 8, true⟩,
    fixedToInterval := [(RDI, fixedRdi)], fixedXMMToInterval := [], stackFrameSpills := [] }

/-! ## Two arrays of floats that live at the same time -/

/-- What `RegisterAllocation<AMD64>` is constructed from: both registers have the type
`float[]`. -/
def arrayEnv : AllocEnv :=
  { arch := AMD64, nParams := 0,
    usages := [(0, [(0, ⟨true⟩), (5, ⟨true⟩)]), (1, [(1, ⟨true⟩), (4, ⟨true⟩)])],
    fixedToVR := [], fixedXMMToVR := [], overflowArgToVR := [],
    vrTypes := [(0, ⟨true, 7⟩), (1, ⟨true, 7⟩)],
    hintSame := [],
    pick := pickMin }

/-- The intervals of the two arrays: `[0,5]` and `[1,4]`. -/
def arrayIntervals : List Interval :=
  [ { Interval.fresh with vr := 0, lifespans := [⟨0, 5⟩] },
    { Interval.fresh with vr := 1, lifespans := [⟨1, 4⟩] } ]

/-- The two intervals after the allocation: both in `XMM0`. -/
def arrayHandled : List Interval :=
  [ { Interval.fresh with vr := 0, lifespans := [⟨0, 5⟩], type := ⟨true, 7⟩, _xmm := 0,
                          usages := [(0, ⟨true⟩), (5, ⟨true⟩)] },
    { Interval.fresh with vr := 1, lifespans := [⟨1, 4⟩], type := ⟨true, 7⟩, _xmm := 0,
                          usages := [(1, ⟨true⟩), (4, ⟨true⟩)] } ]

/-- The state of the allocation after `run` for the two arrays. -/
def arrayResult : AllocState :=
  { unhandled := [], active := [], inactive := [], fixed := [], handled := arrayHandled,
    usedRegisters := [], stackAllocator := ⟨0, 0, 8, true⟩, fixedToInterval := [],
    fixedXMMToInterval := [], stackFrameSpills := [] }

/-! # Theorems -/

/-! ## Encoder lemmas -/

theorem fitsIntoI8_iff (v : Int) : fitsIntoI8 v = true ↔ -128 ≤ v ∧ v ≤ 127 := by
  unfold fitsIntoI8
  rw [decide_eq_true_iff]
  omega

theorem fitsIntoI32_iff (v : Int) :
    fitsIntoI32 v = true ↔ -2147483648 ≤ v ∧ v ≤ 2147483647 := by
  unfold fitsIntoI32
  rw [decide_eq_true_iff]
  omega

theorem and7_lt (a : Nat) : a &&& 7 < 8 :=
  Nat.lt_succ_of_le Nat.and_le_right

theorem modrm_val (md a b : Nat) (hmd : md < 4) :
    ((md <<< 6) ||| ((a &&& 7) <<< 3) ||| (b &&& 7)) % 256
      = (md <<< 6) ||| ((a &&& 7) <<< 3) ||| (b &&& 7) := by
  have ha := and7_lt a
  have hb := and7_lt b
  generalize a &&& 7 = x at *
  generalize b &&& 7 = y at *
  interval_cases md <;> interval_cases x <;> interval_cases y <;> rfl

theorem leBytes_one (v : Int) : leBytes 1 v = [u8OfInt v] := by
  simp [leBytes, leByte, u8OfInt, List.range_succ]
  omega

theorem leBytes_four (v : Int) :
    leBytes 4 v = [u8OfInt v, u8OfInt (v / 256), u8OfInt (v / 65536), u8OfInt (v / 16777216)] := by
  simp [leBytes, leByte, u8OfInt, List.range_succ]
  refine ⟨?_, ?_, ?_, ?_⟩ <;> omega

theorem leBytes_eight (v : Int) :
    leBytes 8 v = [u8OfInt v, u8OfInt (v / 256), u8OfInt (v / 65536), u8OfInt (v / 16777216),
      u8OfInt (v / 4294967296), u8OfInt (v / 1099511627776), u8OfInt (v / 281474976710656),
      u8OfInt (v / 72057594037927936)] := by
  simp [leBytes, leByte, u8OfInt, List.range_succ]
  refine ⟨?_, ?_, ?_, ?_, ?_, ?_, ?_, ?_⟩ <;> omega

theorem rex_w (buf : List Nat) (r x b : Bool) :
    rex buf true r x b
      = buf ++ [0x48 ||| (if r then 4 else 0) ||| (if x then 2 else 0) ||| (if b then 1 else 0)] := by
  cases r <;> cases x <;> cases b <;> rfl

theorem log2_scale (s : Nat) (h : s = 1 ∨ s = 2 ∨ s = 4 ∨ s = 8) : log2 s = scaleLog s := by
  rcases h with h | h | h | h <;> subst h <;> decide

theorem sib_val (sc a b : Nat) (hsc : sc < 4) :
    ((sc <<< 6) ||| ((a &&& 7) <<< 3) ||| (b &&& 7)) % 256
      = (sc <<< 6) ||| ((a &&& 7) <<< 3) ||| (b &&& 7) :=
  modrm_val sc a b hsc

theorem scaleLog_lt (s : Nat) : scaleLog s < 4 := by
  unfold scaleLog
  split_ifs <;> omega

theorem modrm_eq (buf : List Nat) (md a b : Nat) (hmd : md < 4) :
    modrm buf md a b = buf ++ [(md <<< 6) ||| ((a &&& 7) <<< 3) ||| (b &&& 7)] := by
  simp only [modrm, byte, modrm_val md a b hmd]

theorem sib_eq (buf : List Nat) (base index : Nat) (scale : Nat)
    (h : scale = 1 ∨ scale = 2 ∨ scale = 4 ∨ scale = 8) :
    sib buf base index scale
      = buf ++ [(scaleLog scale <<< 6) ||| ((index &&& 7) <<< 3) ||| (base &&& 7)] := by
  simp only [sib, byte, log2_scale scale h, sib_val _ index base (scaleLog_lt scale)]

theorem store_prefix (buf : List Nat) (src : Nat) (m : MemOp)
    (hsrc : src ≠ NONE) (hbase : m.base ≠ NONE) :
    opcode (prefixes buf OperandSize.QWORD src (RegMemOp.mem m)) 0x89
      = buf ++ [0x48 ||| (if R8 ≤ src then 4 else 0) |||
          (if m.index ≠ NONE ∧ R8 ≤ m.index then 2 else 0) ||| (if R8 ≤ m.base then 1 else 0),
          0x89] := by
  simp only [prefixes, opcode, isExtended, rex_w, if_neg hsrc, if_neg hbase, byte]
  by_cases hi : m.index = NONE <;> by_cases h1 : R8 ≤ src <;> by_cases h2 : R8 ≤ m.base <;>
    by_cases h3 : R8 ≤ m.index <;> simp [hi, h1, h2, h3, rex_w]

/-- C1: for every source register RAX..R15, base register RAX..R15, optional index
register other than RSP with scale in {1,2,4,8}, and 32-bit offset, the QWORD store
`mov(src, MemOp, QWORD)` appends exactly REX (0x48 with R, X, B), opcode 0x89, ModRM,
the SIB byte exactly when rm = 4, and the displacement of 0, 1 or 4 bytes that the
specification prescribes. -/
theorem mov_store_qword_bytes (buf : List Nat) (src : Nat) (m : MemOp)
    (hsrc : src ≤ R15) (hbase : m.base ≤ R15)
    (hidx : m.index = NONE ∨ (m.index ≤ R15 ∧ m.index ≠ RSP ∧
      (m.scale = 1 ∨ m.scale = 2 ∨ m.scale = 4 ∨ m.scale = 8))) :
    movRegToRegMem buf src (RegMemOp.mem m) OperandSize.QWORD = buf ++ storeSpec src m := by
  have hsrc15 : (src : Nat) ≤ 15 := hsrc
  have hbase15 : (m.base : Nat) ≤ 15 := hbase
  have hsrcN : src ≠ NONE := fun h => by rw [h] at hsrc15; exact absurd hsrc15 (by decide)
  have hbaseN : m.base ≠ NONE := fun h => by rw [h] at hbase15; exact absurd hbase15 (by decide)
  have hpre := store_prefix buf src m hsrcN hbaseN
  have h1 : (1 : Nat) = 1 ∨ (1 : Nat) = 2 ∨ (1 : Nat) = 4 ∨ (1 : Nat) = 8 := Or.inl rfl
  simp only [movRegToRegMem, operands, operandsMem]
  rw [show (if OperandSize.QWORD = OperandSize.BYTE then (0x88 : Nat) else 0x89) = 0x89 from rfl,
    hpre]
  have hf := fitsIntoI8_iff m.offset
  have e4 : (4 &&& 7 : Nat) = 4 := rfl
  have e5 : (5 &&& 7 : Nat) = 5 := rfl
  have e0 : u8OfInt 0 = 0 := rfl
  have e36 : ((4 : Nat) <<< 3 ||| 4) = 36 := rfl
  have elt : u8OfInt m.offset % 256 = u8OfInt m.offset := by
    unfold u8OfInt; omega
  rcases hidx with hi | ⟨hi15, hiRSP, hsc⟩
  · by_cases h0 : m.offset = 0 <;> by_cases hfit : -128 ≤ m.offset ∧ m.offset ≤ 127 <;>
      by_cases b4 : m.base &&& 7 = 4 <;> by_cases b5 : m.base &&& 7 = 5 <;>
      first
      | (exfalso; omega)
      | simp [hi, h0, hfit, b4, b5, storeSpec, modrm_eq, sib_eq, byte, dword, leBytes_one,
          leBytes_four, hf, scaleLog, e4, e5, e0, e36, elt]
  · have hiN : m.index ≠ NONE := fun h => by
      have h15 : (m.index : Nat) ≤ 15 := hi15
      rw [h] at h15; exact absurd h15 (by decide)
    by_cases h0 : m.offset = 0 <;> by_cases hfit : -128 ≤ m.offset ∧ m.offset ≤ 127 <;>
      by_cases b5 : m.base &&& 7 = 5 <;>
      first
      | (exfalso; omega)
      | simp [hiN, h0, hfit, b5, storeSpec, modrm_eq, sib_eq, hsc, byte, dword, leBytes_one,
          leBytes_four, hf, e4, e5, e0, e36, elt]

/-- Witness of C1: the store `mov [rbp + r15*8 + 13371337], r15` of the test suite. -/
theorem mov_store_qword_bytes_witness :
    (R15 ≤ R15 ∧ RBP ≤ R15 ∧ (R15 ≤ R15 ∧ R15 ≠ RSP ∧ (8 : Nat) = 8)) ∧
    movRegToRegMem [] R15 (RegMemOp.mem ⟨RBP, R15, 8, 13371337⟩) OperandSize.QWORD
      = [] ++ storeSpec R15 ⟨RBP, R15, 8, 13371337⟩ ∧
    storeSpec R15 ⟨RBP, R15, 8, 13371337⟩ = [0x4e, 0x89, 0xbc, 0xfd, 0xc9, 0x07, 0xcc, 0x00] :=
  ⟨by decide,
   mov_store_qword_bytes [] R15 ⟨RBP, R15, 8, 13371337⟩ (by decide) (by decide)
     (Or.inr ⟨by decide, by decide, Or.inr (Or.inr (Or.inr rfl))⟩),
   by decide⟩

theorem and7_idem (a : Nat) : (a &&& 7) &&& 7 = a &&& 7 := by
  rw [Nat.and_assoc, Nat.and_self]

theorem b8_val (a : Nat) : (0xB8 ||| (a &&& 7)) % 256 = 0xB8 ||| (a &&& 7) := by
  have ha := and7_lt a
  generalize a &&& 7 = x at *
  interval_cases x <;> rfl

/-- C3: `movimm(imm, dst)` selects its encoding by the immediate alone: `xor dst, dst`
for 0 (opcode 0x31, ModRM 11 dst dst, REX only for R8..R15), the 7-byte form
(REX.W, 0xC7, ModRM /0, imm32 little-endian) for every non-zero immediate that fits in
a signed 32-bit integer, and the 10-byte form (REX.W, 0xB8 | (dst&7), imm64
little-endian) otherwise. -/
theorem movimm_bytes (buf : List Nat) (imm : Int) (dst : Nat) :
    movimm buf imm dst = buf ++ movimmSpec imm dst ∧
    (movimmSpec imm dst).length =
      (if imm = 0 then (if R8 ≤ dst then 3 else 2)
       else if -2147483648 ≤ imm ∧ imm ≤ 2147483647 then 7 else 10) := by
  have hf := fitsIntoI32_iff imm
  have e0 : ((0 : Nat) &&& 7) = 0 := rfl
  constructor
  · by_cases h0 : imm = 0
    · by_cases h8 : R8 ≤ dst <;>
        simp [movimm, movimmSpec, h0, h8, isExtended, rex_w, opcode, modrm_eq, and7_idem, byte]
    · by_cases hfit : -2147483648 ≤ imm ∧ imm ≤ 2147483647
      · have hw : (imm + 2147483648) % 4294967296 - 2147483648 = imm := by omega
        by_cases h8 : R8 ≤ dst <;>
          simp [movimm, movimmSpec, h0, h8, hf, hfit, isExtended, rex_w, opcode, modrm_eq,
            and7_idem, byte, dword, leBytes_four, hw, e0]
      · by_cases h8 : R8 ≤ dst <;>
          simp [movimm, movimmSpec, h0, h8, hf, hfit, isExtended, rex_w, opcode, byte, qword,
            leBytes_eight, b8_val]
  · by_cases h0 : imm = 0
    · by_cases h8 : R8 ≤ dst <;> simp [movimmSpec, h0, h8]
    · by_cases hfit : -2147483648 ≤ imm ∧ imm ≤ 2147483647 <;>
        simp [movimmSpec, h0, hfit, leBytes]


/-! ## The operand order and the ordered containers -/

theorem memOp_keyEquiv_iff (a b : MemOp) : keyEquiv MemOp.lt a b = true ↔ a = b := by
  obtain ⟨b1, i1, s1, o1⟩ := a
  obtain ⟨b2, i2, s2, o2⟩ := b
  have hb : (b1 : Nat) < b2 ∨ (b1 : Nat) = b2 ∨ (b2 : Nat) < b1 := Nat.lt_trichotomy b1 b2
  have hi : (i1 : Nat) < i2 ∨ (i1 : Nat) = i2 ∨ (i2 : Nat) < i1 := Nat.lt_trichotomy i1 i2
  have hs : s1 < s2 ∨ s1 = s2 ∨ s2 < s1 := Nat.lt_trichotomy s1 s2
  have ho : o1 < o2 ∨ o1 = o2 ∨ o2 < o1 := Int.lt_trichotomy o1 o2
  rcases hb with h1 | h1 | h1 <;> rcases hi with h2 | h2 | h2 <;>
    rcases hs with h3 | h3 | h3 <;> rcases ho with h4 | h4 | h4 <;>
    simp [keyEquiv, MemOp.lt, h1, h2, h3, h4] <;> omega

theorem regMemOp_keyEquiv_iff (a b : RegMemOp) : keyEquiv RegMemOp.lt a b = true ↔ a = b := by
  cases a with
  | reg x =>
    cases b with
    | reg y => simp [keyEquiv, RegMemOp.lt]; omega
    | xmm y => simp [keyEquiv, RegMemOp.lt]
    | mem y => simp [keyEquiv, RegMemOp.lt]
  | xmm x =>
    cases b with
    | reg y => simp [keyEquiv, RegMemOp.lt]
    | xmm y => simp [keyEquiv, RegMemOp.lt]; omega
    | mem y => simp [keyEquiv, RegMemOp.lt]
  | mem x =>
    cases b with
    | reg y => simp [keyEquiv, RegMemOp.lt]
    | xmm y => simp [keyEquiv, RegMemOp.lt]
    | mem y =>
      have h := memOp_keyEquiv_iff x y
      simp only [keyEquiv, RegMemOp.lt, RegMemOp.mem.injEq] at h ⊢
      exact h

section Containers

variable {K V : Type} {lt : K → K → Bool}

theorem mem_osInsert (hE : ∀ a b, keyEquiv lt a b = true ↔ a = b) (x y : K) (s : List K) :
    y ∈ osInsert lt x s ↔ y = x ∨ y ∈ s := by
  induction s with
  | nil => simp [osInsert]
  | cons z zs ih =>
    unfold osInsert
    by_cases h1 : lt x z = true
    · rw [if_pos h1]
      simp only [List.mem_cons]
    · by_cases h2 : lt z x = true
      · rw [if_neg h1, if_pos h2]
        simp only [List.mem_cons, ih]
        tauto
      · have hxz : x = z := (hE x z).mp (by simp [keyEquiv, h1, h2])
        subst hxz
        rw [if_neg h1, if_neg h2]
        simp only [List.mem_cons]
        tauto

theorem length_osInsert_le (x : K) (s : List K) : (osInsert lt x s).length ≤ s.length + 1 := by
  induction s with
  | nil => simp [osInsert]
  | cons z zs ih =>
    unfold osInsert
    split_ifs
    · simp
    · simp only [List.length_cons]; omega
    · simp

theorem mem_osErase (hE : ∀ a b, keyEquiv lt a b = true ↔ a = b) (x y : K) (s : List K) :
    y ∈ osErase lt x s ↔ y ∈ s ∧ y ≠ x := by
  simp only [osErase, List.mem_filter, Bool.not_eq_true', ne_eq]
  constructor
  · rintro ⟨h1, h2⟩
    refine ⟨h1, fun h => ?_⟩
    subst h
    rw [(hE y y).mpr rfl] at h2
    exact Bool.noConfusion h2
  · rintro ⟨h1, h2⟩
    refine ⟨h1, ?_⟩
    cases h : keyEquiv lt x y with
    | false => rfl
    | true => exact absurd ((hE x y).mp h).symm h2

theorem length_osErase_cons (hE : ∀ a b, keyEquiv lt a b = true ↔ a = b) (x : K) (s : List K) :
    (osErase lt x (x :: s)).length ≤ s.length := by
  simp only [osErase, List.filter_cons, (hE x x).mpr rfl, Bool.not_true]
  exact List.length_filter_le _ _

theorem omFind_eq_none_iff (hE : ∀ a b, keyEquiv lt a b = true ↔ a = b) (k : K)
    (m : List (K × V)) : omFind lt k m = none ↔ ∀ p ∈ m, p.1 ≠ k := by
  induction m with
  | nil => simp [omFind]
  | cons p rest ih =>
    obtain ⟨k1, v1⟩ := p
    unfold omFind
    by_cases h : keyEquiv lt k k1 = true
    · have hk : k = k1 := (hE k k1).mp h
      rw [if_pos h]
      simp [hk]
    · have hk : ¬ k = k1 := fun e => h ((hE k k1).mpr e)
      rw [if_neg h, ih]
      simp only [List.mem_cons, forall_eq_or_imp, ne_eq]
      constructor
      · intro h2
        exact ⟨fun e => hk e.symm, h2⟩
      · intro h2
        exact h2.2

theorem omFind_eq_some_iff (hE : ∀ a b, keyEquiv lt a b = true ↔ a = b) (k : K) (y : V)
    (m : List (K × V)) (hnd : (m.map Prod.fst).Nodup) :
    omFind lt k m = some y ↔ (k, y) ∈ m := by
  induction m with
  | nil => simp [omFind]
  | cons p rest ih =>
    obtain ⟨k1, v1⟩ := p
    rw [List.map_cons, List.nodup_cons] at hnd
    unfold omFind
    by_cases h : keyEquiv lt k k1 = true
    · have hk : k = k1 := (hE k k1).mp h
      subst hk
      rw [if_pos h]
      simp only [Option.some.injEq, List.mem_cons, Prod.mk.injEq, true_and]
      constructor
      · intro e; exact Or.inl e.symm
      · rintro (e | e)
        · exact e.symm
        · exact absurd (List.mem_map_of_mem Prod.fst e) hnd.1
    · have hk : ¬ k = k1 := fun e => h ((hE k k1).mpr e)
      rw [if_neg h, ih hnd.2]
      simp only [List.mem_cons, Prod.mk.injEq]
      constructor
      · intro e; exact Or.inr e
      · rintro (e | e)
        · exact absurd e.1 hk
        · exact e

theorem omInsert_perm (k : K) (v : V) (m : List (K × V)) (h : omFind lt k m = none) :
    (omInsert lt k v m).Perm ((k, v) :: m) := by
  induction m with
  | nil => simp [omInsert]
  | cons p rest ih =>
    obtain ⟨k1, v1⟩ := p
    unfold omFind at h
    by_cases he : keyEquiv lt k k1 = true
    · rw [if_pos he] at h
      exact Option.noConfusion h
    · rw [if_neg he] at h
      unfold omInsert
      by_cases h1 : lt k k1 = true
      · rw [if_pos h1]
      · rw [if_neg h1]
        by_cases h2 : lt k1 k = true
        · rw [if_pos h2]
          exact ((ih h).cons (k1, v1)).trans (List.Perm.swap _ _ _)
        · exact absurd (by simp [keyEquiv, h1, h2]) he

theorem omFind_omInsert [DecidableEq K] (hE : ∀ a b, keyEquiv lt a b = true ↔ a = b) (k k1 : K) (v : V)
    (m : List (K × V)) (h : omFind lt k1 m = none) :
    omFind lt k (omInsert lt k1 v m) = if k = k1 then some v else omFind lt k m := by
  induction m with
  | nil =>
    by_cases e : k = k1
    · simp [omInsert, omFind, e, (hE k1 k1).mpr rfl]
    · have : ¬ keyEquiv lt k k1 = true := fun h => e ((hE k k1).mp h)
      simp [omInsert, omFind, e, this]
  | cons p rest ih =>
    obtain ⟨k2, v2⟩ := p
    unfold omFind at h
    by_cases he : keyEquiv lt k1 k2 = true
    · rw [if_pos he] at h
      exact Option.noConfusion h
    · rw [if_neg he] at h
      have hne : k1 ≠ k2 := fun e => he ((hE k1 k2).mpr e)
      unfold omInsert
      by_cases h1 : lt k1 k2 = true
      · rw [if_pos h1]
        by_cases e : k = k1
        · subst e
          simp [omFind, (hE k k).mpr rfl]
        · have : ¬ keyEquiv lt k k1 = true := fun h => e ((hE k k1).mp h)
          rw [if_neg e]
          conv_lhs => unfold omFind
          rw [if_neg this]
      · rw [if_neg h1]
        by_cases h2 : lt k2 k1 = true
        · rw [if_pos h2]
          conv_lhs => unfold omFind
          by_cases e2 : keyEquiv lt k k2 = true
          · have hk : k = k2 := (hE k k2).mp e2
            have hk1 : k ≠ k1 := fun e => hne (e.symm.trans hk)
            rw [if_pos e2, if_neg hk1]
            conv_rhs => unfold omFind
            rw [if_pos e2]
          · rw [if_neg e2, ih h]
            conv_rhs => unfold omFind
            rw [if_neg e2]
        · exact absurd (by simp [keyEquiv, h1, h2]) he

theorem omFind_omAdjust [DecidableEq K] (hE : ∀ a b, keyEquiv lt a b = true ↔ a = b) (k k1 : K) (f : V → V)
    (m : List (K × V)) :
    omFind lt k (omAdjust lt k1 f m) = if k = k1 then (omFind lt k m).map f else omFind lt k m := by
  induction m with
  | nil => simp [omAdjust, omFind]
  | cons p rest ih =>
    obtain ⟨k2, v2⟩ := p
    have ih2 : omFind lt k (List.map (fun p => if keyEquiv lt k1 p.1 = true then (p.1, f p.2) else p)
        rest) = if k = k1 then (omFind lt k rest).map f else omFind lt k rest := ih
    simp only [omAdjust, List.map_cons]
    by_cases e1 : keyEquiv lt k1 k2 = true
    · have hk : k1 = k2 := (hE k1 k2).mp e1
      subst hk
      rw [if_pos e1]
      by_cases e : k = k1
      · subst e
        simp [omFind, e1]
      · have : ¬ keyEquiv lt k k1 = true := fun h => e ((hE k k1).mp h)
        simp only [omFind, if_neg this, if_neg e]
        rw [ih2, if_neg e]
    · rw [if_neg e1]
      by_cases e2 : keyEquiv lt k k2 = true
      · have hk : k = k2 := (hE k k2).mp e2
        have hne : ¬ k = k1 := fun e => e1 ((hE k1 k2).mpr (e.symm.trans hk))
        simp only [omFind, if_pos e2, if_neg hne]
      · simp only [omFind, if_neg e2]
        rw [ih2]

theorem omFind_omErase [DecidableEq K] (hE : ∀ a b, keyEquiv lt a b = true ↔ a = b) (k n : K)
    (m : List (K × V)) :
    omFind lt k (omErase lt n m) = if k = n then none else omFind lt k m := by
  induction m with
  | nil => simp [omErase, omFind]
  | cons p rest ih =>
    obtain ⟨k2, v2⟩ := p
    have ih2 : omFind lt k (List.filter (fun p => !keyEquiv lt n p.1) rest)
        = if k = n then none else omFind lt k rest := ih
    simp only [omErase, List.filter_cons]
    by_cases e1 : keyEquiv lt n k2 = true
    · have hk : n = k2 := (hE n k2).mp e1
      subst hk
      simp only [e1, Bool.not_true, Bool.false_eq_true, if_false]
      rw [ih2]
      by_cases e : k = n
      · simp only [if_pos e]
      · have : ¬ keyEquiv lt k n = true := fun h => e ((hE k n).mp h)
        simp only [if_neg e, omFind, if_neg this]
    · have e1f : keyEquiv lt n k2 = false := by
        cases h : keyEquiv lt n k2 with
        | false => rfl
        | true => exact absurd h e1
      simp only [e1f, Bool.not_false, if_true]
      by_cases e2 : keyEquiv lt k k2 = true
      · have hk : k = k2 := (hE k k2).mp e2
        have hne : ¬ k = n := fun e => e1 ((hE n k2).mpr (e.symm.trans hk))
        simp only [omFind, if_pos e2, if_neg hne]
      · simp only [omFind, if_neg e2]
        rw [ih2]

end Containers

/-! ## topologicallySort: the graph that the first loop builds -/

theorem buildGraph_append (v : List SpillMovOp) (m : SpillMovOp) :
    buildGraph (v ++ [m]) = (buildGraph v).add m := by
  simp [buildGraph, List.foldl_append]

theorem buildGraph_inv (v : List SpillMovOp) (hd : (v.map (fun m => m.second)).Nodup) :
    BuildInv v (buildGraph v) := by
  induction v using List.reverseRecOn with
  | nil =>
    exact ⟨by simp [buildGraph], by simp [buildGraph, omFind], by simp, by simp [buildGraph]⟩
  | append_singleton v m ih =>
    rw [List.map_append, List.nodup_append] at hd
    obtain ⟨hd1, -, hd3⟩ := hd
    have hI := ih hd1
    have hfresh : ∀ m1 ∈ v, m1.second ≠ m.second := by
      intro m1 h1 e
      exact hd3 (List.mem_map_of_mem (fun m => m.second) h1) (by simp [e])
    have hEd : omFind RegMemOp.lt m.second (buildGraph v).edges = none := by
      rw [omFind_eq_none_iff regMemOp_keyEquiv_iff]
      intro p hp
      have hp2 := (hI.edges_perm.mem_iff).mp hp
      rw [List.mem_map] at hp2
      obtain ⟨m1, hm1, rfl⟩ := hp2
      exact hfresh m1 hm1
    have hSz : omFind RegMemOp.lt m.second (buildGraph v).sizes = none :=
      (hI.sizes_none _).mpr hEd
    rw [buildGraph_append]
    have hfind : ∀ k, omFind RegMemOp.lt k ((buildGraph v).add m).sizes
        = if k = m.second then some [(m.first, m.size)]
          else omFind RegMemOp.lt k (buildGraph v).sizes := by
      intro k
      simp only [SortGraph.add, hSz, Option.isNone_none, if_true]
      rw [omFind_omAdjust regMemOp_keyEquiv_iff, omFind_omInsert regMemOp_keyEquiv_iff _ _ _ _ hSz]
      by_cases e : k = m.second
      · simp [e, omInsert]
      · simp [e]
    refine ⟨?_, ?_, ?_, ?_⟩
    · simp only [SortGraph.add, List.map_append, List.map_cons, List.map_nil]
      refine (omInsert_perm _ _ _ hEd).trans ?_
      exact (List.perm_append_singleton _ _).symm.trans (List.Perm.append_right _ hI.edges_perm)
    · intro k
      rw [hfind]
      have : omFind RegMemOp.lt k ((buildGraph v).add m).edges
          = if k = m.second then some m.first else omFind RegMemOp.lt k (buildGraph v).edges := by
        simp only [SortGraph.add]
        exact omFind_omInsert regMemOp_keyEquiv_iff _ _ _ _ hEd
      rw [this]
      by_cases e : k = m.second
      · simp [e]
      · simp only [if_neg e]
        exact hI.sizes_none k
    · intro m1 hm1
      rw [hfind]
      rw [List.mem_append, List.mem_singleton] at hm1
      rcases hm1 with h1 | h1
      · rw [if_neg (hfresh m1 h1)]
        exact hI.sizes_at m1 h1
      · subst h1
        simp [omFind, (regMemOp_keyEquiv_iff m1.first m1.first).mpr rfl]
    · intro x
      simp only [SortGraph.add, mem_osInsert regMemOp_keyEquiv_iff, hI.mem_S, List.mem_append,
        List.mem_singleton]
      constructor
      · rintro (h | h | ⟨m1, h1, h2⟩)
        · exact ⟨m, Or.inr rfl, Or.inr h⟩
        · exact ⟨m, Or.inr rfl, Or.inl h⟩
        · exact ⟨m1, Or.inl h1, h2⟩
      · rintro ⟨m1, h1 | h1, h2⟩
        · exact Or.inr (Or.inr ⟨m1, h1, h2⟩)
        · subst h1
          rcases h2 with h2 | h2
          · exact Or.inr (Or.inl h2)
          · exact Or.inl h2

/-! ## A finite graph in which every node has a predecessor has a cycle -/

theorem exists_chain_of_pred {α : Type} (R : α → α → Prop) (E : List α) (hne : E ≠ [])
    (hpred : ∀ a ∈ E, ∃ b ∈ E, R b a) (n : Nat) :
    ∃ c : List α, c.length = n + 1 ∧ (∀ x ∈ c, x ∈ E) ∧ List.Chain' R c := by
  induction n with
  | zero =>
    obtain ⟨a, t, rfl⟩ := List.exists_cons_of_ne_nil hne
    exact ⟨[a], rfl, by simp, List.chain'_singleton a⟩
  | succ n ih =>
    obtain ⟨c, hlen, hsub, hch⟩ := ih
    cases c with
    | nil => simp at hlen
    | cons h t =>
      obtain ⟨b, hb, hR⟩ := hpred h (hsub h (List.mem_cons_self h t))
      refine ⟨b :: h :: t, by simp [hlen], ?_, List.chain'_cons.mpr ⟨hR, hch⟩⟩
      intro x hx
      rcases List.mem_cons.mp hx with e | e
      · exact e ▸ hb
      · exact hsub x e

theorem exists_repeat_of_not_nodup {α : Type} (c : List α) (h : ¬ c.Nodup) :
    ∃ a l1 l2 l3, c = l1 ++ a :: l2 ++ a :: l3 := by
  induction c with
  | nil => exact absurd List.nodup_nil h
  | cons x t ih =>
    by_cases hx : x ∈ t
    · obtain ⟨s, r, rfl⟩ := List.append_of_mem hx
      exact ⟨x, [], s, r, by simp⟩
    · have ht : ¬ t.Nodup := fun hn => h (List.nodup_cons.mpr ⟨hx, hn⟩)
      obtain ⟨a, l1, l2, l3, rfl⟩ := ih ht
      exact ⟨a, x :: l1, l2, l3, by simp⟩

theorem exists_cycle_of_pred {α : Type} (R : α → α → Prop) (E : List α) (hne : E ≠ [])
    (hpred : ∀ a ∈ E, ∃ b ∈ E, R b a) :
    ∃ a t, (∀ x ∈ a :: t, x ∈ E) ∧ List.Chain R a t ∧
      R ((a :: t).getLast (List.cons_ne_nil a t)) a := by
  obtain ⟨c, hlen, hsub, hch⟩ := exists_chain_of_pred R E hne hpred E.length
  have hnd : ¬ c.Nodup := by
    intro hn
    have := (List.subperm_of_subset hn hsub).length_le
    omega
  obtain ⟨a, l1, l2, l3, rfl⟩ := exists_repeat_of_not_nodup c hnd
  have hinf : (a :: l2 ++ [a]) <:+: (l1 ++ a :: l2 ++ a :: l3) :=
    ⟨l1, l3, by simp⟩
  have hch2 : List.Chain' R ((a :: l2) ++ [a]) := hch.infix hinf
  rw [List.chain'_append] at hch2
  obtain ⟨h1, -, h3⟩ := hch2
  refine ⟨a, l2, ?_, h1, ?_⟩
  · intro x hx
    apply hsub
    simp only [List.mem_append, List.mem_cons] at hx ⊢
    rcases hx with e | e
    · exact Or.inl (Or.inr (Or.inl e))
    · exact Or.inl (Or.inr (Or.inr e))
  · apply h3
    · rw [List.getLast?_eq_getLast _ (List.cons_ne_nil a l2)]
      exact rfl
    · simp

/-! ## topologicallySort: the main loop -/

theorem mem_eraseSources (edges : List (RegMemOp × RegMemOp)) (S : List RegMemOp)
    (x : RegMemOp) : x ∈ eraseSources edges S ↔ x ∈ S ∧ ∀ p ∈ edges, x ≠ p.2 := by
  induction edges generalizing S with
  | nil => simp [eraseSources]
  | cons q rest ih =>
    have h : eraseSources (q :: rest) S = eraseSources rest (osErase RegMemOp.lt q.2 S) := rfl
    rw [h, ih, mem_osErase regMemOp_keyEquiv_iff]
    simp only [List.mem_cons, forall_eq_or_imp]
    tauto

theorem filter_add_one (v : List SpillMovOp) (hd : (v.map (fun m => m.second)).Nodup)
    (m : SpillMovOp) (hm : m ∈ v) (p q : SpillMovOp → Bool) (hp : p m = false)
    (hq : ∀ x, q x = (p x || decide (x.second = m.second))) :
    (v.filter p ++ [m]).Perm (v.filter q) := by
  induction v with
  | nil => simp at hm
  | cons a t ih =>
    rw [List.map_cons, List.nodup_cons] at hd
    obtain ⟨hd1, hd2⟩ := hd
    rcases List.mem_cons.mp hm with e | e
    · subst e
      have hqa : q m = true := by rw [hq]; simp
      have hcongr : t.filter q = t.filter p := by
        apply List.filter_congr
        intro x hx
        have : x.second ≠ m.second := fun e2 =>
          hd1 (e2 ▸ List.mem_map_of_mem (fun m => m.second) hx)
        rw [hq]; simp [this]
      rw [List.filter_cons, List.filter_cons, hqa, hp, hcongr]
      simp only [Bool.false_eq_true, if_false, if_true]
      exact List.perm_append_singleton _ _
    · have hne : a.second ≠ m.second := fun e2 =>
        hd1 (e2 ▸ List.mem_map_of_mem (fun m => m.second) e)
      have hqa : q a = p a := by rw [hq]; simp [hne]
      have ih2 := ih hd2 e
      rw [List.filter_cons, List.filter_cons, hqa]
      by_cases hpa : p a = true
      · simp only [hpa, if_true, List.cons_append]
        exact ih2.cons a
      · simp only [hpa, if_false]
        exact ih2

theorem sortLoop_nil (sizes : List (RegMemOp × List (RegMemOp × OperandSize))) (fuel : Nat)
    (edges : List (RegMemOp × RegMemOp)) (L : List SpillMovOp) :
    sortLoop sizes fuel edges [] L = some (edges, L) := by
  cases fuel <;> rfl

theorem sortLoop_spec (v : List SpillMovOp) (hd : (v.map (fun m => m.second)).Nodup)
    (sizes : List (RegMemOp × List (RegMemOp × OperandSize)))
    (hsz : ∀ m ∈ v,
      (omFind RegMemOp.lt m.second sizes).bind (omFind RegMemOp.lt m.first) = some m.size) :
    ∀ (fuel : Nat) (edges : List (RegMemOp × RegMemOp)) (S : List RegMemOp)
      (L : List SpillMovOp), 2 * edges.length + S.length ≤ fuel → LoopInv v edges S L →
      ∃ edges1 L1, sortLoop sizes fuel edges S L = some (edges1, L1) ∧
        LoopInv v edges1 [] L1 := by
  intro fuel
  induction fuel with
  | zero =>
    intro edges S L hfuel hinv
    cases S with
    | nil => exact ⟨edges, L, sortLoop_nil _ _ _ _, hinv⟩
    | cons n S => simp at hfuel
  | succ fuel ih =>
    intro edges S L hfuel hinv
    cases S with
    | nil => exact ⟨edges, L, sortLoop_nil _ _ _ _, hinv⟩
    | cons n S =>
      have hS1 := length_osErase_cons regMemOp_keyEquiv_iff n S
      simp only [List.length_cons] at hfuel
      cases hfind : omFind RegMemOp.lt n edges with
      | none =>
        have hstep : sortLoop sizes (fuel + 1) edges (n :: S) L
            = sortLoop sizes fuel edges (osErase RegMemOp.lt n (n :: S)) L := by
          simp only [sortLoop, hfind]
        rw [hstep]
        apply ih
        · omega
        · refine ⟨hinv.keys_nodup, hinv.edges_sub, hinv.done_perm, ?_⟩
          intro p hp
          rcases hinv.progress p hp with h | h
          · left
            rw [mem_osErase regMemOp_keyEquiv_iff]
            exact ⟨h, (omFind_eq_none_iff regMemOp_keyEquiv_iff n edges).mp hfind p hp⟩
          · exact Or.inr h
      | some y =>
        have hmem : (n, y) ∈ edges :=
          (omFind_eq_some_iff regMemOp_keyEquiv_iff n y edges hinv.keys_nodup).mp hfind
        obtain ⟨m, hmv, hm2, hm1⟩ := hinv.edges_sub _ hmem
        simp only at hm2 hm1
        have hsize := hsz m hmv
        rw [hm2, hm1] at hsize
        have hmeq : (⟨y, n, m.size⟩ : SpillMovOp) = m := by
          cases m; simp only at hm1 hm2; simp [hm1, hm2]
        have hstep : sortLoop sizes (fuel + 1) edges (n :: S) L
            = sortLoop sizes fuel (omErase RegMemOp.lt n edges)
                (osInsert RegMemOp.lt y (osErase RegMemOp.lt n (n :: S))) (L ++ [m]) := by
          simp only [sortLoop, hfind, hsize, hmeq]
        rw [hstep]
        have hlenE : (omErase RegMemOp.lt n edges).length < edges.length := by
          unfold omErase
          rw [List.length_filter_lt_length_iff_exists]
          exact ⟨(n, y), hmem, by simp [(regMemOp_keyEquiv_iff n n).mpr rfl]⟩
        have hlenS := @length_osInsert_le RegMemOp RegMemOp.lt y (osErase RegMemOp.lt n (n :: S))
        have hsubE : ∀ p, p ∈ omErase RegMemOp.lt n edges ↔ p ∈ edges ∧ p.1 ≠ n := by
          intro p
          simp only [omErase, List.mem_filter, Bool.not_eq_true', ne_eq]
          constructor
          · rintro ⟨h1, h2⟩
            refine ⟨h1, fun e => ?_⟩
            rw [(regMemOp_keyEquiv_iff n p.1).mpr e.symm] at h2
            exact Bool.noConfusion h2
          · rintro ⟨h1, h2⟩
            refine ⟨h1, ?_⟩
            cases hk : keyEquiv RegMemOp.lt n p.1 with
            | false => rfl
            | true => exact absurd ((regMemOp_keyEquiv_iff n p.1).mp hk).symm h2
        apply ih
        · omega
        · refine ⟨?_, ?_, ?_, ?_⟩
          · exact hinv.keys_nodup.sublist ((List.filter_sublist _).map Prod.fst)
          · intro p hp
            exact hinv.edges_sub p ((hsubE p).mp hp).1
          · refine (hinv.done_perm.append_right [m]).trans ?_
            apply filter_add_one v hd m hmv
            · rw [hm2, hfind]; rfl
            · intro x
              rw [omFind_omErase regMemOp_keyEquiv_iff, hm2]
              by_cases e : x.second = n
              · simp [e]
              · simp [e]
          · intro p hp
            obtain ⟨hp1, hp2⟩ := (hsubE p).mp hp
            rcases hinv.progress p hp1 with h | ⟨q, hq, hq2⟩
            · left
              rw [mem_osInsert regMemOp_keyEquiv_iff, mem_osErase regMemOp_keyEquiv_iff]
              exact Or.inr ⟨h, hp2⟩
            · by_cases e : q.1 = n
              · left
                rw [mem_osInsert regMemOp_keyEquiv_iff]
                left
                have hq3 : omFind RegMemOp.lt n edges = some q.2 := by
                  rw [omFind_eq_some_iff regMemOp_keyEquiv_iff n q.2 edges hinv.keys_nodup, ← e]
                  exact hq
                rw [hfind] at hq3
                rw [← hq2]
                exact (Option.some.inj hq3).symm
              · right
                exact ⟨q, (hsubE q).mpr ⟨hq, e⟩, hq2⟩

theorem cycle_of_stuck (v : List SpillMovOp) (edges : List (RegMemOp × RegMemOp))
    (L : List SpillMovOp) (hinv : LoopInv v edges [] L) (hne : edges ≠ []) :
    ContainsCycle v := by
  -- the moves that are still in `edges`
  let E := v.filter (fun m => decide ((m.second, m.first) ∈ edges))
  have hE : ∀ m, m ∈ E ↔ m ∈ v ∧ (m.second, m.first) ∈ edges := by
    intro m
    simp [E, List.mem_filter]
  have hEne : E ≠ [] := by
    obtain ⟨p, t, rfl⟩ := List.exists_cons_of_ne_nil hne
    obtain ⟨m, hmv, h2, h1⟩ := hinv.edges_sub p (List.mem_cons_self p t)
    have : m ∈ E := (hE m).mpr ⟨hmv, by rw [h2, h1]; exact List.mem_cons_self p t⟩
    exact List.ne_nil_of_mem this
  have hpred : ∀ a ∈ E, ∃ b ∈ E, b.first = a.second := by
    intro a ha
    obtain ⟨-, hae⟩ := (hE a).mp ha
    rcases hinv.progress _ hae with h | ⟨q, hq, hq2⟩
    · simp at h
    · obtain ⟨b, hbv, h2, h1⟩ := hinv.edges_sub q hq
      refine ⟨b, (hE b).mpr ⟨hbv, by rw [h2, h1]; exact hq⟩, ?_⟩
      rw [h1]; exact hq2
  obtain ⟨a, t, hsub, hch, hlast⟩ :=
    exists_cycle_of_pred (fun x y : SpillMovOp => x.first = y.second) E hEne hpred
  exact ⟨a :: t, fun m hm => ((hE m).mp (hsub m hm)).1, hch, hlast⟩

/-- C7: for every list of moves with pairwise distinct destinations that contains no
cycle, `topologicallySort` returns (without raising) a permutation of the input: every
input move (source, destination, size) occurs exactly once in the result and nothing
else does. -/
theorem topologicallySort_perm (v : List SpillMovOp)
    (hd : (v.map (fun m => m.second)).Nodup) (hc : ¬ ContainsCycle v) :
    ∃ L, topologicallySort v = some L ∧ L.Perm v := by
  have hB := buildGraph_inv v hd
  have hmemE : ∀ p, p ∈ (buildGraph v).edges ↔ ∃ m ∈ v, (m.second, m.first) = p := by
    intro p
    rw [hB.edges_perm.mem_iff, List.mem_map]
  have hnd : ((buildGraph v).edges.map Prod.fst).Nodup := by
    have := hB.edges_perm.map Prod.fst
    rw [List.map_map] at this
    exact this.nodup_iff.mpr hd
  have hinit : LoopInv v (buildGraph v).edges
      (eraseSources (buildGraph v).edges (buildGraph v).S) [] := by
    refine ⟨hnd, ?_, ?_, ?_⟩
    · intro p hp
      obtain ⟨m, hm, rfl⟩ := (hmemE p).mp hp
      exact ⟨m, hm, rfl, rfl⟩
    · have : v.filter (fun m => (omFind RegMemOp.lt m.second (buildGraph v).edges).isNone)
          = [] := by
        rw [List.filter_eq_nil_iff]
        intro m hm
        have h1 : (m.second, m.first) ∈ (buildGraph v).edges := (hmemE _).mpr ⟨m, hm, rfl⟩
        rw [(omFind_eq_some_iff regMemOp_keyEquiv_iff _ _ _ hnd).mpr h1]
        simp
      rw [this]
    · intro p hp
      obtain ⟨m, hm, rfl⟩ := (hmemE p).mp hp
      by_cases h : m.second ∈ eraseSources (buildGraph v).edges (buildGraph v).S
      · exact Or.inl h
      · right
        rw [mem_eraseSources] at h
        have hS : m.second ∈ (buildGraph v).S := (hB.mem_S _).mpr ⟨m, hm, Or.inr rfl⟩
        simp only [not_and, not_forall] at h
        obtain ⟨q, hq, hq2⟩ := h hS
        exact ⟨q, hq, (not_not.mp hq2).symm⟩
  obtain ⟨edges1, L1, hrun, hfin⟩ := sortLoop_spec v hd (buildGraph v).sizes hB.sizes_at
    (2 * (buildGraph v).edges.length
      + (eraseSources (buildGraph v).edges (buildGraph v).S).length)
    (buildGraph v).edges (eraseSources (buildGraph v).edges (buildGraph v).S) []
    (Nat.le_refl _) hinit
  have hempty : edges1 = [] := by
    by_contra hne
    exact hc (cycle_of_stuck v edges1 L1 hfin hne)
  subst hempty
  refine ⟨L1, ?_, ?_⟩
  · simp only [topologicallySort, hrun]
    simp
  · have h := hfin.done_perm
    have hall : v.filter (fun m => (omFind RegMemOp.lt m.second
        ([] : List (RegMemOp × RegMemOp))).isNone) = v := by
      rw [List.filter_eq_self]
      intro m _
      rfl
    rw [hall] at h
    exact h

theorem not_containsCycle_of_disjoint (v : List SpillMovOp)
    (h : ∀ x ∈ v, ∀ y ∈ v, x.first ≠ y.second) : ¬ ContainsCycle v := by
  rintro ⟨c, hsub, hcyc⟩
  cases c with
  | nil => exact hcyc
  | cons a t =>
    exact h _ (hsub _ (List.getLast_mem _)) a (hsub a (List.mem_cons_self a t)) hcyc.2

/-- Witness of C7: the two independent moves of the test suite. -/
theorem topologicallySort_perm_witness :
    ∃ L, topologicallySort
        [⟨RegMemOp.reg RDX, RegMemOp.reg RAX, OperandSize.QWORD⟩,
         ⟨RegMemOp.reg R8, RegMemOp.reg R10, OperandSize.QWORD⟩] = some L ∧
      L.Perm [⟨RegMemOp.reg RDX, RegMemOp.reg RAX, OperandSize.QWORD⟩,
         ⟨RegMemOp.reg R8, RegMemOp.reg R10, OperandSize.QWORD⟩] :=
  topologicallySort_perm _ (by decide) (not_containsCycle_of_disjoint _ (by decide))

/-- C5 (failing input): for the moves RBX→RCX, RCX→RAX, RCX→RDX (pairwise distinct
destinations) `topologicallySort` returns the non-empty order RCX→RAX, RBX→RCX,
RCX→RDX, in which the second move overwrites RCX although the third move still reads
it; executed on a store in which every location holds its own name, RDX ends with the
old value of RBX and not with that of its source RCX. -/
theorem topologicallySort_overwrites_pending_source :
    ([⟨RegMemOp.reg RBX, RegMemOp.reg RCX, OperandSize.QWORD⟩,
      ⟨RegMemOp.reg RCX, RegMemOp.reg RAX, OperandSize.QWORD⟩,
      ⟨RegMemOp.reg RCX, RegMemOp.reg RDX, OperandSize.QWORD⟩].map
        (fun m : SpillMovOp => m.second)).Nodup ∧
    topologicallySort
      [⟨RegMemOp.reg RBX, RegMemOp.reg RCX, OperandSize.QWORD⟩,
       ⟨RegMemOp.reg RCX, RegMemOp.reg RAX, OperandSize.QWORD⟩,
       ⟨RegMemOp.reg RCX, RegMemOp.reg RDX, OperandSize.QWORD⟩]
      = some [⟨RegMemOp.reg RCX, RegMemOp.reg RAX, OperandSize.QWORD⟩,
              ⟨RegMemOp.reg RBX, RegMemOp.reg RCX, OperandSize.QWORD⟩,
              ⟨RegMemOp.reg RCX, RegMemOp.reg RDX, OperandSize.QWORD⟩] ∧
    ¬ ValidOrder [⟨RegMemOp.reg RCX, RegMemOp.reg RAX, OperandSize.QWORD⟩,
                  ⟨RegMemOp.reg RBX, RegMemOp.reg RCX, OperandSize.QWORD⟩,
                  ⟨RegMemOp.reg RCX, RegMemOp.reg RDX, OperandSize.QWORD⟩] ∧
    execMoves (fun x => x)
      [⟨RegMemOp.reg RCX, RegMemOp.reg RAX, OperandSize.QWORD⟩,
       ⟨RegMemOp.reg RBX, RegMemOp.reg RCX, OperandSize.QWORD⟩,
       ⟨RegMemOp.reg RCX, RegMemOp.reg RDX, OperandSize.QWORD⟩] (RegMemOp.reg RDX)
      = RegMemOp.reg RBX := by
  refine ⟨by decide, by decide, ?_, by decide⟩
  unfold ValidOrder
  decide

/-- C6 (failing input): the moves RAX→RCX, RCX→RAX, RAX→RDX contain the cycle
RAX→RCX, RCX→RAX, and `topologicallySort` returns a non-empty list of three moves
for them instead of the empty list. -/
theorem topologicallySort_misses_cycle :
    ContainsCycle
      [⟨RegMemOp.reg RAX, RegMemOp.reg RCX, OperandSize.QWORD⟩,
       ⟨RegMemOp.reg RCX, RegMemOp.reg RAX, OperandSize.QWORD⟩,
       ⟨RegMemOp.reg RAX, RegMemOp.reg RDX, OperandSize.QWORD⟩] ∧
    topologicallySort
      [⟨RegMemOp.reg RAX, RegMemOp.reg RCX, OperandSize.QWORD⟩,
       ⟨RegMemOp.reg RCX, RegMemOp.reg RAX, OperandSize.QWORD⟩,
       ⟨RegMemOp.reg RAX, RegMemOp.reg RDX, OperandSize.QWORD⟩]
      = some [⟨RegMemOp.reg RAX, RegMemOp.reg RDX, OperandSize.QWORD⟩,
              ⟨RegMemOp.reg RCX, RegMemOp.reg RAX, OperandSize.QWORD⟩,
              ⟨RegMemOp.reg RAX, RegMemOp.reg RCX, OperandSize.QWORD⟩] := by
  refine ⟨⟨[⟨RegMemOp.reg RAX, RegMemOp.reg RCX, OperandSize.QWORD⟩,
            ⟨RegMemOp.reg RCX, RegMemOp.reg RAX, OperandSize.QWORD⟩], ?_, ?_⟩, by decide⟩
  · intro m hm
    simp only [List.mem_cons, List.mem_singleton, List.not_mem_nil, or_false] at hm ⊢
    rcases hm with h | h
    · exact Or.inl h
    · exact Or.inr (Or.inl h)
  · exact ⟨List.Chain.cons rfl List.Chain.nil, rfl⟩

/-- C2 (failing input): a BYTE store of RSI to `[rax]`, a BYTE load of `[rax]` into RSI
and `set(EQ, RSI)` are emitted without any REX prefix (`88 30`, `8A 30`, `0F 94 C6`),
so that they address DH instead of SIL; the register-to-register BYTE move of RSI does
get the forced prefix `40`. -/
theorem byte_access_without_rex :
    movRegToRegMem [] RSI (RegMemOp.mem ⟨RAX, NONE, 0, 0⟩) OperandSize.BYTE = [0x88, 0x30] ∧
    movRegMemToReg [] (RegMemOp.mem ⟨RAX, NONE, 0, 0⟩) RSI OperandSize.BYTE = [0x8A, 0x30] ∧
    set [] Comparison.EQ RSI = [0x0F, 0x94, 0xC6] ∧
    movRegToRegMem [] RSI (RegMemOp.reg RAX) OperandSize.BYTE = [0x40, 0x88, 0xF0] := by
  decide

/-- C10 (failing input): on the sorted, pairwise disjoint range list `[10,12] [20,30]`
the call `addRange({5, 25})` (which overlaps both ranges) returns the single range
`[5,25]`; position 28 was covered before the call and is not covered after it. -/
theorem addRange_loses_coverage :
    addRange [⟨10, 12⟩, ⟨20, 30⟩] ⟨5, 25⟩ = some [⟨5, 25⟩] ∧
    covers [⟨10, 12⟩, ⟨20, 30⟩] 28 = true ∧
    covers [⟨5, 25⟩] 28 = false := by
  decide


/-! ## Back-patching of jumps -/

theorem natLt_keyEquiv_iff (a b : Nat) : keyEquiv natLt a b = true ↔ a = b := by
  simp [keyEquiv, natLt]; omega

theorem pairLt_keyEquiv_iff (a b : Nat × Nat) : keyEquiv pairLt a b = true ↔ a = b := by
  obtain ⟨a1, a2⟩ := a
  obtain ⟨b1, b2⟩ := b
  have h1 : a1 < b1 ∨ a1 = b1 ∨ b1 < a1 := Nat.lt_trichotomy a1 b1
  have h2 : a2 < b2 ∨ a2 = b2 ∨ b2 < a2 := Nat.lt_trichotomy a2 b2
  rcases h1 with h1 | h1 | h1 <;> rcases h2 with h2 | h2 | h2 <;>
    simp [keyEquiv, pairLt, h1, h2] <;> omega

theorem omFind_some_mem {K V : Type} {lt : K → K → Bool}
    (hE : ∀ a b, keyEquiv lt a b = true ↔ a = b) (k : K) (v : V) (m : List (K × V))
    (h : omFind lt k m = some v) : (k, v) ∈ m := by
  induction m with
  | nil => simp [omFind] at h
  | cons p rest ih =>
    obtain ⟨k1, v1⟩ := p
    unfold omFind at h
    by_cases he : keyEquiv lt k k1 = true
    · rw [if_pos he] at h
      have hk : k = k1 := (hE k k1).mp he
      rw [hk, ← Option.some.inj h]
      exact List.mem_cons_self _ _
    · rw [if_neg he] at h
      exact List.mem_cons_of_mem _ (ih h)

theorem mem_omInsert {K V : Type} {lt : K → K → Bool} (k : K) (v : V) (m : List (K × V))
    (p : K × V) (h : p ∈ omInsert lt k v m) : p = (k, v) ∨ p ∈ m := by
  induction m with
  | nil => simpa [omInsert] using h
  | cons q rest ih =>
    obtain ⟨k1, v1⟩ := q
    unfold omInsert at h
    by_cases h1 : lt k k1 = true
    · rw [if_pos h1] at h
      simpa using h
    · rw [if_neg h1] at h
      by_cases h2 : lt k1 k = true
      · rw [if_pos h2] at h
        rcases List.mem_cons.mp h with e | e
        · exact Or.inr (e ▸ List.mem_cons_self _ _)
        · rcases ih e with e2 | e2
          · exact Or.inl e2
          · exact Or.inr (List.mem_cons_of_mem _ e2)
      · rw [if_neg h2] at h
        exact Or.inr h

theorem omFind_recordJump (m : List (Nat × List (Nat × Nat))) (t rip ip k : Nat) :
    omFind natLt k (recordJump m t rip ip)
      = if k = t then some (osInsert pairLt (rip, ip) ((omFind natLt t m).getD []))
        else omFind natLt k m := by
  unfold recordJump
  rw [omFind_omAdjust natLt_keyEquiv_iff]
  cases hf : omFind natLt t m with
  | none =>
    simp only [Option.isNone_none, if_true, Option.getD_none]
    rw [omFind_omInsert natLt_keyEquiv_iff _ _ _ _ hf]
    by_cases e : k = t
    · simp [e]
    · simp [e]
  | some set =>
    simp only [Option.isNone_some, Bool.false_eq_true, if_false, Option.getD_some]
    by_cases e : k = t
    · simp [e, hf]
    · simp [e]

theorem recMem_recordJump (m : List (Nat × List (Nat × Nat))) (t rip ip t1 rip1 ip1 : Nat) :
    RecMem (recordJump m t rip ip) t1 rip1 ip1
      ↔ RecMem m t1 rip1 ip1 ∨ (t1 = t ∧ rip1 = rip ∧ ip1 = ip) := by
  unfold RecMem
  simp only [omFind_recordJump]
  by_cases e : t1 = t
  · subst e
    simp only [if_true, Option.some.injEq, exists_eq_left', mem_osInsert pairLt_keyEquiv_iff,
      Prod.mk.injEq, true_and]
    cases hf : omFind natLt t1 m with
    | none => simp
    | some set => simp; tauto
  · simp [e]

theorem legit_recordJump (sites : List (Nat × Nat)) (m : List (Nat × List (Nat × Nat)))
    (t ip : Nat) (h : Legit sites m) :
    Legit (sites ++ [(ip, t)]) (recordJump m t (ip + 4) ip) := by
  intro e he r hr
  unfold recordJump at he
  simp only [omAdjust, List.mem_map] at he
  obtain ⟨q, hq, rfl⟩ := he
  have hq2 : q = (t, []) ∨ q ∈ m := by
    by_cases hn : (omFind natLt t m).isNone = true
    · rw [if_pos hn] at hq
      exact mem_omInsert _ _ _ _ hq
    · rw [if_neg hn] at hq
      exact Or.inr hq
  by_cases hk : keyEquiv natLt t q.1 = true
  · have hkt : t = q.1 := (natLt_keyEquiv_iff _ _).mp hk
    rw [if_pos hk] at hr ⊢
    simp only at hr ⊢
    rw [mem_osInsert pairLt_keyEquiv_iff] at hr
    rcases hr with e | e
    · subst e
      simp [hkt]
    · rcases hq2 with e2 | e2
      · rw [e2] at e; simp at e
      · obtain ⟨h1, h2⟩ := h q e2 r e
        exact ⟨List.mem_append_left _ h1, h2⟩
  · rw [if_neg hk] at hr ⊢
    rcases hq2 with e2 | e2
    · rw [e2] at hr; simp at hr
    · obtain ⟨h1, h2⟩ := h q e2 r hr
      exact ⟨List.mem_append_left _ h1, h2⟩

theorem complete_recordJump (sites : List (Nat × Nat)) (m : List (Nat × List (Nat × Nat)))
    (t ip : Nat) (h : Complete sites m) :
    Complete (sites ++ [(ip, t)]) (recordJump m t (ip + 4) ip) := by
  intro s hs
  rw [recMem_recordJump]
  rcases List.mem_append.mp hs with e | e
  · exact Or.inl (h s e)
  · rw [List.mem_singleton] at e
    subst e
    exact Or.inr ⟨rfl, rfl, rfl⟩

theorem stepSites_cons (off : Nat) (s : EmitStep) (rest : List EmitStep) :
    stepSites off (s :: rest) = stepSites off [s] ++ stepSites (off + s.size) rest := by
  cases s <;> simp [stepSites, EmitStep.size]

theorem emitStep_spec (st : EmitState) (step : EmitStep) (sites : List (Nat × Nat))
    (hb : st.buf.length + step.size < 4294967296)
    (hL : Legit sites st.insertBlockAddressAt) (hC : Complete sites st.insertBlockAddressAt) :
    (emitStep st step).buf.length = st.buf.length + step.size ∧
    (emitStep st step).blockAddresses = st.blockAddresses ∧
    Legit (sites ++ stepSites st.buf.length [step]) (emitStep st step).insertBlockAddressAt ∧
    Complete (sites ++ stepSites st.buf.length [step])
      (emitStep st step).insertBlockAddressAt := by
  cases step with
  | code bytes =>
    simp only [emitStep, stepSites, List.append_nil, EmitStep.size, List.length_append]
    exact ⟨trivial, trivial, hL, hC⟩
  | jmp target =>
    simp only [EmitStep.size] at hb
    have h1 : offset (opcode st.buf 0xE9) = st.buf.length + 1 := by
      simp only [offset, opcode, byte, List.length_append, List.length_singleton]
      omega
    have h2 : offset (dword (opcode st.buf 0xE9) 0) = st.buf.length + 1 + 4 := by
      simp only [offset, dword, opcode, byte, List.length_append, List.length_singleton,
        List.length_cons, List.length_nil]
      omega
    simp only [emitStep, h1, h2, stepSites, EmitStep.size]
    refine ⟨?_, trivial, legit_recordJump _ _ _ _ hL, complete_recordJump _ _ _ _ hC⟩
    simp [dword, opcode, byte]
  | jnz target =>
    simp only [EmitStep.size] at hb
    have h1 : offset (byte (byte st.buf 0x0F) 0x85) = st.buf.length + 2 := by
      simp only [offset, byte, List.length_append, List.length_singleton]
      omega
    have h2 : offset (dword (byte (byte st.buf 0x0F) 0x85) 0) = st.buf.length + 2 + 4 := by
      simp only [offset, dword, byte, List.length_append, List.length_singleton,
        List.length_cons, List.length_nil]
      omega
    simp only [emitStep, h1, h2, stepSites, EmitStep.size]
    refine ⟨?_, trivial, legit_recordJump _ _ _ _ hL, complete_recordJump _ _ _ _ hC⟩
    simp [dword, byte]

theorem emitSteps_spec (steps : List EmitStep) :
    ∀ (st : EmitState) (sites : List (Nat × Nat)),
      st.buf.length + stepsSize steps < 4294967296 →
      Legit sites st.insertBlockAddressAt → Complete sites st.insertBlockAddressAt →
      (steps.foldl emitStep st).buf.length = st.buf.length + stepsSize steps ∧
      (steps.foldl emitStep st).blockAddresses = st.blockAddresses ∧
      Legit (sites ++ stepSites st.buf.length steps)
        (steps.foldl emitStep st).insertBlockAddressAt ∧
      Complete (sites ++ stepSites st.buf.length steps)
        (steps.foldl emitStep st).insertBlockAddressAt := by
  induction steps with
  | nil =>
    intro st sites _ hL hC
    simp only [List.foldl_nil, stepsSize, stepSites, List.append_nil, Nat.add_zero]
    exact ⟨trivial, trivial, hL, hC⟩
  | cons s rest ih =>
    intro st sites hb hL hC
    simp only [stepsSize] at hb
    obtain ⟨h1, h2, h3, h4⟩ := emitStep_spec st s sites (by omega) hL hC
    obtain ⟨g1, g2, g3, g4⟩ := ih (emitStep st s) _ (by rw [h1]; omega) h3 h4
    rw [List.foldl_cons, stepSites_cons, stepsSize, ← List.append_assoc]
    rw [h1] at g1 g3 g4
    refine ⟨by rw [g1]; omega, by rw [g2, h2], g3, g4⟩

theorem omFind_assignAddress (m : List (Nat × Nat)) (i a B : Nat) :
    omFind natLt B (assignAddress m i a) = if B = i then some a else omFind natLt B m := by
  unfold assignAddress
  rw [omFind_omAdjust natLt_keyEquiv_iff]
  cases hf : omFind natLt i m with
  | none =>
    simp only [Option.isNone_none, if_true]
    rw [omFind_omInsert natLt_keyEquiv_iff _ _ _ _ hf]
    by_cases e : B = i
    · simp [e]
    · simp [e]
  | some v =>
    simp only [Option.isNone_some, Bool.false_eq_true, if_false]
    by_cases e : B = i
    · simp [e, hf]
    · simp [e]

theorem emitBlock_spec (st : EmitState) (b : EmitBlock) (sites : List (Nat × Nat))
    (hb : st.buf.length + b.size < 4294967296)
    (hL : Legit sites st.insertBlockAddressAt) (hC : Complete sites st.insertBlockAddressAt) :
    (emitBlock st b).buf.length = st.buf.length + b.size ∧
    (∀ B, omFind natLt B (emitBlock st b).blockAddresses
      = if B = b.index then some (st.buf.length + b.edgeCode.length)
        else omFind natLt B st.blockAddresses) ∧
    Legit (sites ++ stepSites (st.buf.length + b.edgeCode.length) b.steps)
      (emitBlock st b).insertBlockAddressAt ∧
    Complete (sites ++ stepSites (st.buf.length + b.edgeCode.length) b.steps)
      (emitBlock st b).insertBlockAddressAt := by
  unfold EmitBlock.size at hb
  have hoff : offset (st.buf ++ b.edgeCode) = st.buf.length + b.edgeCode.length := by
    simp only [offset, List.length_append]
    omega
  obtain ⟨h1, h2, h3, h4⟩ := emitSteps_spec b.steps
    { st with buf := st.buf ++ b.edgeCode,
              blockAddresses := assignAddress st.blockAddresses b.index
                (offset (st.buf ++ b.edgeCode)) } sites
    (by simp only [List.length_append]; omega) hL hC
  simp only [List.length_append] at h1 h3 h4
  refine ⟨?_, ?_, h3, h4⟩
  · unfold emitBlock EmitBlock.size
    rw [h1]; omega
  · intro B
    unfold emitBlock
    rw [h2, omFind_assignAddress, hoff]

theorem emitBlocks_spec (blocks : List EmitBlock) :
    ∀ (st : EmitState) (sites : List (Nat × Nat)),
      st.buf.length + blocksSize blocks < 4294967296 →
      Legit sites st.insertBlockAddressAt → Complete sites st.insertBlockAddressAt →
      (blocks.foldl emitBlock st).buf.length = st.buf.length + blocksSize blocks ∧
      (∀ B, omFind natLt B (blocks.foldl emitBlock st).blockAddresses
        = match blockStart st.buf.length B blocks with
          | some a => some a
          | none => omFind natLt B st.blockAddresses) ∧
      Legit (sites ++ jumpSites st.buf.length blocks)
        (blocks.foldl emitBlock st).insertBlockAddressAt ∧
      Complete (sites ++ jumpSites st.buf.length blocks)
        (blocks.foldl emitBlock st).insertBlockAddressAt := by
  induction blocks with
  | nil =>
    intro st sites _ hL hC
    simp only [List.foldl_nil, blocksSize, jumpSites, blockStart, List.append_nil, Nat.add_zero]
    exact ⟨trivial, fun _ => trivial, hL, hC⟩
  | cons b rest ih =>
    intro st sites hb hL hC
    simp only [blocksSize] at hb
    obtain ⟨h1, h2, h3, h4⟩ := emitBlock_spec st b sites (by omega) hL hC
    obtain ⟨g1, g2, g3, g4⟩ := ih (emitBlock st b) _ (by rw [h1]; omega) h3 h4
    rw [h1] at g1 g2 g3 g4
    rw [List.foldl_cons, jumpSites, blocksSize, ← List.append_assoc]
    refine ⟨by rw [g1]; omega, ?_, g3, g4⟩
    intro B
    rw [g2 B, blockStart]
    cases hbs : blockStart (st.buf.length + b.size) B rest with
    | some a => rfl
    | none =>
      simp only
      rw [h2 B]
      by_cases e : b.index = B
      · simp [e]
      · have e2 : ¬ B = b.index := fun h => e h.symm
        simp [e, e2]

theorem stepSites_ok (steps : List EmitStep) :
    ∀ off, SitesOK off (off + stepsSize steps) (stepSites off steps) := by
  induction steps with
  | nil => intro off; exact ⟨List.Pairwise.nil, by simp [stepSites]⟩
  | cons s rest ih =>
    intro off
    cases s with
    | code bytes =>
      obtain ⟨h1, h2⟩ := ih (off + bytes.length)
      refine ⟨h1, ?_⟩
      intro x hx
      have := h2 x hx
      simp only [stepsSize, EmitStep.size]
      omega
    | jmp target =>
      obtain ⟨h1, h2⟩ := ih (off + 5)
      simp only [stepSites, stepsSize, EmitStep.size]
      refine ⟨List.Pairwise.cons ?_ h1, ?_⟩
      · intro x hx
        have := h2 x hx
        simp only; omega
      · intro x hx
        rcases List.mem_cons.mp hx with e | e
        · subst e; simp only; omega
        · have := h2 x e; omega
    | jnz target =>
      obtain ⟨h1, h2⟩ := ih (off + 6)
      simp only [stepSites, stepsSize, EmitStep.size]
      refine ⟨List.Pairwise.cons ?_ h1, ?_⟩
      · intro x hx
        have := h2 x hx
        simp only; omega
      · intro x hx
        rcases List.mem_cons.mp hx with e | e
        · subst e; simp only; omega
        · have := h2 x e; omega

theorem jumpSites_ok (blocks : List EmitBlock) :
    ∀ off, SitesOK off (off + blocksSize blocks) (jumpSites off blocks) := by
  induction blocks with
  | nil => intro off; exact ⟨List.Pairwise.nil, by simp [jumpSites]⟩
  | cons b rest ih =>
    intro off
    obtain ⟨h1, h2⟩ := stepSites_ok b.steps (off + b.edgeCode.length)
    obtain ⟨g1, g2⟩ := ih (off + b.size)
    simp only [jumpSites, blocksSize]
    unfold EmitBlock.size at g2 ⊢
    refine ⟨List.pairwise_append.mpr ⟨h1, g1, ?_⟩, ?_⟩
    · intro x hx y hy
      have := h2 x hx
      have := g2 y hy
      omega
    · intro x hx
      rcases List.mem_append.mp hx with e | e
      · have := h2 x e; omega
      · have := g2 x e; omega

theorem sites_apart (lo hi : Nat) (sites : List (Nat × Nat)) (h : SitesOK lo hi sites) :
    ∀ x ∈ sites, ∀ y ∈ sites, x = y ∨ x.1 + 5 ≤ y.1 ∨ y.1 + 5 ≤ x.1 := by
  apply List.Pairwise.forall_of_forall
  · intro x y hxy
    rcases hxy with e | e | e
    · exact Or.inl e.symm
    · exact Or.inr (Or.inr e)
    · exact Or.inr (Or.inl e)
  · intro x _; exact Or.inl rfl
  · exact h.1.imp (fun hab => Or.inr (Or.inl hab))

/-! ### `quad` and the patch loop -/

theorem quad_length (buf : List Nat) (v idx : Nat) : (quad buf v idx).length = buf.length := by
  simp [quad, byteAt]

theorem quad_get_other (buf : List Nat) (v idx pos : Nat) (hidx : idx + 4 ≤ 4294967296)
    (hpos : pos < idx ∨ idx + 4 ≤ pos) : (quad buf v idx)[pos]? = buf[pos]? := by
  have e1 : (idx + 1) % 4294967296 = idx + 1 := Nat.mod_eq_of_lt (by omega)
  have e2 : (idx + 2) % 4294967296 = idx + 2 := Nat.mod_eq_of_lt (by omega)
  have e3 : (idx + 3) % 4294967296 = idx + 3 := Nat.mod_eq_of_lt (by omega)
  simp only [quad, byteAt, e1, e2, e3]
  rw [List.getElem?_set_ne (by omega), List.getElem?_set_ne (by omega),
    List.getElem?_set_ne (by omega), List.getElem?_set_ne (by omega)]

theorem quad_get (buf : List Nat) (v idx k : Nat) (hidx : idx + 4 ≤ buf.length)
    (hlen : buf.length < 4294967296) (hk : k < 4) :
    (quad buf v idx)[idx + k]? = some ((v >>> (8 * k)) % 256) := by
  have e1 : (idx + 1) % 4294967296 = idx + 1 := Nat.mod_eq_of_lt (by omega)
  have e2 : (idx + 2) % 4294967296 = idx + 2 := Nat.mod_eq_of_lt (by omega)
  have e3 : (idx + 3) % 4294967296 = idx + 3 := Nat.mod_eq_of_lt (by omega)
  simp only [quad, byteAt, e1, e2, e3]
  interval_cases k
  · rw [List.getElem?_set_ne (by omega), List.getElem?_set_ne (by omega),
      List.getElem?_set_ne (by omega)]
    simp only [Nat.add_zero, Nat.mul_zero, Nat.shiftRight_zero]
    rw [List.getElem?_set_eq_of_lt _ (by omega)]
  · rw [List.getElem?_set_ne (by omega), List.getElem?_set_ne (by omega)]
    rw [List.getElem?_set_eq_of_lt _ (by simp; omega)]
  · rw [List.getElem?_set_ne (by omega)]
    rw [List.getElem?_set_eq_of_lt _ (by simp; omega)]
  · rw [List.getElem?_set_eq_of_lt _ (by simp; omega)]

theorem applyPatches_length (ps : List (Nat × Nat)) :
    ∀ buf, (applyPatches buf ps).length = buf.length := by
  induction ps with
  | nil => intro buf; rfl
  | cons a rest ih =>
    intro buf
    have h : applyPatches buf (a :: rest) = applyPatches (quad buf a.2 a.1) rest := rfl
    rw [h, ih, quad_length]

theorem applyPatches_get_other (ps : List (Nat × Nat)) (pos : Nat) :
    ∀ buf, (∀ p ∈ ps, p.1 + 4 ≤ 4294967296 ∧ (pos < p.1 ∨ p.1 + 4 ≤ pos)) →
      (applyPatches buf ps)[pos]? = buf[pos]? := by
  induction ps with
  | nil => intro buf _; rfl
  | cons a rest ih =>
    intro buf h
    have e : applyPatches buf (a :: rest) = applyPatches (quad buf a.2 a.1) rest := rfl
    obtain ⟨h1, h2⟩ := h a (List.mem_cons_self a rest)
    rw [e, ih _ (fun p hp => h p (List.mem_cons_of_mem a hp)), quad_get_other _ _ _ _ h1 h2]

theorem applyPatches_get (ps : List (Nat × Nat)) :
    ∀ buf, buf.length < 4294967296 → (∀ p ∈ ps, p.1 + 4 ≤ buf.length) →
      (∀ p ∈ ps, ∀ q ∈ ps, p = q ∨ p.1 + 4 ≤ q.1 ∨ q.1 + 4 ≤ p.1) →
      ∀ p ∈ ps, ∀ k, k < 4 →
        (applyPatches buf ps)[p.1 + k]? = some ((p.2 >>> (8 * k)) % 256) := by
  induction ps with
  | nil => intro buf _ _ _ p hp; simp at hp
  | cons a rest ih =>
    intro buf hlen hin hcons p hp k hk
    have e : applyPatches buf (a :: rest) = applyPatches (quad buf a.2 a.1) rest := rfl
    rw [e]
    by_cases hpr : p ∈ rest
    · apply ih _ (by rw [quad_length]; exact hlen)
      · intro q hq
        rw [quad_length]
        exact hin q (List.mem_cons_of_mem a hq)
      · intro x hx y hy
        exact hcons x (List.mem_cons_of_mem a hx) y (List.mem_cons_of_mem a hy)
      · exact hpr
      · exact hk
    · have hpa : p = a := by
        rcases List.mem_cons.mp hp with h | h
        · exact h
        · exact absurd h hpr
      subst hpa
      have hin_p := hin p hp
      rw [applyPatches_get_other]
      · exact quad_get buf p.2 p.1 k hin_p hlen hk
      · intro q hq
        have hq4 := hin q (List.mem_cons_of_mem p hq)
        refine ⟨by omega, ?_⟩
        rcases hcons p hp q (List.mem_cons_of_mem p hq) with h | h | h
        · exact absurd (h ▸ hq) hpr
        · omega
        · omega

theorem patchJumps_eq (st : EmitState) : patchJumps st = applyPatches st.buf (patchList st) := by
  unfold patchJumps patchList applyPatches
  generalize st.buf = buf
  induction st.insertBlockAddressAt generalizing buf with
  | nil => rfl
  | cons e rest ih =>
    rw [List.foldl_cons, List.flatMap_cons, List.foldl_append, List.foldl_map]
    exact ih _

theorem leByte_patch (a J k : Nat) (hJ : J + 4 ≤ 4294967296) (hk : k < 4) :
    (((a + 4294967296 - (J + 4)) % 4294967296) >>> (8 * k)) % 256
      = leByte 4 ((a : Int) - ((J : Int) + 4)) k := by
  unfold leByte
  have hv : (((a : Int) - ((J : Int) + 4)) % (2 : Int) ^ (8 * 4)).toNat
      = (a + 4294967296 - (J + 4)) % 4294967296 := by
    norm_num
    omega
  rw [hv, Nat.shiftRight_eq_div_pow]
  interval_cases k <;> norm_num

/-- C4: after `MachineCompiler::run`, for every emitted `JMP` or `JNZ` whose 4-byte
placeholder starts at code offset `J` and whose target is block `B`, the bytes at
offsets `J .. J+3` are the little-endian 32-bit two-complement encoding of
`blockAddress(B) - (J + 4)`, where `blockAddress(B)` is the code offset recorded at
the start of block `B` (code of less than 4 GiB, the range of the `u32` offsets). -/
theorem run_patches_jumps (header : List Nat) (blocks : List EmitBlock)
    (hlen : header.length + blocksSize blocks < 4294967296)
    (J B a : Nat) (hsite : (J, B) ∈ jumpSites header.length blocks)
    (hstart : blockStart header.length B blocks = some a) (k : Nat) (hk : k < 4) :
    (runCode header blocks)[J + k]? = some (leByte 4 ((a : Int) - ((J : Int) + 4)) k) := by
  obtain ⟨h1, h2, h3, h4⟩ := emitBlocks_spec blocks ⟨header, [], []⟩ []
    hlen (fun e he => by simp at he) (fun s hs => by simp at hs)
  simp only [List.nil_append] at h1 h2 h3 h4
  have hgeo := jumpSites_ok blocks header.length
  have hst : emitBlocks header blocks = blocks.foldl emitBlock ⟨header, [], []⟩ := rfl
  have haddr : addressOf (emitBlocks header blocks).blockAddresses B = a := by
    unfold addressOf
    rw [hst, h2 B, hstart]
    rfl
  -- the patch of this jump is in the patch list
  obtain ⟨set, hset, hmem⟩ := h4 (J, B) hsite
  simp only at hset hmem
  have hentry := omFind_some_mem natLt_keyEquiv_iff _ _ _ hset
  have hp : (J, (a + 4294967296 - (J + 4)) % 4294967296) ∈ patchList (emitBlocks header blocks) := by
    unfold patchList
    rw [List.mem_flatMap]
    refine ⟨(B, set), by rw [hst]; exact hentry, ?_⟩
    rw [List.mem_map]
    exact ⟨(J + 4, J), hmem, by simp only [haddr]⟩
  -- every patch comes from a jump site
  have hall : ∀ p ∈ patchList (emitBlocks header blocks),
      ∃ t, (p.1, t) ∈ jumpSites header.length blocks ∧
        p.2 = (addressOf (emitBlocks header blocks).blockAddresses t + 4294967296 - (p.1 + 4))
          % 4294967296 := by
    intro p hp
    unfold patchList at hp
    rw [List.mem_flatMap] at hp
    obtain ⟨e, he, hp2⟩ := hp
    rw [List.mem_map] at hp2
    obtain ⟨r, hr, rfl⟩ := hp2
    rw [hst] at he
    obtain ⟨g1, g2⟩ := h3 e he r hr
    exact ⟨e.1, g1, by simp only [g2]⟩
  rw [runCode, patchJumps_eq]
  have hbuf : (emitBlocks header blocks).buf.length = header.length + blocksSize blocks := by
    rw [hst, h1]
  have hJ : J + 4 ≤ 4294967296 := by
    have := (hgeo.2 (J, B) hsite).2
    simp only at this
    omega
  rw [← leByte_patch a J k hJ hk]
  apply applyPatches_get (patchList (emitBlocks header blocks)) _ (by rw [hbuf]; exact hlen)
    _ _ (J, (a + 4294967296 - (J + 4)) % 4294967296) hp k hk
  · intro p hp
    obtain ⟨t, ht, -⟩ := hall p hp
    have := (hgeo.2 (p.1, t) ht).2
    rw [hbuf]
    exact this
  · intro p hp q hq
    obtain ⟨t, ht, hpv⟩ := hall p hp
    obtain ⟨u, hu, hqv⟩ := hall q hq
    rcases sites_apart _ _ _ hgeo _ ht _ hu with h | h | h
    · left
      have e1 : p.1 = q.1 := (Prod.mk.inj h).1
      have e2 : t = u := (Prod.mk.inj h).2
      apply Prod.ext e1
      rw [hpv, hqv, e1, e2]
    · right; left; simp only at h; omega
    · right; right; simp only at h; omega

/-- Witness of C4: a header of three bytes, then block 0 (two code bytes, `jnz 2`,
`jmp 1`), block 1 and block 2; the `jnz` placeholder at offset 7 holds 12, the distance
from offset 11 to block 2 at offset 23. -/
theorem run_patches_jumps_witness :
    ((7, 2) ∈ jumpSites 3
        [⟨0, [], [EmitStep.code [9, 9], EmitStep.jnz 2, EmitStep.jmp 1]⟩,
         ⟨1, [7], [EmitStep.code [8], EmitStep.jmp 0]⟩, ⟨2, [], [EmitStep.jmp 2]⟩] ∧
     blockStart 3 2
        [⟨0, [], [EmitStep.code [9, 9], EmitStep.jnz 2, EmitStep.jmp 1]⟩,
         ⟨1, [7], [EmitStep.code [8], EmitStep.jmp 0]⟩, ⟨2, [], [EmitStep.jmp 2]⟩] = some 23) ∧
    (runCode [1, 2, 3]
        [⟨0, [], [EmitStep.code [9, 9], EmitStep.jnz 2, EmitStep.jmp 1]⟩,
         ⟨1, [7], [EmitStep.code [8], EmitStep.jmp 0]⟩, ⟨2, [], [EmitStep.jmp 2]⟩])[7 + 0]?
      = some (leByte 4 ((23 : Nat) - (((7 : Nat) : Int) + 4)) 0) :=
  ⟨by decide,
   run_patches_jumps [1, 2, 3]
     [⟨0, [], [EmitStep.code [9, 9], EmitStep.jnz 2, EmitStep.jmp 1]⟩,
      ⟨1, [7], [EmitStep.code [8], EmitStep.jmp 0]⟩, ⟨2, [], [EmitStep.jmp 2]⟩]
     (by decide) 7 2 23 (by decide) (by decide) 0 (by decide)⟩

/-! ## The edge moves of `MachineCompiler::run` -/

theorem omFind_index_adjust {K V : Type} [DecidableEq K] {lt : K → K → Bool}
    (hE : ∀ a b, keyEquiv lt a b = true ↔ a = b) (m : List (K × V)) (k : K) (d : V)
    (f : V → V) (k1 : K) :
    omFind lt k1 (omAdjust lt k f (if (omFind lt k m).isNone then omInsert lt k d m else m))
      = if k1 = k then some (f ((omFind lt k m).getD d)) else omFind lt k1 m := by
  rw [omFind_omAdjust hE]
  cases hf : omFind lt k m with
  | none =>
    simp only [Option.isNone_none, if_true, Option.getD_none]
    rw [omFind_omInsert hE _ _ _ _ hf]
    by_cases e : k1 = k
    · simp [e]
    · simp [e]
  | some v =>
    simp only [Option.isNone_some, Bool.false_eq_true, if_false, Option.getD_some]
    by_cases e : k1 = k
    · simp [e, hf]
    · simp [e]

theorem lookupEdge_pushEdge (E : List (Nat × List (Nat × List SpillMovOp))) (p s : Nat)
    (m : SpillMovOp) (p1 s1 : Nat) :
    lookupEdge (pushEdge E p s m) p1 s1
      = if p1 = p ∧ s1 = s then lookupEdge E p s ++ [m] else lookupEdge E p1 s1 := by
  unfold lookupEdge pushEdge
  rw [omFind_index_adjust natLt_keyEquiv_iff]
  by_cases e1 : p1 = p
  · subst e1
    simp only [if_true, Option.some_bind, true_and]
    rw [omFind_index_adjust natLt_keyEquiv_iff]
    by_cases e2 : s1 = s
    · subst e2
      simp only [if_true, Option.getD_some]
      cases h1 : omFind natLt p1 E with
      | none => simp [omFind]
      | some inner =>
        cases h2 : omFind natLt s1 inner with
        | none => simp [h2]
        | some v => simp [h2]
    · simp only [if_neg e2]
      cases h1 : omFind natLt p1 E with
      | none => simp [omFind]
      | some inner => simp
  · simp [e1]

theorem loopE_inv {σ α : Type} (body : σ → α → Except Err σ) (Inv : σ → Prop) (xs : List α) :
    ∀ (st final : σ), loopE body st xs = Except.ok final → Inv st →
      (∀ s x s1, x ∈ xs → Inv s → body s x = Except.ok s1 → Inv s1) → Inv final := by
  induction xs with
  | nil =>
    intro st final h h0 _
    simp only [loopE, Except.ok.injEq] at h
    exact h ▸ h0
  | cons x rest ih =>
    intro st final h h0 hstep
    unfold loopE at h
    cases hb : body st x with
    | error e => rw [hb] at h; exact Except.noConfusion h
    | ok st1 =>
      rw [hb] at h
      exact ih st1 final h (hstep st x st1 (List.mem_cons_self x rest) h0 hb)
        (fun s y s1 hy => hstep s y s1 (List.mem_cons_of_mem x hy))

theorem loopE_reach {σ α : Type} (body : σ → α → Except Err σ) (Q : σ → Prop) (x0 : α)
    (xs : List α) :
    ∀ (st final : σ), loopE body st xs = Except.ok final → x0 ∈ xs →
      (∀ s s1, body s x0 = Except.ok s1 → Q s1) →
      (∀ s x s1, x ∈ xs → Q s → body s x = Except.ok s1 → Q s1) → Q final := by
  induction xs with
  | nil => intro st final _ hx; simp at hx
  | cons x rest ih =>
    intro st final h hx hreach hmono
    unfold loopE at h
    cases hb : body st x with
    | error e => rw [hb] at h; exact Except.noConfusion h
    | ok st1 =>
      rw [hb] at h
      by_cases hxr : x0 ∈ rest
      · exact ih st1 final h hxr hreach
          (fun s y s1 hy => hmono s y s1 (List.mem_cons_of_mem x hy))
      · have hx0 : x0 = x := by
          rcases List.mem_cons.mp hx with e | e
          · exact e
          · exact absurd e hxr
        subst hx0
        exact loopE_inv body Q rest st1 final h (hreach st st1 hb)
          (fun s y s1 hy => hmono s y s1 (List.mem_cons_of_mem x0 hy))

theorem edgeSource_some_iff (intervals : List Interval) (P : Block) (sFrom : Nat) (start : Int)
    (I : Interval) (r : Nat) :
    edgeSource intervals P sFrom start I = Except.ok (some r) ↔
      ∃ (pTo srcVr : Nat) (a : Interval), P.toLIR = Except.ok pTo ∧
        ((start ≠ (sFrom : Int) ∧ srcVr = I.vr) ∨
          (start = (sFrom : Int) ∧ I.phi = true ∧
            ∃ p, I.definingPhi.payload = Payload.phi p ∧ p.inputOf P.index = Except.ok srcVr)) ∧
        intervalFor intervals pTo srcVr = Except.ok a ∧ r = a._reg := by
  unfold edgeSource
  constructor
  · intro h
    by_cases h1 : start = (sFrom : Int)
    · rw [if_pos h1] at h
      by_cases h2 : I.phi = true
      · rw [if_pos h2] at h
        cases hp : I.definingPhi.payload with
        | phi p =>
          rw [hp] at h
          simp only at h
          cases hin : p.inputOf P.index with
          | error e => rw [hin] at h; simp at h
          | ok operand =>
            rw [hin] at h
            simp only at h
            cases hto : P.toLIR with
            | error e => rw [hto] at h; simp at h
            | ok pTo =>
              rw [hto] at h
              simp only at h
              cases hi : intervalFor intervals pTo operand with
              | error e => rw [hi] at h; simp at h
              | ok a =>
                rw [hi] at h
                simp only [Except.ok.injEq, Option.some.injEq] at h
                exact ⟨pTo, operand, a, rfl, Or.inr ⟨h1, h2, p, rfl, hin⟩, hi, h.symm⟩
        | _ => rw [hp] at h; simp at h
      · rw [if_neg h2] at h
        simp at h
    · rw [if_neg h1] at h
      cases hto : P.toLIR with
      | error e => rw [hto] at h; simp at h
      | ok pTo =>
        rw [hto] at h
        simp only at h
        cases hi : intervalFor intervals pTo I.vr with
        | error e => rw [hi] at h; simp at h
        | ok a =>
          rw [hi] at h
          simp only [Except.ok.injEq, Option.some.injEq] at h
          exact ⟨pTo, I.vr, a, rfl, Or.inl ⟨h1, rfl⟩, hi, h.symm⟩
  · rintro ⟨pTo, srcVr, a, hto, hsrc, hi, rfl⟩
    rcases hsrc with ⟨h1, rfl⟩ | ⟨h1, h2, p, hp, hin⟩
    · rw [if_neg h1, hto]
      simp only [hi]
    · rw [if_pos h1, if_pos h2, hp]
      simp only [hin, hto, hi]

theorem edgeMove_some_iff (intervals : List Interval) (P S : Block) (I : Interval)
    (m : SpillMovOp) :
    edgeMove intervals P S I = Except.ok (some m) ↔ EdgeMoveOf intervals P S I m := by
  unfold edgeMove EdgeMoveOf
  constructor
  · intro h
    cases hfix : I.isFixed with
    | true => rw [hfix] at h; simp at h
    | false =>
      rw [hfix] at h
      simp only [Bool.false_eq_true, if_false] at h
      cases hS : S.fromLIR with
      | error e => rw [hS] at h; simp at h
      | ok sFrom =>
        rw [hS] at h
        simp only at h
        cases hcov : covers I.lifespans sFrom with
        | false => rw [hcov] at h; simp at h
        | true =>
          rw [hcov] at h
          simp only [if_true] at h
          cases hst : I.start with
          | error e => rw [hst] at h; simp at h
          | ok start =>
            rw [hst] at h
            simp only at h
            cases hsrc : edgeSource intervals P sFrom start I with
            | error e => rw [hsrc] at h; simp at h
            | ok o =>
              rw [hsrc] at h
              cases o with
              | none => simp at h
              | some moveFrom =>
                simp only at h
                cases hb : intervalFor intervals sFrom I.vr with
                | error e => rw [hb] at h; simp at h
                | ok b =>
                  rw [hb] at h
                  simp only at h
                  by_cases hne : moveFrom ≠ b._reg
                  · rw [if_pos hne] at h
                    simp only [Except.ok.injEq, Option.some.injEq] at h
                    obtain ⟨pTo, srcVr, a, hto, hcond, hi, rfl⟩ :=
                      (edgeSource_some_iff _ _ _ _ _ _).mp hsrc
                    exact ⟨rfl, sFrom, pTo, start, srcVr, a, b, rfl, hto, hcov, rfl, hcond,
                      hi, hb, hne, h.symm⟩
                  · rw [if_neg hne] at h
                    simp at h
  · rintro ⟨hfix, sFrom, pTo, start, srcVr, a, b, hS, hto, hcov, hst, hcond, hi, hb, hne, rfl⟩
    have hsrc : edgeSource intervals P sFrom start I = Except.ok (some a._reg) :=
      (edgeSource_some_iff _ _ _ _ _ _).mpr ⟨pTo, srcVr, a, hto, hcond, hi, rfl⟩
    rw [hfix]
    simp only [Bool.false_eq_true, if_false, hS, hcov, if_true, hst, hsrc, hb]
    rw [if_pos hne]

theorem edgeIntervalBody_ok (intervals : List Interval) (P S : Block) (st s1 : EdgeState)
    (I : Interval) (h : edgeIntervalBody intervals P S st I = Except.ok s1) :
    (edgeMove intervals P S I = Except.ok none ∧ s1.edgeInstructions = st.edgeInstructions) ∨
    (∃ m, edgeMove intervals P S I = Except.ok (some m) ∧
      s1.edgeInstructions = pushEdge st.edgeInstructions P.index S.index m) := by
  unfold edgeIntervalBody at h
  cases hm : edgeMove intervals P S I with
  | error e => rw [hm] at h; simp at h
  | ok o =>
    rw [hm] at h
    cases o with
    | none =>
      simp only [Except.ok.injEq] at h
      exact Or.inl ⟨rfl, by rw [h]⟩
    | some m =>
      right
      refine ⟨m, rfl, ?_⟩
      simp only at h
      cases hl : P.lirs.getLast? with
      | none => rw [hl] at h; simp at h
      | some last =>
        rw [hl] at h
        simp only at h
        split at h
        · simp at h
        · simp only [Except.ok.injEq] at h
          rw [← h]

/-- The edge moves recorded so far are moves of intervals on edges of the CFG. -/
theorem edgeMoves_sound (blocks : List Block) (intervals : List Interval) (st : EdgeState)
    (hrun : edgeMoves blocks intervals = Except.ok st) (p s : Nat) (m : SpillMovOp)
    (hm : m ∈ lookupEdge st.edgeInstructions p s) :
    ∃ P ∈ blocks, ∃ sIndex ∈ P.blockInfo.successors, ∃ S, blocks[sIndex]? = some S ∧
      P.index = p ∧ S.index = s ∧ ∃ I ∈ intervals, EdgeMoveOf intervals P S I m := by
  let Inv : EdgeState → Prop := fun st =>
    ∀ p s m, m ∈ lookupEdge st.edgeInstructions p s →
      ∃ P ∈ blocks, ∃ sIndex ∈ P.blockInfo.successors, ∃ S, blocks[sIndex]? = some S ∧
        P.index = p ∧ S.index = s ∧ ∃ I ∈ intervals, EdgeMoveOf intervals P S I m
  have hfinal : Inv st := by
    apply loopE_inv _ Inv blocks ⟨[], []⟩ st hrun
    · intro p s m hm
      simp [lookupEdge, omFind] at hm
    · intro s0 P s1 hP hinv hbody
      apply loopE_inv _ Inv P.blockInfo.successors s0 s1 hbody hinv
      intro s2 sIndex s3 hsI hinv2 hbody2
      unfold edgeSuccessorBody at hbody2
      cases hS : blocks[sIndex]? with
      | none => rw [hS] at hbody2; simp at hbody2
      | some S =>
        rw [hS] at hbody2
        simp only at hbody2
        apply loopE_inv _ Inv intervals s2 s3 hbody2 hinv2
        intro s4 I s5 hI hinv3 hbody3
        intro p s m hm
        rcases edgeIntervalBody_ok _ _ _ _ _ _ hbody3 with ⟨-, heq⟩ | ⟨m1, hm1, heq⟩
        · rw [heq] at hm
          exact hinv3 p s m hm
        · rw [heq, lookupEdge_pushEdge] at hm
          by_cases hps : p = P.index ∧ s = S.index
          · rw [if_pos hps] at hm
            rcases List.mem_append.mp hm with h | h
            · rw [← hps.1, ← hps.2] at h
              exact hinv3 p s m h
            · rw [List.mem_singleton] at h
              subst h
              exact ⟨P, hP, sIndex, hsI, S, hS, hps.1.symm, hps.2.symm, I, hI,
                (edgeMove_some_iff _ _ _ _ _).mp hm1⟩
          · rw [if_neg hps] at hm
            exact hinv3 p s m hm
  exact hfinal p s m hm

/-- Every move of an interval on an edge of the CFG is recorded. -/
theorem edgeMoves_complete (blocks : List Block) (intervals : List Interval) (st : EdgeState)
    (hrun : edgeMoves blocks intervals = Except.ok st) (P : Block) (hP : P ∈ blocks)
    (sIndex : Nat) (hsI : sIndex ∈ P.blockInfo.successors) (S : Block)
    (hS : blocks[sIndex]? = some S) (I : Interval) (hI : I ∈ intervals) (m : SpillMovOp)
    (hm : EdgeMoveOf intervals P S I m) :
    m ∈ lookupEdge st.edgeInstructions P.index S.index := by
  have hmove := (edgeMove_some_iff _ _ _ _ _).mpr hm
  let Q : EdgeState → Prop := fun st => m ∈ lookupEdge st.edgeInstructions P.index S.index
  -- a step of the innermost loop keeps recorded moves
  have hmono3 : ∀ (P1 S1 : Block) (s I1 s1), Q s →
      edgeIntervalBody intervals P1 S1 s I1 = Except.ok s1 → Q s1 := by
    intro P1 S1 s I1 s1 hq hb
    rcases edgeIntervalBody_ok _ _ _ _ _ _ hb with ⟨-, heq⟩ | ⟨m1, -, heq⟩
    · show m ∈ lookupEdge s1.edgeInstructions P.index S.index
      rw [heq]; exact hq
    · show m ∈ lookupEdge s1.edgeInstructions P.index S.index
      rw [heq, lookupEdge_pushEdge]
      split
      · rename_i hps
        rw [← hps.1, ← hps.2]
        exact List.mem_append_left _ hq
      · exact hq
  have hmono2 : ∀ (P1 : Block) (s : EdgeState) (sI : Nat) (s1 : EdgeState), Q s →
      edgeSuccessorBody blocks intervals P1 s sI = Except.ok s1 → Q s1 := by
    intro P1 s sI s1 hq hb
    unfold edgeSuccessorBody at hb
    cases hS1 : blocks[sI]? with
    | none => rw [hS1] at hb; simp at hb
    | some S1 =>
      rw [hS1] at hb
      exact loopE_inv _ Q intervals s s1 hb hq (fun a I1 b _ ha hab => hmono3 P1 S1 a I1 b ha hab)
  have hmono1 : ∀ (s : EdgeState) (P1 : Block) (s1 : EdgeState), Q s →
      loopE (edgeSuccessorBody blocks intervals P1) s P1.blockInfo.successors = Except.ok s1 →
      Q s1 := by
    intro s P1 s1 hq hb
    exact loopE_inv _ Q _ s s1 hb hq (fun a sI b _ ha hab => hmono2 P1 a sI b ha hab)
  apply loopE_reach _ Q P blocks ⟨[], []⟩ st hrun hP
  · intro s s1 hb
    apply loopE_reach _ Q sIndex P.blockInfo.successors s s1 hb hsI
    · intro s2 s3 hb2
      unfold edgeSuccessorBody at hb2
      rw [hS] at hb2
      apply loopE_reach _ Q I intervals s2 s3 hb2 hI
      · intro s4 s5 hb3
        rcases edgeIntervalBody_ok _ _ _ _ _ _ hb3 with ⟨hnone, -⟩ | ⟨m1, hm1, heq⟩
        · rw [hmove] at hnone
          simp at hnone
        · rw [hmove] at hm1
          simp only [Except.ok.injEq, Option.some.injEq] at hm1
          subst hm1
          show m ∈ lookupEdge s5.edgeInstructions P.index S.index
          rw [heq, lookupEdge_pushEdge]
          simp
      · intro a I1 b _ ha hab
        exact hmono3 P S a I1 b ha hab
    · intro a sI b _ ha hab
      exact hmono2 P a sI b ha hab
  · intro a P1 b _ ha hab
    exact hmono1 a P1 b ha hab

/-- The edge moves as the code computes them: when the edge-move part of
`MachineCompiler::run` completes, the edge-move list of `(P.index, S.index)` holds the move of every non-fixed interval that
covers the first LIR id of `S` (and does not start there, or is a phi interval, whose
source is then the phi input coming from `P`) and whose general register `_reg` at the
last LIR id of `P` differs from its `_reg` at the first LIR id of `S`: the move from
the former register to the latter; and every recorded move is such a move, so that
equal registers record nothing. -/
theorem edge_moves_recorded (blocks : List Block) (intervals : List Interval) (st : EdgeState)
    (hrun : edgeMoves blocks intervals = Except.ok st) :
    (∀ P ∈ blocks, ∀ sIndex ∈ P.blockInfo.successors, ∀ S, blocks[sIndex]? = some S →
      ∀ I ∈ intervals, ∀ m, EdgeMoveOf intervals P S I m →
        m ∈ lookupEdge st.edgeInstructions P.index S.index) ∧
    (∀ p s m, m ∈ lookupEdge st.edgeInstructions p s →
      ∃ P ∈ blocks, ∃ sIndex ∈ P.blockInfo.successors, ∃ S, blocks[sIndex]? = some S ∧
        P.index = p ∧ S.index = s ∧ ∃ I ∈ intervals, EdgeMoveOf intervals P S I m) :=
  ⟨fun P hP sIndex hsI S hS I hI m hm =>
      edgeMoves_complete blocks intervals st hrun P hP sIndex hsI S hS I hI m hm,
   fun p s m hm => edgeMoves_sound blocks intervals st hrun p s m hm⟩

/-- An instance of `edge_moves_recorded`: in the scenario with RCX before id 3 and RAX
after it, the run completes and, for the edge from block 0 to block 2, records exactly the move
RCX→RAX. -/
theorem edge_moves_recorded_witness :
    edgeMoves demoBlocks demoIntervalsReg
      = Except.ok ⟨[(0, [(2, [⟨RegMemOp.reg RCX, RegMemOp.reg RAX, OperandSize.QWORD⟩])])], []⟩ ∧
    (∀ p s m, m ∈ lookupEdge
        [(0, [(2, [⟨RegMemOp.reg RCX, RegMemOp.reg RAX, OperandSize.QWORD⟩])])] p s →
      ∃ P ∈ demoBlocks, ∃ sIndex ∈ P.blockInfo.successors, ∃ S,
        demoBlocks[sIndex]? = some S ∧ P.index = p ∧ S.index = s ∧
        ∃ I ∈ demoIntervalsReg, EdgeMoveOf demoIntervalsReg P S I m) :=
  ⟨by rfl,
   (edge_moves_recorded demoBlocks demoIntervalsReg
     ⟨[(0, [(2, [⟨RegMemOp.reg RCX, RegMemOp.reg RAX, OperandSize.QWORD⟩])])], []⟩ (by rfl)).2⟩

/-- C8 (defect of the code): virtual register 5 is in XMM1 at the last LIR id of block 0
and in XMM0 at the first LIR id of its successor block 2, the interval `[3,5]` is not
fixed and covers that id, yet the run completes without recording any move for the
edge (0, 2): the edge-move loop compares the field `_reg` only, which is `NONE` on both
sides, while `operandFor` reads the value from XMM1 before the edge and from XMM0
after it. -/
theorem edge_moves_ignore_xmm :
    edgeMoves demoBlocks demoIntervalsXmm = Except.ok ⟨[], []⟩ ∧
    lookupEdge ([] : List (Nat × List (Nat × List SpillMovOp))) 0 2 = [] ∧
    (demoInterval 3 5 NONE 0 ⟨false, 8⟩).isFixed = false ∧
    covers (demoInterval 3 5 NONE 0 ⟨false, 8⟩).lifespans 4 = true ∧
    operandFor demoIntervalsXmm ⟨0, 0, 8, true⟩ 1 5 = Except.ok (RegMemOp.xmm 1) ∧
    operandFor demoIntervalsXmm ⟨0, 0, 8, true⟩ 4 5 = Except.ok (RegMemOp.xmm 0) := by
  refine ⟨by rfl, by rfl, by rfl, by rfl, by rfl, by rfl⟩

/-! ## Register allocation: the ranges of every virtual register stay covered -/

theorem covers_iff (l : List Lifespan) (p : Nat) :
    covers l p = true ↔ ∃ a ∈ l, a.from_ ≤ (p : Int) ∧ (p : Int) ≤ a.to_ := by
  simp [covers, List.any_eq_true]

theorem rangesOK_nil : RangesOK [] := ⟨by simp, List.Pairwise.nil⟩

theorem rangesOK_cons {a : Lifespan} {l : List Lifespan} :
    RangesOK (a :: l) ↔ a.from_ ≤ a.to_ ∧ (∀ b ∈ l, a.to_ < b.from_) ∧ RangesOK l := by
  unfold RangesOK
  simp only [List.mem_cons, forall_eq_or_imp, List.pairwise_cons]
  tauto

theorem splitLoop_spec (pos : Int) (l : List Lifespan) :
    ∀ h t, RangesOK l → splitLoop pos l = (h, t) →
      RangesOK h ∧ RangesOK t ∧ Before h t ∧ Within h l ∧ Within t l ∧
      (∀ p : Nat, covers l p = true → covers h p = true ∨ covers t p = true) := by
  induction l with
  | nil =>
    intro h t _ hs
    simp only [splitLoop, Prod.mk.injEq] at hs
    obtain ⟨rfl, rfl⟩ := hs
    refine ⟨rangesOK_nil, rangesOK_nil, ?_, ?_, ?_, ?_⟩
    · intro a ha; simp at ha
    · intro a ha; simp at ha
    · intro a ha; simp at ha
    · intro p hp; simp [covers] at hp
  | cons it rest ih =>
    intro h t hok hs
    obtain ⟨hwf, hlt, hrest⟩ := rangesOK_cons.mp hok
    unfold splitLoop at hs
    by_cases h1 : it.from_ = pos
    · rw [if_pos h1] at hs
      obtain ⟨rfl, rfl⟩ := Prod.mk.inj hs
      refine ⟨rangesOK_nil, hok, ?_, ?_, ?_, ?_⟩
      · intro a ha; simp at ha
      · intro a ha; simp at ha
      · intro a ha; exact ⟨a, ha, le_refl _, le_refl _⟩
      · intro p hp; exact Or.inr hp
    · rw [if_neg h1] at hs
      by_cases h2 : it.from_ < pos ∧ it.to_ ≥ pos
      · rw [if_pos h2] at hs
        obtain ⟨rfl, rfl⟩ := Prod.mk.inj hs
        refine ⟨?_, ?_, ?_, ?_, ?_, ?_⟩
        · refine rangesOK_cons.mpr ⟨?_, ?_, rangesOK_nil⟩
          · show it.from_ ≤ pos - 1
            omega
          · intro b hb; simp at hb
        · refine rangesOK_cons.mpr ⟨?_, ?_, hrest⟩
          · show pos ≤ it.to_
            omega
          · intro b hb
            exact hlt b hb
        · intro a ha b hb
          simp only [List.mem_singleton] at ha
          subst ha
          show pos - 1 < b.from_
          rcases List.mem_cons.mp hb with rfl | hb
          · show pos - 1 < pos
            omega
          · have := hlt b hb
            omega
        · intro a ha
          simp only [List.mem_singleton] at ha
          subst ha
          refine ⟨it, List.mem_cons_self _ _, le_refl _, ?_⟩
          show pos - 1 ≤ it.to_
          omega
        · intro a ha
          rcases List.mem_cons.mp ha with rfl | ha
          · refine ⟨it, List.mem_cons_self _ _, ?_, le_refl _⟩
            show it.from_ ≤ pos
            omega
          · exact ⟨a, List.mem_cons_of_mem _ ha, le_refl _, le_refl _⟩
        · intro p hp
          rw [covers_iff] at hp
          obtain ⟨a, ha, h3, h4⟩ := hp
          rcases List.mem_cons.mp ha with rfl | ha
          · by_cases h5 : (p : Int) < pos
            · left
              rw [covers_iff]
              refine ⟨⟨a.from_, pos - 1⟩, List.mem_singleton.mpr rfl, h3, ?_⟩
              show (p : Int) ≤ pos - 1
              omega
            · right
              rw [covers_iff]
              refine ⟨⟨pos, a.to_⟩, List.mem_cons_self _ _, ?_, h4⟩
              show pos ≤ (p : Int)
              omega
          · right
            rw [covers_iff]
            exact ⟨a, List.mem_cons_of_mem _ ha, h3, h4⟩
      · rw [if_neg h2] at hs
        obtain ⟨rfl, rfl⟩ := Prod.mk.inj hs
        obtain ⟨i1, i2, i3, i4, i5, i6⟩ := ih _ _ hrest rfl
        refine ⟨?_, i2, ?_, ?_, ?_, ?_⟩
        · refine rangesOK_cons.mpr ⟨hwf, ?_, i1⟩
          intro b hb
          obtain ⟨c, hc, h3, _⟩ := i4 b hb
          have := hlt c hc
          omega
        · intro a ha b hb
          rcases List.mem_cons.mp ha with rfl | ha
          · obtain ⟨c, hc, h3, _⟩ := i5 b hb
            have := hlt c hc
            omega
          · exact i3 a ha b hb
        · intro a ha
          rcases List.mem_cons.mp ha with rfl | ha
          · exact ⟨a, List.mem_cons_self _ _, le_refl _, le_refl _⟩
          · obtain ⟨c, hc, h3, h4⟩ := i4 a ha
            exact ⟨c, List.mem_cons_of_mem _ hc, h3, h4⟩
        · intro a ha
          obtain ⟨c, hc, h3, h4⟩ := i5 a ha
          exact ⟨c, List.mem_cons_of_mem _ hc, h3, h4⟩
        · intro p hp
          rw [covers_iff] at hp
          obtain ⟨a, ha, h3, h4⟩ := hp
          rcases List.mem_cons.mp ha with rfl | ha
          · left
            rw [covers_iff]
            exact ⟨a, List.mem_cons_self _ _, h3, h4⟩
          · rcases i6 p ((covers_iff _ _).mpr ⟨a, ha, h3, h4⟩) with h5 | h5
            · left
              rw [covers_iff] at h5 ⊢
              obtain ⟨c, hc, h6, h7⟩ := h5
              exact ⟨c, List.mem_cons_of_mem _ hc, h6, h7⟩
            · exact Or.inr h5

theorem apart_symm {a b : Nat × List Lifespan} (h : Apart a b) : Apart b a := by
  intro e
  rcases h e.symm with h | h
  · exact Or.inr h
  · exact Or.inl h

theorem before_of_within_left {l m k : List Lifespan} (hw : Within k l) (h : Before l m) :
    Before k m := by
  intro a ha b hb
  obtain ⟨c, hc, _, h2⟩ := hw a ha
  have := h c hc b hb
  omega

theorem before_of_within_right {l m k : List Lifespan} (hw : Within k m) (h : Before l m) :
    Before l k := by
  intro a ha b hb
  obtain ⟨c, hc, h1, _⟩ := hw b hb
  have := h a ha c hc
  omega

theorem apart_of_within {v : Nat} {l k : List Lifespan} {s : Nat × List Lifespan}
    (hw : Within k l) (h : Apart (v, l) s) : Apart (v, k) s := by
  intro e
  rcases h e with h | h
  · exact Or.inl (before_of_within_left hw h)
  · exact Or.inr (before_of_within_right hw h)

theorem good_of_ev {C : Nat → Nat → Prop} {S T : List (Nat × List Lifespan)} (h : Ev S T) :
    Good C S → Good C T := by
  induction h with
  | perm hp =>
    intro g
    refine ⟨fun s hs => g.ranges s (hp.mem_iff.mpr hs), ?_, ?_⟩
    · exact (hp.pairwise_iff (fun {a b} h => apart_symm h)).mp g.apart
    · intro v p hc
      obtain ⟨s, hs, h1, h2⟩ := g.cover v p hc
      exact ⟨s, hp.mem_iff.mp hs, h1, h2⟩
  | @split v l h t rest pos hs =>
    intro g
    obtain ⟨i1, i2, i3, i4, i5, i6⟩ :=
      splitLoop_spec pos l h t (g.ranges (v, l) (List.mem_cons_self _ _)) hs
    obtain ⟨ha, hr⟩ := List.pairwise_cons.mp g.apart
    refine ⟨?_, ?_, ?_⟩
    · intro s hs
      rcases List.mem_cons.mp hs with rfl | hs
      · exact i1
      · rcases List.mem_cons.mp hs with rfl | hs
        · exact i2
        · exact g.ranges s (List.mem_cons_of_mem _ hs)
    · refine List.pairwise_cons.mpr ⟨?_, List.pairwise_cons.mpr ⟨?_, hr⟩⟩
      · intro s hs
        rcases List.mem_cons.mp hs with rfl | hs
        · exact fun _ => Or.inl i3
        · exact apart_of_within i4 (ha s hs)
      · intro s hs
        exact apart_of_within i5 (ha s hs)
    · intro w p hc
      obtain ⟨s, hs, h1, h2⟩ := g.cover w p hc
      rcases List.mem_cons.mp hs with rfl | hs
      · rcases i6 p h2 with h3 | h3
        · exact ⟨(v, h), List.mem_cons_self _ _, h1, h3⟩
        · exact ⟨(v, t), List.mem_cons_of_mem _ (List.mem_cons_self _ _), h1, h3⟩
      · exact ⟨s, List.mem_cons_of_mem _ (List.mem_cons_of_mem _ hs), h1, h2⟩
  | @drop v rest =>
    intro g
    refine ⟨fun s hs => g.ranges s (List.mem_cons_of_mem _ hs),
      (List.pairwise_cons.mp g.apart).2, ?_⟩
    intro w p hc
    obtain ⟨s, hs, h1, h2⟩ := g.cover w p hc
    rcases List.mem_cons.mp hs with rfl | hs
    · simp [covers] at h2
    · exact ⟨s, hs, h1, h2⟩
  | trans _ _ ih1 ih2 => exact fun g => ih2 (ih1 g)

theorem ev_refl (S : List (Nat × List Lifespan)) : Ev S S := Ev.perm (List.Perm.refl S)

theorem ev_of_eq {S T : List (Nat × List Lifespan)} (h : S = T) : Ev S T := h ▸ ev_refl S

theorem ev_append_right {S T : List (Nat × List Lifespan)} (h : Ev S T)
    (R : List (Nat × List Lifespan)) : Ev (S ++ R) (T ++ R) := by
  induction h with
  | perm hp => exact Ev.perm (hp.append_right R)
  | split pos hs => exact Ev.split pos hs
  | drop => exact Ev.drop
  | trans _ _ ih1 ih2 => exact Ev.trans ih1 ih2

theorem ev_append_left {S T : List (Nat × List Lifespan)} (h : Ev S T)
    (R : List (Nat × List Lifespan)) : Ev (R ++ S) (R ++ T) :=
  Ev.trans (Ev.perm List.perm_append_comm)
    (Ev.trans (ev_append_right h R) (Ev.perm List.perm_append_comm))

theorem ev_append {S T S1 T1 : List (Nat × List Lifespan)} (h : Ev S T) (h1 : Ev S1 T1) :
    Ev (S ++ S1) (T ++ T1) :=
  Ev.trans (ev_append_right h S1) (ev_append_left h1 T)

theorem ev_cons (s : Nat × List Lifespan) {S T : List (Nat × List Lifespan)} (h : Ev S T) :
    Ev (s :: S) (s :: T) := ev_append_left h [s]


theorem split_ok {i a b : Interval} {pos : Nat} (h : i.split pos = Except.ok (a, b)) :
    a = { i with lifespans := (splitLoop (pos : Int) i.lifespans).1, hasFollower := true } ∧
    b = { Interval.fresh with vr := i.vr, hasFollower := i.hasFollower, usages := i.usages,
                              type := i.type,
                              lifespans := (splitLoop (pos : Int) i.lifespans).2 } := by
  unfold Interval.split at h
  simp only at h
  split at h
  · exact Except.noConfusion h
  · simp only [Except.ok.injEq, Prod.mk.injEq] at h
    exact ⟨h.1.symm, h.2.symm⟩

theorem ev_split {i a b : Interval} {pos : Nat} (h : i.split pos = Except.ok (a, b))
    (R : List (Nat × List Lifespan)) : Ev (shape i :: R) (shape a :: shape b :: R) := by
  obtain ⟨rfl, rfl⟩ := split_ok h
  exact Ev.split (pos : Int) rfl

theorem shape_setReg (xmm : Bool) (i : Interval) (r : Nat) : shape (i.setReg xmm r) = shape i := by
  unfold Interval.setReg
  split <;> rfl

theorem splitOnReg_ev (xmm : Bool) (reg pos : Nat) (A : List Interval) :
    ∀ A1 t, splitOnReg xmm reg pos A = Except.ok (some (A1, t)) →
      Ev (A.map shape) ((t :: A1).map shape) := by
  induction A with
  | nil => intro A1 t h; simp [splitOnReg] at h
  | cons a rest ih =>
    intro A1 t h
    unfold splitOnReg at h
    split at h
    · split at h
      · exact Except.noConfusion h
      · rename_i a1 tl hs
        simp only [Except.ok.injEq, Option.some.injEq, Prod.mk.injEq] at h
        obtain ⟨rfl, rfl⟩ := h
        simp only [List.map_cons]
        exact Ev.trans (ev_split hs _) (Ev.perm (List.Perm.swap _ _ _))
    · split at h
      · exact Except.noConfusion h
      · simp at h
      · rename_i r hr
        simp only [Except.ok.injEq, Option.some.injEq, Prod.mk.injEq] at h
        obtain ⟨rfl, rfl⟩ := h
        have := ih r.1 r.2 hr
        simp only [List.map_cons] at this ⊢
        exact Ev.trans (ev_cons _ this) (Ev.perm (List.Perm.swap _ _ _))

theorem splitInactive_ev (xmm : Bool) (reg : Nat) (start : Int) (I : List Interval) :
    ∀ r, splitInactive xmm reg start I = Except.ok r →
      Ev (I.map shape) ((r.1 ++ r.2).map shape) := by
  induction I with
  | nil =>
    intro r h
    simp only [splitInactive, Except.ok.injEq] at h
    subst h
    exact ev_refl _
  | cons it rest ih =>
    intro r h
    unfold splitInactive at h
    split at h
    · split at h
      · exact Except.noConfusion h
      · split at h
        · exact Except.noConfusion h
        · rename_i it1 tl hs
          split at h
          · exact Except.noConfusion h
          · rename_i r1 hr
            simp only [Except.ok.injEq] at h
            subst h
            have := ih r1 hr
            simp only [List.map_cons, List.map_append, List.cons_append] at this ⊢
            refine Ev.trans (ev_split hs _) ?_
            refine Ev.trans (ev_cons _ (ev_cons _ this)) ?_
            refine Ev.perm ?_
            rw [List.perm_iff_count]
            intro y
            simp only [List.count_append, List.count_cons]
            omega
    · split at h
      · exact Except.noConfusion h
      · rename_i r1 hr
        simp only [Except.ok.injEq] at h
        subst h
        have := ih r1 hr
        simp only [List.map_cons, List.map_append, List.cons_append] at this ⊢
        exact ev_cons _ this

theorem handle_ev (xmm : Bool) (reg : Nat) (w w1 : Work)
    (h : handleIntervalBeingPushedOffRegister xmm reg w = Except.ok w1) :
    Ev (w.parts.map shape) (w1.parts.map shape) ∧ w1.current = w.current := by
  unfold handleIntervalBeingPushedOffRegister at h
  split at h
  · simp only [Except.ok.injEq] at h
    subst h
    exact ⟨ev_refl _, rfl⟩
  · split at h
    · exact Except.noConfusion h
    · split at h
      · exact Except.noConfusion h
      · simp only [Except.ok.injEq] at h
        subst h
        exact ⟨ev_refl _, rfl⟩
      · rename_i active1 tl hA
        split at h
        · exact Except.noConfusion h
        · rename_i inactive1 tails hI
          simp only [Except.ok.injEq] at h
          subst h
          refine ⟨?_, rfl⟩
          have e1 := splitOnReg_ev _ _ _ _ _ _ hA
          have e2 := splitInactive_ev _ _ _ _ _ hI
          have e3 := ev_append (ev_append e1 e2)
            (ev_refl ((w.current :: (w.st.unhandled ++ w.st.handled)).map shape))
          refine Ev.trans (Ev.perm ?_) (Ev.trans e3 (Ev.perm ?_))
          · simp only [Work.parts, AllocState.parts, List.map_cons, List.map_append]
            rw [List.perm_iff_count]
            intro y
            simp only [List.count_append, List.count_cons]
            omega
          · simp only [Work.parts, AllocState.parts, List.map_cons, List.map_append,
              List.map_reverse]
            rw [List.perm_iff_count]
            intro y
            simp only [List.count_append, List.count_cons, List.count_reverse]
            omega

theorem tryAllocate_ev (env : AllocEnv) (xmm : Bool) (w w1 : Work) (b : Bool)
    (h : tryAllocateFreeRegister env xmm w = Except.ok (b, w1)) :
    Ev (w.parts.map shape) (w1.parts.map shape) := by
  unfold tryAllocateFreeRegister at h
  split at h
  · exact Except.noConfusion h
  · split at h
    · simp only [Except.ok.injEq, Prod.mk.injEq] at h
      obtain ⟨_, rfl⟩ := h
      exact ev_refl _
    · split at h
      · exact Except.noConfusion h
      · split at h
        · simp only [Except.ok.injEq, Prod.mk.injEq] at h
          obtain ⟨_, rfl⟩ := h
          refine ev_of_eq ?_
          simp only [Work.parts, List.map_cons, shape_setReg]
        · split at h
          · exact Except.noConfusion h
          · rename_i c1 tl hs
            simp only [Except.ok.injEq, Prod.mk.injEq] at h
            obtain ⟨_, rfl⟩ := h
            have := ev_split hs (w.st.parts.map shape)
            rw [shape_setReg] at this
            simpa only [Work.parts, AllocState.parts, List.map_cons, List.map_append,
              List.cons_append] using this

theorem spillCurrent_ev (w w1 : Work) (h : spillCurrent w = Except.ok w1) :
    Ev (w.parts.map shape) (w1.parts.map shape) := by
  unfold spillCurrent at h
  split at h
  · exact Except.noConfusion h
  · split at h
    · exact Except.noConfusion h
    · simp only at h
      split at h
      · exact Except.noConfusion h
      · simp only [Except.ok.injEq] at h
        subst h
        exact ev_refl _
      · split at h
        · exact Except.noConfusion h
        · split at h
          · exact Except.noConfusion h
          · rename_i c2 tl hs
            simp only [Except.ok.injEq] at h
            subst h
            have := ev_split hs (w.st.parts.map shape)
            simpa only [Work.parts, AllocState.parts, List.map_cons, List.map_append,
              List.cons_append] using this

theorem splitAtFixed_ev (w w1 : Work) (h : splitAtFixed w = Except.ok w1) :
    Ev (w.parts.map shape) (w1.parts.map shape) := by
  unfold splitAtFixed at h
  simp only at h
  split at h
  · exact Except.noConfusion h
  · split at h
    · exact Except.noConfusion h
    · split at h
      · exact Except.noConfusion h
      · rename_i c1 tl hs
        simp only [Except.ok.injEq] at h
        subst h
        have := ev_split hs (w.st.parts.map shape)
        simpa only [Work.parts, AllocState.parts, List.map_cons, List.map_append,
          List.cons_append] using this
  · split at h
    · exact Except.noConfusion h
    · split at h
      · exact Except.noConfusion h
      · split at h
        · exact Except.noConfusion h
        · rename_i c1 tl hs
          simp only [Except.ok.injEq] at h
          subst h
          have := ev_split hs (w.st.parts.map shape)
          simpa only [Work.parts, AllocState.parts, List.map_cons, List.map_append,
            List.cons_append] using this
    · simp only [Except.ok.injEq] at h
      subst h
      exact ev_refl _

theorem allocateBlocked_ev (env : AllocEnv) (xmm : Bool) (w w1 : Work)
    (h : allocateBlockedRegister env xmm w = Except.ok w1) :
    Ev (w.parts.map shape) (w1.parts.map shape) := by
  unfold allocateBlockedRegister at h
  split at h
  · exact Except.noConfusion h
  · simp only at h
    split at h
    · exact Except.noConfusion h
    · split at h
      · exact Except.noConfusion h
      · rename_i w2 hw2
        exact Ev.trans (spillCurrent_ev _ _ hw2) (splitAtFixed_ev _ _ h)
    · split at h
      · exact Except.noConfusion h
      · rename_i w2 hw2
        refine Ev.trans (ev_of_eq ?_) (Ev.trans (handle_ev _ _ _ _ hw2).1 (splitAtFixed_ev _ _ h))
        simp only [Work.parts, List.map_cons, shape_setReg]

theorem fixedBranch_ev (xmm : Bool) (fixedMap : List (Nat × Nat)) (w w1 : Work)
    (h : fixedBranch xmm fixedMap w = Except.ok w1) :
    Ev (w.parts.map shape) (w1.parts.map shape) := by
  unfold fixedBranch at h
  refine loopE_inv _ (fun w0 => Ev (w.parts.map shape) (w0.parts.map shape)) fixedMap w w1 h
    (ev_refl _) ?_
  intro s x s1 _ hs hb
  refine Ev.trans hs ?_
  simp only at hb
  split at hb
  · refine Ev.trans (ev_of_eq ?_) (handle_ev _ _ _ _ hb).1
    cases xmm <;> simp [Work.parts, AllocState.parts, shape_setReg] <;> rfl
  · simp only [Except.ok.injEq] at hb
    subst hb
    exact ev_refl _

theorem volatileBranch_ev (env : AllocEnv) (ty : BType) (w w1 : Work)
    (h : volatileBranch env ty w = Except.ok w1) :
    Ev (w.parts.map shape) (w1.parts.map shape) := by
  unfold volatileBranch at h
  split at h
  · exact Except.noConfusion h
  · rename_i w2 hw2
    simp only [Except.ok.injEq] at h
    subst h
    exact tryAllocate_ev _ _ _ _ _ hw2
  · rename_i w2 hw2
    refine Ev.trans (tryAllocate_ev _ _ _ _ _ hw2) ?_
    split at h
    · exact allocateBlocked_ev _ _ _ _ h
    · split at h
      · exact allocateBlocked_ev _ _ _ _ h
      · simp only [Except.ok.injEq] at h
        subst h
        exact ev_refl _

theorem placeCurrent_perm (ty : BType) (w : Work) :
    (w.parts.map shape).Perm ((placeCurrent ty w).parts.map shape) := by
  unfold placeCurrent
  split
  · simp only [Work.parts, AllocState.parts, List.map_cons, List.map_append, List.map_nil]
    rw [List.perm_iff_count]
    intro y
    simp only [List.count_append, List.count_cons, List.count_nil]
    omega
  · split
    · simp only [Work.parts, AllocState.parts, List.map_cons, List.map_append, List.map_nil]
      rw [List.perm_iff_count]
      intro y
      simp only [List.count_append, List.count_cons, List.count_nil]
      omega
    · simp only [Work.parts, AllocState.parts, List.map_cons, List.map_append, List.map_nil]
      rw [List.perm_iff_count]
      intro y
      simp only [List.count_append, List.count_cons, List.count_nil]
      omega

theorem migrateActive_perm (position : Int) (l : List Interval) :
    ∀ r, migrateActive position l = Except.ok r → l.Perm (r.1 ++ r.2.1 ++ r.2.2) := by
  induction l with
  | nil =>
    intro r h
    simp only [migrateActive, Except.ok.injEq] at h
    subst h
    exact List.Perm.refl _
  | cons a rest ih =>
    intro r h
    unfold migrateActive at h
    split at h
    · rename_i e r1 _ hr
      have := ih r1 hr
      split at h
      · simp only [Except.ok.injEq] at h
        subst h
        simp only
        refine (List.Perm.cons a this).trans ?_
        rw [List.perm_iff_count]
        intro y
        simp only [List.count_append, List.count_cons]
        omega
      · split at h
        · simp only [Except.ok.injEq] at h
          subst h
          simp only
          refine (List.Perm.cons a this).trans ?_
          rw [List.perm_iff_count]
          intro y
          simp only [List.count_append, List.count_cons]
          omega
        · simp only [Except.ok.injEq] at h
          subst h
          exact List.Perm.cons a this
    · exact Except.noConfusion h
    · exact Except.noConfusion h

theorem migrateInactive_perm (position : Int) (l : List Interval) :
    ∀ r, migrateInactive position l = Except.ok r → l.Perm (r.1 ++ r.2.1 ++ r.2.2) := by
  induction l with
  | nil =>
    intro r h
    simp only [migrateInactive, Except.ok.injEq] at h
    subst h
    exact List.Perm.refl _
  | cons a rest ih =>
    intro r h
    unfold migrateInactive at h
    split at h
    · rename_i e r1 _ hr
      have := ih r1 hr
      split at h
      · simp only [Except.ok.injEq] at h
        subst h
        simp only
        refine (List.Perm.cons a this).trans ?_
        rw [List.perm_iff_count]
        intro y
        simp only [List.count_append, List.count_cons]
        omega
      · split at h
        · simp only [Except.ok.injEq] at h
          subst h
          simp only
          refine (List.Perm.cons a this).trans ?_
          rw [List.perm_iff_count]
          intro y
          simp only [List.count_append, List.count_cons]
          omega
        · simp only [Except.ok.injEq] at h
          subst h
          exact List.Perm.cons a this
    · exact Except.noConfusion h
    · exact Except.noConfusion h

theorem migrate_perm (position : Int) (st st1 : AllocState)
    (h : migrate position st = Except.ok st1) :
    st.parts.Perm st1.parts ∧ st1.unhandled = st.unhandled := by
  unfold migrate at h
  split at h
  · exact Except.noConfusion h
  · rename_i a ha
    split at h
    · exact Except.noConfusion h
    · rename_i b hb
      simp only [Except.ok.injEq] at h
      subst h
      refine ⟨?_, rfl⟩
      have p1 := migrateActive_perm _ _ _ ha
      have p2 := migrateInactive_perm _ _ _ hb
      simp only [AllocState.parts]
      rw [List.perm_iff_count] at p1 p2 ⊢
      intro y
      have q1 := p1 y
      have q2 := p2 y
      simp only [List.count_append] at q1 q2 ⊢
      omega

theorem scanStep_ev (env : AllocEnv)
    (hpick : ∀ l x rest, env.pick l = some (x, rest) → l.Perm (x :: rest))
    (st st1 : AllocState) (h : scanStep env st = Except.ok st1) :
    Ev (st.parts.map shape) (st1.parts.map shape) := by
  unfold scanStep at h
  split at h
  · exact Except.noConfusion h
  · rename_i top rest hp
    have pp := hpick _ _ _ hp
    have e0 : Ev (st.parts.map shape)
        (shape top :: ({ st with unhandled := rest } : AllocState).parts.map shape) := by
      refine Ev.perm ?_
      have := (pp.map shape)
      simp only [AllocState.parts, List.map_append, List.map_cons] at this ⊢
      rw [List.perm_iff_count] at this ⊢
      intro y
      have q := this y
      simp only [List.count_append, List.count_cons] at q ⊢
      omega
    refine Ev.trans e0 ?_
    split at h
    · exact Except.noConfusion h
    · rename_i ty _
      simp only at h
      split at h
      · rename_i hempty
        simp only [Except.ok.injEq] at h
        subst h
        have : shape top = (top.vr, []) := by
          unfold shape
          rw [hempty]
        rw [this]
        exact Ev.drop
      · split at h
        · exact Except.noConfusion h
        · split at h
          · exact Except.noConfusion h
          · rename_i st2 hm
            split at h
            · exact Except.noConfusion h
            · rename_i w1 hr
              simp only [Except.ok.injEq] at h
              subst h
              obtain ⟨pm, _⟩ := migrate_perm _ _ _ hm
              have e1 : Ev (shape top :: ({ st with unhandled := rest } : AllocState).parts.map shape)
                  ((({ current := { top with type := ty }, st := st2 } : Work).parts).map shape) := by
                refine Ev.perm ?_
                simp only [Work.parts, List.map_cons]
                exact List.Perm.cons _ (pm.map shape)
              refine Ev.trans e1 (Ev.trans ?_ (Ev.perm (placeCurrent_perm ty w1)))
              split at hr
              · split at hr
                · exact fixedBranch_ev _ _ _ _ hr
                · exact fixedBranch_ev _ _ _ _ hr
              · exact volatileBranch_ev _ _ _ _ hr

theorem scanLoop_ev (env : AllocEnv)
    (hpick : ∀ l x rest, env.pick l = some (x, rest) → l.Perm (x :: rest)) (fuel : Nat) :
    ∀ (st st1 : AllocState), scanLoop env fuel st = Except.ok st1 →
      Ev (st.parts.map shape) (st1.parts.map shape) ∧ st1.unhandled = [] := by
  induction fuel with
  | zero =>
    intro st st1 h
    unfold scanLoop at h
    split at h
    · rename_i he
      simp only [Except.ok.injEq] at h
      subst h
      exact ⟨ev_refl _, he⟩
    · exact Except.noConfusion h
  | succ n ih =>
    intro st st1 h
    unfold scanLoop at h
    split at h
    · rename_i he
      simp only [Except.ok.injEq] at h
      subst h
      exact ⟨ev_refl _, he⟩
    · split at h
      · exact Except.noConfusion h
      · rename_i st2 hs
        obtain ⟨e, u⟩ := ih _ _ h
        exact ⟨Ev.trans (scanStep_ev env hpick _ _ hs) e, u⟩

theorem preludeStep_ev (env : AllocEnv)
    (hpick : ∀ l x rest, env.pick l = some (x, rest) → l.Perm (x :: rest))
    (ps ps1 : PreludeState) (h : preludeStep env ps = Except.ok ps1) :
    Ev (ps.st.parts.map shape) (ps1.st.parts.map shape) := by
  unfold preludeStep at h
  split at h
  · exact Except.noConfusion h
  · rename_i top rest hp
    have pp := hpick _ _ _ hp
    have e0 : Ev (ps.st.parts.map shape)
        (shape top :: ({ ps.st with unhandled := rest } : AllocState).parts.map shape) := by
      refine Ev.perm ?_
      have := (pp.map shape)
      simp only [AllocState.parts, List.map_append, List.map_cons] at this ⊢
      rw [List.perm_iff_count] at this ⊢
      intro y
      have q := this y
      simp only [List.count_append, List.count_cons] at q ⊢
      omega
    refine Ev.trans e0 ?_
    simp only at h
    split at h
    · rename_i hempty
      simp only [Except.ok.injEq] at h
      subst h
      have : shape top = (top.vr, []) := by
        unfold shape
        rw [hempty]
      rw [this]
      exact Ev.drop
    · split at h
      · exact Except.noConfusion h
      · split at h
        · simp only [Except.ok.injEq] at h
          subst h
          refine Ev.perm ?_
          simp only [AllocState.parts, List.map_append, List.map_cons, List.map_nil]
          rw [List.perm_iff_count]
          intro y
          simp only [List.count_append, List.count_cons, List.count_nil, shape]
          omega
        · split at h
          · simp only [Except.ok.injEq] at h
            subst h
            refine Ev.perm ?_
            simp only [AllocState.parts, List.map_append, List.map_cons, List.map_nil]
            rw [List.perm_iff_count]
            intro y
            simp only [List.count_append, List.count_cons, List.count_nil, shape]
            omega
          · split at h
            · exact Except.noConfusion h
            · split at h
              · exact Except.noConfusion h
              · split at h
                · exact Except.noConfusion h
                · rename_i c2 tl hs
                  simp only [Except.ok.injEq] at h
                  subst h
                  have := ev_split hs (({ ps.st with unhandled := rest } : AllocState).parts.map shape)
                  refine Ev.trans (Ev.trans (ev_of_eq ?_) this) (Ev.perm ?_)
                  · rfl
                  · simp only [AllocState.parts, List.map_append, List.map_cons, List.map_nil]
                    rw [List.perm_iff_count]
                    intro y
                    simp only [List.count_append, List.count_cons, List.count_nil]
                    omega
            · simp only [Except.ok.injEq] at h
              subst h
              refine Ev.perm ?_
              simp only [AllocState.parts, List.map_append, List.map_cons, List.map_nil]
              rw [List.perm_iff_count]
              intro y
              simp only [List.count_append, List.count_cons, List.count_nil, shape]
              omega

theorem prelude_ev (env : AllocEnv)
    (hpick : ∀ l x rest, env.pick l = some (x, rest) → l.Perm (x :: rest)) (n : Nat) :
    ∀ (ps ps1 : PreludeState), prelude env n ps = Except.ok ps1 →
      Ev (ps.st.parts.map shape) (ps1.st.parts.map shape) := by
  induction n with
  | zero =>
    intro ps ps1 h
    simp only [prelude, Except.ok.injEq] at h
    subst h
    exact ev_refl _
  | succ n ih =>
    intro ps ps1 h
    unfold prelude at h
    split at h
    · exact Except.noConfusion h
    · rename_i ps2 hs
      exact Ev.trans (preludeStep_ev env hpick _ _ hs) (ih _ _ h)

theorem foldl_fst_inv {α β γ : Type} (P : α → Prop) (f : α × β → γ → α × β) (l : List γ) :
    ∀ r : α × β, (∀ p ∈ l, ∀ r : α × β, P r.1 → P (f r p).1) → P r.1 → P (l.foldl f r).1 := by
  induction l with
  | nil => intro r _ h; exact h
  | cons x rest ih =>
    intro r hf h
    simp only [List.foldl_cons]
    exact ih _ (fun p hp => hf p (List.mem_cons_of_mem _ hp))
      (hf x (List.mem_cons_self _ _) r h)

theorem initInterval_spec (env : AllocEnv) (P : Interval → Prop)
    (acc acc1 : List Interval × List Interval × StackAllocator) (i0 : Interval)
    (h : initInterval env acc i0 = Except.ok acc1)
    (h0 : ∀ u, P { i0 with usages := u })
    (h1 : ∀ i p, p ∈ env.fixedToVR → P i → P { i with isFixed := true, _reg := p.1 })
    (h2 : ∀ i p, p ∈ env.fixedXMMToVR → P i → P { i with isFixed := true, _xmm := p.1 })
    (h3 : ∀ i slot, P i → P { i with isFixed := true, _reg := NONE, stack := some slot }) :
    ∃ x, acc1.1 = acc.1 ++ [x] ∧ P x := by
  unfold initInterval at h
  split at h
  · exact Except.noConfusion h
  · rename_i u _
    simp only at h
    split at h
    · exact Except.noConfusion h
    · rename_i r3 hl
      simp only [Except.ok.injEq] at h
      subst h
      refine ⟨r3.1, rfl, ?_⟩
      refine loopE_inv _ (fun r => P r.1) _ _ _ hl ?_ ?_
      · refine foldl_fst_inv P _ _ _ ?_ ?_
        · intro p hp r hr
          split
          · exact h2 _ _ hp hr
          · exact hr
        · refine foldl_fst_inv P _ _ _ ?_ (h0 u)
          intro p hp r hr
          split
          · exact h1 _ _ hp hr
          · exact hr
      · intro s x s1 _ hs hb
        simp only at hb
        split at hb
        · split at hb
          · exact Except.noConfusion hb
          · simp only [Except.ok.injEq] at hb
            subst hb
            exact h3 _ _ hs
        · simp only [Except.ok.injEq] at hb
          subst hb
          exact hs

theorem initLoop_shape (env : AllocEnv) (l : List Interval) :
    ∀ acc acc1, loopE (initInterval env) acc l = Except.ok acc1 →
      acc1.1.map shape = acc.1.map shape ++ l.map shape := by
  induction l with
  | nil =>
    intro acc acc1 h
    simp only [loopE, Except.ok.injEq] at h
    subst h
    simp
  | cons i0 rest ih =>
    intro acc acc1 h
    unfold loopE at h
    split at h
    · rename_i acc2 h2
      obtain ⟨x, hx, hs⟩ := initInterval_spec env (fun i => shape i = shape i0) _ _ _ h2
        (fun _ => rfl) (fun _ _ _ hi => hi) (fun _ _ _ hi => hi) (fun _ _ hi => hi)
      rw [ih _ _ h, hx]
      simp [hs]
    · exact Except.noConfusion h

theorem calleeSavedSpills_handled (env : AllocEnv) (st st1 : AllocState)
    (h : calleeSavedSpills env st = Except.ok st1) : st1.handled = st.handled := by
  unfold calleeSavedSpills at h
  refine loopE_inv _ (fun s => s.handled = st.handled) _ _ _ h rfl ?_
  intro s x s1 _ hs hb
  simp only at hb
  split at hb
  · split at hb
    · exact Except.noConfusion hb
    · simp only [Except.ok.injEq] at hb
      subst hb
      exact hs
  · simp only [Except.ok.injEq] at hb
    subst hb
    exact hs

theorem linearScan_ev (env : AllocEnv)
    (hpick : ∀ l x rest, env.pick l = some (x, rest) → l.Perm (x :: rest))
    (fuel : Nat) (lifespans : List Interval) (st : AllocState)
    (h : linearScan env fuel lifespans = Except.ok st) :
    Ev (lifespans.map shape) (st.handled.map shape) := by
  unfold linearScan at h
  split at h
  · exact Except.noConfusion h
  · rename_i l1 fixed sa hi
    have e0 := initLoop_shape env _ _ _ hi
    simp only [List.map_nil, List.nil_append] at e0
    simp only at h
    split at h
    · exact Except.noConfusion h
    · rename_i ps hp
      split at h
      · exact Except.noConfusion h
      · rename_i st1 hs
        have e1 := prelude_ev env hpick _ _ _ hp
        obtain ⟨e2, hu⟩ := scanLoop_ev env hpick _ _ _ hs
        rw [calleeSavedSpills_handled env _ _ h]
        refine Ev.trans (ev_of_eq ?_) (Ev.trans e1 (Ev.trans e2 (Ev.perm ?_)))
        · simp [AllocState.parts, AllocState.init, e0]
        · simp only [AllocState.parts, hu, List.nil_append, List.map_append]
          rw [List.perm_iff_count]
          intro y
          simp only [List.count_append]
          omega

theorem run_ev (env : AllocEnv)
    (hpick : ∀ l x rest, env.pick l = some (x, rest) → l.Perm (x :: rest))
    (fuel : Nat) (lifespans : List Interval) (st : AllocState)
    (h : RegisterAllocation.run env fuel lifespans = Except.ok st) :
    Ev (lifespans.map shape) (st.handled.map shape) := by
  unfold RegisterAllocation.run at h
  split at h
  · exact Except.noConfusion h
  · rename_i st0 h0
    simp only [Except.ok.injEq] at h
    subst h
    exact linearScan_ev env hpick _ _ st0 h0

theorem good_init (lifespans : List Interval)
    (hvr : (lifespans.map (fun i => i.vr)).Nodup)
    (hranges : ∀ i ∈ lifespans, RangesOK i.lifespans) :
    Good (fun v p => ∃ i ∈ lifespans, i.vr = v ∧ covers i.lifespans p = true)
      (lifespans.map shape) := by
  refine ⟨?_, ?_, ?_⟩
  · intro s hs
    obtain ⟨i, hi, rfl⟩ := List.mem_map.mp hs
    exact hranges i hi
  · rw [List.pairwise_map]
    rw [List.Nodup, List.pairwise_map] at hvr
    exact hvr.imp (fun {a b} hab e => absurd e hab)
  · intro v p hc
    obtain ⟨i, hi, h1, h2⟩ := hc
    exact ⟨shape i, List.mem_map_of_mem _ hi, h1, h2⟩

theorem head_le_of_mem {l : List Lifespan} (hok : RangesOK l) {a : Lifespan} (ha : a ∈ l) :
    ∃ x, l.head? = some x ∧ x.from_ ≤ a.from_ := by
  cases l with
  | nil => simp at ha
  | cons x rest =>
    refine ⟨x, rfl, ?_⟩
    obtain ⟨hwf, hlt, _⟩ := rangesOK_cons.mp hok
    rcases List.mem_cons.mp ha with rfl | ha
    · exact le_refl _
    · have := hlt a ha
      omega

theorem le_last_of_mem (l : List Lifespan) :
    RangesOK l → ∀ {a : Lifespan}, a ∈ l → ∃ z, l.getLast? = some z ∧ z ∈ l ∧ a.to_ ≤ z.to_ := by
  induction l with
  | nil => intro _ a ha; simp at ha
  | cons x rest ih =>
    intro hok a ha
    obtain ⟨hwf, hlt, hrest⟩ := rangesOK_cons.mp hok
    cases rest with
    | nil =>
      simp only [List.mem_singleton] at ha
      subst ha
      exact ⟨a, rfl, List.mem_singleton.mpr rfl, le_refl _⟩
    | cons y more =>
      have hl : (x :: y :: more).getLast? = (y :: more).getLast? := by
        simp [List.getLast?_cons_cons]
      rw [hl]
      rcases List.mem_cons.mp ha with rfl | ha
      · obtain ⟨z, hz, hzm, _⟩ := ih hrest (List.mem_cons_self y more)
        refine ⟨z, hz, List.mem_cons_of_mem _ hzm, ?_⟩
        have h1 := hlt z hzm
        have h2 := hrest.1 z hzm
        omega
      · obtain ⟨z, hz, hzm, hle⟩ := ih hrest ha
        exact ⟨z, hz, List.mem_cons_of_mem _ hzm, hle⟩

theorem contains_of_covers {i : Interval} (hok : RangesOK i.lifespans) {p : Nat}
    (hc : covers i.lifespans p = true) : i.contains (p : Int) = true := by
  rw [covers_iff] at hc
  obtain ⟨a, ha, h1, h2⟩ := hc
  obtain ⟨x, hx, hx1⟩ := head_le_of_mem hok ha
  obtain ⟨z, hz, _, hz1⟩ := le_last_of_mem _ hok ha
  unfold Interval.contains Interval.start Interval.end_
  rw [hx, hz]
  simp only [Bool.and_eq_true, decide_eq_true_eq]
  constructor <;> omega

theorem not_both_contain {i j : Interval} {p : Int} (h1 : i.contains p = true) (h2 : j.contains p = true)
    (hb : Before i.lifespans j.lifespans) : False := by
  unfold Interval.contains Interval.start Interval.end_ at h1 h2
  cases hz : i.lifespans.getLast? with
  | none => rw [hz] at h1; split at h1 <;> simp_all
  | some z =>
    cases hx : j.lifespans.head? with
    | none => rw [hx] at h2; simp at h2
    | some x =>
      rw [hz] at h1
      rw [hx] at h2
      have hzm : z ∈ i.lifespans := List.mem_of_getLast?_eq_some hz
      have hxm : x ∈ j.lifespans := List.mem_of_mem_head? hx
      have := hb z hzm x hxm
      cases hx2 : i.lifespans.head? with
      | none => rw [hx2] at h1; simp at h1
      | some x2 =>
        cases hz2 : j.lifespans.getLast? with
        | none => rw [hz2] at h2; simp at h2
        | some z2 =>
          rw [hx2] at h1
          rw [hz2] at h2
          simp only [Bool.and_eq_true, decide_eq_true_eq] at h1 h2
          omega

theorem filter_singleton {α : Type} (P : α → Bool) (R : α → α → Prop)
    (hR : ∀ a b, R a b → P a = true → P b = true → False) (L : List α) :
    L.Pairwise R → (∃ a ∈ L, P a = true) → ∃ I, L.filter P = [I] ∧ I ∈ L := by
  induction L with
  | nil => intro _ h; obtain ⟨a, ha, _⟩ := h; simp at ha
  | cons x rest ih =>
    intro hp hex
    obtain ⟨hx, hrest⟩ := List.pairwise_cons.mp hp
    by_cases hpx : P x = true
    · refine ⟨x, ?_, List.mem_cons_self _ _⟩
      rw [List.filter_cons_of_pos hpx]
      congr 1
      rw [List.filter_eq_nil_iff]
      intro a ha hpa
      exact hR x a (hx a ha) hpx hpa
    · obtain ⟨a, ha, hpa⟩ := hex
      rcases List.mem_cons.mp ha with rfl | ha
      · exact absurd hpa hpx
      · obtain ⟨I, hI, hm⟩ := ih hrest ⟨a, ha, hpa⟩
        refine ⟨I, ?_, List.mem_cons_of_mem _ hm⟩
        rw [List.filter_cons_of_neg hpx]
        exact hI

theorem holders_of_good {C : Nat → Nat → Prop} {H : List Interval}
    (g : Good C (H.map shape)) (v p : Nat) (hc : C v p) :
    ∃ I, holders H v (p : Int) = [I] ∧ I ∈ H := by
  unfold holders
  refine filter_singleton _ (fun a b => Apart (shape a) (shape b)) ?_ H ?_ ?_
  · intro a b hab ha hb
    simp only [Bool.and_eq_true, decide_eq_true_eq] at ha hb
    rcases hab (ha.1.trans hb.1.symm) with h | h
    · exact not_both_contain ha.2 hb.2 h
    · exact not_both_contain hb.2 ha.2 h
  · have h1 := g.apart
    rw [List.pairwise_map] at h1
    exact h1
  · obtain ⟨s, hs, h1, h2⟩ := g.cover v p hc
    obtain ⟨i, hi, rfl⟩ := List.mem_map.mp hs
    refine ⟨i, hi, ?_⟩
    simp only [Bool.and_eq_true, decide_eq_true_eq]
    exact ⟨h1, contains_of_covers (g.ranges _ hs) h2⟩

theorem split_storage {i a b : Interval} {pos : Nat} (h : i.split pos = Except.ok (a, b)) :
    a.hasStorage = i.hasStorage ∧ b.isFixed = false := by
  obtain ⟨rfl, rfl⟩ := split_ok h
  exact ⟨rfl, rfl⟩

theorem splitOnReg_stor (xmm : Bool) (reg pos : Nat) (A : List Interval) :
    ∀ A1 t, splitOnReg xmm reg pos A = Except.ok (some (A1, t)) →
      (∀ i ∈ A, i.hasStorage = true) → (∀ i ∈ A1, i.hasStorage = true) ∧ t.isFixed = false := by
  induction A with
  | nil => intro A1 t h; simp [splitOnReg] at h
  | cons a rest ih =>
    intro A1 t h hA
    unfold splitOnReg at h
    split at h
    · split at h
      · exact Except.noConfusion h
      · rename_i a1 tl hs
        simp only [Except.ok.injEq, Option.some.injEq, Prod.mk.injEq] at h
        obtain ⟨rfl, rfl⟩ := h
        obtain ⟨s1, s2⟩ := split_storage hs
        refine ⟨?_, s2⟩
        intro i hi
        rcases List.mem_cons.mp hi with rfl | hi
        · rw [s1]; exact hA a (List.mem_cons_self _ _)
        · exact hA i (List.mem_cons_of_mem _ hi)
    · split at h
      · exact Except.noConfusion h
      · simp at h
      · rename_i r hr
        simp only [Except.ok.injEq, Option.some.injEq, Prod.mk.injEq] at h
        obtain ⟨rfl, rfl⟩ := h
        obtain ⟨s1, s2⟩ := ih r.1 r.2 hr (fun i hi => hA i (List.mem_cons_of_mem _ hi))
        refine ⟨?_, s2⟩
        intro i hi
        rcases List.mem_cons.mp hi with rfl | hi
        · exact hA i (List.mem_cons_self _ _)
        · exact s1 i hi

theorem splitInactive_stor (xmm : Bool) (reg : Nat) (start : Int) (I : List Interval) :
    ∀ r, splitInactive xmm reg start I = Except.ok r →
      (∀ i ∈ I, i.hasStorage = true) →
      (∀ i ∈ r.1, i.hasStorage = true) ∧ ∀ t ∈ r.2, t.isFixed = false := by
  induction I with
  | nil =>
    intro r h _
    simp only [splitInactive, Except.ok.injEq] at h
    subst h
    simp
  | cons it rest ih =>
    intro r h hI
    unfold splitInactive at h
    split at h
    · split at h
      · exact Except.noConfusion h
      · split at h
        · exact Except.noConfusion h
        · rename_i it1 tl hs
          split at h
          · exact Except.noConfusion h
          · rename_i r1 hr
            simp only [Except.ok.injEq] at h
            subst h
            obtain ⟨s1, s2⟩ := split_storage hs
            obtain ⟨i1, i2⟩ := ih r1 hr (fun i hi => hI i (List.mem_cons_of_mem _ hi))
            constructor
            · intro i hi
              rcases List.mem_cons.mp hi with rfl | hi
              · rw [s1]; exact hI it (List.mem_cons_self _ _)
              · exact i1 i hi
            · intro t ht
              rcases List.mem_cons.mp ht with rfl | ht
              · exact s2
              · exact i2 t ht
    · split at h
      · exact Except.noConfusion h
      · rename_i r1 hr
        simp only [Except.ok.injEq] at h
        subst h
        obtain ⟨i1, i2⟩ := ih r1 hr (fun i hi => hI i (List.mem_cons_of_mem _ hi))
        constructor
        · intro i hi
          rcases List.mem_cons.mp hi with rfl | hi
          · exact hI i (List.mem_cons_self _ _)
          · exact i1 i hi
        · exact i2

theorem handle_stor (xmm : Bool) (reg : Nat) (w w1 : Work)
    (h : handleIntervalBeingPushedOffRegister xmm reg w = Except.ok w1) (hs : StorOK w.st) :
    StorOK w1.st := by
  unfold handleIntervalBeingPushedOffRegister at h
  split at h
  · simp only [Except.ok.injEq] at h
    subst h
    exact hs
  · split at h
    · exact Except.noConfusion h
    · split at h
      · exact Except.noConfusion h
      · simp only [Except.ok.injEq] at h
        subst h
        exact hs
      · rename_i active1 tl hA
        split at h
        · exact Except.noConfusion h
        · rename_i inactive1 tails hI
          simp only [Except.ok.injEq] at h
          subst h
          obtain ⟨h1, h2⟩ := hs
          simp only [AllocState.held, List.mem_append] at h1
          obtain ⟨a1, a2⟩ := splitOnReg_stor _ _ _ _ _ _ hA (fun i hi => h1 i (Or.inl (Or.inl hi)))
          obtain ⟨b1, b2⟩ := splitInactive_stor _ _ _ _ _ hI
            (fun i hi => h1 i (Or.inl (Or.inr hi)))
          constructor
          · intro i hi
            simp only [AllocState.held, List.mem_append] at hi
            rcases hi with (hi | hi) | hi
            · exact a1 i hi
            · exact b1 i hi
            · exact h1 i (Or.inr hi)
          · intro i hi hf
            simp only [List.mem_append, List.mem_reverse, List.mem_cons] at hi
            rcases hi with hi | rfl | hi
            · rw [b2 i hi] at hf
              exact Bool.noConfusion hf
            · rw [a2] at hf
              exact Bool.noConfusion hf
            · exact h2 i hi hf

theorem keysIn_omAdjust {V : Type} (regs : List Nat) (k : Nat) (f : V → V) (m : List (Nat × V))
    (h : KeysIn regs m) : KeysIn regs (omAdjust natLt k f m) := by
  intro p hp
  unfold omAdjust at hp
  obtain ⟨q, hq, rfl⟩ := List.mem_map.mp hp
  split
  · exact h q hq
  · exact h q hq

theorem keysIn_omErase {V : Type} (regs : List Nat) (k : Nat) (m : List (Nat × V))
    (h : KeysIn regs m) : KeysIn regs (omErase natLt k m) := by
  intro p hp
  unfold omErase at hp
  exact h p (List.mem_filter.mp hp).1

theorem keysIn_omAssign {V : Type} (regs : List Nat) (k : Nat) (v : V) (m : List (Nat × V))
    (h : KeysIn regs m) (hk : k ∈ regs) : KeysIn regs (omAssign k v m) := by
  unfold omAssign
  refine keysIn_omAdjust regs k _ _ ?_
  split
  · intro p hp
    rcases mem_omInsert k v m p hp with rfl | hp
    · exact hk
    · exact h p hp
  · exact h

theorem keysIn_init {V : Type} (regs : List Nat) (v : V) (l : List Nat) :
    ∀ m : List (Nat × V), (∀ r ∈ l, r ∈ regs) → KeysIn regs m →
      KeysIn regs (l.foldl (fun m reg => omAssign reg v m) m) := by
  induction l with
  | nil => intro m _ h; exact h
  | cons r rest ih =>
    intro m hl h
    simp only [List.foldl_cons]
    exact ih _ (fun x hx => hl x (List.mem_cons_of_mem _ hx))
      (keysIn_omAssign regs r v m h (hl r (List.mem_cons_self _ _)))

theorem keysIn_foldl_mapAssign {V α : Type} (regs : List Nat) (key : α → Nat) (v : V)
    (l : List α) : ∀ m : List (Nat × V), KeysIn regs m →
      KeysIn regs (l.foldl (fun m it => mapAssign m (key it) v) m) := by
  induction l with
  | nil => intro m h; exact h
  | cons r rest ih =>
    intro m h
    simp only [List.foldl_cons]
    exact ih _ (keysIn_omAdjust regs _ _ m h)

theorem limitFreeUntil_keys (regs : List Nat) (xmm : Bool) (current : Interval)
    (m m1 : List (Nat × Nat)) (others : List Interval)
    (h : limitFreeUntil xmm current m others = Except.ok m1) (hk : KeysIn regs m) :
    KeysIn regs m1 := by
  unfold limitFreeUntil at h
  refine loopE_inv _ (fun m => KeysIn regs m) _ _ _ h hk ?_
  intro s x s1 _ hs hb
  simp only at hb
  split at hb
  · exact Except.noConfusion hb
  · simp only [Except.ok.injEq] at hb
    subst hb
    exact hs
  · split at hb
    · simp only [Except.ok.injEq] at hb
      subst hb
      exact hs
    · split at hb
      · exact Except.noConfusion hb
      · simp only [Except.ok.injEq] at hb
        subst hb
        exact keysIn_omAdjust regs _ _ _ hs

theorem freeRegisterChoice_key (env : AllocEnv) (xmm : Bool) (w : Work) (reg fu : Nat)
    (h : freeRegisterChoice env xmm w = Except.ok (reg, fu)) (hfu : fu ≠ 0) :
    reg ∈ (if xmm then env.arch.registersXmm else env.arch.registers) := by
  unfold freeRegisterChoice at h
  simp only at h
  split at h
  · exact Except.noConfusion h
  · rename_i f2 h2
    split at h
    · exact Except.noConfusion h
    · rename_i f3 h3
      split at h
      · exact Except.noConfusion h
      · simp only [Except.ok.injEq, Prod.mk.injEq] at h
        obtain ⟨rfl, rfl⟩ := h
        rename_i reg0 _
        have k3 : KeysIn (if xmm then env.arch.registersXmm else env.arch.registers) f3 := by
          refine limitFreeUntil_keys _ _ _ _ _ _ h3 (limitFreeUntil_keys _ _ _ _ _ _ h2 ?_)
          refine keysIn_foldl_mapAssign _ _ _ _ _ ?_
          refine keysIn_init _ _ _ _ (fun r hr => hr) ?_
          intro p hp
          simp at hp
        cases hf : omFind natLt reg0 f3 with
        | none => rw [hf] at hfu; simp at hfu
        | some v => exact k3 _ (omFind_some_mem natLt_keyEquiv_iff reg0 v f3 hf)

theorem hasStorage_setReg (xmm : Bool) (i : Interval) (r : Nat) (hr : r ≠ 255) :
    (i.setReg xmm r).hasStorage = true := by
  unfold Interval.setReg Interval.hasStorage
  cases xmm
  · simp [NONE, hr]
  · simp [XMMNONE, hr]

theorem tryAllocate_stor (env : AllocEnv) (xmm : Bool) (w w1 : Work) (b : Bool)
    (hr : (255 : Nat) ∉ (if xmm then env.arch.registersXmm else env.arch.registers))
    (h : tryAllocateFreeRegister env xmm w = Except.ok (b, w1)) (hs : StorOK w.st) :
    StorOK w1.st ∧ (b = true → w1.current.hasStorage = true) ∧ (b = false → w1 = w) := by
  unfold tryAllocateFreeRegister at h
  split at h
  · exact Except.noConfusion h
  · rename_i reg fu hc
    split at h
    · simp only [Except.ok.injEq, Prod.mk.injEq] at h
      obtain ⟨rfl, rfl⟩ := h
      exact ⟨hs, fun hb => Bool.noConfusion hb, fun _ => rfl⟩
    · rename_i hfu
      have hreg : reg ≠ 255 := by
        intro e
        have := freeRegisterChoice_key env xmm w reg fu hc hfu
        rw [e] at this
        exact hr this
      split at h
      · exact Except.noConfusion h
      · split at h
        · simp only [Except.ok.injEq, Prod.mk.injEq] at h
          obtain ⟨rfl, rfl⟩ := h
          exact ⟨hs, fun _ => hasStorage_setReg _ _ _ hreg, fun hb => Bool.noConfusion hb⟩
        · split at h
          · exact Except.noConfusion h
          · rename_i c1 tl hsp
            simp only [Except.ok.injEq, Prod.mk.injEq] at h
            obtain ⟨rfl, rfl⟩ := h
            obtain ⟨s1, s2⟩ := split_storage hsp
            refine ⟨⟨hs.1, ?_⟩, fun _ => ?_, fun hb => Bool.noConfusion hb⟩
            · intro i hi hf
              rcases List.mem_cons.mp hi with rfl | hi
              · rw [s2] at hf
                exact Bool.noConfusion hf
              · exact hs.2 i hi hf
            · show c1.hasStorage = true
              rw [s1]
              exact hasStorage_setReg _ _ _ hreg

theorem maxElement_mem (m : List (Nat × Int)) : ∀ p, maxElement m = some p → p ∈ m := by
  induction m with
  | nil => intro p h; simp [maxElement] at h
  | cons x rest ih =>
    intro p h
    unfold maxElement at h
    split at h
    · simp only [Option.some.injEq] at h
      subst h
      exact List.mem_cons_self _ _
    · rename_i q hq
      split at h
      · simp only [Option.some.injEq] at h
        subst h
        exact List.mem_cons_of_mem _ (ih _ hq)
      · simp only [Option.some.injEq] at h
        subst h
        exact List.mem_cons_self _ _

theorem blockedRegisterChoice_key (env : AllocEnv) (xmm : Bool) (w : Work) (reg : Nat) (nu : Int)
    (h : blockedRegisterChoice env xmm w = Except.ok (reg, nu)) :
    reg ∈ (if xmm then env.arch.registersXmm else env.arch.registers) := by
  unfold blockedRegisterChoice at h
  simp only at h
  have k0 : KeysIn (if xmm then env.arch.registersXmm else env.arch.registers)
      ((if xmm then env.arch.registersXmm else env.arch.registers).foldl
        (fun (m : List (Nat × Int)) reg => omAssign reg 65535 m) []) := by
    refine keysIn_init _ _ _ _ (fun r hr => hr) ?_
    intro p hp
    simp at hp
  split at h
  · exact Except.noConfusion h
  · rename_i n1 h1
    have k1 : KeysIn (if xmm then env.arch.registersXmm else env.arch.registers) n1 := by
      refine loopE_inv _ (fun m => KeysIn _ m) _ _ _ h1 k0 ?_
      intro s x s1 _ hs hb
      simp only at hb
      split at hb
      · simp only [Except.ok.injEq] at hb
        subst hb
        exact keysIn_omErase _ _ _ hs
      · split at hb
        · exact Except.noConfusion hb
        · split at hb
          · exact Except.noConfusion hb
          · simp only [Except.ok.injEq] at hb
            subst hb
            exact keysIn_omAdjust _ _ _ _ hs
    split at h
    · exact Except.noConfusion h
    · rename_i n2 h2
      have k2 : KeysIn (if xmm then env.arch.registersXmm else env.arch.registers) n2 := by
        refine loopE_inv _ (fun m => KeysIn _ m) _ _ _ h2 k1 ?_
        intro s x s1 _ hs hb
        simp only at hb
        split at hb
        · exact Except.noConfusion hb
        · simp only [Except.ok.injEq] at hb
          subst hb
          exact hs
        · split at hb
          · simp only [Except.ok.injEq] at hb
            subst hb
            exact keysIn_omErase _ _ _ hs
          · split at hb
            · exact Except.noConfusion hb
            · split at hb
              · exact Except.noConfusion hb
              · simp only [Except.ok.injEq] at hb
                subst hb
                exact keysIn_omAdjust _ _ _ _ hs
      split at h
      · exact Except.noConfusion h
      · rename_i n3 h3
        have k3 : KeysIn (if xmm then env.arch.registersXmm else env.arch.registers) n3 := by
          refine loopE_inv _ (fun m => KeysIn _ m) _ _ _ h3 k2 ?_
          intro s x s1 _ hs hb
          simp only at hb
          split at hb
          · exact Except.noConfusion hb
          · simp only [Except.ok.injEq] at hb
            subst hb
            exact hs
          · simp only [Except.ok.injEq] at hb
            subst hb
            exact keysIn_omErase _ _ _ hs
        split at h
        · exact Except.noConfusion h
        · rename_i p hp
          simp only [Except.ok.injEq, Prod.mk.injEq] at h
          obtain ⟨rfl, _⟩ := h
          exact k3 p (maxElement_mem _ _ hp)

theorem spillSlot_some (w : Work) (startsAt : Int) (slot : Option StackSlot) (sa : StackAllocator)
    (h : spillSlot w startsAt = Except.ok (slot, sa)) (hs : StorOK w.st) : slot.isSome = true := by
  unfold spillSlot at h
  split at h
  · exact Except.noConfusion h
  · rename_i predecessor hl
    simp only [Except.ok.injEq, Prod.mk.injEq] at h
    obtain ⟨rfl, _⟩ := h
    have inv : ∀ x, some predecessor = some x →
        x ∈ w.st.handled ∧ x._reg = NONE ∧ x._xmm = XMMNONE := by
      refine loopE_inv _ (fun (found : Option Interval) => ∀ x, found = some x →
        x ∈ w.st.handled ∧ x._reg = NONE ∧ x._xmm = XMMNONE) _ _ _ hl ?_ ?_
      · intro x hx
        exact Option.noConfusion hx
      · intro s f s1 hf hs1 hb
        simp only at hb
        split at hb
        · simp only [Except.ok.injEq] at hb
          subst hb
          exact hs1
        · split at hb
          · split at hb
            · exact Except.noConfusion hb
            · split at hb
              · rename_i hc
                simp only [Except.ok.injEq] at hb
                subst hb
                intro x hx
                simp only [Option.some.injEq] at hx
                subst hx
                exact ⟨hf, hc.2.1, hc.2.2⟩
              · simp only [Except.ok.injEq] at hb
                subst hb
                intro x hx
                exact Option.noConfusion hx
          · simp only [Except.ok.injEq] at hb
            subst hb
            intro x hx
            exact Option.noConfusion hx
    obtain ⟨hm, h1, h2⟩ := inv predecessor rfl
    have := hs.1 predecessor (by
      simp only [AllocState.held, List.mem_append]
      exact Or.inr hm)
    unfold Interval.hasStorage at this
    simpa [h1, h2] using this
  · split at h
    · exact Except.noConfusion h
    · simp only [Except.ok.injEq, Prod.mk.injEq] at h
      obtain ⟨rfl, _⟩ := h
      rfl

theorem spillCurrent_stor (w w1 : Work) (h : spillCurrent w = Except.ok w1) (hs : StorOK w.st) :
    StorOK w1.st ∧ w1.current.hasStorage = true := by
  unfold spillCurrent at h
  split at h
  · exact Except.noConfusion h
  · split at h
    · exact Except.noConfusion h
    · rename_i slot sa hsl
      have hsome := spillSlot_some _ _ _ _ hsl hs
      have hc : ({ w.current with stack := slot } : Interval).hasStorage = true := by
        unfold Interval.hasStorage
        simp [hsome]
      simp only at h
      split at h
      · exact Except.noConfusion h
      · simp only [Except.ok.injEq] at h
        subst h
        exact ⟨hs, hc⟩
      · split at h
        · exact Except.noConfusion h
        · split at h
          · exact Except.noConfusion h
          · rename_i c2 tl hsp
            simp only [Except.ok.injEq] at h
            subst h
            obtain ⟨s1, s2⟩ := split_storage hsp
            refine ⟨⟨hs.1, ?_⟩, ?_⟩
            · intro i hi hf
              rcases List.mem_cons.mp hi with rfl | hi
              · rw [s2] at hf
                exact Bool.noConfusion hf
              · exact hs.2 i hi hf
            · show c2.hasStorage = true
              rw [s1]
              exact hc

theorem splitAtFixed_stor (w w1 : Work) (h : splitAtFixed w = Except.ok w1) (hs : StorOK w.st)
    (hc : w.current.hasStorage = true) : StorOK w1.st ∧ w1.current.hasStorage = true := by
  unfold splitAtFixed at h
  simp only at h
  split at h
  · exact Except.noConfusion h
  · split at h
    · exact Except.noConfusion h
    · split at h
      · exact Except.noConfusion h
      · rename_i c1 tl hsp
        simp only [Except.ok.injEq] at h
        subst h
        obtain ⟨s1, s2⟩ := split_storage hsp
        refine ⟨⟨hs.1, ?_⟩, ?_⟩
        · intro i hi hf
          rcases List.mem_cons.mp hi with rfl | hi
          · rw [s2] at hf
            exact Bool.noConfusion hf
          · exact hs.2 i hi hf
        · show c1.hasStorage = true
          rw [s1]
          exact hc
  · split at h
    · exact Except.noConfusion h
    · split at h
      · exact Except.noConfusion h
      · split at h
        · exact Except.noConfusion h
        · rename_i c1 tl hsp
          simp only [Except.ok.injEq] at h
          subst h
          obtain ⟨s1, s2⟩ := split_storage hsp
          refine ⟨⟨hs.1, ?_⟩, ?_⟩
          · intro i hi hf
            rcases List.mem_cons.mp hi with rfl | hi
            · rw [s2] at hf
              exact Bool.noConfusion hf
            · exact hs.2 i hi hf
          · show c1.hasStorage = true
            rw [s1]
            exact hc
    · simp only [Except.ok.injEq] at h
      subst h
      exact ⟨hs, hc⟩

theorem allocateBlocked_stor (env : AllocEnv) (xmm : Bool) (w w1 : Work)
    (hr : (255 : Nat) ∉ (if xmm then env.arch.registersXmm else env.arch.registers))
    (h : allocateBlockedRegister env xmm w = Except.ok w1) (hs : StorOK w.st) :
    StorOK w1.st ∧ w1.current.hasStorage = true := by
  unfold allocateBlockedRegister at h
  split at h
  · exact Except.noConfusion h
  · rename_i reg nu hc
    have hreg : reg ≠ 255 := by
      intro e
      have := blockedRegisterChoice_key env xmm w reg nu hc
      rw [e] at this
      exact hr this
    simp only at h
    split at h
    · exact Except.noConfusion h
    · split at h
      · exact Except.noConfusion h
      · rename_i w2 hw2
        obtain ⟨a1, a2⟩ := spillCurrent_stor _ _ hw2 hs
        exact splitAtFixed_stor _ _ h a1 a2
    · split at h
      · exact Except.noConfusion h
      · rename_i w2 hw2
        have a1 := handle_stor _ _ _ _ hw2 hs
        have a2 := (handle_ev _ _ _ _ hw2).2
        refine splitAtFixed_stor _ _ h a1 ?_
        rw [a2]
        exact hasStorage_setReg _ _ _ hreg

theorem fixedBranch_stor (xmm : Bool) (fixedMap : List (Nat × Nat)) (w w1 : Work)
    (hk : ∀ p ∈ fixedMap, p.1 ≠ 255)
    (h : fixedBranch xmm fixedMap w = Except.ok w1) (hs : StorOK w.st)
    (hc : w.current.hasStorage = true) : StorOK w1.st ∧ w1.current.hasStorage = true := by
  unfold fixedBranch at h
  refine loopE_inv _ (fun w0 => StorOK w0.st ∧ w0.current.hasStorage = true) fixedMap w w1 h
    ⟨hs, hc⟩ ?_
  intro s x s1 hx hs0 hb
  simp only at hb
  split at hb
  · have a2 := (handle_ev _ _ _ _ hb).2
    refine ⟨handle_stor _ _ _ _ hb ?_, ?_⟩
    · cases xmm
      · exact hs0.1
      · exact hs0.1
    · rw [a2]
      exact hasStorage_setReg _ _ _ (hk x hx)
  · simp only [Except.ok.injEq] at hb
    subst hb
    exact hs0

theorem volatileBranch_stor (env : AllocEnv) (ty : BType) (w w1 : Work)
    (hr1 : NONE ∉ env.arch.registers) (hr2 : XMMNONE ∉ env.arch.registersXmm)
    (hty : ty.isInteger = true ∨ ty.isFloatingPoint = true)
    (h : volatileBranch env ty w = Except.ok w1) (hs : StorOK w.st) :
    StorOK w1.st ∧ w1.current.hasStorage = true := by
  have hr : ∀ xmm : Bool,
      (255 : Nat) ∉ (if xmm then env.arch.registersXmm else env.arch.registers) := by
    intro xmm
    cases xmm
    · exact hr1
    · exact hr2
  unfold volatileBranch at h
  split at h
  · exact Except.noConfusion h
  · rename_i w2 hw2
    simp only [Except.ok.injEq] at h
    subst h
    obtain ⟨a1, a2, _⟩ := tryAllocate_stor env _ _ _ _ (hr _) hw2 hs
    exact ⟨a1, a2 rfl⟩
  · rename_i w2 hw2
    obtain ⟨a1, _, _⟩ := tryAllocate_stor env _ _ _ _ (hr _) hw2 hs
    split at h
    · exact allocateBlocked_stor env _ _ _ (hr _) h a1
    · split at h
      · exact allocateBlocked_stor env _ _ _ (hr _) h a1
      · rename_i h1 h2
        rcases hty with hty | hty
        · exact absurd hty h1
        · exact absurd hty h2

theorem placeCurrent_stor (ty : BType) (w : Work) (hs : StorOK w.st)
    (hc : w.current.hasStorage = true) : StorOK (placeCurrent ty w) := by
  obtain ⟨h1, h2⟩ := hs
  simp only [AllocState.held, List.mem_append] at h1
  unfold placeCurrent
  split
  · refine ⟨?_, h2⟩
    intro i hi
    simp only [AllocState.held, List.mem_append, List.mem_singleton] at hi
    rcases hi with ((hi | rfl) | hi) | hi
    · exact h1 i (Or.inl (Or.inl hi))
    · exact hc
    · exact h1 i (Or.inl (Or.inr hi))
    · exact h1 i (Or.inr hi)
  · split
    · refine ⟨?_, h2⟩
      intro i hi
      simp only [AllocState.held, List.mem_append, List.mem_singleton] at hi
      rcases hi with ((hi | rfl) | hi) | hi
      · exact h1 i (Or.inl (Or.inl hi))
      · exact hc
      · exact h1 i (Or.inl (Or.inr hi))
      · exact h1 i (Or.inr hi)
    · refine ⟨?_, h2⟩
      intro i hi
      simp only [AllocState.held, List.mem_append, List.mem_singleton] at hi
      rcases hi with (hi | hi) | hi | rfl
      · exact h1 i (Or.inl (Or.inl hi))
      · exact h1 i (Or.inl (Or.inr hi))
      · exact h1 i (Or.inr hi)
      · exact hc

theorem migrate_stor (position : Int) (st st1 : AllocState)
    (h : migrate position st = Except.ok st1) (hs : StorOK st) : StorOK st1 := by
  obtain ⟨pp, hu⟩ := migrate_perm _ _ _ h
  have ph : st.held.Perm st1.held := by
    simp only [AllocState.parts, hu, List.append_assoc] at pp
    simp only [AllocState.held, List.append_assoc]
    exact (List.perm_append_left_iff _).mp pp
  refine ⟨fun i hi => hs.1 i (ph.mem_iff.mpr hi), ?_⟩
  rw [hu]
  exact hs.2

theorem omAt_mem {V : Type} (m : List (Nat × V)) (k : Nat) (v : V)
    (h : omAt m k = Except.ok v) : (k, v) ∈ m := by
  unfold omAt at h
  split at h
  · rename_i v1 hf
    simp only [Except.ok.injEq] at h
    subst h
    exact omFind_some_mem natLt_keyEquiv_iff k v1 m hf
  · exact Except.noConfusion h

theorem scanStep_stor (env : AllocEnv) (lifespans : List Interval)
    (hpick : ∀ l x rest, env.pick l = some (x, rest) → l.Perm (x :: rest))
    (hready : StorageReady env lifespans)
    (st st1 : AllocState) (h : scanStep env st = Except.ok st1) (hs : StorOK st) :
    StorOK st1 := by
  unfold scanStep at h
  split at h
  · exact Except.noConfusion h
  · rename_i top rest hp
    have pp := hpick _ _ _ hp
    have hrest : StorOK ({ st with unhandled := rest } : AllocState) :=
      ⟨hs.1, fun i hi => hs.2 i (pp.mem_iff.mpr (List.mem_cons_of_mem _ hi))⟩
    have htop : top.isFixed = true → top.hasStorage = true :=
      hs.2 top (pp.mem_iff.mpr (List.mem_cons_self _ _))
    split at h
    · exact Except.noConfusion h
    · rename_i ty hty
      have hty1 := hready.vrTypes _ (omAt_mem _ _ _ hty)
      simp only at h
      split at h
      · simp only [Except.ok.injEq] at h
        subst h
        exact hrest
      · split at h
        · exact Except.noConfusion h
        · split at h
          · exact Except.noConfusion h
          · rename_i st2 hm
            have hs2 := migrate_stor _ _ _ hm hrest
            split at h
            · exact Except.noConfusion h
            · rename_i w1 hr
              simp only [Except.ok.injEq] at h
              subst h
              have : StorOK w1.st ∧ w1.current.hasStorage = true := by
                split at hr
                · rename_i hfix
                  have hc : ({ top with type := ty } : Interval).hasStorage = true := htop hfix
                  split at hr
                  · exact fixedBranch_stor _ _ _ _ hready.fixedToVR hr hs2 hc
                  · exact fixedBranch_stor _ _ _ _ hready.fixedXMMToVR hr hs2 hc
                · exact volatileBranch_stor env ty _ _ hready.registers hready.registersXmm
                    hty1 hr hs2
              exact placeCurrent_stor ty w1 this.1 this.2

theorem scanLoop_stor (env : AllocEnv) (lifespans : List Interval)
    (hpick : ∀ l x rest, env.pick l = some (x, rest) → l.Perm (x :: rest))
    (hready : StorageReady env lifespans) (fuel : Nat) :
    ∀ (st st1 : AllocState), scanLoop env fuel st = Except.ok st1 → StorOK st → StorOK st1 := by
  induction fuel with
  | zero =>
    intro st st1 h hs
    unfold scanLoop at h
    split at h
    · simp only [Except.ok.injEq] at h
      subst h
      exact hs
    · exact Except.noConfusion h
  | succ n ih =>
    intro st st1 h hs
    unfold scanLoop at h
    split at h
    · simp only [Except.ok.injEq] at h
      subst h
      exact hs
    · split at h
      · exact Except.noConfusion h
      · rename_i st2 hst
        exact ih _ _ h (scanStep_stor env lifespans hpick hready _ _ hst hs)

theorem held_append_active (st : AllocState) (c : Interval) (hs : StorOK st)
    (hc : c.hasStorage = true) (U : List Interval)
    (hU : ∀ i ∈ U, i.isFixed = true → i.hasStorage = true) :
    StorOK { st with unhandled := U, active := st.active ++ [c] } := by
  obtain ⟨h1, _⟩ := hs
  simp only [AllocState.held, List.mem_append] at h1
  refine ⟨?_, hU⟩
  intro i hi
  simp only [AllocState.held, List.mem_append, List.mem_singleton] at hi
  rcases hi with ((hi | rfl) | hi) | hi
  · exact h1 i (Or.inl (Or.inl hi))
  · exact hc
  · exact h1 i (Or.inl (Or.inr hi))
  · exact h1 i (Or.inr hi)

theorem preludeStep_stor (env : AllocEnv)
    (hpick : ∀ l x rest, env.pick l = some (x, rest) → l.Perm (x :: rest))
    (ps ps1 : PreludeState) (h : preludeStep env ps = Except.ok ps1)
    (hs : StorOK ps.st) (hp1 : ∀ r ∈ ps.params, r ≠ NONE)
    (hp2 : ∀ r ∈ ps.floatParams, r ≠ XMMNONE) :
    StorOK ps1.st ∧ (∀ r ∈ ps1.params, r ≠ NONE) ∧ (∀ r ∈ ps1.floatParams, r ≠ XMMNONE) := by
  unfold preludeStep at h
  split at h
  · exact Except.noConfusion h
  · rename_i top rest hp
    have pp := hpick _ _ _ hp
    have hrest : ∀ i ∈ rest, i.isFixed = true → i.hasStorage = true :=
      fun i hi => hs.2 i (pp.mem_iff.mpr (List.mem_cons_of_mem _ hi))
    simp only at h
    split at h
    · simp only [Except.ok.injEq] at h
      subst h
      exact ⟨⟨hs.1, hrest⟩, hp1, hp2⟩
    · split at h
      · exact Except.noConfusion h
      · split at h
        · rename_i hc
          simp only [Except.ok.injEq] at h
          subst h
          refine ⟨held_append_active _ _ hs ?_ _ hrest, hp1,
            fun r hr => hp2 r (List.mem_of_mem_tail hr)⟩
          cases hf : ps.floatParams with
          | nil => exact absurd hf hc.2
          | cons x xs =>
            have := hp2 x (by rw [hf]; exact List.mem_cons_self _ _)
            unfold Interval.hasStorage
            simp [this]
        · split at h
          · rename_i hc
            simp only [Except.ok.injEq] at h
            subst h
            refine ⟨held_append_active _ _ hs ?_ _ hrest,
              fun r hr => hp1 r (List.mem_of_mem_tail hr), hp2⟩
            cases hf : ps.params with
            | nil => exact absurd hf hc.2
            | cons x xs =>
              have := hp1 x (by rw [hf]; exact List.mem_cons_self _ _)
              unfold Interval.hasStorage
              simp [this]
          · split at h
            · exact Except.noConfusion h
            · split at h
              · exact Except.noConfusion h
              · split at h
                · exact Except.noConfusion h
                · rename_i c2 tl hsp
                  simp only [Except.ok.injEq] at h
                  subst h
                  obtain ⟨s1, s2⟩ := split_storage hsp
                  refine ⟨held_append_active _ _ hs ?_ _ ?_, hp1, hp2⟩
                  · rw [s1]
                    unfold Interval.hasStorage
                    simp
                  · intro i hi hf
                    rcases List.mem_cons.mp hi with rfl | hi
                    · rw [s2] at hf
                      exact Bool.noConfusion hf
                    · exact hrest i hi hf
            · simp only [Except.ok.injEq] at h
              subst h
              refine ⟨held_append_active _ _ hs ?_ _ hrest, hp1, hp2⟩
              unfold Interval.hasStorage
              simp

theorem prelude_stor (env : AllocEnv)
    (hpick : ∀ l x rest, env.pick l = some (x, rest) → l.Perm (x :: rest)) (n : Nat) :
    ∀ (ps ps1 : PreludeState), prelude env n ps = Except.ok ps1 →
      StorOK ps.st → (∀ r ∈ ps.params, r ≠ NONE) → (∀ r ∈ ps.floatParams, r ≠ XMMNONE) →
      StorOK ps1.st := by
  induction n with
  | zero =>
    intro ps ps1 h hs _ _
    simp only [prelude, Except.ok.injEq] at h
    subst h
    exact hs
  | succ n ih =>
    intro ps ps1 h hs hp1 hp2
    unfold prelude at h
    split at h
    · exact Except.noConfusion h
    · rename_i ps2 hst
      obtain ⟨a1, a2, a3⟩ := preludeStep_stor env hpick _ _ hst hs hp1 hp2
      exact ih _ _ h a1 a2 a3

theorem initLoop_stor (env : AllocEnv) (all : List Interval) (hready : StorageReady env all)
    (l : List Interval) :
    ∀ acc acc1, (∀ i ∈ l, i ∈ all) → loopE (initInterval env) acc l = Except.ok acc1 →
      (∀ i ∈ acc.1, i.isFixed = true → i.hasStorage = true) →
      ∀ i ∈ acc1.1, i.isFixed = true → i.hasStorage = true := by
  induction l with
  | nil =>
    intro acc acc1 _ h ha
    simp only [loopE, Except.ok.injEq] at h
    subst h
    exact ha
  | cons i0 rest ih =>
    intro acc acc1 hl h ha
    unfold loopE at h
    split at h
    · rename_i acc2 h2
      obtain ⟨x, hx, hs⟩ := initInterval_spec env
        (fun i => i.isFixed = true → i.hasStorage = true) _ _ _ h2
        (fun u hf => by
          have := hready.notFixed i0 (hl i0 (List.mem_cons_self _ _))
          rw [show ({ i0 with usages := u } : Interval).isFixed = i0.isFixed from rfl, this] at hf
          exact Bool.noConfusion hf)
        (fun i p hp _ _ => by
          have := hready.fixedToVR p hp
          unfold Interval.hasStorage
          simp [this])
        (fun i p hp _ _ => by
          have := hready.fixedXMMToVR p hp
          unfold Interval.hasStorage
          simp [this])
        (fun i slot _ _ => by
          unfold Interval.hasStorage
          simp)
      refine ih _ _ (fun i hi => hl i (List.mem_cons_of_mem _ hi)) h ?_
      intro i hi
      rw [hx] at hi
      rcases List.mem_append.mp hi with hi | hi
      · exact ha i hi
      · rw [List.mem_singleton.mp hi]
        exact hs
    · exact Except.noConfusion h

theorem run_stor (env : AllocEnv)
    (hpick : ∀ l x rest, env.pick l = some (x, rest) → l.Perm (x :: rest))
    (fuel : Nat) (lifespans : List Interval) (hready : StorageReady env lifespans)
    (st : AllocState) (h : RegisterAllocation.run env fuel lifespans = Except.ok st) :
    ∀ i ∈ st.handled, i.hasStorage = true := by
  unfold RegisterAllocation.run at h
  split at h
  · exact Except.noConfusion h
  · rename_i st0 h0
    simp only [Except.ok.injEq] at h
    subst h
    show ∀ i ∈ st0.handled, i.hasStorage = true
    unfold linearScan at h0
    split at h0
    · exact Except.noConfusion h0
    · rename_i l1 fixed sa hi
      have e0 := initLoop_stor env lifespans hready lifespans _ _ (fun i hi => hi) hi
        (fun i hi => by simp at hi)
      simp only at h0
      split at h0
      · exact Except.noConfusion h0
      · rename_i ps hp
        split at h0
        · exact Except.noConfusion h0
        · rename_i st1 hs
          have s0 : StorOK (AllocState.mk l1 [] [] fixed [] [] sa [] [] []) := by
            refine ⟨?_, e0⟩
            intro i hi
            simp [AllocState.held] at hi
          have s1 := prelude_stor env hpick _ _ _ hp s0
            (fun r hr e => hready.parameters (e ▸ hr))
            (fun r hr e => hready.parametersFloat (e ▸ hr))
          have s2 := scanLoop_stor env lifespans hpick hready _ _ _ hs s1
          rw [calleeSavedSpills_handled env _ _ h0]
          intro i hi
          refine s2.1 i ?_
          simp only [AllocState.held, List.mem_append] at hi ⊢
          tauto

theorem foldl_pick_mem (f : Interval → Interval → Interval)
    (hf : ∀ a b, f a b = a ∨ f a b = b) (l : List Interval) :
    ∀ x, l.foldl f x ∈ x :: l := by
  induction l with
  | nil => intro x; simp
  | cons y rest ih =>
    intro x
    simp only [List.foldl_cons]
    have := ih (f x y)
    rcases List.mem_cons.mp this with h | h
    · rcases hf x y with e | e
      · rw [h, e]; exact List.mem_cons_self _ _
      · rw [h, e]; exact List.mem_cons_of_mem _ (List.mem_cons_self _ _)
    · exact List.mem_cons_of_mem _ (List.mem_cons_of_mem _ h)

theorem pickMin_perm (l : List Interval) (x : Interval) (rest : List Interval)
    (h : pickMin l = some (x, rest)) : l.Perm (x :: rest) := by
  unfold pickMin at h
  split at h
  · exact Option.noConfusion h
  · rename_i y ys
    simp only [Option.some.injEq, Prod.mk.injEq] at h
    obtain ⟨rfl, rfl⟩ := h
    refine List.perm_cons_erase (foldl_pick_mem _ ?_ ys y)
    intro a b
    split
    · exact Or.inr rfl
    · exact Or.inl rfl

theorem phiEnv_ready : StorageReady phiEnv phiIntervals where
  registers := by decide
  registersXmm := by decide
  parameters := by decide
  parametersFloat := by decide
  fixedToVR := by intro p hp; simp [phiEnv] at hp
  fixedXMMToVR := by intro p hp; simp [phiEnv] at hp
  vrTypes := by
    intro p hp
    simp only [phiEnv, List.mem_cons, List.mem_singleton, List.not_mem_nil, or_false] at hp
    rcases hp with rfl | rfl <;> exact Or.inl rfl
  notFixed := by
    intro i hi
    simp only [phiIntervals, List.mem_cons, List.mem_singleton, List.not_mem_nil, or_false] at hi
    rcases hi with rfl | rfl <;> rfl


theorem split_ne {i a b : Interval} {pos : Nat} (h : i.split pos = Except.ok (a, b)) :
    a.lifespans ≠ [] ∧ b.lifespans ≠ [] := by
  unfold Interval.split at h
  simp only at h
  split at h
  · exact Except.noConfusion h
  · rename_i hne
    simp only [Except.ok.injEq, Prod.mk.injEq] at h
    obtain ⟨rfl, rfl⟩ := h
    exact ⟨fun e => hne (Or.inl e), fun e => hne (Or.inr e)⟩

theorem lifespans_setReg (xmm : Bool) (i : Interval) (r : Nat) :
    (i.setReg xmm r).lifespans = i.lifespans := by
  unfold Interval.setReg
  split <;> rfl

theorem splitOnReg_ne (xmm : Bool) (reg pos : Nat) (A : List Interval) :
    ∀ A1 t, splitOnReg xmm reg pos A = Except.ok (some (A1, t)) →
      (∀ i ∈ A, i.lifespans ≠ []) → ∀ i ∈ A1, i.lifespans ≠ [] := by
  induction A with
  | nil => intro A1 t h; simp [splitOnReg] at h
  | cons a rest ih =>
    intro A1 t h hA
    unfold splitOnReg at h
    split at h
    · split at h
      · exact Except.noConfusion h
      · rename_i a1 tl hs
        simp only [Except.ok.injEq, Option.some.injEq, Prod.mk.injEq] at h
        obtain ⟨rfl, rfl⟩ := h
        intro i hi
        rcases List.mem_cons.mp hi with rfl | hi
        · exact (split_ne hs).1
        · exact hA i (List.mem_cons_of_mem _ hi)
    · split at h
      · exact Except.noConfusion h
      · simp at h
      · rename_i r hr
        simp only [Except.ok.injEq, Option.some.injEq, Prod.mk.injEq] at h
        obtain ⟨rfl, rfl⟩ := h
        have s1 := ih r.1 r.2 hr (fun i hi => hA i (List.mem_cons_of_mem _ hi))
        intro i hi
        rcases List.mem_cons.mp hi with rfl | hi
        · exact hA i (List.mem_cons_self _ _)
        · exact s1 i hi

theorem splitInactive_ne (xmm : Bool) (reg : Nat) (start : Int) (I : List Interval) :
    ∀ r, splitInactive xmm reg start I = Except.ok r →
      (∀ i ∈ I, i.lifespans ≠ []) → ∀ i ∈ r.1, i.lifespans ≠ [] := by
  induction I with
  | nil =>
    intro r h _
    simp only [splitInactive, Except.ok.injEq] at h
    subst h
    simp
  | cons it rest ih =>
    intro r h hI
    unfold splitInactive at h
    split at h
    · split at h
      · exact Except.noConfusion h
      · split at h
        · exact Except.noConfusion h
        · rename_i it1 tl hs
          split at h
          · exact Except.noConfusion h
          · rename_i r1 hr
            simp only [Except.ok.injEq] at h
            subst h
            have i1 := ih r1 hr (fun i hi => hI i (List.mem_cons_of_mem _ hi))
            intro i hi
            rcases List.mem_cons.mp hi with rfl | hi
            · exact (split_ne hs).1
            · exact i1 i hi
    · split at h
      · exact Except.noConfusion h
      · rename_i r1 hr
        simp only [Except.ok.injEq] at h
        subst h
        have i1 := ih r1 hr (fun i hi => hI i (List.mem_cons_of_mem _ hi))
        intro i hi
        rcases List.mem_cons.mp hi with rfl | hi
        · exact hI i (List.mem_cons_self _ _)
        · exact i1 i hi

theorem handle_ne (xmm : Bool) (reg : Nat) (w w1 : Work)
    (h : handleIntervalBeingPushedOffRegister xmm reg w = Except.ok w1)
    (hs : ∀ i ∈ w.st.held, i.lifespans ≠ []) : ∀ i ∈ w1.st.held, i.lifespans ≠ [] := by
  unfold handleIntervalBeingPushedOffRegister at h
  split at h
  · simp only [Except.ok.injEq] at h
    subst h
    exact hs
  · split at h
    · exact Except.noConfusion h
    · split at h
      · exact Except.noConfusion h
      · simp only [Except.ok.injEq] at h
        subst h
        exact hs
      · rename_i active1 tl hA
        split at h
        · exact Except.noConfusion h
        · rename_i inactive1 tails hI
          simp only [Except.ok.injEq] at h
          subst h
          simp only [AllocState.held, List.mem_append] at hs
          have a1 := splitOnReg_ne _ _ _ _ _ _ hA (fun i hi => hs i (Or.inl (Or.inl hi)))
          have b1 := splitInactive_ne _ _ _ _ _ hI (fun i hi => hs i (Or.inl (Or.inr hi)))
          intro i hi
          simp only [AllocState.held, List.mem_append] at hi
          rcases hi with (hi | hi) | hi
          · exact a1 i hi
          · exact b1 i hi
          · exact hs i (Or.inr hi)

theorem tryAllocate_held (env : AllocEnv) (xmm : Bool) (w w1 : Work) (b : Bool)
    (h : tryAllocateFreeRegister env xmm w = Except.ok (b, w1)) :
    w1.st.held = w.st.held ∧ (w.current.lifespans ≠ [] → w1.current.lifespans ≠ []) := by
  unfold tryAllocateFreeRegister at h
  split at h
  · exact Except.noConfusion h
  · split at h
    · simp only [Except.ok.injEq, Prod.mk.injEq] at h
      obtain ⟨_, rfl⟩ := h
      exact ⟨rfl, fun hc => hc⟩
    · split at h
      · exact Except.noConfusion h
      · split at h
        · simp only [Except.ok.injEq, Prod.mk.injEq] at h
          obtain ⟨_, rfl⟩ := h
          refine ⟨rfl, fun hc => ?_⟩
          show (w.current.setReg xmm _).lifespans ≠ []
          rw [lifespans_setReg]
          exact hc
        · split at h
          · exact Except.noConfusion h
          · rename_i c1 tl hs
            simp only [Except.ok.injEq, Prod.mk.injEq] at h
            obtain ⟨_, rfl⟩ := h
            exact ⟨rfl, fun _ => (split_ne hs).1⟩

theorem spillCurrent_held (w w1 : Work) (h : spillCurrent w = Except.ok w1) :
    w1.st.held = w.st.held ∧ (w.current.lifespans ≠ [] → w1.current.lifespans ≠ []) := by
  unfold spillCurrent at h
  split at h
  · exact Except.noConfusion h
  · split at h
    · exact Except.noConfusion h
    · simp only at h
      split at h
      · exact Except.noConfusion h
      · simp only [Except.ok.injEq] at h
        subst h
        exact ⟨rfl, fun hc => hc⟩
      · split at h
        · exact Except.noConfusion h
        · split at h
          · exact Except.noConfusion h
          · rename_i c2 tl hs
            simp only [Except.ok.injEq] at h
            subst h
            exact ⟨rfl, fun _ => (split_ne hs).1⟩

theorem splitAtFixed_held (w w1 : Work) (h : splitAtFixed w = Except.ok w1) :
    w1.st.held = w.st.held ∧ (w.current.lifespans ≠ [] → w1.current.lifespans ≠ []) := by
  unfold splitAtFixed at h
  simp only at h
  split at h
  · exact Except.noConfusion h
  · split at h
    · exact Except.noConfusion h
    · split at h
      · exact Except.noConfusion h
      · rename_i c1 tl hs
        simp only [Except.ok.injEq] at h
        subst h
        exact ⟨rfl, fun _ => (split_ne hs).1⟩
  · split at h
    · exact Except.noConfusion h
    · split at h
      · exact Except.noConfusion h
      · split at h
        · exact Except.noConfusion h
        · rename_i c1 tl hs
          simp only [Except.ok.injEq] at h
          subst h
          exact ⟨rfl, fun _ => (split_ne hs).1⟩
    · simp only [Except.ok.injEq] at h
      subst h
      exact ⟨rfl, fun hc => hc⟩

theorem allocateBlocked_ne (env : AllocEnv) (xmm : Bool) (w w1 : Work)
    (h : allocateBlockedRegister env xmm w = Except.ok w1)
    (hs : ∀ i ∈ w.st.held, i.lifespans ≠ []) (hc : w.current.lifespans ≠ []) :
    (∀ i ∈ w1.st.held, i.lifespans ≠ []) ∧ w1.current.lifespans ≠ [] := by
  unfold allocateBlockedRegister at h
  split at h
  · exact Except.noConfusion h
  · simp only at h
    split at h
    · exact Except.noConfusion h
    · split at h
      · exact Except.noConfusion h
      · rename_i w2 hw2
        obtain ⟨a1, a2⟩ := spillCurrent_held _ _ hw2
        obtain ⟨b1, b2⟩ := splitAtFixed_held _ _ h
        rw [b1, a1]
        exact ⟨hs, b2 (a2 hc)⟩
    · split at h
      · exact Except.noConfusion h
      · rename_i w2 hw2
        have a1 := handle_ne _ _ _ _ hw2 hs
        have a2 := (handle_ev _ _ _ _ hw2).2
        obtain ⟨b1, b2⟩ := splitAtFixed_held _ _ h
        rw [b1]
        refine ⟨a1, b2 ?_⟩
        rw [a2]
        show (w.current.setReg xmm _).lifespans ≠ []
        rw [lifespans_setReg]
        exact hc

theorem fixedBranch_ne (xmm : Bool) (fixedMap : List (Nat × Nat)) (w w1 : Work)
    (h : fixedBranch xmm fixedMap w = Except.ok w1)
    (hs : ∀ i ∈ w.st.held, i.lifespans ≠ []) (hc : w.current.lifespans ≠ []) :
    (∀ i ∈ w1.st.held, i.lifespans ≠ []) ∧ w1.current.lifespans ≠ [] := by
  unfold fixedBranch at h
  refine loopE_inv _ (fun w0 => (∀ i ∈ w0.st.held, i.lifespans ≠ []) ∧
    w0.current.lifespans ≠ []) fixedMap w w1 h ⟨hs, hc⟩ ?_
  intro s x s1 _ hs0 hb
  simp only at hb
  split at hb
  · have a2 := (handle_ev _ _ _ _ hb).2
    refine ⟨handle_ne _ _ _ _ hb ?_, ?_⟩
    · cases xmm
      · exact hs0.1
      · exact hs0.1
    · rw [a2]
      show (Interval.setReg xmm _ _).lifespans ≠ []
      rw [lifespans_setReg]
      exact hs0.2
  · simp only [Except.ok.injEq] at hb
    subst hb
    exact hs0

theorem volatileBranch_ne (env : AllocEnv) (ty : BType) (w w1 : Work)
    (h : volatileBranch env ty w = Except.ok w1)
    (hs : ∀ i ∈ w.st.held, i.lifespans ≠ []) (hc : w.current.lifespans ≠ []) :
    (∀ i ∈ w1.st.held, i.lifespans ≠ []) ∧ w1.current.lifespans ≠ [] := by
  unfold volatileBranch at h
  split at h
  · exact Except.noConfusion h
  · rename_i w2 hw2
    simp only [Except.ok.injEq] at h
    subst h
    obtain ⟨a1, a2⟩ := tryAllocate_held env _ _ _ _ hw2
    rw [a1]
    exact ⟨hs, a2 hc⟩
  · rename_i w2 hw2
    obtain ⟨a1, a2⟩ := tryAllocate_held env _ _ _ _ hw2
    have hs2 : ∀ i ∈ w2.st.held, i.lifespans ≠ [] := by rw [a1]; exact hs
    split at h
    · exact allocateBlocked_ne env _ _ _ h hs2 (a2 hc)
    · split at h
      · exact allocateBlocked_ne env _ _ _ h hs2 (a2 hc)
      · simp only [Except.ok.injEq] at h
        subst h
        exact ⟨hs2, a2 hc⟩

theorem placeCurrent_held (ty : BType) (w : Work) :
    ∀ i ∈ (placeCurrent ty w).held, i = w.current ∨ i ∈ w.st.held := by
  intro i hi
  unfold placeCurrent at hi
  split at hi
  · simp only [AllocState.held, List.mem_append, List.mem_singleton] at hi ⊢
    tauto
  · split at hi
    · simp only [AllocState.held, List.mem_append, List.mem_singleton] at hi ⊢
      tauto
    · simp only [AllocState.held, List.mem_append, List.mem_singleton] at hi ⊢
      tauto

theorem migrate_held (position : Int) (st st1 : AllocState)
    (h : migrate position st = Except.ok st1) : st.held.Perm st1.held := by
  obtain ⟨pp, hu⟩ := migrate_perm _ _ _ h
  simp only [AllocState.parts, hu, List.append_assoc] at pp
  simp only [AllocState.held, List.append_assoc]
  exact (List.perm_append_left_iff _).mp pp

theorem scanStep_ne (env : AllocEnv) (st st1 : AllocState)
    (h : scanStep env st = Except.ok st1) (hs : ∀ i ∈ st.held, i.lifespans ≠ []) :
    ∀ i ∈ st1.held, i.lifespans ≠ [] := by
  unfold scanStep at h
  split at h
  · exact Except.noConfusion h
  · rename_i top rest hp
    split at h
    · exact Except.noConfusion h
    · rename_i ty hty
      simp only at h
      split at h
      · simp only [Except.ok.injEq] at h
        subst h
        exact hs
      · rename_i hne
        split at h
        · exact Except.noConfusion h
        · split at h
          · exact Except.noConfusion h
          · rename_i st2 hm
            have ph := migrate_held _ _ _ hm
            have hs2 : ∀ i ∈ st2.held, i.lifespans ≠ [] :=
              fun i hi => hs i (ph.mem_iff.mpr hi)
            split at h
            · exact Except.noConfusion h
            · rename_i w1 hr
              simp only [Except.ok.injEq] at h
              subst h
              have : (∀ i ∈ w1.st.held, i.lifespans ≠ []) ∧ w1.current.lifespans ≠ [] := by
                split at hr
                · split at hr
                  · exact fixedBranch_ne _ _ _ _ hr hs2 hne
                  · exact fixedBranch_ne _ _ _ _ hr hs2 hne
                · exact volatileBranch_ne env ty _ _ hr hs2 hne
              intro i hi
              rcases placeCurrent_held ty w1 i hi with rfl | hi
              · exact this.2
              · exact this.1 i hi

theorem scanLoop_ne (env : AllocEnv) (fuel : Nat) :
    ∀ (st st1 : AllocState), scanLoop env fuel st = Except.ok st1 →
      (∀ i ∈ st.held, i.lifespans ≠ []) → ∀ i ∈ st1.held, i.lifespans ≠ [] := by
  induction fuel with
  | zero =>
    intro st st1 h hs
    unfold scanLoop at h
    split at h
    · simp only [Except.ok.injEq] at h
      subst h
      exact hs
    · exact Except.noConfusion h
  | succ n ih =>
    intro st st1 h hs
    unfold scanLoop at h
    split at h
    · simp only [Except.ok.injEq] at h
      subst h
      exact hs
    · split at h
      · exact Except.noConfusion h
      · rename_i st2 hst
        exact ih _ _ h (scanStep_ne env _ _ hst hs)

theorem held_push_active (st : AllocState) (c : Interval) (U : List Interval)
    (hs : ∀ i ∈ st.held, i.lifespans ≠ []) (hc : c.lifespans ≠ []) :
    ∀ i ∈ ({ st with unhandled := U, active := st.active ++ [c] } : AllocState).held,
      i.lifespans ≠ [] := by
  intro i hi
  simp only [AllocState.held, List.mem_append, List.mem_singleton] at hi hs
  rcases hi with ((hi | rfl) | hi) | hi
  · exact hs i (Or.inl (Or.inl hi))
  · exact hc
  · exact hs i (Or.inl (Or.inr hi))
  · exact hs i (Or.inr hi)

theorem preludeStep_ne (env : AllocEnv) (ps ps1 : PreludeState)
    (h : preludeStep env ps = Except.ok ps1) (hs : ∀ i ∈ ps.st.held, i.lifespans ≠ []) :
    ∀ i ∈ ps1.st.held, i.lifespans ≠ [] := by
  unfold preludeStep at h
  split at h
  · exact Except.noConfusion h
  · rename_i top rest hp
    simp only at h
    split at h
    · simp only [Except.ok.injEq] at h
      subst h
      exact hs
    · rename_i hne
      split at h
      · exact Except.noConfusion h
      · split at h
        · simp only [Except.ok.injEq] at h
          subst h
          exact held_push_active _ _ _ hs hne
        · split at h
          · simp only [Except.ok.injEq] at h
            subst h
            exact held_push_active _ _ _ hs hne
          · split at h
            · exact Except.noConfusion h
            · split at h
              · exact Except.noConfusion h
              · split at h
                · exact Except.noConfusion h
                · rename_i c2 tl hsp
                  simp only [Except.ok.injEq] at h
                  subst h
                  exact held_push_active _ _ _ hs (split_ne hsp).1
            · simp only [Except.ok.injEq] at h
              subst h
              exact held_push_active _ _ _ hs hne

theorem prelude_ne (env : AllocEnv) (n : Nat) :
    ∀ (ps ps1 : PreludeState), prelude env n ps = Except.ok ps1 →
      (∀ i ∈ ps.st.held, i.lifespans ≠ []) → ∀ i ∈ ps1.st.held, i.lifespans ≠ [] := by
  induction n with
  | zero =>
    intro ps ps1 h hs
    simp only [prelude, Except.ok.injEq] at h
    subst h
    exact hs
  | succ n ih =>
    intro ps ps1 h hs
    unfold prelude at h
    split at h
    · exact Except.noConfusion h
    · rename_i ps2 hst
      exact ih _ _ h (preludeStep_ne env _ _ hst hs)

theorem run_ne (env : AllocEnv) (fuel : Nat) (lifespans : List Interval)
    (st : AllocState) (h : RegisterAllocation.run env fuel lifespans = Except.ok st) :
    ∀ i ∈ st.handled, i.lifespans ≠ [] := by
  unfold RegisterAllocation.run at h
  split at h
  · exact Except.noConfusion h
  · rename_i st0 h0
    simp only [Except.ok.injEq] at h
    subst h
    show ∀ i ∈ st0.handled, i.lifespans ≠ []
    unfold linearScan at h0
    split at h0
    · exact Except.noConfusion h0
    · rename_i l1 fixed sa hi
      simp only at h0
      split at h0
      · exact Except.noConfusion h0
      · rename_i ps hp
        split at h0
        · exact Except.noConfusion h0
        · rename_i st1 hs
          have s0 : ∀ i ∈ (AllocState.mk l1 [] [] fixed [] [] sa [] [] []).held,
              i.lifespans ≠ [] := by
            intro i hi
            simp [AllocState.held] at hi
          have s1 := prelude_ne env _ _ _ hp s0
          have s2 := scanLoop_ne env _ _ _ hs s1
          rw [calleeSavedSpills_handled env _ _ h0]
          intro i hi
          refine s2 i ?_
          simp only [AllocState.held, List.mem_append] at hi ⊢
          tauto
theorem intervalFor_of_holders (H : List Interval) (hne : ∀ J ∈ H, J.lifespans ≠ [])
    (vr id : Nat) (I : Interval) (rest : List Interval)
    (h : holders H vr (id : Int) = I :: rest) : intervalFor H id vr = Except.ok I := by
  induction H with
  | nil => simp [holders] at h
  | cons x xs ih =>
    have hx := hne x (List.mem_cons_self _ _)
    have hxs : ∀ J ∈ xs, J.lifespans ≠ [] := fun J hJ => hne J (List.mem_cons_of_mem _ hJ)
    unfold holders at h ih
    unfold intervalFor
    by_cases hv : x.vr = vr
    · rw [if_pos hv]
      obtain ⟨s, hs⟩ : ∃ s, x.start = Except.ok s := by
        unfold Interval.start
        cases hh : x.lifespans.head? with
        | none => exact absurd (List.head?_eq_none_iff.mp hh) hx
        | some l => exact ⟨_, rfl⟩
      obtain ⟨e, he⟩ : ∃ e, x.end_ = Except.ok e := by
        unfold Interval.end_
        cases hh : x.lifespans.getLast? with
        | none => exact absurd (List.getLast?_eq_none_iff.mp hh) hx
        | some l => exact ⟨_, rfl⟩
      rw [hs, he]
      simp only
      by_cases hc : s ≤ (id : Int) ∧ e ≥ (id : Int)
      · rw [if_pos hc]
        have hp : (decide (x.vr = vr) && x.contains (id : Int)) = true := by
          unfold Interval.contains
          rw [hs, he]
          simp [hv, hc.1, hc.2]
        rw [List.filter_cons, if_pos hp] at h
        rw [(List.cons.inj h).1]
      · rw [if_neg hc]
        have hp : ¬ (decide (x.vr = vr) && x.contains (id : Int)) = true := by
          unfold Interval.contains
          rw [hs, he]
          simp only [Bool.and_eq_true, decide_eq_true_eq, ge_iff_le, not_and]
          intro _ h1 h2
          exact hc ⟨h1, h2⟩
        rw [List.filter_cons, if_neg hp] at h
        exact ih hxs h
    · rw [if_neg hv]
      have hp : ¬ (decide (x.vr = vr) && x.contains (id : Int)) = true := by
        simp [hv]
      rw [List.filter_cons, if_neg hp] at h
      exact ih hxs h

/-- C9, counterexample: for the function `(0) mov i0, $1; (1) jmp block 1 |
(2) phi 1 = (0 from 0); (3) test i1; (4) ret` the lifetime analysis gives `i0` the range
`[0, 1]`, the allocation returns, and although `i0` is an input of the phi instruction
with id 2, no interval of `handled` for `i0` contains position 2. -/
theorem allocation_misses_phi_input :
    LifetimeAnalyzer.run phiEnv.nParams phiBlocks 2 = Except.ok phiIntervals ∧
    allocate phiEnv 10 phiBlocks 2 = Except.ok phiResult ∧
    (∃ b ∈ phiBlocks, phiNode ∈ b.lirs) ∧
    phiNode.inputs = Except.ok [0] ∧
    holders phiResult.handled 0 phiNode.id = [] := by
  refine ⟨by rfl, by rfl,
    ⟨_, List.mem_cons_of_mem _ (List.mem_cons_self _ _), List.mem_cons_self _ _⟩, by rfl, by rfl⟩

/-- C9, amended: when `RegisterAllocation::run` returns for input intervals with pairwise
distinct virtual registers and well-formed ranges, then for every virtual register `v`
and every position `p` that the input interval of `v` covers, the result list `handled`
contains exactly one interval with `vr == v` and `start() <= p <= end()`, and
`MachineCompiler::intervalFor(p, v)` returns it; that interval has a storage (a general
register, an XMM register or a stack slot) when the register lists and the fixed maps
name registers, every type in `vrTypes` is an integer or a floating-point type and no
input interval is fixed beforehand. The order of the priority queue may be any that pops
an element of the queue. -/
theorem run_keeps_one_interval (env : AllocEnv) (fuel : Nat) (lifespans : List Interval)
    (st : AllocState)
    (hpick : ∀ l x rest, env.pick l = some (x, rest) → l.Perm (x :: rest))
    (hvr : (lifespans.map (fun i => i.vr)).Nodup)
    (hranges : ∀ i ∈ lifespans, RangesOK i.lifespans)
    (hrun : RegisterAllocation.run env fuel lifespans = Except.ok st)
    (v p : Nat)
    (hcov : ∃ i ∈ lifespans, i.vr = v ∧ covers i.lifespans p = true) :
    ∃ I, holders st.handled v (p : Int) = [I] ∧
      intervalFor st.handled p v = Except.ok I ∧
      (StorageReady env lifespans → I.hasStorage = true) := by
  have g := good_of_ev (run_ev env hpick fuel lifespans st hrun) (good_init lifespans hvr hranges)
  obtain ⟨I, h1, h2⟩ := holders_of_good g v p hcov
  exact ⟨I, h1,
    intervalFor_of_holders st.handled (run_ne env fuel lifespans st hrun) v p I [] h1,
    fun hready => run_stor env hpick fuel lifespans hready st hrun I h2⟩

/-- C9, amended, at the function with the phi node: position 3 of `i1`. -/
theorem run_keeps_one_interval_witness :
    RegisterAllocation.run phiEnv 10 phiIntervals = Except.ok phiResult ∧
      ∃ I, holders phiResult.handled 1 (3 : Nat) = [I] ∧
        intervalFor phiResult.handled 3 1 = Except.ok I ∧ I.hasStorage = true :=
  ⟨by rfl,
    match run_keeps_one_interval phiEnv 10 phiIntervals phiResult pickMin_perm (by decide)
      (by
        intro i hi
        simp only [phiIntervals, List.mem_cons, List.mem_singleton, List.not_mem_nil,
          or_false] at hi
        rcases hi with rfl | rfl <;>
          exact ⟨by intro a ha; simp only [List.mem_singleton] at ha; subst ha; decide,
                 List.pairwise_singleton _ _⟩)
      (by rfl) 1 3
      ⟨_, List.mem_cons_of_mem _ (List.mem_cons_self _ _), rfl, rfl⟩ with
    | ⟨I, h1, h2, h3⟩ => ⟨I, h1, h2, h3 phiEnv_ready⟩⟩

/-! ## Interval::addRange keeps the shape of the range list -/

theorem rangesOK_of_shape {l : List Lifespan} (hs : SortedByFrom l) (hd : PairwiseDisjoint l)
    (hw : WellFormed l) : RangesOK l := by
  refine ⟨hw, ?_⟩
  unfold SortedByFrom at hs
  unfold PairwiseDisjoint at hd
  induction l with
  | nil => exact List.Pairwise.nil
  | cons a rest ih =>
    obtain ⟨hs1, hs2⟩ := List.pairwise_cons.mp hs
    obtain ⟨hd1, hd2⟩ := List.pairwise_cons.mp hd
    refine List.pairwise_cons.mpr ⟨?_, ih hs2 hd2 (fun x hx => hw x (List.mem_cons_of_mem _ hx))⟩
    intro b hb
    have h1 := hs1 b hb
    have h2 := hd1 b hb b.from_
    have h3 := hw a (List.mem_cons_self _ _)
    have h4 := hw b (List.mem_cons_of_mem _ hb)
    by_contra hc
    exact h2 ⟨⟨h1, by omega⟩, ⟨le_refl _, h4⟩⟩

theorem shape_of_rangesOK {l : List Lifespan} (h : RangesOK l) :
    SortedByFrom l ∧ PairwiseDisjoint l ∧ WellFormed l := by
  obtain ⟨hw, hp⟩ := h
  refine ⟨?_, ?_, hw⟩
  · unfold SortedByFrom
    rw [List.pairwise_iff_forall_sublist] at hp ⊢
    intro a b hs
    have h1 := hp hs
    have h2 := hw a (hs.subset (List.mem_cons_self _ _))
    omega
  · unfold PairwiseDisjoint
    refine hp.imp ?_
    intro a b hab p hp
    omega

theorem addRangeLoop_apart (n : Lifespan) (m : Bool) (l : List Lifespan)
    (h : ∀ a ∈ l, n.to_ < a.from_) : addRangeLoop l n m = (l, m) := by
  induction l with
  | nil => rfl
  | cons a rest ih =>
    have ha := h a (List.mem_cons_self _ _)
    unfold addRangeLoop
    have hc : ¬ (n.from_ ≤ a.to_ ∧ a.from_ ≤ n.to_) := by omega
    rw [if_neg hc]
    simp only
    rw [ih (fun x hx => h x (List.mem_cons_of_mem _ hx))]

theorem addRangeLoop_merged (s : Lifespan) (l : List Lifespan)
    (h : ∀ a ∈ l, s.from_ ≤ a.from_ ∧ a.from_ ≤ a.to_) :
    addRangeLoop l s true = (l.filter (fun a => decide (s.to_ < a.from_)), true) := by
  induction l with
  | nil => rfl
  | cons a rest ih =>
    obtain ⟨h1, h2⟩ := h a (List.mem_cons_self _ _)
    have ih1 := ih (fun x hx => h x (List.mem_cons_of_mem _ hx))
    unfold addRangeLoop
    by_cases hc : s.from_ ≤ a.to_ ∧ a.from_ ≤ s.to_
    · rw [if_pos hc]
      simp only
      have he : (True ∧ Lifespan.eqv ⟨min a.from_ s.from_, max a.to_ s.to_⟩ s = true) := by
        refine ⟨trivial, ?_⟩
        simp only [Lifespan.eqv, Lifespan.lt, Bool.and_eq_true, Bool.not_eq_true',
          decide_eq_false_iff_not, not_lt]
        rw [min_eq_right h1]
        exact ⟨le_refl _, le_refl _⟩
      rw [if_pos he, ih1]
      have hf : ¬ (decide (s.to_ < a.from_) = true) := by
        simp only [decide_eq_true_eq, not_lt]
        exact hc.2
      rw [List.filter_cons, if_neg hf]
    · rw [if_neg hc]
      simp only
      rw [ih1]
      have hf : decide (s.to_ < a.from_) = true := by
        simp only [decide_eq_true_eq]
        omega
      rw [List.filter_cons, if_pos hf]

theorem addRange_rangesOK (l : List Lifespan) (n : Lifespan) (hok : RangesOK l)
    (hn : n.from_ ≤ n.to_) (hf : ∀ a, l.head? = some a → n.from_ ≤ a.from_) :
    ∃ r, addRange l n = some r ∧ r ≠ [] ∧ RangesOK r := by
  cases l with
  | nil =>
    refine ⟨[n], rfl, by simp, rangesOK_cons.mpr ⟨hn, by simp, rangesOK_nil⟩⟩
  | cons front rest =>
    have h0 := hf front rfl
    obtain ⟨hwf, hlt, hrest⟩ := rangesOK_cons.mp hok
    unfold addRange
    simp only
    have hg : ¬ n.from_ > front.from_ := by omega
    rw [if_neg hg]
    unfold addRangeLoop
    by_cases hc : n.from_ ≤ front.to_ ∧ front.from_ ≤ n.to_
    · rw [if_pos hc]
      simp only
      have hm : ¬ (false = true ∧
          Lifespan.eqv ⟨min front.from_ n.from_, max front.to_ n.to_⟩ n = true) := by
        intro h
        exact Bool.noConfusion h.1
      rw [if_neg hm]
      have hB := addRangeLoop_merged ⟨min front.from_ n.from_, max front.to_ n.to_⟩ rest (by
        intro a ha
        have h1 := hlt a ha
        have h2 := hrest.1 a ha
        refine ⟨?_, h2⟩
        show min front.from_ n.from_ ≤ a.from_
        have := min_le_left front.from_ n.from_
        omega)
      rw [hB]
      simp only [if_true]
      refine ⟨_, rfl, by simp, ?_⟩
      refine rangesOK_cons.mpr ⟨?_, ?_, ?_⟩
      · show min front.from_ n.from_ ≤ max front.to_ n.to_
        have := min_le_left front.from_ n.from_
        have := le_max_left front.to_ n.to_
        omega
      · intro b hb
        have := (List.mem_filter.mp hb).2
        simpa using this
      · exact ⟨fun a ha => hrest.1 a (List.mem_filter.mp ha).1,
          hrest.2.sublist (List.filter_sublist _)⟩
    · rw [if_neg hc]
      simp only
      have hA := addRangeLoop_apart n false rest (by
        intro a ha
        have h1 := hlt a ha
        omega)
      rw [hA]
      simp only [Bool.false_eq_true, if_false]
      refine ⟨_, rfl, by simp, ?_⟩
      refine rangesOK_cons.mpr ⟨hn, ?_, hok⟩
      intro b hb
      rcases List.mem_cons.mp hb with rfl | hb
      · omega
      · have h1 := hlt b hb
        omega

/-- C11: if the range list is sorted by `from`, pairwise disjoint and made of ranges with
`from <= to`, and the new range has `from <= to` and a `from` not greater than the first
range's `from`, then `Interval::addRange` returns, and the list it leaves is non-empty,
sorted by `from`, pairwise disjoint and made of ranges with `from <= to`. -/
theorem addRange_keeps_shape (l : List Lifespan) (n : Lifespan)
    (hs : SortedByFrom l) (hd : PairwiseDisjoint l) (hw : WellFormed l)
    (hn : n.from_ ≤ n.to_) (hf : ∀ a, l.head? = some a → n.from_ ≤ a.from_) :
    ∃ r, addRange l n = some r ∧ r ≠ [] ∧ SortedByFrom r ∧ PairwiseDisjoint r ∧
      WellFormed r := by
  obtain ⟨r, h1, h2, h3⟩ := addRange_rangesOK l n (rangesOK_of_shape hs hd hw) hn hf
  exact ⟨r, h1, h2, shape_of_rangesOK h3⟩

/-- C11 at the list `[10,12] [20,30]` and the new range `[5,25]`. -/
theorem addRange_keeps_shape_witness :
    ∃ r, addRange [⟨10, 12⟩, ⟨20, 30⟩] ⟨5, 25⟩ = some r ∧ r ≠ [] ∧ SortedByFrom r ∧
      PairwiseDisjoint r ∧ WellFormed r :=
  addRange_keeps_shape [⟨10, 12⟩, ⟨20, 30⟩] ⟨5, 25⟩
    (by unfold SortedByFrom; decide)
    (by
      unfold PairwiseDisjoint
      refine List.pairwise_cons.mpr ⟨?_, List.pairwise_singleton _ _⟩
      intro b hb p hp
      simp only [List.mem_singleton] at hb
      subst hb
      obtain ⟨⟨_, h2⟩, ⟨h3, _⟩⟩ := hp
      have h2a : p ≤ 12 := h2
      have h3a : (20 : Int) ≤ p := h3
      omega)
    (by unfold WellFormed; decide)
    (by decide)
    (by
      intro a ha
      simp only [List.head?_cons, Option.some.injEq] at ha
      subst ha
      decide)

/-! ## LifetimeAnalyzer::run, Interval::split and the frame size -/

/-- C12 (failing input): for the function with the overlapping loops of headers 1 and 2
the lifetime analysis returns, and the interval of `i0` is `[0,1] [2,5]`: it does not
cover id 6, although `i0` is an input of the non-PHI instruction `(6) test i0` of
block 4. -/
theorem lifetime_misses_use_behind_loop :
    LifetimeAnalyzer.run 0 loopBlocks 1 = Except.ok loopIntervals ∧
    (∃ b ∈ loopBlocks, loopTest ∈ b.lirs) ∧
    loopTest.operation ≠ Operation.PHI ∧
    loopTest.inputs = Except.ok [0] ∧
    (∀ i ∈ loopIntervals, i.vr = 0 → covers i.lifespans loopTest.id = false) := by
  refine ⟨by rfl, by decide, by decide, by rfl, by decide⟩

theorem splitLoop_border (pos : Int) (l : List Lifespan) :
    ∀ h t, splitLoop pos l = (h, t) → h ≠ [] → t ≠ [] →
      (∃ x, t.head? = some x ∧ x.from_ = pos) ∧
      ((∃ z, h.getLast? = some z ∧ z.to_ = pos - 1) ∨ ∃ r ∈ l, r.from_ = pos) := by
  induction l with
  | nil =>
    intro h t hs hh _
    simp only [splitLoop, Prod.mk.injEq] at hs
    exact absurd hs.1.symm hh
  | cons it rest ih =>
    intro h t hs hh ht
    unfold splitLoop at hs
    by_cases h1 : it.from_ = pos
    · rw [if_pos h1] at hs
      obtain ⟨rfl, rfl⟩ := Prod.mk.inj hs
      exact absurd rfl hh
    · rw [if_neg h1] at hs
      by_cases h2 : it.from_ < pos ∧ it.to_ ≥ pos
      · rw [if_pos h2] at hs
        obtain ⟨rfl, rfl⟩ := Prod.mk.inj hs
        exact ⟨⟨_, rfl, rfl⟩, Or.inl ⟨_, rfl, rfl⟩⟩
      · rw [if_neg h2] at hs
        obtain ⟨rfl, rfl⟩ := Prod.mk.inj hs
        cases hr : (splitLoop pos rest).1 with
        | nil =>
          -- the head stops at `it`: the tail starts at a range whose `from` is `pos`
          refine ⟨?_, Or.inr ?_⟩
          · cases rest with
            | nil => simp [splitLoop] at ht
            | cons y ys =>
              unfold splitLoop at hr ht ⊢
              by_cases h3 : y.from_ = pos
              · rw [if_pos h3] at ht ⊢
                exact ⟨y, rfl, h3⟩
              · rw [if_neg h3] at hr
                by_cases h4 : y.from_ < pos ∧ y.to_ ≥ pos
                · rw [if_pos h4] at hr
                  simp at hr
                · rw [if_neg h4] at hr
                  simp at hr
          · cases rest with
            | nil => simp [splitLoop] at ht
            | cons y ys =>
              unfold splitLoop at hr
              by_cases h3 : y.from_ = pos
              · exact ⟨y, List.mem_cons_of_mem _ (List.mem_cons_self _ _), h3⟩
              · rw [if_neg h3] at hr
                by_cases h4 : y.from_ < pos ∧ y.to_ ≥ pos
                · rw [if_pos h4] at hr
                  simp at hr
                · rw [if_neg h4] at hr
                  simp at hr
        | cons y ys =>
          obtain ⟨i1, i2⟩ := ih _ _ rfl (by rw [hr]; simp) ht
          refine ⟨i1, ?_⟩
          rcases i2 with ⟨z, hz, hz1⟩ | ⟨r, hr1, hr2⟩
          · left
            refine ⟨z, ?_, hz1⟩
            rw [hr] at hz
            rw [List.getLast?_cons_cons]
            exact hz
          · exact Or.inr ⟨r, List.mem_cons_of_mem _ hr1, hr2⟩

/-- C13 (failing input): `Interval::split(10)` on the ranges `[0,2] [10,12]` returns
normally; the predecessor ends at 2 and the successor starts at 10, so
`predecessor.end() + 1` is 3 and not `successor.start()`, and the follower lookup of
`MachineCompiler::run` finds no interval of the register that starts at 3. In general a
split that returns gives the predecessor `hasFollower`, the successor the same `vr` and
`start() == at`, and `predecessor.end() + 1 == successor.start()` unless `at` is the
`from` of a range of the interval. -/
theorem split_leaves_gap :
    (∃ predecessor successor, gapInterval.split 10 = Except.ok (predecessor, successor) ∧
      predecessor.hasFollower = true ∧ successor.vr = gapInterval.vr ∧
      successor.start = Except.ok 10 ∧ predecessor.end_ = Except.ok 2 ∧
      followerOf [predecessor, successor] (toU16 (2 + 1)) gapInterval.vr =
        Except.error Err.undefined) ∧
    (∀ (i predecessor successor : Interval) (pos : Nat),
      i.split pos = Except.ok (predecessor, successor) →
        predecessor.hasFollower = true ∧ successor.vr = i.vr ∧
        successor.start = Except.ok (pos : Int) ∧
        (predecessor.end_ = Except.ok ((pos : Int) - 1) ∨ ∃ r ∈ i.lifespans, r.from_ = pos)) := by
  refine ⟨⟨_, _, by rfl, by rfl, by rfl, by rfl, by rfl, by rfl⟩, ?_⟩
  intro i predecessor successor pos h
  obtain ⟨hne1, hne2⟩ := split_ne h
  obtain ⟨rfl, rfl⟩ := split_ok h
  obtain ⟨⟨x, hx, hx1⟩, hb⟩ := splitLoop_border (pos : Int) i.lifespans _ _ rfl hne1 hne2
  refine ⟨rfl, rfl, ?_, ?_⟩
  · unfold Interval.start
    simp only
    rw [hx]
    show Except.ok x.from_ = Except.ok (pos : Int)
    rw [hx1]
  · rcases hb with ⟨z, hz, hz1⟩ | hr
    · left
      unfold Interval.end_
      simp only
      rw [hz]
      show Except.ok z.to_ = Except.ok ((pos : Int) - 1)
      rw [hz1]
    · exact Or.inr hr

theorem reserveAll_ok (calls : List Reservation) :
    ∀ a : StackAllocator, a.frozen = false →
      ∃ r, reserveAll a calls = Except.ok r ∧ r.frozen = false := by
  induction calls with
  | nil => intro a ha; exact ⟨a, rfl, ha⟩
  | cons c rest ih =>
    intro a ha
    cases c with
    | argument index =>
      unfold reserveAll StackAllocator.reserveArgument
      simp only [ha, Bool.false_eq_true, if_false]
      exact ih _ rfl
    | scratch =>
      unfold reserveAll StackAllocator.reserveScratch
      simp only [ha, Bool.false_eq_true, if_false]
      exact ih _ rfl

theorem freeze_aligned (a : StackAllocator) : (a.freeze.getStackSize + 8) % 16 = 0 := by
  unfold StackAllocator.freeze StackAllocator.getStackSize
  simp only
  split
  · omega
  · split
    · omega
    · omega

/-- C14: every sequence of `reserveArgument` and `reserveScratch` calls on a new
allocator returns, and after `freeze()` the frame size satisfies
`(getStackSize() + 8) mod 16 == 0`; subtracting it from a stack pointer that is 8 modulo
16 gives a stack pointer that is 0 modulo 16. -/
theorem frame_size_aligned (calls : List Reservation) :
    ∃ a, reserveAll ⟨0, 0, 0, false⟩ calls = Except.ok a ∧
      (a.freeze.getStackSize + 8) % 16 = 0 ∧
      ∀ sp : Int, sp % 16 = 8 → (sp - (a.freeze.getStackSize : Int)) % 16 = 0 := by
  obtain ⟨a, h, _⟩ := reserveAll_ok calls ⟨0, 0, 0, false⟩ rfl
  refine ⟨a, h, freeze_aligned a, ?_⟩
  intro sp hsp
  have := freeze_aligned a
  omega

/-! ## The bytecode loader: opcodes and instructions -/

theorem readOpcode_cons (b : Nat) (rest : List Nat) :
    Bytecode.readOpcode (b :: rest) =
      match Bytecode.readOpcode [b] with
      | Except.ok (op, _) => Except.ok (op, rest)
      | Except.error e => Except.error e := by
  unfold Bytecode.readOpcode Bytecode.readU8
  simp only
  cases Bytecode.Opcode.ofByte (b % 256) with
  | none => rfl
  | some op => cases op <;> rfl

set_option maxRecDepth 100000 in
theorem readOpcode_table :
    ∀ byte, byte < 256 →
      (Bytecode.readOpcode [byte]).toOption.map (fun r => r.1.value) =
        if byte ∈ opcodeTable ∧ byte ≠ 0 then some byte else none := by
  decide

/-- C15 (failing input): the opcode reader raises `BytecodeLoaderException` for the byte
0, the value of `NOP` in the bytecode table. Every other byte of the table is accepted
and yields the opcode with that value, and every byte outside the table raises
`BytecodeLoaderException`. -/
theorem readOpcode_rejects_nop :
    (0 ∈ opcodeTable ∧ Bytecode.Opcode.NOP.value = 0 ∧
      ∀ rest, Bytecode.readOpcode (0 :: rest) = Except.error Err.bytecodeLoader) ∧
    (∀ byte rest, byte < 256 → byte ∈ opcodeTable → byte ≠ 0 →
      ∃ op, Bytecode.readOpcode (byte :: rest) = Except.ok (op, rest) ∧ op.value = byte) ∧
    (∀ byte rest, byte < 256 → byte ∉ opcodeTable →
      Bytecode.readOpcode (byte :: rest) = Except.error Err.bytecodeLoader) := by
  refine ⟨⟨by decide, rfl, fun rest => by rw [readOpcode_cons]; rfl⟩, ?_, ?_⟩
  · intro byte rest hb ht h0
    have h := readOpcode_table byte hb
    rw [if_pos ⟨ht, h0⟩] at h
    rw [readOpcode_cons]
    cases hr : Bytecode.readOpcode [byte] with
    | error e => rw [hr] at h; simp [Except.toOption] at h
    | ok r =>
      rw [hr] at h
      simp only [Except.toOption, Option.map_some', Option.some.injEq] at h
      exact ⟨r.1, rfl, h⟩
  · intro byte rest hb ht
    have h := readOpcode_table byte hb
    have hn : ¬ (byte ∈ opcodeTable ∧ byte ≠ 0) := fun hc => ht hc.1
    rw [if_neg hn] at h
    rw [readOpcode_cons]
    cases hr : Bytecode.readOpcode [byte] with
    | error e =>
      cases e <;> first | rfl | (exfalso; revert hr; unfold Bytecode.readOpcode Bytecode.readU8; simp only; split <;> (try split) <;> intro hr <;> simp at hr)
    | ok r => rw [hr] at h; simp [Except.toOption] at h

/-- C16 (failing input): reading an instruction from the byte 0x01 (`LOAD`) or 0x02
(`STORE`), whatever follows, raises `BytecodeLoaderException`: the opcode is accepted
and the instruction `switch` has no case for it. So do the bytes `01 03 00` of a load,
the bytes `02 03 00 00 ff` of a store, and the list `02 00 | 01 03 00 | 01 04 ff` of two
loads. -/
theorem readInstruction_rejects_load_store :
    (∀ rest, Bytecode.readOpcode (1 :: rest) = Except.ok (Bytecode.Opcode.LOAD, rest)) ∧
    (∀ rest, Bytecode.readOpcode (2 :: rest) = Except.ok (Bytecode.Opcode.STORE, rest)) ∧
    (∀ rest, Bytecode.readInstruction (1 :: rest) = Except.error Err.bytecodeLoader) ∧
    (∀ rest, Bytecode.readInstruction (2 :: rest) = Except.error Err.bytecodeLoader) ∧
    Bytecode.readInstruction [0x01, 0x03, 0x00] = Except.error Err.bytecodeLoader ∧
    Bytecode.readInstruction [0x02, 0x03, 0x00, 0x00, 0xff] = Except.error Err.bytecodeLoader ∧
    Bytecode.readVector Bytecode.readInstruction [0x02, 0x00, 0x01, 0x03, 0x00, 0x01, 0x04, 0xff] =
      Except.error Err.bytecodeLoader := by
  refine ⟨fun _ => rfl, fun _ => rfl, fun _ => rfl, fun _ => rfl, rfl, rfl, rfl⟩

theorem signedLE_four (b0 b1 b2 b3 : Nat) :
    signedLE [b0, b1, b2, b3] =
      if Bytecode.leValue [b0, b1, b2, b3] < 2147483648 then
        (Bytecode.leValue [b0, b1, b2, b3] : Int)
      else (Bytecode.leValue [b0, b1, b2, b3] : Int) - 4294967296 := by
  unfold signedLE
  norm_num

theorem signedLE_eight (b0 b1 b2 b3 b4 b5 b6 b7 : Nat) :
    signedLE [b0, b1, b2, b3, b4, b5, b6, b7] =
      if Bytecode.leValue [b0, b1, b2, b3, b4, b5, b6, b7] < 9223372036854775808 then
        (Bytecode.leValue [b0, b1, b2, b3, b4, b5, b6, b7] : Int)
      else (Bytecode.leValue [b0, b1, b2, b3, b4, b5, b6, b7] : Int) - 18446744073709551616 := by
  unfold signedLE
  norm_num

/-- C17 (failing input): the `CONST` instruction `03 02 ff` of type `INT8` loads the
value 255, and `03 04 00 80` of type `INT16` loads 32768, where the two's-complement
readings are -1 and -32768: the immediates of `INT8` and `INT16` are read through
`read<u8>` and `read<u16>`. The immediates of `INT32` and `INT64` load as
two's-complement signed values, and for `BOOL` the value is the byte read. -/
theorem const_int8_int16_load_unsigned :
    (Bytecode.readInstruction [0x03, 0x02, 0xff] =
        Except.ok (⟨Bytecode.Opcode.CONST, 0, Bytecode.Payload.constant 0 ⟨false, 2⟩ 255⟩, []) ∧
      signedLE [0xff] = -1) ∧
    (Bytecode.readInstruction [0x03, 0x04, 0x00, 0x80] =
        Except.ok (⟨Bytecode.Opcode.CONST, 0, Bytecode.Payload.constant 0 ⟨false, 4⟩ 32768⟩, []) ∧
      signedLE [0x00, 0x80] = -32768) ∧
    (∀ b rest, Bytecode.readInstruction (0x03 :: 0x02 :: b :: rest) =
      Except.ok (⟨Bytecode.Opcode.CONST, 0,
        Bytecode.Payload.constant 0 ⟨false, 2⟩ ((b % 256 : Nat) : Int)⟩, rest)) ∧
    (∀ b0 b1 rest, Bytecode.readInstruction (0x03 :: 0x04 :: b0 :: b1 :: rest) =
      Except.ok (⟨Bytecode.Opcode.CONST, 0,
        Bytecode.Payload.constant 0 ⟨false, 4⟩ ((b0 % 256 + 256 * (b1 % 256) : Nat) : Int)⟩, rest)) ∧
    (∀ b0 b1 b2 b3 rest, Bytecode.readInstruction (0x03 :: 0x05 :: b0 :: b1 :: b2 :: b3 :: rest) =
      Except.ok (⟨Bytecode.Opcode.CONST, 0,
        Bytecode.Payload.constant 0 ⟨false, 5⟩ (signedLE [b0, b1, b2, b3])⟩, rest)) ∧
    (∀ b0 b1 b2 b3 b4 b5 b6 b7 rest,
      Bytecode.readInstruction (0x03 :: 0x06 :: b0 :: b1 :: b2 :: b3 :: b4 :: b5 :: b6 :: b7 :: rest) =
      Except.ok (⟨Bytecode.Opcode.CONST, 0,
        Bytecode.Payload.constant 0 ⟨false, 6⟩ (signedLE [b0, b1, b2, b3, b4, b5, b6, b7])⟩, rest)) ∧
    (∀ b rest, Bytecode.readInstruction (0x03 :: 0x01 :: b :: rest) =
      Except.ok (⟨Bytecode.Opcode.CONST, 0,
        Bytecode.Payload.constant 0 ⟨false, 1⟩ ((b % 256 : Nat) : Int)⟩, rest)) := by
  refine ⟨⟨rfl, by decide⟩, ⟨rfl, by decide⟩, fun _ _ => rfl, fun _ _ _ => rfl, ?_, ?_,
    fun _ _ => rfl⟩
  · intro b0 b1 b2 b3 rest
    rw [signedLE_four]
    rfl
  · intro b0 b1 b2 b3 b4 b5 b6 b7 rest
    rw [signedLE_eight]
    rfl

theorem definingCount_cons (i : Bytecode.Instruction) (rest : List Bytecode.Instruction) :
    Bytecode.definingCount (i :: rest) =
      (if i.opcode.defines = true then 1 else 0) + Bytecode.definingCount rest := by
  unfold Bytecode.definingCount
  rw [List.filter_cons]
  by_cases h : i.opcode.defines = true
  · rw [if_pos h, if_pos h, List.length_cons]
    omega
  · rw [if_neg h, if_neg h]
    omega

theorem countStep_spec (op : Bytecode.Opcode) (id id1 : Nat) (payload : Bytecode.Payload)
    (r : Nat) (hnop : op ≠ Bytecode.Opcode.NOP)
    (hfit : Bytecode.Instruction.fits ⟨op, id, payload⟩ = true) :
    ∃ payload1, Bytecode.countStep op payload r =
        Except.ok (payload1, if op.defines = true then (r + 1) % 65536 else r) ∧
      (op.defines = true →
        Bytecode.Instruction.destination ⟨op, id1, payload1⟩ = some r) ∧
      (op.defines = false → payload1 = payload) := by
  cases op <;> cases payload <;>
    first
    | exact absurd rfl hnop
    | exact Bool.noConfusion hfit
    | exact ⟨_, rfl, fun _ => rfl, fun h => Bool.noConfusion h⟩
    | exact ⟨_, rfl, fun h => Bool.noConfusion h, fun _ => rfl⟩

theorem countLoop_spec (instrs : List Bytecode.Instruction) :
    ∀ (id r : Nat), id < 65536 → (∀ i ∈ instrs, i.opcode ≠ Bytecode.Opcode.NOP) →
      (∀ i ∈ instrs, i.fits = true) → r + Bytecode.definingCount instrs ≤ 65535 →
      ∃ out, Bytecode.countLoop instrs id r =
          Except.ok (out, r + Bytecode.definingCount instrs) ∧
        out.length = instrs.length ∧
        ∀ j i, instrs[j]? = some i → ∃ o, out[j]? = some o ∧ o.opcode = i.opcode ∧
          o.id = (id + j) % 65536 ∧
          (i.opcode.defines = true →
            o.destination = some (r + Bytecode.definingCount (instrs.take j))) ∧
          (i.opcode.defines = false → o.payload = i.payload) := by
  induction instrs with
  | nil =>
    intro id r _ _ _ _
    refine ⟨[], rfl, rfl, ?_⟩
    intro j i h
    simp at h
  | cons x rest ih =>
    intro id r hid0 hnop hfit hb
    obtain ⟨op, xid, payload⟩ := x
    have hn : op ≠ Bytecode.Opcode.NOP := hnop ⟨op, xid, payload⟩ (List.mem_cons_self _ _)
    have hf : Bytecode.Instruction.fits ⟨op, xid, payload⟩ = true :=
      hfit _ (List.mem_cons_self _ _)
    obtain ⟨payload1, hstep, hdef, hnon⟩ := countStep_spec op xid id payload r hn hf
    rw [definingCount_cons] at hb ⊢
    simp only at hb ⊢
    have hr1 : (if op.defines = true then (r + 1) % 65536 else r) =
        r + (if op.defines = true then 1 else 0) := by
      by_cases h : op.defines = true
      · rw [if_pos h, if_pos h]
        rw [if_pos h] at hb
        omega
      · rw [if_neg h, if_neg h]
        omega
    rw [hr1] at hstep
    obtain ⟨out, hout, hlen, hall⟩ := ih ((id + 1) % 65536)
      (r + (if op.defines = true then 1 else 0)) (Nat.mod_lt _ (by decide))
      (fun i hi => hnop i (List.mem_cons_of_mem _ hi))
      (fun i hi => hfit i (List.mem_cons_of_mem _ hi)) (by omega)
    refine ⟨⟨op, id, payload1⟩ :: out, ?_, ?_, ?_⟩
    · unfold Bytecode.countLoop
      simp only [hstep, hout]
      rw [Nat.add_assoc]
    · simp [hlen]
    · intro j i hj
      cases j with
      | zero =>
        simp only [List.getElem?_cons_zero, Option.some.injEq] at hj
        subst hj
        refine ⟨⟨op, id, payload1⟩, by simp, rfl, ?_, ?_, ?_⟩
        · show id = (id + 0) % 65536
          omega
        · intro h
          rw [hdef h]
          simp [Bytecode.definingCount]
        · intro h
          exact hnon h
      | succ j =>
        simp only [List.getElem?_cons_succ] at hj
        obtain ⟨o, ho, hop, hid, hd, hp⟩ := hall j i hj
        refine ⟨o, by simpa using ho, hop, ?_, ?_, hp⟩
        · rw [hid, Nat.mod_add_mod]
          congr 1
          omega
        · intro h
          rw [hd h, List.take_succ_cons, definingCount_cons]
          simp only
          rw [Nat.add_assoc]

/-- C18 (counterexample): numbering the one-instruction list `NOP` raises
`BytecodeLoaderException` although `NOP` defines nothing; and for 65535 parameters and
the one instruction `CONST` the call returns 0, not 65536, the counter being a `u16`. -/
theorem countTemporaries_nop_and_wrap :
    Bytecode.Opcode.NOP.defines = false ∧
    Bytecode.countTemporaries [] [⟨Bytecode.Opcode.NOP, 0, Bytecode.Payload.none⟩] =
      Except.error Err.bytecodeLoader ∧
    (List.replicate 65535 (Bytecode.Local.mk ⟨false, 5⟩ [])).length +
      Bytecode.definingCount
        [⟨Bytecode.Opcode.CONST, 0, Bytecode.Payload.constant 0 ⟨false, 5⟩ 7⟩] = 65536 ∧
    Bytecode.countTemporaries (List.replicate 65535 (Bytecode.Local.mk ⟨false, 5⟩ []))
        [⟨Bytecode.Opcode.CONST, 0, Bytecode.Payload.constant 0 ⟨false, 5⟩ 7⟩] =
      Except.ok (0, [⟨Bytecode.Opcode.CONST, 0,
        Bytecode.Payload.constant 65535 ⟨false, 5⟩ 7⟩]) := by
  refine ⟨rfl, rfl, ?_, ?_⟩
  · rw [List.length_replicate]
    rfl
  · unfold Bytecode.countTemporaries
    rw [List.length_replicate]
    rfl

/-- C18 (amended): for a list without `NOP` whose defining instructions hold the member
of their opcode, and with `parameters.size()` plus the number of defining instructions
at most 65535, `countTemporaries` returns that sum, gives the instruction at position `j`
the id `j`, gives a defining instruction at position `j` the destination index
`parameters.size()` plus the number of defining instructions before `j`, and leaves the
union of every other instruction as it was. -/
theorem countTemporaries_numbers (parameters : List Bytecode.Local)
    (instructions : List Bytecode.Instruction)
    (hnop : ∀ i ∈ instructions, i.opcode ≠ Bytecode.Opcode.NOP)
    (hfit : ∀ i ∈ instructions, i.fits = true)
    (hb : parameters.length + Bytecode.definingCount instructions ≤ 65535) :
    ∃ out, Bytecode.countTemporaries parameters instructions =
        Except.ok (parameters.length + Bytecode.definingCount instructions, out) ∧
      out.length = instructions.length ∧
      ∀ j i, instructions[j]? = some i → ∃ o, out[j]? = some o ∧ o.opcode = i.opcode ∧
        o.id = j % 65536 ∧
        (i.opcode.defines = true →
          o.destination =
            some (parameters.length + Bytecode.definingCount (instructions.take j))) ∧
        (i.opcode.defines = false → o.payload = i.payload) := by
  have hm : parameters.length % 65536 = parameters.length := Nat.mod_eq_of_lt (by omega)
  obtain ⟨out, hout, hlen, hall⟩ := countLoop_spec instructions 0 parameters.length
    (by decide) hnop hfit hb
  refine ⟨out, ?_, hlen, ?_⟩
  · unfold Bytecode.countTemporaries
    rw [hm, hout]
  · intro j i hj
    obtain ⟨o, ho, hop, hid, hd, hp⟩ := hall j i hj
    exact ⟨o, ho, hop, by rw [hid, Nat.zero_add], hd, hp⟩

/-- C18 at one parameter and the body `sumBody`: the three defining instructions get the
destinations 1, 2 and 3 and the call returns 4. -/
theorem countTemporaries_numbers_witness :
    Bytecode.countTemporaries [⟨⟨false, 5⟩, []⟩] Bytecode.sumBody =
        Except.ok (4,
          [⟨Bytecode.Opcode.CONST, 0, Bytecode.Payload.constant 1 ⟨false, 5⟩ 7⟩,
           ⟨Bytecode.Opcode.CONST, 1, Bytecode.Payload.constant 2 ⟨false, 5⟩ 8⟩,
           ⟨Bytecode.Opcode.ADD, 2, Bytecode.Payload.binary 3 1 2⟩,
           ⟨Bytecode.Opcode.STORE_IDX, 3, Bytecode.Payload.array 0 1 3⟩,
           ⟨Bytecode.Opcode.RETURN, 4, Bytecode.Payload.unary 0 3⟩]) ∧
    ∃ out, Bytecode.countTemporaries [⟨⟨false, 5⟩, []⟩] Bytecode.sumBody =
        Except.ok ([(⟨⟨false, 5⟩, []⟩ : Bytecode.Local)].length +
          Bytecode.definingCount Bytecode.sumBody, out) ∧
      out.length = Bytecode.sumBody.length ∧
      ∀ j i, Bytecode.sumBody[j]? = some i → ∃ o, out[j]? = some o ∧ o.opcode = i.opcode ∧
        o.id = j % 65536 ∧
        (i.opcode.defines = true →
          o.destination =
            some ([(⟨⟨false, 5⟩, []⟩ : Bytecode.Local)].length +
              Bytecode.definingCount (Bytecode.sumBody.take j))) ∧
        (i.opcode.defines = false → o.payload = i.payload) :=
  ⟨rfl, countTemporaries_numbers [⟨⟨false, 5⟩, []⟩] Bytecode.sumBody (by decide) (by decide)
    (by decide)⟩

/-- C19 (failing input): the bytes `02 00 | 1d 03 00 00 | 03 05 01 00 00 00` are read as
`SPECIAL`, `CONST INT32`; `countTemporaries` gives `SPECIAL` the destination 0 and
`CONST` the destination 1 and returns 2; `assignTypesToTemporaries` has no case for
`SPECIAL`, so it writes the type of the constant into entry 0, and the entry 1 at the
destination of `CONST` stays `VOID`. -/
theorem assignTypes_lags_behind_special :
    (∃ unnumbered,
      Bytecode.readVector Bytecode.readInstruction Bytecode.specialBytes =
        Except.ok (unnumbered, []) ∧
      Bytecode.countTemporaries [] unnumbered = Except.ok (2, Bytecode.specialBody)) ∧
    Bytecode.specialBody[1]? =
      some ⟨Bytecode.Opcode.CONST, 1, Bytecode.Payload.constant 1 ⟨false, 5⟩ 1⟩ ∧
    (∃ g, Bytecode.assignTypesToTemporaries ⟨[], [], []⟩ Bytecode.specialFunction =
        Except.ok g ∧
      g.temporaryTypes = [⟨false, 5⟩, ⟨false, 0⟩] ∧
      g.temporaryTypes[1]? ≠ some ⟨false, 5⟩) := by
  refine ⟨⟨_, rfl, rfl⟩, rfl, ⟨_, rfl, rfl, by decide⟩⟩

theorem store_not_loader (types : List BType) (cur : Nat) (g : BType → BType) :
    Bytecode.store types cur g ≠ Except.error Err.bytecodeLoader := by
  unfold Bytecode.store
  split
  · intro h
    exact Except.noConfusion h
  · intro h
    have h1 := Except.error.inj h
    exact Err.noConfusion h1

theorem operandsAgree_spec (types : List BType) (l r : Nat) (tl tr : BType)
    (hl : types[l]? = some tl) (hr : types[r]? = some tr) :
    Bytecode.operandsAgree types l r =
      if tl.isArray = true ∨ tr.isArray = true ∨
          (tl.baseType ≠ tr.baseType ∧ tl.baseType ≠ 0 ∧ tr.baseType ≠ 0) then
        Except.error Err.bytecodeLoader
      else Except.ok tl := by
  obtain ⟨al, bl⟩ := tl
  obtain ⟨ar, br⟩ := tr
  unfold Bytecode.operandsAgree Bytecode.vecGet
  rw [hl, hr]
  cases al <;> cases ar <;> simp [Bytecode.typeEq]
  by_cases h1 : bl = br <;> by_cases h2 : bl = 0 <;> by_cases h3 : br = 0 <;>
    simp [h1, h2, h3]

theorem loopE_stops {σ α : Type} (body : σ → α → Except Err σ) (pre : List α) :
    ∀ (st s : σ) (x : α) (post : List α) (e : Err), loopE body st pre = Except.ok s →
      body s x = Except.error e → loopE body st (pre ++ x :: post) = Except.error e := by
  induction pre with
  | nil =>
    intro st s x post e h hx
    simp only [loopE, Except.ok.injEq] at h
    subst h
    simp only [List.nil_append, loopE, hx]
  | cons y ys ih =>
    intro st s x post e h hx
    simp only [loopE] at h
    simp only [List.cons_append, loopE]
    split
    · rename_i st1 hy
      rw [hy] at h
      exact ih st1 s x post e h hx
    · rename_i e1 hy
      rw [hy] at h
      exact Except.noConfusion h

/-- C20 (counterexample): the bytes `03 00 | 03 00 | 03 05 01 00 00 00 | 04 00 00 01 00`
are read and numbered as `CONST VOID`, `CONST INT32`, `ADD t0 t1`; the operands of the
sum have the base types 0 and 5, neither is an array, and `assignTypesToTemporaries`
returns with the types `VOID`, `INT32`, `VOID`. -/
theorem assignTypes_accepts_void_operand :
    (∃ unnumbered,
      Bytecode.readVector Bytecode.readInstruction Bytecode.voidBytes =
        Except.ok (unnumbered, []) ∧
      Bytecode.countTemporaries [] unnumbered = Except.ok (3, Bytecode.voidBody)) ∧
    ∃ g, Bytecode.assignTypesToTemporaries ⟨[], [], []⟩ Bytecode.voidFunction =
        Except.ok g ∧
      g.temporaryTypes = [⟨false, 0⟩, ⟨false, 5⟩, ⟨false, 0⟩] := by
  refine ⟨⟨_, rfl, rfl⟩, _, rfl, rfl⟩

/-- C20 (amended): for a comparison or binary arithmetic instruction whose operands
`lsrcIdx` and `rsrcIdx` are entries of `temporaryTypes` with the types `tl` and `tr`,
the body of the loop of `assignTypesToTemporaries` raises `BytecodeLoaderException`
exactly when one of the two is an array, or the base types differ and neither of them
is 0 (`VOID`); and when that holds for an instruction of the function that the loop
reaches, `assignTypesToTemporaries` raises `BytecodeLoaderException`. -/
theorem assignTypes_raises_on_mismatch (p : Bytecode.Program) (f : Bytecode.Function)
    (types : List BType) (cur : Nat) (instr : Bytecode.Instruction) (dst l r : Nat)
    (tl tr : BType)
    (hop : instr.opcode ∈ [Bytecode.Opcode.GT, Bytecode.Opcode.GTE, Bytecode.Opcode.EQ,
      Bytecode.Opcode.NEQ, Bytecode.Opcode.LTE, Bytecode.Opcode.LT, Bytecode.Opcode.ADD,
      Bytecode.Opcode.SUB, Bytecode.Opcode.MUL, Bytecode.Opcode.DIV, Bytecode.Opcode.MOD,
      Bytecode.Opcode.AND, Bytecode.Opcode.OR])
    (hpay : instr.payload = Bytecode.Payload.binary dst l r)
    (hl : types[l]? = some tl) (hr : types[r]? = some tr) :
    (Bytecode.assignStep p f (types, cur) instr = Except.error Err.bytecodeLoader ↔
      (tl.isArray = true ∨ tr.isArray = true ∨
        (tl.baseType ≠ tr.baseType ∧ tl.baseType ≠ 0 ∧ tr.baseType ≠ 0))) ∧
    (∀ st0 pre post, Bytecode.assignParameters f = Except.ok st0 →
      f.instructions = pre ++ instr :: post →
      loopE (Bytecode.assignStep p f) st0 pre = Except.ok (types, cur) →
      (tl.isArray = true ∨ tr.isArray = true ∨
        (tl.baseType ≠ tr.baseType ∧ tl.baseType ≠ 0 ∧ tr.baseType ≠ 0)) →
      Bytecode.assignTypesToTemporaries p f = Except.error Err.bytecodeLoader) := by
  have hstep : Bytecode.assignStep p f (types, cur) instr = Except.error Err.bytecodeLoader ↔
      (tl.isArray = true ∨ tr.isArray = true ∨
        (tl.baseType ≠ tr.baseType ∧ tl.baseType ≠ 0 ∧ tr.baseType ≠ 0)) := by
    obtain ⟨op, id, payload⟩ := instr
    simp only at hpay hop
    subst hpay
    have hag := operandsAgree_spec types l r tl tr hl hr
    by_cases hbad : tl.isArray = true ∨ tr.isArray = true ∨
        (tl.baseType ≠ tr.baseType ∧ tl.baseType ≠ 0 ∧ tr.baseType ≠ 0)
    · rw [if_pos hbad] at hag
      simp only [List.mem_cons, List.mem_singleton, List.not_mem_nil, or_false] at hop
      rcases hop with h | h | h | h | h | h | h | h | h | h | h | h | h <;> subst h <;>
        simp only [Bytecode.assignStep, hag, hbad]
    · rw [if_neg hbad] at hag
      simp only [List.mem_cons, List.mem_singleton, List.not_mem_nil, or_false] at hop
      rcases hop with h | h | h | h | h | h | h | h | h | h | h | h | h <;> subst h <;>
        simp only [Bytecode.assignStep, hag, hbad, iff_false] <;>
        exact store_not_loader _ _ _
  refine ⟨hstep, ?_⟩
  intro st0 pre post h0 hf hpre hbad
  unfold Bytecode.assignTypesToTemporaries
  rw [h0]
  simp only
  rw [hf, loopE_stops (Bytecode.assignStep p f) pre st0 (types, cur) instr post
    Err.bytecodeLoader hpre (hstep.mpr hbad)]

/-- C20 at the body `CONST INT32`, `CONST INT64`, `LT t0 t1`: the comparison is reached
with the operand types `INT32` and `INT64`, and the call raises. -/
theorem assignTypes_raises_on_mismatch_witness :
    Bytecode.assignTypesToTemporaries ⟨[], [], []⟩ Bytecode.mixedFunction =
      Except.error Err.bytecodeLoader ∧
    Bytecode.assignStep ⟨[], [], []⟩ Bytecode.mixedFunction
      ([⟨false, 5⟩, ⟨false, 6⟩, ⟨false, 0⟩], 2)
      ⟨Bytecode.Opcode.LT, 2, Bytecode.Payload.binary 2 0 1⟩ =
        Except.error Err.bytecodeLoader :=
  have h := assignTypes_raises_on_mismatch ⟨[], [], []⟩ Bytecode.mixedFunction
    [⟨false, 5⟩, ⟨false, 6⟩, ⟨false, 0⟩] 2
    ⟨Bytecode.Opcode.LT, 2, Bytecode.Payload.binary 2 0 1⟩ 2 0 1 ⟨false, 5⟩ ⟨false, 6⟩
    (by decide) rfl rfl rfl
  ⟨h.2 ([⟨false, 0⟩, ⟨false, 0⟩, ⟨false, 0⟩], 0)
      [⟨Bytecode.Opcode.CONST, 0, Bytecode.Payload.constant 0 ⟨false, 5⟩ 1⟩,
       ⟨Bytecode.Opcode.CONST, 1, Bytecode.Payload.constant 1 ⟨false, 6⟩ 1⟩] [] rfl rfl rfl
      (by decide),
    h.1.mpr (by decide)⟩

/-! ## The layout of struct types -/

theorem getSize_of_typed (f : Bytecode.Field) (h : f.typeId ≠ 0) :
    ∃ size, f.getSize = Except.ok size := by
  unfold Bytecode.Field.getSize
  rw [if_neg h]
  split
  · exact ⟨_, rfl⟩
  · split
    · exact ⟨_, rfl⟩
    · split
      · exact ⟨_, rfl⟩
      · split
        · exact ⟨_, rfl⟩
        · rename_i h1 h2 h3 h4
          rw [if_neg (by omega)]
          exact ⟨_, rfl⟩

theorem fieldsBytes_cons (f : Bytecode.Field) (rest : List Bytecode.Field) :
    fieldsBytes (f :: rest) = fieldBytes f + fieldsBytes rest := by
  simp [fieldsBytes]

theorem calculateLoop_spec (fields : List Bytecode.Field) :
    ∀ sum, (∀ f ∈ fields, f.typeId ≠ 0) →
      ∃ out, Bytecode.calculateLoop fields sum =
          Except.ok (out, if fields = [] then sum else (sum + fieldsBytes fields) % 65536) ∧
        out.length = fields.length ∧
        ∀ (i : Nat) (f : Bytecode.Field), fields[i]? = some f →
          out[i]? = some { f with offset :=
            if i = 0 then sum else (sum + fieldsBytes (fields.take i)) % 65536 } := by
  induction fields with
  | nil =>
    intro sum _
    refine ⟨[], rfl, rfl, ?_⟩
    intro i f h
    simp at h
  | cons x rest ih =>
    intro sum hv
    obtain ⟨size, hsize⟩ := getSize_of_typed x (hv x (List.mem_cons_self _ _))
    have hx : fieldBytes x = size.value := by
      unfold fieldBytes
      rw [hsize]
    obtain ⟨out, hout, hlen, hall⟩ := ih ((sum + size.value) % 65536)
      (fun f hf => hv f (List.mem_cons_of_mem _ hf))
    refine ⟨{ x with offset := sum } :: out, ?_, by simp [hlen], ?_⟩
    · unfold Bytecode.calculateLoop
      simp only [hsize, hout]
      rw [if_neg (List.cons_ne_nil _ _), fieldsBytes_cons, hx]
      by_cases hr : rest = []
      · subst hr
        simp [fieldsBytes]
      · rw [if_neg hr, Nat.mod_add_mod, Nat.add_assoc]
    · intro i f hi
      cases i with
      | zero =>
        simp only [List.getElem?_cons_zero, Option.some.injEq] at hi
        subst hi
        simp
      | succ j =>
        simp only [List.getElem?_cons_succ] at hi
        have h1 := hall j f hi
        simp only [List.getElem?_cons_succ, h1, List.take_succ_cons, fieldsBytes_cons, hx]
        by_cases hj : j = 0
        · subst hj
          simp [fieldsBytes]
        · rw [if_neg hj, if_neg (Nat.succ_ne_zero j), Nat.mod_add_mod, Nat.add_assoc]

theorem fieldsBytes_take_le (fields : List Bytecode.Field) (i : Nat) :
    fieldsBytes (fields.take i) ≤ fieldsBytes fields := by
  induction fields generalizing i with
  | nil => simp [fieldsBytes]
  | cons x rest ih =>
    cases i with
    | zero => simp [fieldsBytes]
    | succ j =>
      rw [List.take_succ_cons, fieldsBytes_cons, fieldsBytes_cons]
      have := ih j
      omega

theorem fieldsBytes_replicate (n : Nat) (f : Bytecode.Field) :
    fieldsBytes (List.replicate n f) = n * fieldBytes f := by
  induction n with
  | zero => simp [fieldsBytes]
  | succ k ih =>
    rw [List.replicate_succ, fieldsBytes_cons, ih]
    rw [Nat.succ_mul]
    omega

theorem getSize_wraps (n : Nat) (hn : n ≠ 0) (h : (8 + n * 8) % 65536 = 0) :
    ∃ s1, (Bytecode.StructType.new 9 [] (List.replicate n ⟨6, [], 0⟩) []).getSize =
        Except.ok (0, s1) ∧
      s1.getOffset 0 = Except.error Err.typeNotPacked ∧
      s1.getFieldSize 0 = Except.error Err.typeNotPacked := by
  obtain ⟨out, hout, _, _⟩ := calculateLoop_spec (List.replicate n ⟨6, [], 0⟩) 8 (by
    intro f hf
    rw [List.eq_of_mem_replicate hf]
    decide)
  have hne : List.replicate n (Bytecode.Field.mk 6 [] 0) ≠ [] := by
    intro he
    have hl := congrArg List.length he
    simp only [List.length_replicate, List.length_nil] at hl
    exact hn hl
  have hf : fieldBytes ⟨6, [], 0⟩ = 8 := rfl
  rw [if_neg hne, fieldsBytes_replicate, hf, h] at hout
  refine ⟨⟨9, [], out, [], 0⟩, ?_, rfl, rfl⟩
  unfold Bytecode.StructType.getSize Bytecode.StructType.calculateSize Bytecode.StructType.new
  simp only
  rw [hout]
  rfl

/-- C21 (counterexample): for a struct type with one field of type `VOID`, `getSize()`
raises `std::runtime_error`; for the struct type with 8191 fields of type `INT64`,
where 8 plus the sum of the field sizes is 65536, `getSize()` returns 0, leaves `_size`
at 0, and `getOffset(0)` afterwards raises `TypeNotPackedException`. -/
theorem getSize_void_and_wrap :
    (Bytecode.StructType.new 1 [] [⟨0, [], 0⟩] []).getSize = Except.error Err.runtimeError ∧
    8 + 8191 * fieldBytes ⟨6, [], 0⟩ = 65536 ∧
    ∃ s1, wideStruct.getSize = Except.ok (0, s1) ∧
      s1.getOffset 0 = Except.error Err.typeNotPacked ∧
      s1.getFieldSize 0 = Except.error Err.typeNotPacked :=
  ⟨rfl, rfl, getSize_wraps 8191 (by decide) (by norm_num)⟩

/-- C21 (amended): for a struct type as its constructor leaves it (`_size` 0), without
a field of type `VOID` and with 8 plus the sum of the byte sizes of its fields at most
65535, `getSize()` returns that number; afterwards field `i` has the offset 8 plus the
sum of the byte sizes of the fields before it, `getOffset(i)` and `getFieldSize(i)`
return the offset and the size of field `i` for every `i` below the number of fields,
and a second `getSize()` returns the same number and changes nothing. -/
theorem getSize_packs (s : Bytecode.StructType) (h0 : s._size = 0)
    (hv : ∀ f ∈ s.fields, f.typeId ≠ 0) (hb : 8 + fieldsBytes s.fields ≤ 65535) :
    ∃ s1, s.getSize = Except.ok (8 + fieldsBytes s.fields, s1) ∧
      s1.fields.length = s.fields.length ∧
      (∀ (i : Nat) (f : Bytecode.Field), s.fields[i]? = some f →
        s1.fields[i]? = some { f with offset := 8 + fieldsBytes (s.fields.take i) } ∧
        s1.getOffset i = Except.ok (8 + fieldsBytes (s.fields.take i)) ∧
        ∃ size, s1.getFieldSize i = Except.ok size ∧ size.value = fieldBytes f) ∧
      s1.getSize = Except.ok (8 + fieldsBytes s.fields, s1) := by
  obtain ⟨out, hout, hlen, hall⟩ := calculateLoop_spec s.fields 8 hv
  have htot : (if s.fields = [] then 8 else (8 + fieldsBytes s.fields) % 65536) =
      8 + fieldsBytes s.fields := by
    by_cases hn : s.fields = []
    · rw [if_pos hn, hn]
      rfl
    · rw [if_neg hn]
      exact Nat.mod_eq_of_lt (by omega)
  rw [htot] at hout
  have hpos : 8 + fieldsBytes s.fields ≠ 0 := by omega
  refine ⟨{ s with fields := out, _size := 8 + fieldsBytes s.fields }, ?_, hlen, ?_, ?_⟩
  · unfold Bytecode.StructType.getSize Bytecode.StructType.calculateSize
    rw [if_neg (by rw [h0]; exact fun h => h rfl), hout]
  · intro i f hi
    have h1 := hall i f hi
    have hoff : (if i = 0 then 8 else (8 + fieldsBytes (s.fields.take i)) % 65536) =
        8 + fieldsBytes (s.fields.take i) := by
      by_cases hi0 : i = 0
      · rw [if_pos hi0, hi0]
        rfl
      · rw [if_neg hi0]
        have := fieldsBytes_take_le s.fields i
        exact Nat.mod_eq_of_lt (by omega)
    rw [hoff] at h1
    obtain ⟨size, hsize⟩ := getSize_of_typed f (hv f (List.getElem?_mem hi))
    refine ⟨h1, ?_, size, ?_, ?_⟩
    · unfold Bytecode.StructType.getOffset Bytecode.vecGet
      simp only
      rw [if_neg hpos, h1]
    · unfold Bytecode.StructType.getFieldSize Bytecode.vecGet
      simp only
      rw [if_neg hpos, h1]
      exact hsize
    · unfold fieldBytes
      rw [hsize]
  · unfold Bytecode.StructType.getSize
    simp only
    rw [if_pos hpos]

/-- C21 at the struct type with the fields `INT8`, `INT32` and a pointer: the size is
21 and the offsets are 8, 9 and 13. -/
theorem getSize_packs_witness :
    8 + fieldsBytes sampleStruct.fields = 21 ∧
    ∃ s1, sampleStruct.getSize = Except.ok (8 + fieldsBytes sampleStruct.fields, s1) ∧
      s1.fields.length = sampleStruct.fields.length ∧
      (∀ (i : Nat) (f : Bytecode.Field), sampleStruct.fields[i]? = some f →
        s1.fields[i]? =
          some { f with offset := 8 + fieldsBytes (sampleStruct.fields.take i) } ∧
        s1.getOffset i = Except.ok (8 + fieldsBytes (sampleStruct.fields.take i)) ∧
        ∃ size, s1.getFieldSize i = Except.ok size ∧ size.value = fieldBytes f) ∧
      s1.getSize = Except.ok (8 + fieldsBytes sampleStruct.fields, s1) :=
  ⟨by decide, getSize_packs sampleStruct rfl (by decide) (by decide)⟩

/-! ## The exception of `Interval::addRange` -/

/-- C22: `Interval::addRange` raises `InvalidRangeOrderException` exactly when the range
list is non-empty and the `from` of the new range is greater than the `from` of the
first range; the list is then as it was before the call; and the call raises nothing
else. -/
theorem addRange_raises_iff (l : List Lifespan) (n : Lifespan) :
    ((addRangeEffect l n).2 = true ↔ ∃ front rest, l = front :: rest ∧ n.from_ > front.from_) ∧
    ((addRangeEffect l n).2 = true → (addRangeEffect l n).1 = l) ∧
    (addRange l n = none ↔ (addRangeEffect l n).2 = true) ∧
    (∀ r, addRange l n = some r ↔ addRangeEffect l n = (r, false)) ∧
    (∀ (i : Interval) (e : Err), i.lifespans = l → i.addRange n = Except.error e →
      e = Err.invalidRangeOrder ∧ (addRangeEffect l n).2 = true) := by
  cases l with
  | nil =>
    refine ⟨?_, ?_, ?_, ?_, ?_⟩
    · simp [addRangeEffect]
    · simp [addRangeEffect]
    · simp [addRangeEffect, addRange]
    · intro r
      simp [addRangeEffect, addRange, eq_comm]
    · intro i e hi he
      unfold Interval.addRange at he
      rw [hi] at he
      simp [addRange] at he
  | cons front rest =>
    by_cases h : n.from_ > front.from_
    · refine ⟨?_, ?_, ?_, ?_, ?_⟩
      · simp [addRangeEffect, h]
      · simp [addRangeEffect, h]
      · simp [addRangeEffect, addRange, h]
      · intro r
        simp [addRangeEffect, addRange, h]
      · intro i e hi he
        unfold Interval.addRange at he
        rw [hi] at he
        simp only [addRange, if_pos h] at he
        refine ⟨(Except.error.inj he).symm, ?_⟩
        simp [addRangeEffect, h]
    · refine ⟨?_, ?_, ?_, ?_, ?_⟩
      · unfold addRangeEffect
        simp only [if_neg h]
        split <;> simp [h]
      · unfold addRangeEffect
        simp only [if_neg h]
        split <;> simp
      · unfold addRangeEffect addRange
        simp only [if_neg h]
        split <;> simp
      · intro r
        unfold addRangeEffect addRange
        simp only [if_neg h]
        split <;> simp [eq_comm]
      · intro i e hi he
        unfold Interval.addRange at he
        rw [hi] at he
        unfold addRange at he
        simp only [if_neg h] at he
        split at he
        · exact Except.noConfusion he
        · rename_i hq
          split at hq <;> exact Option.noConfusion hq

/-- C22 at the list `[10,12]`: the range `[11,11]` raises and leaves the list, the range
`[5,9]` does not raise. -/
theorem addRange_raises_iff_witness :
    (addRangeEffect [⟨10, 12⟩] ⟨11, 11⟩).2 = true ∧
    (addRangeEffect [⟨10, 12⟩] ⟨11, 11⟩).1 = [⟨10, 12⟩] ∧
    addRange [⟨10, 12⟩] ⟨11, 11⟩ = none ∧
    (addRangeEffect [⟨10, 12⟩] ⟨5, 9⟩).2 = false :=
  have h := addRange_raises_iff [⟨10, 12⟩] ⟨11, 11⟩
  have hr : (addRangeEffect [⟨10, 12⟩] ⟨11, 11⟩).2 = true :=
    h.1.mpr ⟨⟨10, 12⟩, [], rfl, by decide⟩
  ⟨hr, h.2.1 hr, h.2.2.1.mpr hr, by decide⟩

/-! ## CodeHeap: the page bitmap -/

theorem firstClear_spec (bitmap : List Bool) :
    ∀ i, firstClear bitmap = some i ↔
      (bitmap[i]? = some false ∧ ∀ j, j < i → bitmap[j]? = some true) := by
  induction bitmap with
  | nil =>
    intro i
    simp [firstClear]
  | cons bit rest ih =>
    intro i
    cases bit with
    | false =>
      simp only [firstClear, Bool.not_false, if_true, Option.some.injEq]
      constructor
      · intro h
        subst h
        exact ⟨List.getElem?_cons_zero, fun j hj => absurd hj (Nat.not_lt_zero j)⟩
      · intro h
        cases i with
        | zero => rfl
        | succ k =>
          have := h.2 0 (Nat.succ_pos k)
          simp at this
    | true =>
      simp only [firstClear, Bool.not_true, Bool.false_eq_true, if_false]
      cases i with
      | zero =>
        cases hr : firstClear rest <;> simp
      | succ k =>
        have hk := ih k
        cases hr : firstClear rest with
        | none =>
          rw [hr] at hk
          rw [List.getElem?_cons_succ]
          refine ⟨fun h => Option.noConfusion h, ?_⟩
          intro h
          have h2 := hk.mpr ⟨h.1, fun j hj => by
            have := h.2 (j + 1) (Nat.succ_lt_succ hj)
            simpa using this⟩
          exact Option.noConfusion h2
        | some m =>
          rw [hr] at hk
          simp only [Option.some.injEq, List.getElem?_cons_succ]
          constructor
          · intro h
            have hm : m = k := Nat.succ_injective h
            obtain ⟨h1, h2⟩ := hk.mp (congrArg some hm)
            refine ⟨h1, ?_⟩
            intro j hj
            cases j with
            | zero => exact List.getElem?_cons_zero
            | succ j1 =>
              rw [List.getElem?_cons_succ]
              exact h2 j1 (Nat.lt_of_succ_lt_succ hj)
          · intro h
            have h2 := hk.mpr ⟨h.1, fun j hj => by
              have := h.2 (j + 1) (Nat.succ_lt_succ hj)
              simpa using this⟩
            rw [Option.some.inj h2]

theorem pagesFor_one (size : Int) (h1 : 1 ≤ size) (h2 : size ≤ 4096) : pagesFor size = 1 := by
  unfold pagesFor PAGE_SIZE
  rw [Int.tdiv_eq_ediv (by omega) (by decide), Int.tmod_eq_emod (by omega) (by decide)]
  by_cases h : size = 4096
  · subst h
    decide
  · have hd : size / 4096 = 0 := by omega
    have hm : size % 4096 ≠ 0 := by omega
    rw [hd, if_pos hm]
    rfl

theorem pagesFor_many (size : Int) (h : 4096 < size) : 1 < pagesFor size := by
  unfold pagesFor PAGE_SIZE
  rw [Int.tdiv_eq_ediv (by omega) (by decide), Int.tmod_eq_emod (by omega) (by decide)]
  split <;> omega

theorem set_set_false (bitmap : List Bool) (i : Nat) (h : bitmap[i]? = some false) :
    (bitmap.set i true).set i false = bitmap := by
  rw [List.set_set]
  apply List.ext_getElem?
  intro j
  by_cases hj : j = i
  · subst hj
    rw [h]
    have hl : j < bitmap.length := by
      rcases Nat.lt_or_ge j bitmap.length with hl | hl
      · exact hl
      · rw [List.getElem?_eq_none hl] at h
        exact Option.noConfusion h
    simp [hl]
  · rw [List.getElem?_set_ne (Ne.symm hj)]

theorem lt_length_of_clear (bitmap : List Bool) (i : Nat) (h : bitmap[i]? = some false) :
    i < bitmap.length := by
  rcases Nat.lt_or_ge i bitmap.length with hl | hl
  · exact hl
  · rw [List.getElem?_eq_none hl] at h
    exact Option.noConfusion h

/-- C23 (failing input): `allocate(0)` on a heap whose bitmap is `1 0 0` sets bit 1 and
returns a segment of size 0, and the release of that segment clears no bit. In general
`allocate(0)` sets the lowest clear bit whatever the system calls do, and the release
of the segment it returns leaves that bit set. For a size from 1 to `PAGE_SIZE` and
system calls that succeed, `allocate` sets the lowest clear bit and the release of the
segment gives the bitmap of before; a size above `PAGE_SIZE` raises `std::logic_error`
and leaves the bitmap. -/
theorem allocate_zero_keeps_bit :
    (CodeHeap.allocate PageSystem.reliable [true, false, false] 0 =
        ([true, true, false], Except.ok ⟨1, 0⟩) ∧
      CodeSegment.release [true, true, false] ⟨1, 0⟩ = Except.ok [true, true, false]) ∧
    (∀ (sys : PageSystem) (bitmap : List Bool) (i : Nat), firstClear bitmap = some i →
      (CodeHeap.allocate sys bitmap 0).1 = bitmap.set i true ∧
      (bitmap.set i true)[i]? = some true ∧
      ∀ segment, (CodeHeap.allocate sys bitmap 0).2 = Except.ok segment →
        segment.release (bitmap.set i true) = Except.ok (bitmap.set i true)) ∧
    (∀ (sys : PageSystem) (bitmap : List Bool) (size : Int) (i : Nat), 1 ≤ size →
      size ≤ PAGE_SIZE → firstClear bitmap = some i → sys.commit i PAGE_SIZE = true →
      sys.protect i PAGE_SIZE = true →
      CodeHeap.allocate sys bitmap size = (bitmap.set i true, Except.ok ⟨i, PAGE_SIZE⟩) ∧
      CodeSegment.release (bitmap.set i true) ⟨i, PAGE_SIZE⟩ = Except.ok bitmap) ∧
    (∀ (sys : PageSystem) (bitmap : List Bool) (size : Int), PAGE_SIZE < size →
      CodeHeap.allocate sys bitmap size = (bitmap, Except.error Err.logicError)) := by
  refine ⟨⟨by rfl, by rfl⟩, ?_, ?_, ?_⟩
  · intro sys bitmap i h
    have hc := (firstClear_spec bitmap i).mp h
    have hl := lt_length_of_clear bitmap i hc.1
    have h0 : pagesFor 0 = 0 := by decide
    refine ⟨?_, by simp [hl], ?_⟩
    · unfold CodeHeap.allocate
      simp only [h0, h]
      rw [if_neg (by decide)]
      split
      · rfl
      · split <;> rfl
    · intro segment hs
      unfold CodeHeap.allocate at hs
      simp only [h0, h] at hs
      rw [if_neg (by decide)] at hs
      split at hs
      · exact Except.noConfusion hs
      · split at hs
        · exact Except.noConfusion hs
        · have hseg := Except.ok.inj hs
          subst hseg
          rfl
  · intro sys bitmap size i h1 h2 h hcommit hprotect
    have hc := (firstClear_spec bitmap i).mp h
    have hl := lt_length_of_clear bitmap i hc.1
    have hp : pagesFor size = 1 := pagesFor_one size h1 h2
    have hp1 : pagesFor PAGE_SIZE = 1 := by decide
    have hm : (1 : Int) * PAGE_SIZE = PAGE_SIZE := Int.one_mul _
    refine ⟨?_, ?_⟩
    · unfold CodeHeap.allocate
      simp only [hp, h, hm, hcommit, hprotect]
      rfl
    · unfold CodeSegment.release CodeHeap.deallocate
      simp only [hp1]
      show clearLoop 1 (bitmap.set i true) i = Except.ok bitmap
      unfold clearLoop
      rw [if_pos (by rw [List.length_set]; exact hl)]
      unfold clearLoop
      rw [set_set_false bitmap i hc.1]
  · intro sys bitmap size h
    have hp := pagesFor_many size h
    unfold CodeHeap.allocate
    simp only
    rw [if_pos hp]

/-! ## The order of operands -/

theorem memOp_lt_iff (a b : MemOp) : MemOp.lt a b = true ↔ MemOp.lexLt a b := by
  obtain ⟨b1, i1, s1, o1⟩ := a
  obtain ⟨b2, i2, s2, o2⟩ := b
  have hb : (b1 : Nat) < b2 ∨ (b1 : Nat) = b2 ∨ (b2 : Nat) < b1 := Nat.lt_trichotomy b1 b2
  have hi : (i1 : Nat) < i2 ∨ (i1 : Nat) = i2 ∨ (i2 : Nat) < i1 := Nat.lt_trichotomy i1 i2
  have hs : s1 < s2 ∨ s1 = s2 ∨ s2 < s1 := Nat.lt_trichotomy s1 s2
  rcases hb with h1 | h1 | h1 <;> rcases hi with h2 | h2 | h2 <;>
    rcases hs with h3 | h3 | h3 <;>
    simp [MemOp.lt, MemOp.lexLt, h1, h2, h3] <;> omega

theorem memOp_eq_iff (a b : MemOp) : MemOp.eq a b = true ↔ a = b := by
  obtain ⟨b1, i1, s1, o1⟩ := a
  obtain ⟨b2, i2, s2, o2⟩ := b
  simp [MemOp.eq, and_assoc]

theorem memOp_trichotomy (a b : MemOp) :
    (MemOp.lexLt a b ∧ a ≠ b ∧ ¬ MemOp.lexLt b a) ∨ (¬ MemOp.lexLt a b ∧ a = b ∧ ¬ MemOp.lexLt b a) ∨
      (¬ MemOp.lexLt a b ∧ a ≠ b ∧ MemOp.lexLt b a) := by
  obtain ⟨b1, i1, s1, o1⟩ := a
  obtain ⟨b2, i2, s2, o2⟩ := b
  simp only [MemOp.lexLt, ne_eq, MemOp.mk.injEq]
  omega

theorem memOp_lexLt_trans (a b c : MemOp) (h1 : MemOp.lexLt a b) (h2 : MemOp.lexLt b c) :
    MemOp.lexLt a c := by
  obtain ⟨b1, i1, s1, o1⟩ := a
  obtain ⟨b2, i2, s2, o2⟩ := b
  obtain ⟨b3, i3, s3, o3⟩ := c
  simp only [MemOp.lexLt] at h1 h2 ⊢
  omega

theorem regMemOp_eq_iff (a b : RegMemOp) : RegMemOp.eq a b = true ↔ a = b := by
  cases a <;> cases b <;> simp [RegMemOp.eq, memOp_eq_iff]

theorem regMemOp_trichotomy (a b : RegMemOp) :
    (RegMemOp.lt a b = true ∧ RegMemOp.eq a b = false ∧ RegMemOp.lt b a = false) ∨
    (RegMemOp.lt a b = false ∧ RegMemOp.eq a b = true ∧ RegMemOp.lt b a = false) ∨
    (RegMemOp.lt a b = false ∧ RegMemOp.eq a b = false ∧ RegMemOp.lt b a = true) := by
  cases a with
  | reg x =>
    cases b with
    | reg y => simp [RegMemOp.lt, RegMemOp.eq]; omega
    | xmm y => simp [RegMemOp.lt, RegMemOp.eq]
    | mem y => simp [RegMemOp.lt, RegMemOp.eq]
  | xmm x =>
    cases b with
    | reg y => simp [RegMemOp.lt, RegMemOp.eq]
    | xmm y => simp [RegMemOp.lt, RegMemOp.eq]; omega
    | mem y => simp [RegMemOp.lt, RegMemOp.eq]
  | mem x =>
    cases b with
    | reg y => simp [RegMemOp.lt, RegMemOp.eq]
    | xmm y => simp [RegMemOp.lt, RegMemOp.eq]
    | mem y =>
      have h := memOp_trichotomy x y
      have h1 := memOp_lt_iff x y
      have h2 := memOp_lt_iff y x
      have h3 := memOp_eq_iff x y
      simp only [RegMemOp.lt, RegMemOp.eq]
      cases hl : MemOp.lt x y <;> cases he : MemOp.eq x y <;> cases hg : MemOp.lt y x <;>
        simp_all

theorem regMemOp_lt_trans (a b c : RegMemOp) (h1 : RegMemOp.lt a b = true)
    (h2 : RegMemOp.lt b c = true) : RegMemOp.lt a c = true := by
  cases a <;> cases b <;> cases c <;>
    simp_all [RegMemOp.lt]
  · omega
  · omega
  · rename_i x y z
    exact (memOp_lt_iff x z).mpr
      (memOp_lexLt_trans x y z ((memOp_lt_iff x y).mp h1) ((memOp_lt_iff y z).mp h2))

/-- C24: `operator<` of `RegMemOp` is a strict total order that agrees with
`operator==`: of `a < b`, `a == b`, `b < a` exactly one holds, `<` is transitive, and
`==` holds for equal operands only; every general register is below every XMM register,
which is below every memory operand; registers order by their number and memory
operands lexicographically by `(base, index, scale, offset)`. -/
theorem regMemOp_lt_total_order :
    (∀ a b : RegMemOp,
      (RegMemOp.lt a b = true ∧ RegMemOp.eq a b = false ∧ RegMemOp.lt b a = false) ∨
      (RegMemOp.lt a b = false ∧ RegMemOp.eq a b = true ∧ RegMemOp.lt b a = false) ∨
      (RegMemOp.lt a b = false ∧ RegMemOp.eq a b = false ∧ RegMemOp.lt b a = true)) ∧
    (∀ a b c : RegMemOp, RegMemOp.lt a b = true → RegMemOp.lt b c = true →
      RegMemOp.lt a c = true) ∧
    (∀ a b : RegMemOp, RegMemOp.eq a b = true ↔ a = b) ∧
    (∀ (r x : Nat) (m : MemOp), RegMemOp.lt (RegMemOp.reg r) (RegMemOp.xmm x) = true ∧
      RegMemOp.lt (RegMemOp.xmm x) (RegMemOp.mem m) = true ∧
      RegMemOp.lt (RegMemOp.reg r) (RegMemOp.mem m) = true) ∧
    (∀ r s : Nat, RegMemOp.lt (RegMemOp.reg r) (RegMemOp.reg s) = true ↔ r < s) ∧
    (∀ x y : Nat, RegMemOp.lt (RegMemOp.xmm x) (RegMemOp.xmm y) = true ↔ x < y) ∧
    (∀ m n : MemOp, RegMemOp.lt (RegMemOp.mem m) (RegMemOp.mem n) = true ↔ MemOp.lexLt m n) := by
  refine ⟨regMemOp_trichotomy, regMemOp_lt_trans, regMemOp_eq_iff, ?_, ?_, ?_, ?_⟩
  · intro r x m
    exact ⟨rfl, rfl, rfl⟩
  · intro r s
    simp [RegMemOp.lt]
  · intro x y
    simp [RegMemOp.lt]
  · intro m n
    exact memOp_lt_iff m n

/-! ## `LIRCompiler::buildCall`: the cleared registers -/

theorem keeps_refl (st : LirState) : st.Keeps st := fun _ _ _ h => h

theorem keeps_trans {a b c : LirState} (h1 : a.Keeps b) (h2 : b.Keeps c) : a.Keeps c :=
  fun bank key v h => h2 bank key v (h1 bank key v h)

theorem look_use (st : LirState) (vr id : Nat) (m : Bool) (bank : Bank) (key : Nat) :
    (st.use vr id m).look bank key = st.look bank key := by
  cases bank <;> rfl

theorem nextVR_use (st : LirState) (vr id : Nat) (m : Bool) :
    (st.use vr id m).nextVR = st.nextVR := rfl

theorem sound_use (st : LirState) (vr id : Nat) (m : Bool) (h : st.Sound) :
    (st.use vr id m).Sound := by
  refine ⟨?_, ?_⟩
  · intro bank key v hv
    rw [look_use] at hv
    exact h.1 bank key v hv
  · intro bank key bank1 key1 v h1 h2
    rw [look_use] at h1 h2
    exact h.2 bank key bank1 key1 v h1 h2

theorem keeps_use (st : LirState) (vr id : Nat) (m : Bool) : st.Keeps (st.use vr id m) := by
  intro bank key v h
  rw [look_use]
  exact h

theorem vrForFixed_keeps (st : LirState) (reg : Nat) :
    st.Keeps (st.vrForFixed reg).1 ∧ (st.vrForFixed reg).1.look Bank.fixed reg =
      some (st.vrForFixed reg).2 := by
  unfold LirState.vrForFixed
  cases hf : omFind natLt reg st.fixedToVR with
  | some v => exact ⟨keeps_refl st, hf⟩
  | none =>
    refine ⟨?_, ?_⟩
    · intro bank key v hv
      cases bank with
      | fixed =>
        simp only [LirState.look] at hv ⊢
        rw [omFind_omInsert natLt_keyEquiv_iff _ _ _ _ hf]
        by_cases hk : key = reg
        · subst hk
          rw [hf] at hv
          exact Option.noConfusion hv
        · rw [if_neg hk]
          exact hv
      | xmm => exact hv
      | stack => exact hv
    · simp only [LirState.look]
      rw [omFind_omInsert natLt_keyEquiv_iff _ _ _ _ hf, if_pos rfl]

theorem vrForFixedXMM_keeps (st : LirState) (reg : Nat) :
    st.Keeps (st.vrForFixedXMM reg).1 ∧ (st.vrForFixedXMM reg).1.look Bank.xmm reg =
      some (st.vrForFixedXMM reg).2 := by
  unfold LirState.vrForFixedXMM
  cases hf : omFind natLt reg st.fixedXMMToVR with
  | some v => exact ⟨keeps_refl st, hf⟩
  | none =>
    refine ⟨?_, ?_⟩
    · intro bank key v hv
      cases bank with
      | xmm =>
        simp only [LirState.look] at hv ⊢
        rw [omFind_omInsert natLt_keyEquiv_iff _ _ _ _ hf]
        by_cases hk : key = reg
        · subst hk
          rw [hf] at hv
          exact Option.noConfusion hv
        · rw [if_neg hk]
          exact hv
      | fixed => exact hv
      | stack => exact hv
    · simp only [LirState.look]
      rw [omFind_omInsert natLt_keyEquiv_iff _ _ _ _ hf, if_pos rfl]

theorem vrForStackArgument_keeps (st : LirState) (count : Nat) (type : BType) :
    st.Keeps (st.vrForStackArgument count type).1 ∧
      (st.vrForStackArgument count type).1.look Bank.stack count =
        some (st.vrForStackArgument count type).2 := by
  unfold LirState.vrForStackArgument
  cases hf : omFind natLt count st.overflowArgToVR with
  | some v => exact ⟨keeps_refl st, hf⟩
  | none =>
    refine ⟨?_, ?_⟩
    · intro bank key v hv
      cases bank with
      | stack =>
        simp only [LirState.look] at hv ⊢
        rw [omFind_omInsert natLt_keyEquiv_iff _ _ _ _ hf]
        by_cases hk : key = count
        · subst hk
          rw [hf] at hv
          exact Option.noConfusion hv
        · rw [if_neg hk]
          exact hv
      | fixed => exact hv
      | xmm => exact hv
    · simp only [LirState.look]
      rw [omFind_omInsert natLt_keyEquiv_iff _ _ _ _ hf, if_pos rfl]

theorem sound_insert (st st1 : LirState) (b0 : Bank) (k0 : Nat) (hs : st.Sound)
    (hnext : st1.nextVR = st.nextVR + 1)
    (hlook : ∀ bank key, st1.look bank key =
      if bank = b0 ∧ key = k0 then some st.nextVR else st.look bank key) : st1.Sound := by
  refine ⟨?_, ?_⟩
  · intro bank key v hv
    rw [hlook] at hv
    rw [hnext]
    split at hv
    · have := Option.some.inj hv
      omega
    · have := hs.1 bank key v hv
      omega
  · intro bank key bank1 key1 v h1 h2
    rw [hlook] at h1 h2
    split at h1
    · rename_i c1
      split at h2
      · rename_i c2
        exact ⟨c1.1.trans c2.1.symm, c1.2.trans c2.2.symm⟩
      · have e1 := Option.some.inj h1
        have := hs.1 bank1 key1 v h2
        omega
    · split at h2
      · have e2 := Option.some.inj h2
        have := hs.1 bank key v h1
        omega
      · exact hs.2 bank key bank1 key1 v h1 h2

theorem vrForFixed_sound (st : LirState) (reg : Nat) (hs : st.Sound)
    (hb : st.nextVR + 1 < 65536) :
    (st.vrForFixed reg).1.Sound ∧ (st.vrForFixed reg).1.nextVR ≤ st.nextVR + 1 := by
  unfold LirState.vrForFixed
  cases hf : omFind natLt reg st.fixedToVR with
  | some v => exact ⟨hs, Nat.le_succ _⟩
  | none =>
    have hm : (st.nextVR + 1) % 65536 = st.nextVR + 1 := Nat.mod_eq_of_lt hb
    refine ⟨sound_insert st _ Bank.fixed reg hs hm ?_, Nat.le_of_eq hm⟩
    intro bank key
    cases bank with
    | fixed =>
      simp only [LirState.look, true_and]
      rw [omFind_omInsert natLt_keyEquiv_iff _ _ _ _ hf]
    | xmm => simp [LirState.look]
    | stack => simp [LirState.look]

theorem vrForFixedXMM_sound (st : LirState) (reg : Nat) (hs : st.Sound)
    (hb : st.nextVR + 1 < 65536) :
    (st.vrForFixedXMM reg).1.Sound ∧ (st.vrForFixedXMM reg).1.nextVR ≤ st.nextVR + 1 := by
  unfold LirState.vrForFixedXMM
  cases hf : omFind natLt reg st.fixedXMMToVR with
  | some v => exact ⟨hs, Nat.le_succ _⟩
  | none =>
    have hm : (st.nextVR + 1) % 65536 = st.nextVR + 1 := Nat.mod_eq_of_lt hb
    refine ⟨sound_insert st _ Bank.xmm reg hs hm ?_, Nat.le_of_eq hm⟩
    intro bank key
    cases bank with
    | xmm =>
      simp only [LirState.look, true_and]
      rw [omFind_omInsert natLt_keyEquiv_iff _ _ _ _ hf]
    | fixed => simp [LirState.look]
    | stack => simp [LirState.look]

theorem vrForStackArgument_sound (st : LirState) (count : Nat) (type : BType) (hs : st.Sound)
    (hb : st.nextVR + 1 < 65536) :
    (st.vrForStackArgument count type).1.Sound ∧
      (st.vrForStackArgument count type).1.nextVR ≤ st.nextVR + 1 := by
  unfold LirState.vrForStackArgument
  cases hf : omFind natLt count st.overflowArgToVR with
  | some v => exact ⟨hs, Nat.le_succ _⟩
  | none =>
    have hm : (st.nextVR + 1) % 65536 = st.nextVR + 1 := Nat.mod_eq_of_lt hb
    refine ⟨sound_insert st _ Bank.stack count hs hm ?_, Nat.le_of_eq hm⟩
    intro bank key
    cases bank with
    | stack =>
      simp only [LirState.look, true_and]
      rw [omFind_omInsert natLt_keyEquiv_iff _ _ _ _ hf]
    | fixed => simp [LirState.look]
    | xmm => simp [LirState.look]

theorem fill_spec (alloc : LirState → Nat → LirState × Nat) (bank : Bank)
    (hk : ∀ st reg, st.Keeps (alloc st reg).1 ∧
      (alloc st reg).1.look bank reg = some (alloc st reg).2)
    (hsnd : ∀ st reg, st.Sound → st.nextVR + 1 < 65536 →
      (alloc st reg).1.Sound ∧ (alloc st reg).1.nextVR ≤ st.nextVR + 1)
    (regs : List Nat) :
    ∀ (st : LirState) (acc : List Nat), st.Sound → st.nextVR + regs.length < 65536 →
      (regs.foldl (fun (s : LirState × List Nat) reg =>
          ((alloc s.1 reg).1, s.2 ++ [(alloc s.1 reg).2])) (st, acc)).1.Sound ∧
        st.Keeps (regs.foldl (fun (s : LirState × List Nat) reg =>
          ((alloc s.1 reg).1, s.2 ++ [(alloc s.1 reg).2])) (st, acc)).1 ∧
        (regs.foldl (fun (s : LirState × List Nat) reg =>
          ((alloc s.1 reg).1, s.2 ++ [(alloc s.1 reg).2])) (st, acc)).1.nextVR ≤
            st.nextVR + regs.length ∧
        (∀ reg ∈ regs, ∃ v, (regs.foldl (fun (s : LirState × List Nat) reg =>
          ((alloc s.1 reg).1, s.2 ++ [(alloc s.1 reg).2])) (st, acc)).1.look bank reg = some v) ∧
        (regs.foldl (fun (s : LirState × List Nat) reg =>
          ((alloc s.1 reg).1, s.2 ++ [(alloc s.1 reg).2])) (st, acc)).2 =
          acc ++ regs.map (fun reg => ((regs.foldl (fun (s : LirState × List Nat) reg =>
            ((alloc s.1 reg).1, s.2 ++ [(alloc s.1 reg).2])) (st, acc)).1.look bank reg).getD 0) := by
  induction regs with
  | nil =>
    intro st acc hs _
    refine ⟨hs, keeps_refl st, Nat.le_refl _, ?_, ?_⟩
    · intro reg hr
      simp at hr
    · simp
  | cons reg rest ih =>
    intro st acc hs hb
    simp only [List.length_cons] at hb
    obtain ⟨hs1, hn1⟩ := hsnd st reg hs (by omega)
    obtain ⟨hk1, hl1⟩ := hk st reg
    obtain ⟨i1, i2, i3, i4, i5⟩ := ih (alloc st reg).1 (acc ++ [(alloc st reg).2]) hs1 (by omega)
    simp only [List.foldl_cons]
    refine ⟨i1, keeps_trans hk1 i2, ?_, ?_, ?_⟩
    · simp only [List.length_cons]
      omega
    · intro r hr
      rcases List.mem_cons.mp hr with e | e
      · subst e
        exact ⟨_, i2 bank r _ hl1⟩
      · exact i4 r e
    · rw [i5, List.map_cons, i2 bank reg _ hl1]
      simp

theorem fillClear_spec (arch : CallArch) (st : LirState) (hs : st.Sound)
    (hb : st.nextVR + arch.callerSaved.length + arch.callerSavedFloat.length < 65536)
    (hcs : arch.callerSaved.Nodup) (hcsf : arch.callerSavedFloat.Nodup) :
    (fillClear arch st).1.Sound ∧ st.Keeps (fillClear arch st).1 ∧
      (fillClear arch st).1.nextVR ≤
        st.nextVR + arch.callerSaved.length + arch.callerSavedFloat.length ∧
      (fillClear arch st).2.Nodup ∧
      (∀ v, v ∈ (fillClear arch st).2 ↔
        (∃ reg ∈ arch.callerSaved, (fillClear arch st).1.look Bank.fixed reg = some v) ∨
        (∃ reg ∈ arch.callerSavedFloat, (fillClear arch st).1.look Bank.xmm reg = some v)) ∧
      (∀ reg ∈ arch.callerSaved, ∃ v, (fillClear arch st).1.look Bank.fixed reg = some v) ∧
      (∀ reg ∈ arch.callerSavedFloat, ∃ v,
        (fillClear arch st).1.look Bank.xmm reg = some v) := by
  have hfill : fillClear arch st = arch.callerSavedFloat.foldl
      (fun (s : LirState × List Nat) reg =>
        ((s.1.vrForFixedXMM reg).1, s.2 ++ [(s.1.vrForFixedXMM reg).2]))
      (arch.callerSaved.foldl (fun (s : LirState × List Nat) reg =>
        ((s.1.vrForFixed reg).1, s.2 ++ [(s.1.vrForFixed reg).2])) (st, [])) := rfl
  have A := fill_spec LirState.vrForFixed Bank.fixed vrForFixed_keeps
    vrForFixed_sound arch.callerSaved st [] hs (by omega)
  obtain ⟨r1, hr1⟩ : ∃ r1, arch.callerSaved.foldl (fun (s : LirState × List Nat) reg =>
    ((s.1.vrForFixed reg).1, s.2 ++ [(s.1.vrForFixed reg).2])) (st, []) = r1 := ⟨_, rfl⟩
  rw [hr1] at A hfill
  obtain ⟨a1, a2, a3, a4, a5⟩ := A
  have B := fill_spec LirState.vrForFixedXMM Bank.xmm vrForFixedXMM_keeps
    vrForFixedXMM_sound arch.callerSavedFloat r1.1 r1.2 a1 (by omega)
  obtain ⟨r2, hr2⟩ : ∃ r2, arch.callerSavedFloat.foldl (fun (s : LirState × List Nat) reg =>
    ((s.1.vrForFixedXMM reg).1, s.2 ++ [(s.1.vrForFixedXMM reg).2])) r1 = r2 := ⟨_, rfl⟩
  rw [hr2] at B hfill
  obtain ⟨b1, b2, b3, b4, b5⟩ := B
  rw [hfill]
  have hfix : ∀ reg ∈ arch.callerSaved, ∃ v, r2.1.look Bank.fixed reg = some v ∧
      (r1.1.look Bank.fixed reg).getD 0 = v := by
    intro reg hr
    obtain ⟨v, hv⟩ := a4 reg hr
    exact ⟨v, b2 _ _ _ hv, by rw [hv]; rfl⟩
  have hmem : ∀ v, v ∈ r2.2 ↔
      (∃ reg ∈ arch.callerSaved, r2.1.look Bank.fixed reg = some v) ∨
      (∃ reg ∈ arch.callerSavedFloat, r2.1.look Bank.xmm reg = some v) := by
    intro v
    rw [b5, a5, List.nil_append, List.mem_append, List.mem_map, List.mem_map]
    constructor
    · rintro (⟨reg, hr, e⟩ | ⟨reg, hr, e⟩)
      · obtain ⟨w, hw, hw1⟩ := hfix reg hr
        left
        exact ⟨reg, hr, by rw [hw, ← e, hw1]⟩
      · obtain ⟨w, hw⟩ := b4 reg hr
        right
        refine ⟨reg, hr, ?_⟩
        rw [hw] at e ⊢
        exact congrArg some e
    · rintro (⟨reg, hr, e⟩ | ⟨reg, hr, e⟩)
      · obtain ⟨w, hw, hw1⟩ := hfix reg hr
        left
        refine ⟨reg, hr, ?_⟩
        rw [hw1]
        rw [hw] at e
        exact Option.some.inj e
      · right
        refine ⟨reg, hr, ?_⟩
        rw [e]
        rfl
  refine ⟨b1, keeps_trans a2 b2, by omega, ?_, hmem,
    fun reg hr => (hfix reg hr).imp (fun _ hv => hv.1), b4⟩
  rw [b5, a5, List.nil_append]
  refine List.Nodup.append ?_ ?_ ?_
  · refine List.Nodup.map_on ?_ hcs
    intro x hx y hy e
    obtain ⟨v, hv, hv1⟩ := hfix x hx
    obtain ⟨w, hw, hw1⟩ := hfix y hy
    rw [hv1, hw1] at e
    subst e
    exact (b1.2 _ _ _ _ _ hv hw).2
  · refine List.Nodup.map_on ?_ hcsf
    intro x hx y hy e
    obtain ⟨v, hv⟩ := b4 x hx
    obtain ⟨w, hw⟩ := b4 y hy
    rw [hv, hw] at e
    have e1 : v = w := e
    subst e1
    exact (b1.2 _ _ _ _ _ hv hw).2
  · intro v h1 h2
    obtain ⟨x, hx, e1⟩ := List.mem_map.mp h1
    obtain ⟨y, hy, e2⟩ := List.mem_map.mp h2
    obtain ⟨v1, hv, hv1⟩ := hfix x hx
    obtain ⟨w, hw⟩ := b4 y hy
    rw [hv1] at e1
    rw [hw] at e2
    have e3 : w = v := e2
    subst e1
    subst e3
    have := (b1.2 _ _ _ _ _ hv hw).1
    exact Bank.noConfusion this

theorem eraseFound_ok (l : List Nat) (v : Nat) (r : List Nat)
    (h : eraseFound l v = Except.ok r) : v ∈ l ∧ r = l.erase v := by
  unfold eraseFound at h
  split at h
  · rename_i hm
    exact ⟨hm, (Except.ok.inj h).symm⟩
  · exact Except.noConfusion h

theorem tracks_erase (filled extra : List Nat) (c : CallBuild) (st1 : LirState) (d : Nat)
    (clear : List Nat) (ht : c.Tracks filled extra) (hs : st1.Sound) (hk : c.st.Keeps st1)
    (he : eraseFound c.clearRegisters d = Except.ok clear) (c1 : CallBuild)
    (h1 : c1.st = st1) (h2 : c1.clearRegisters = clear)
    (h3 : c1.arguments = c.arguments ++ [d]) : c1.Tracks filled extra := by
  obtain ⟨_, t2, t3, t4⟩ := ht
  obtain ⟨hd, hc⟩ := eraseFound_ok _ _ _ he
  refine ⟨by rw [h1]; exact hs, by rw [h2, hc]; exact t2.erase d, ?_, ?_⟩
  · intro v hv
    obtain ⟨bank, key, hb, hl⟩ := t3 v hv
    exact ⟨bank, key, hb, by rw [h1]; exact hk bank key v hl⟩
  · intro v
    rw [h2, hc, t2.mem_erase_iff, t4, h3, List.mem_append, List.mem_singleton]
    tauto

theorem tracks_stack (filled extra : List Nat) (c : CallBuild) (st1 : LirState) (d key : Nat)
    (ht : c.Tracks filled extra) (hs : st1.Sound) (hk : c.st.Keeps st1)
    (hd : st1.look Bank.stack key = some d) (c1 : CallBuild)
    (h1 : c1.st = st1) (h2 : c1.clearRegisters = c.clearRegisters)
    (h3 : c1.arguments = c.arguments ++ [d]) : c1.Tracks filled extra := by
  obtain ⟨_, t2, t3, t4⟩ := ht
  refine ⟨by rw [h1]; exact hs, by rw [h2]; exact t2, ?_, ?_⟩
  · intro v hv
    obtain ⟨bank, k, hb, hl⟩ := t3 v hv
    exact ⟨bank, k, hb, by rw [h1]; exact hk bank k v hl⟩
  · intro v
    rw [h2, t4, h3, List.mem_append, List.mem_singleton]
    constructor
    · rintro ⟨a1, a2, a3⟩
      refine ⟨a1, ?_, a3⟩
      rintro (e | e)
      · exact a2 e
      · subst e
        obtain ⟨bank, k, hb, hl⟩ := t3 v a1
        exact hb (hs.2 _ _ _ _ _ (hk bank k v hl) hd).1
    · rintro ⟨a1, a2, a3⟩
      exact ⟨a1, fun e => a2 (Or.inl e), a3⟩

theorem passArgument_tracks (filled extra : List Nat) (c c1 : CallBuild) (arg : Nat)
    (h : passArgument c arg = Except.ok c1) (ht : c.Tracks filled extra)
    (hb : c.st.nextVR + 1 < 65536) :
    c1.Tracks filled extra ∧ c.st.Keeps c1.st ∧ c1.st.nextVR ≤ c.st.nextVR + 1 ∧
      ∃ m, c1.lirs = c.lirs ++ [m] ∧ m.operation = Operation.MOV := by
  unfold passArgument at h
  split at h
  · exact Except.noConfusion h
  · rename_i type _
    split at h
    · rename_i reg rest _ _
      simp only at h
      split at h
      · exact Except.noConfusion h
      · split at h
        · exact Except.noConfusion h
        · rename_i srcType _ clear he
          have hc := (Except.ok.inj h).symm
          obtain ⟨s1, s2⟩ := vrForFixedXMM_sound c.st reg ht.1 hb
          have hk := (vrForFixedXMM_keeps c.st reg).1
          refine ⟨tracks_erase filled extra c _ _ clear ht
              (sound_use _ _ _ _ (sound_use _ _ _ _ s1))
              (keeps_trans hk (keeps_trans (keeps_use _ _ _ _) (keeps_use _ _ _ _))) he c1
              (by rw [hc]) (by rw [hc]) (by rw [hc]), ?_, ?_, ?_⟩
          · rw [hc]
            exact keeps_trans hk (keeps_trans (keeps_use _ _ _ _) (keeps_use _ _ _ _))
          · rw [hc]
            exact s2
          · exact ⟨_, by rw [hc], rfl⟩
    · rename_i reg rest _ _ _
      simp only at h
      split at h
      · exact Except.noConfusion h
      · split at h
        · exact Except.noConfusion h
        · rename_i srcType _ clear he
          have hc := (Except.ok.inj h).symm
          obtain ⟨s1, s2⟩ := vrForFixed_sound c.st reg ht.1 hb
          have hk := (vrForFixed_keeps c.st reg).1
          refine ⟨tracks_erase filled extra c _ _ clear ht
              (sound_use _ _ _ _ (sound_use _ _ _ _ s1))
              (keeps_trans hk (keeps_trans (keeps_use _ _ _ _) (keeps_use _ _ _ _))) he c1
              (by rw [hc]) (by rw [hc]) (by rw [hc]), ?_, ?_, ?_⟩
          · rw [hc]
            exact keeps_trans hk (keeps_trans (keeps_use _ _ _ _) (keeps_use _ _ _ _))
          · rw [hc]
            exact s2
          · exact ⟨_, by rw [hc], rfl⟩
    · simp only at h
      have hc := (Except.ok.inj h).symm
      obtain ⟨s1, s2⟩ := vrForStackArgument_sound c.st c.overflowArgument type ht.1 hb
      obtain ⟨hk, hl⟩ := vrForStackArgument_keeps c.st c.overflowArgument type
      have hS : (((c.st.vrForStackArgument c.overflowArgument type).1.use
          (c.st.vrForStackArgument c.overflowArgument type).2 ((c.id + 1) % 65536) false).use
            arg ((c.id + 1) % 65536) true).Sound := sound_use _ _ _ _ (sound_use _ _ _ _ s1)
      have hK : c.st.Keeps (((c.st.vrForStackArgument c.overflowArgument type).1.use
          (c.st.vrForStackArgument c.overflowArgument type).2 ((c.id + 1) % 65536) false).use
            arg ((c.id + 1) % 65536) true) :=
        keeps_trans hk (keeps_trans (keeps_use _ _ _ _) (keeps_use _ _ _ _))
      have hL : (((c.st.vrForStackArgument c.overflowArgument type).1.use
          (c.st.vrForStackArgument c.overflowArgument type).2 ((c.id + 1) % 65536) false).use
            arg ((c.id + 1) % 65536) true).look Bank.stack c.overflowArgument =
          some (c.st.vrForStackArgument c.overflowArgument type).2 := by
        rw [look_use, look_use]
        exact hl
      refine ⟨tracks_stack filled extra c _ _ c.overflowArgument ht hS hK hL c1
          (by rw [hc]) (by rw [hc]) (by rw [hc]), ?_, ?_, ?_⟩
      · rw [hc]
        exact hK
      · rw [hc]
        exact s2
      · exact ⟨_, by rw [hc], rfl⟩

theorem passArguments_tracks (filled extra : List Nat) (args : List Nat) :
    ∀ (c c2 : CallBuild), loopE passArgument c args = Except.ok c2 → c.Tracks filled extra →
      c.st.nextVR + args.length < 65536 →
      c2.Tracks filled extra ∧ c.st.Keeps c2.st ∧
        ∃ moves, c2.lirs = c.lirs ++ moves ∧ ∀ m ∈ moves, m.operation = Operation.MOV := by
  induction args with
  | nil =>
    intro c c2 h ht _
    simp only [loopE, Except.ok.injEq] at h
    subst h
    exact ⟨ht, keeps_refl _, [], by simp, by simp⟩
  | cons arg rest ih =>
    intro c c2 h ht hb
    simp only [List.length_cons] at hb
    unfold loopE at h
    split at h
    · rename_i c1 h1
      obtain ⟨t1, k1, n1, m, hm, hop⟩ := passArgument_tracks filled extra c c1 arg h1 ht (by omega)
      obtain ⟨t2, k2, moves, hmoves, hall⟩ := ih c1 c2 h t1 (by omega)
      refine ⟨t2, keeps_trans k1 k2, m :: moves, ?_, ?_⟩
      · rw [hmoves, hm, List.append_assoc]
        rfl
      · intro x hx
        rcases List.mem_cons.mp hx with e | e
        · rw [e]
          exact hop
        · exact hall x e
    · exact Except.noConfusion h

theorem vrForTemporary_look (st st1 : LirState) (types : List BType) (t v : Nat)
    (h : st.vrForTemporary types t = Except.ok (st1, v)) :
    ∀ bank key, st1.look bank key = st.look bank key := by
  unfold LirState.vrForTemporary at h
  simp only at h
  split at h
  · exact Except.noConfusion h
  · rename_i s1 hfirst
    have hs1 : ∀ bank key, s1.look bank key = st.look bank key := by
      split at hfirst
      · have e := Except.ok.inj hfirst
        subst e
        intro bank key
        rfl
      · split at hfirst
        · exact Except.noConfusion hfirst
        · have e := Except.ok.inj hfirst
          subst e
          intro bank key
          cases bank <;> rfl
    split at h
    · exact Except.noConfusion h
    · split at h
      · split at h
        · exact Except.noConfusion h
        · have e := Except.ok.inj h
          simp only [Prod.mk.injEq] at e
          obtain ⟨e1, _⟩ := e
          subst e1
          intro bank key
          rw [← hs1 bank key]
          cases bank <;> rfl
      · have e := Except.ok.inj h
        simp only [Prod.mk.injEq] at e
        obtain ⟨e1, _⟩ := e
        subst e1
        exact hs1

theorem returnRegister_keeps (st st1 : LirState) (types : List BType) (t a b : Nat)
    (h : returnRegister st types t = Except.ok (st1, a, b)) : st.Keeps st1 := by
  unfold returnRegister at h
  split at h
  · exact Except.noConfusion h
  · rename_i s1 dstVr ht
    have hl := vrForTemporary_look st s1 types t dstVr ht
    have hk : st.Keeps s1 := fun bank key v hv => by rw [hl]; exact hv
    split at h
    · exact Except.noConfusion h
    · have e := Except.ok.inj h
      simp only [Prod.mk.injEq] at e
      obtain ⟨e1, _⟩ := e
      rw [← e1]
      split
      · exact keeps_trans hk (vrForFixedXMM_keeps s1 0).1
      · exact keeps_trans hk (vrForFixed_keeps s1 RAX).1

theorem useArguments_keeps (arch : CallArch) (id : Nat) (args : List Nat) :
    ∀ (st : LirState) (k : Nat), st.Keeps (useArguments arch id st k args) := by
  induction args with
  | nil => intro st k; exact keeps_refl st
  | cons a rest ih =>
    intro st k
    unfold useArguments
    exact keeps_trans (keeps_use _ _ _ _) (ih _ _)

theorem foldl_use_keeps (id : Nat) (l : List Nat) :
    ∀ (st : LirState), st.Keeps (l.foldl (fun s saved => s.use saved id true) st) := by
  induction l with
  | nil => intro st; exact keeps_refl st
  | cons a rest ih =>
    intro st
    simp only [List.foldl_cons]
    exact keeps_trans (keeps_use _ _ _ _) (ih _)

theorem prepareCall_tracks (c0 c1 : CallBuild) (isMember : Bool) (fIdx : Int)
    (h : prepareCall c0 isMember fIdx = Except.ok c1) (hs : c0.st.Sound)
    (hn : c0.clearRegisters.Nodup)
    (hfil : ∀ v ∈ c0.clearRegisters, ∃ bank key, bank ≠ Bank.stack ∧
      c0.st.look bank key = some v)
    (ha : c0.arguments = []) (hb : c0.st.nextVR + 2 < 65536) :
    ∃ extra, c1.Tracks c0.clearRegisters extra ∧ c0.st.Keeps c1.st ∧
      c1.st.nextVR ≤ c0.st.nextVR + 2 ∧
      (∃ moves, c1.lirs = c0.lirs ++ moves ∧ ∀ m ∈ moves, m.operation = Operation.MOV_MEM) ∧
      (∀ v, v ∈ extra ↔ (isMember = true ∧ c1.st.look Bank.fixed RAX = some v) ∨
        (isMember = false ∧ fIdx < 0 ∧ ∃ reg rest, c0.paramIterator = reg :: rest ∧
          c1.st.look Bank.fixed reg = some v)) := by
  unfold prepareCall at h
  split at h
  · rename_i hm
    simp only at h
    split at h
    · exact Except.noConfusion h
    · rename_i clear he
      have hc := (Except.ok.inj h).symm
      obtain ⟨hd, hcl⟩ := eraseFound_ok _ _ _ he
      obtain ⟨s1, s2⟩ := vrForFixed_sound c0.st RAX hs (by omega)
      obtain ⟨hk, hl⟩ := vrForFixed_keeps c0.st RAX
      refine ⟨[(c0.st.vrForFixed RAX).2], ⟨?_, ?_, ?_, ?_⟩, ?_, ?_, ⟨[], ?_, ?_⟩, ?_⟩
      · rw [hc]
        exact s1
      · rw [hc, hcl]
        exact hn.erase _
      · intro v hv
        obtain ⟨bank, key, hbk, hlk⟩ := hfil v hv
        exact ⟨bank, key, hbk, by rw [hc]; exact hk _ _ _ hlk⟩
      · intro v
        rw [hc]
        simp only
        rw [hcl, hn.mem_erase_iff, ha, List.mem_singleton]
        simp
        tauto
      · rw [hc]
        exact hk
      · rw [hc]
        simp only
        omega
      · rw [hc]
        simp
      · simp
      · intro v
        rw [hc]
        simp only [List.mem_singleton, hm, true_and]
        rw [hl]
        simp [eq_comm]
  · rename_i hm
    have hm1 : isMember = false := by
      cases isMember
      · rfl
      · exact absurd rfl hm
    split at h
    · rename_i hneg
      unfold loadJitEngine at h
      simp only at h
      split at h
      · exact Except.noConfusion h
      · rename_i reg rest hp
        split at h
        · exact Except.noConfusion h
        · rename_i clear he
          have hc := (Except.ok.inj h).symm
          obtain ⟨hd, hcl⟩ := eraseFound_ok _ _ _ he
          obtain ⟨s1, s2⟩ := vrForFixed_sound c0.st RBP hs (by omega)
          obtain ⟨hk1, _⟩ := vrForFixed_keeps c0.st RBP
          have s1u := sound_use _ (c0.st.vrForFixed RBP).2 ((c0.id + 1) % 65536) true s1
          have hn1 : ((c0.st.vrForFixed RBP).1.use (c0.st.vrForFixed RBP).2
              ((c0.id + 1) % 65536) true).nextVR + 1 < 65536 := by
            rw [nextVR_use]
            omega
          obtain ⟨s3, s4⟩ := vrForFixed_sound _ reg s1u hn1
          obtain ⟨hk2, hl2⟩ := vrForFixed_keeps ((c0.st.vrForFixed RBP).1.use
            (c0.st.vrForFixed RBP).2 ((c0.id + 1) % 65536) true) reg
          have hK : c0.st.Keeps c1.st := by
            rw [hc]
            exact keeps_trans hk1 (keeps_trans (keeps_use _ _ _ _)
              (keeps_trans hk2 (keeps_use _ _ _ _)))
          refine ⟨[(((c0.st.vrForFixed RBP).1.use (c0.st.vrForFixed RBP).2
              ((c0.id + 1) % 65536) true).vrForFixed reg).2], ⟨?_, ?_, ?_, ?_⟩, hK, ?_,
            ⟨_, by rw [hc], ?_⟩, ?_⟩
          · rw [hc]
            exact sound_use _ _ _ _ s3
          · rw [hc, hcl]
            exact hn.erase _
          · intro v hv
            obtain ⟨bank, key, hbk, hlk⟩ := hfil v hv
            exact ⟨bank, key, hbk, hK _ _ _ hlk⟩
          · intro v
            rw [hc]
            simp only
            rw [hcl, hn.mem_erase_iff, ha, List.mem_singleton]
            simp
            tauto
          · rw [hc]
            simp only
            rw [nextVR_use]
            rw [nextVR_use] at s4
            omega
          · intro m hmm
            rw [List.mem_singleton] at hmm
            rw [hmm]
          · intro v
            rw [hc]
            simp only [List.mem_singleton]
            constructor
            · intro e
              right
              refine ⟨hm1, hneg, reg, rest, hp, ?_⟩
              rw [look_use, hl2, e]
            · rintro (⟨hf, _⟩ | ⟨_, _, reg1, rest1, hp1, hl⟩)
              · exact absurd hf hm
              · rw [hp] at hp1
                have e1 := (List.cons.inj hp1).1
                subst e1
                rw [look_use, hl2] at hl
                exact (Option.some.inj hl).symm
    · rename_i hneg
      have hc := (Except.ok.inj h).symm
      subst hc
      refine ⟨[], ⟨hs, hn, hfil, ?_⟩, keeps_refl _, by omega, ⟨[], by simp, by simp⟩, ?_⟩
      · intro v
        rw [ha]
        simp
      · intro v
        constructor
        · intro hv
          exact absurd hv (List.not_mem_nil v)
        · rintro (⟨hf, _⟩ | ⟨_, hlt, _⟩)
          · exact absurd hf hm
          · exact absurd hlt hneg

theorem finishCall_spec (arch : CallArch) (types : List BType) (c2 : CallBuild) (fIdx : Int)
    (isMember : Bool) (dstIdxOrVoid : Nat) (st1 : LirState) (id1 : Nat)
    (lirs1 : List Instruction)
    (h : finishCall arch types c2 fIdx isMember dstIdxOrVoid = Except.ok (st1, id1, lirs1)) :
    ∃ call post, lirs1 = c2.lirs ++ call :: post ∧
      call.operation = (if isMember then Operation.CALL_IDX_IN_REG else Operation.CALL) ∧
      callLists call = some (c2.arguments, c2.clearRegisters) ∧
      call.clears = Except.ok c2.clearRegisters ∧
      (∀ m ∈ post, m.operation = Operation.MOV) ∧ c2.st.Keeps st1 := by
  unfold finishCall at h
  simp only at h
  split at h
  · exact Except.noConfusion h
  · rename_i st3 dst idxReg hbuilt
    have hk3 : c2.st.Keeps st3 := by
      split at hbuilt
      · split at hbuilt
        · have e := Except.ok.inj hbuilt
          simp only [Prod.mk.injEq] at e
          rw [← e.1]
          exact keeps_trans (vrForFixed_keeps _ _).1 (keeps_use _ _ _ _)
        · split at hbuilt
          · exact Except.noConfusion hbuilt
          · rename_i st2 a b hr
            have e := Except.ok.inj hbuilt
            simp only [Prod.mk.injEq] at e
            rw [← e.1]
            exact keeps_trans (vrForFixed_keeps _ _).1 (keeps_trans (keeps_use _ _ _ _)
              (keeps_trans (returnRegister_keeps _ _ _ _ _ _ hr) (keeps_use _ _ _ _)))
      · split at hbuilt
        · have e := Except.ok.inj hbuilt
          simp only [Prod.mk.injEq] at e
          rw [← e.1]
          exact keeps_refl _
        · split at hbuilt
          · exact Except.noConfusion hbuilt
          · rename_i st2 a b hr
            have e := Except.ok.inj hbuilt
            simp only [Prod.mk.injEq] at e
            rw [← e.1]
            exact keeps_trans (returnRegister_keeps _ _ _ _ _ _ hr) (keeps_use _ _ _ _)
    have hk5 : c2.st.Keeps (c2.clearRegisters.foldl
        (fun s saved => s.use saved ((c2.id + 1) % 65536) true)
        (useArguments arch ((c2.id + 1) % 65536) st3 0 c2.arguments)) :=
      keeps_trans hk3 (keeps_trans (useArguments_keeps _ _ _ _ _) (foldl_use_keeps _ _ _))
    have hcall : ∀ call : Instruction,
        call = (if isMember = true then
          (⟨Operation.CALL_IDX_IN_REG, c2.id, Payload.reg_call (decide (dstIdxOrVoid = 65535)) dst
            c2.arguments c2.clearRegisters idxReg⟩ : Instruction)
        else ⟨Operation.CALL, c2.id, Payload.call (decide (dstIdxOrVoid = 65535)) dst
            c2.arguments c2.clearRegisters fIdx⟩) →
        call.operation = (if isMember then Operation.CALL_IDX_IN_REG else Operation.CALL) ∧
        callLists call = some (c2.arguments, c2.clearRegisters) ∧
        call.clears = Except.ok c2.clearRegisters := by
      intro call hcl
      cases isMember
      · simp only [Bool.false_eq_true, if_false] at hcl ⊢
        subst hcl
        exact ⟨rfl, rfl, rfl⟩
      · simp only [if_true] at hcl ⊢
        subst hcl
        exact ⟨rfl, rfl, rfl⟩
    split at h
    · split at h
      · exact Except.noConfusion h
      · rename_i st6 dstVr returnVr hr
        split at h
        · exact Except.noConfusion h
        · have e := Except.ok.inj h
          simp only [Prod.mk.injEq] at e
          obtain ⟨e1, _, e3⟩ := e
          obtain ⟨c1, c2', c3⟩ := hcall _ rfl
          refine ⟨_, _, e3.symm.trans (List.append_assoc _ _ _), c1, c2', c3, ?_, ?_⟩
          · intro m hm
            simp at hm
            rw [hm]
          · rw [← e1]
            exact keeps_trans hk5 (keeps_trans (returnRegister_keeps _ _ _ _ _ _ hr)
              (keeps_trans (keeps_use _ _ _ _) (keeps_use _ _ _ _)))
    · have e := Except.ok.inj h
      simp only [Prod.mk.injEq] at e
      obtain ⟨e1, _, e3⟩ := e
      obtain ⟨c1, c2', c3⟩ := hcall _ rfl
      refine ⟨_, [], e3.symm, c1, c2', c3, ?_, ?_⟩
      · intro m hm
        exact absurd hm (List.not_mem_nil m)
      · rw [← e1]
        exact hk5

/-- C25: when `buildCall` returns in a compiler state whose fixed registers are soundly
numbered (no two entries of `fixedToVR`, `fixedXMMToVR` and `overflowArgToVR` name the
same virtual register, and `nextVR` is above all of them and has room for the registers
of this call), it appends moves, then one `CALL` (or `CALL_IDX_IN_REG` for a member
call) instruction, then at most the move of the result. The `clears` list of that
instruction has no register twice, and a virtual register is in it exactly when it is
the fixed register of a caller-saved general or XMM register, is not in the `args` of
the call, is not the register of `RAX` when the call is a member call, and is not the
register of the first parameter register (which received the engine pointer) when the
call is not a member call and the function index is negative. -/
theorem buildCall_clears (arch : CallArch) (types : List BType) (st : LirState)
    (lirs : List Instruction) (fIdx : Int) (isMember : Bool) (id : Nat)
    (tmpArguments : List Nat) (dstIdxOrVoid : Nat) (st1 : LirState) (id1 : Nat)
    (lirs1 : List Instruction) (hs : st.Sound) (hcs : arch.callerSaved.Nodup)
    (hcsf : arch.callerSavedFloat.Nodup)
    (hb : st.nextVR + arch.callerSaved.length + arch.callerSavedFloat.length +
      tmpArguments.length + 2 < 65536)
    (h : buildCall arch types st lirs fIdx isMember id tmpArguments dstIdxOrVoid =
      Except.ok (st1, id1, lirs1)) :
    ∃ moves call post args clears,
      lirs1 = lirs ++ moves ++ call :: post ∧
      (∀ m ∈ moves, m.operation = Operation.MOV ∨ m.operation = Operation.MOV_MEM) ∧
      (∀ m ∈ post, m.operation = Operation.MOV) ∧
      call.operation = (if isMember then Operation.CALL_IDX_IN_REG else Operation.CALL) ∧
      callLists call = some (args, clears) ∧ call.clears = Except.ok clears ∧
      clears.Nodup ∧
      ∀ v, v ∈ clears ↔
        ((∃ reg ∈ arch.callerSaved, st1.look Bank.fixed reg = some v) ∨
          (∃ reg ∈ arch.callerSavedFloat, st1.look Bank.xmm reg = some v)) ∧
        v ∉ args ∧ (isMember = true → st1.look Bank.fixed RAX ≠ some v) ∧
        (isMember = false → fIdx < 0 → ∀ reg rest, arch.parameters = reg :: rest →
          st1.look Bank.fixed reg ≠ some v) := by
  obtain ⟨f1, f2, f3, f4, f5, f6, f7⟩ := fillClear_spec arch st hs (by omega) hcs hcsf
  unfold buildCall at h
  simp only at h
  split at h
  · exact Except.noConfusion h
  · rename_i c1 hprep
    split at h
    · exact Except.noConfusion h
    · rename_i c2 hloop
      have hfil : ∀ v ∈ (fillClear arch st).2, ∃ bank key, bank ≠ Bank.stack ∧
          (fillClear arch st).1.look bank key = some v := by
        intro v hv
        rcases (f5 v).mp hv with ⟨reg, _, hl⟩ | ⟨reg, _, hl⟩
        · exact ⟨Bank.fixed, reg, fun e => Bank.noConfusion e, hl⟩
        · exact ⟨Bank.xmm, reg, fun e => Bank.noConfusion e, hl⟩
      obtain ⟨extra, ht1, hk1, hn1, ⟨mv1, hmv1, hop1⟩, hextra⟩ := prepareCall_tracks _ c1 isMember
        fIdx hprep f1 f4 hfil rfl (by simp only; omega)
      simp only at ht1 hk1 hn1 hmv1 hextra
      obtain ⟨ht2, hk2, mv2, hmv2, hop2⟩ := passArguments_tracks _ extra tmpArguments c1 c2 hloop
        ht1 (by omega)
      obtain ⟨call, post, hl, hcop, hcl, hcc, hpost, hk3⟩ := finishCall_spec arch types c2 fIdx
        isMember dstIdxOrVoid st1 id1 lirs1 h
      have hK1 : (fillClear arch st).1.Keeps st1 := keeps_trans hk1 (keeps_trans hk2 hk3)
      have hK2 : c1.st.Keeps st1 := keeps_trans hk2 hk3
      refine ⟨mv1 ++ mv2, call, post, c2.arguments, c2.clearRegisters, ?_, ?_, hpost, hcop, hcl,
        hcc, ht2.2.1, ?_⟩
      · rw [hl, hmv2, hmv1]
        simp only [List.append_assoc]
      · intro m hm
        rcases List.mem_append.mp hm with e | e
        · exact Or.inr (hop1 m e)
        · exact Or.inl (hop2 m e)
      · intro v
        rw [ht2.2.2.2 v, f5 v, hextra v]
        constructor
        · rintro ⟨hfill, hargs, hex⟩
          refine ⟨?_, hargs, ?_, ?_⟩
          · rcases hfill with ⟨reg, hr, hlk⟩ | ⟨reg, hr, hlk⟩
            · exact Or.inl ⟨reg, hr, hK1 _ _ _ hlk⟩
            · exact Or.inr ⟨reg, hr, hK1 _ _ _ hlk⟩
          · intro hm hrax
            obtain ⟨w, hw⟩ : ∃ w, c1.st.look Bank.fixed RAX = some w := by
              cases hq : c1.st.look Bank.fixed RAX with
              | some w => exact ⟨w, rfl⟩
              | none =>
                exfalso
                unfold prepareCall at hprep
                rw [if_pos hm] at hprep
                simp only at hprep
                split at hprep
                · exact Except.noConfusion hprep
                · have e := (Except.ok.inj hprep).symm
                  rw [e] at hq
                  simp only at hq
                  rw [(vrForFixed_keeps _ _).2] at hq
                  exact Option.noConfusion hq
            have hw1 := hK2 _ _ _ hw
            rw [hw1] at hrax
            have e := Option.some.inj hrax
            subst e
            exact hex (Or.inl ⟨hm, hw⟩)
          · intro hm hneg reg rest hp hlk
            apply hex
            right
            refine ⟨hm, hneg, reg, rest, hp, ?_⟩
            cases hq : c1.st.look Bank.fixed reg with
            | some w =>
              have hw1 := hK2 _ _ _ hq
              rw [hw1] at hlk
              rw [Option.some.inj hlk]
            | none =>
              exfalso
              unfold prepareCall at hprep
              rw [if_neg (by rw [hm]; exact Bool.false_ne_true), if_pos hneg] at hprep
              unfold loadJitEngine at hprep
              simp only at hprep
              rw [hp] at hprep
              simp only at hprep
              split at hprep
              · exact Except.noConfusion hprep
              · have e := (Except.ok.inj hprep).symm
                rw [e] at hq
                simp only at hq
                rw [look_use, (vrForFixed_keeps _ _).2] at hq
                exact Option.noConfusion hq
        · rintro ⟨hfill, hargs, hrax, heng⟩
          refine ⟨?_, hargs, ?_⟩
          · rcases hfill with ⟨reg, hr, hlk⟩ | ⟨reg, hr, hlk⟩
            · obtain ⟨w, hw⟩ := f6 reg hr
              have hw1 := hK1 _ _ _ hw
              rw [hw1] at hlk
              rw [← Option.some.inj hlk]
              exact Or.inl ⟨reg, hr, hw⟩
            · obtain ⟨w, hw⟩ := f7 reg hr
              have hw1 := hK1 _ _ _ hw
              rw [hw1] at hlk
              rw [← Option.some.inj hlk]
              exact Or.inr ⟨reg, hr, hw⟩
          · rintro (⟨hm, hlk⟩ | ⟨hm, hneg, reg, rest, hp, hlk⟩)
            · exact hrax hm (hK2 _ _ _ hlk)
            · exact heng hm hneg reg rest hp (hK2 _ _ _ hlk)

theorem sound_callState : callState.Sound := by
  refine ⟨?_, ?_⟩
  · intro bank key v h
    cases bank <;> simp [LirState.look, callState, LirState.empty, omFind] at h
  · intro bank key bank1 key1 v h
    cases bank <;> simp [LirState.look, callState, LirState.empty, omFind] at h

/-- C25 at the call of the special function -1 with an `INT32` and a `FLP64` argument:
the engine pointer goes to the register of `RDI` (3), the arguments to the registers of
`RSI` (4) and `XMM0` (11), and the call clears the other 21 caller-saved registers. -/
theorem buildCall_clears_witness :
    callResult.2.2.map callLists = [none, none, none, some ([4, 11],
      [2, 5, 6, 7, 8, 9, 10, 12, 13, 14, 15, 16, 17, 18, 19, 20, 21, 22, 23, 24, 25])] ∧
    ∃ moves call post args clears,
      callResult.2.2 = [] ++ moves ++ call :: post ∧
      (∀ m ∈ moves, m.operation = Operation.MOV ∨ m.operation = Operation.MOV_MEM) ∧
      (∀ m ∈ post, m.operation = Operation.MOV) ∧
      call.operation = (if false then Operation.CALL_IDX_IN_REG else Operation.CALL) ∧
      callLists call = some (args, clears) ∧ call.clears = Except.ok clears ∧
      clears.Nodup ∧
      ∀ v, v ∈ clears ↔
        ((∃ reg ∈ AMD64.calls.callerSaved, callResult.1.look Bank.fixed reg = some v) ∨
          (∃ reg ∈ AMD64.calls.callerSavedFloat, callResult.1.look Bank.xmm reg = some v)) ∧
        v ∉ args ∧ (false = true → callResult.1.look Bank.fixed RAX ≠ some v) ∧
        (false = false → (-1 : Int) < 0 → ∀ reg rest, AMD64.calls.parameters = reg :: rest →
          callResult.1.look Bank.fixed reg ≠ some v) :=
  ⟨by rfl, buildCall_clears AMD64.calls [⟨false, 5⟩, ⟨false, 8⟩] callState [] (-1) false 7 [0, 1]
    65535 callResult.1 callResult.2.1 callResult.2.2 sound_callState (by decide) (by decide)
    (by decide) (by rfl)⟩

/-! ## The push/pop fallback of the edge moves -/

theorem push_append (buf : List Nat) (r : Nat) : push buf r = buf ++ push [] r := by
  unfold push opcode rex byte
  split <;> simp

theorem pop_append (buf : List Nat) (r : Nat) : pop buf r = buf ++ pop [] r := by
  unfold pop opcode rex byte
  split <;> simp

theorem exec_push (r : Nat) (hr : r < 16) (tail : List Nat) (m : Machine) :
    execStack (push [] r ++ tail) false m = execStack tail false (m.push r) := by
  interval_cases r <;> rfl

theorem exec_pop (r : Nat) (hr : r < 16) (tail : List Nat) (m : Machine) :
    execStack (pop [] r ++ tail) false m = execStack tail false (m.pop r) := by
  interval_cases r <;> rfl

theorem generalMove_spec (p : SpillMovOp) (h : generalMove p = true) :
    ∃ s d, p.first = RegMemOp.reg s ∧ p.second = RegMemOp.reg d ∧ s < 16 ∧ d < 16 ∧
      s ≠ RSP ∧ d ≠ RSP := by
  obtain ⟨first, second, size⟩ := p
  cases first <;> cases second <;> simp [generalMove] at h
  rename_i s d
  exact ⟨s, d, rfl, rfl, h.1, h.2.1, h.2.2.1, h.2.2.2⟩

theorem popsOf_append (l1 l2 : List SpillMovOp) : popsOf (l1 ++ l2) = popsOf l1 ++ popsOf l2 := by
  induction l1 with
  | nil => rfl
  | cons p rest ih =>
    obtain ⟨first, second, size⟩ := p
    cases second <;> simp [popsOf, ih]

theorem stack_roundtrip (moves : List SpillMovOp) :
    ∀ (m : Machine) (tail : List Nat), (∀ p ∈ moves, generalMove p = true) →
      (moves.map (fun p => p.second)).Nodup → moves.length ≤ 16 →
      m.regs RSP < 18446744073709551616 →
      ∃ m1, execStack (pushesOf moves ++ (popsOf moves.reverse ++ tail)) false m =
          execStack tail false m1 ∧
        (∀ p ∈ moves, ∀ s d, p.first = RegMemOp.reg s → p.second = RegMemOp.reg d →
          m1.regs d = m.regs s) ∧
        (∀ r, (∀ p ∈ moves, p.second ≠ RegMemOp.reg r) → m1.regs r = m.regs r) ∧
        (∀ a, (∀ k, 1 ≤ k → k ≤ moves.length →
            a ≠ (m.regs RSP + 18446744073709551616 - 8 * k) % 18446744073709551616) →
          m1.mem a = m.mem a) := by
  induction moves with
  | nil =>
    intro m tail _ _ _ _
    refine ⟨m, rfl, ?_, fun _ _ => rfl, fun _ _ => rfl⟩
    intro p hp
    simp at hp
  | cons p rest ih =>
    intro m tail hg hnd hlen hsp
    obtain ⟨s, d, hf, hsnd, hs16, hd16, hsne, hdne⟩ := generalMove_spec p (hg p (List.mem_cons_self _ _))
    simp only [List.map_cons, List.nodup_cons, List.length_cons] at hnd hlen
    have hsp1 : (m.push s).regs RSP =
        (m.regs RSP + 18446744073709551608) % 18446744073709551616 := by
      simp [Machine.push]
    obtain ⟨m2, hex, hval, hkeep, hmem⟩ := ih (m.push s) (pop [] d ++ tail)
      (fun q hq => hg q (List.mem_cons_of_mem _ hq)) hnd.2 (by omega)
      (by rw [hsp1]; exact Nat.mod_lt _ (by decide))
    have hrsp2 : m2.regs RSP = (m.push s).regs RSP := by
      apply hkeep
      intro q hq e
      obtain ⟨s1, d1, _, h2, _, _, _, h6⟩ := generalMove_spec q (hg q (List.mem_cons_of_mem _ hq))
      rw [h2] at e
      exact h6 (RegMemOp.reg.inj e)
    have hmem2 : m2.mem (m2.regs RSP) = m.regs s := by
      rw [hrsp2, hmem]
      · simp [Machine.push]
      · intro k hk1 hk2
        rw [hsp1]
        omega
    refine ⟨m2.pop d, ?_, ?_, ?_, ?_⟩
    · have hcode : pushesOf (p :: rest) ++ (popsOf (p :: rest).reverse ++ tail) =
          push [] s ++ (pushesOf rest ++ (popsOf rest.reverse ++ (pop [] d ++ tail))) := by
        have hp1 : popsOf [p] = pop [] d := by
          simp [popsOf, hsnd]
        simp only [pushesOf, hf, List.reverse_cons, popsOf_append, hp1, List.append_assoc]
      rw [hcode, exec_push s hs16, hex, exec_pop d hd16]
    · intro q hq s1 d1 h1 h2
      rcases List.mem_cons.mp hq with e | e
      · subst e
        rw [hf] at h1
        rw [hsnd] at h2
        have e1 := RegMemOp.reg.inj h1
        have e2 := RegMemOp.reg.inj h2
        subst e1
        subst e2
        simp only [Machine.pop, if_true]
        exact hmem2
      · have hne : d1 ≠ d := by
          intro e3
          apply hnd.1
          rw [hsnd, ← e3, ← h2]
          exact List.mem_map_of_mem _ e
        obtain ⟨s2, d2, g1, g2, _, _, g5, g6⟩ := generalMove_spec q (hg q (List.mem_cons_of_mem _ e))
        rw [h2] at g2
        have e4 := RegMemOp.reg.inj g2
        rw [h1] at g1
        have e5 := RegMemOp.reg.inj g1
        have hv := hval q e s1 d1 h1 h2
        simp only [Machine.pop]
        rw [if_neg hne, if_neg (by rw [e4]; exact g6), hv]
        simp only [Machine.push]
        rw [if_neg (by rw [e5]; exact g5)]
    · intro r hr
      have hrd : r ≠ d := by
        intro e
        apply hr p (List.mem_cons_self _ _)
        rw [hsnd, e]
      by_cases hrsp : r = RSP
      · subst hrsp
        simp only [Machine.pop]
        rw [if_neg hrd, hrsp2, hsp1]
        simp only [if_true]
        omega
      · simp only [Machine.pop]
        rw [if_neg hrd, if_neg hrsp, hkeep r (fun q hq => hr q (List.mem_cons_of_mem _ hq))]
        simp only [Machine.push]
        rw [if_neg hrsp]
    · intro a ha
      show m2.mem a = m.mem a
      rw [hmem]
      · simp only [Machine.push]
        rw [if_neg]
        have := ha 1 (Nat.le_refl 1) (by simp only [List.length_cons]; omega)
        omega
      · intro k hk1 hk2
        rw [hsp1]
        have := ha (k + 1) (by omega) (by simp only [List.length_cons]; omega)
        omega

theorem pushSources_general (moves : List SpillMovOp) :
    ∀ buf, (∀ p ∈ moves, generalMove p = true) →
      pushSources moves buf = Except.ok (buf ++ pushesOf moves) := by
  induction moves with
  | nil => intro buf _; simp [pushSources, pushesOf]
  | cons p rest ih =>
    intro buf hg
    obtain ⟨s, d, hf, hs, _⟩ := generalMove_spec p (hg p (List.mem_cons_self _ _))
    unfold pushSources pushesOf
    simp only [hf, hs, RegMemOp.isReg, Bool.not_true, Bool.or_self, Bool.false_eq_true, if_false]
    rw [ih _ (fun q hq => hg q (List.mem_cons_of_mem _ hq)), push_append, List.append_assoc]

theorem popDestinations_general (moves : List SpillMovOp) :
    ∀ buf, (∀ p ∈ moves, generalMove p = true) →
      popDestinations moves buf = Except.ok (buf ++ popsOf moves) := by
  induction moves with
  | nil => intro buf _; simp [popDestinations, popsOf]
  | cons p rest ih =>
    intro buf hg
    obtain ⟨s, d, hf, hs, _⟩ := generalMove_spec p (hg p (List.mem_cons_self _ _))
    unfold popDestinations popsOf
    simp only [hs]
    rw [ih _ (fun q hq => hg q (List.mem_cons_of_mem _ hq)), pop_append, List.append_assoc]

theorem pushSources_not_reg (moves : List SpillMovOp) :
    ∀ buf, (∃ p ∈ moves, p.first.isReg = false ∨ p.second.isReg = false) →
      pushSources moves buf = Except.error Err.runtimeError := by
  induction moves with
  | nil =>
    intro buf h
    obtain ⟨p, hp, _⟩ := h
    simp at hp
  | cons q rest ih =>
    intro buf h
    unfold pushSources
    by_cases hq : (!q.first.isReg || !q.second.isReg) = true
    · rw [if_pos hq]
    · rw [if_neg hq]
      have hq1 : q.first.isReg = true ∧ q.second.isReg = true := by
        cases h1 : q.first.isReg <;> cases h2 : q.second.isReg <;> simp [h1, h2] at hq ⊢
      obtain ⟨p, hp, hbad⟩ := h
      have hrest : ∃ p ∈ rest, p.first.isReg = false ∨ p.second.isReg = false := by
        rcases List.mem_cons.mp hp with e | e
        · subst e
          rcases hbad with hb | hb
          · rw [hq1.1] at hb
            exact Bool.noConfusion hb
          · rw [hq1.2] at hb
            exact Bool.noConfusion hb
        · exact ⟨p, e, hbad⟩
      cases hfirst : q.first with
      | reg s => exact ih _ hrest
      | xmm x =>
        rw [hfirst] at hq1
        exact Bool.noConfusion hq1.1
      | mem x =>
        rw [hfirst] at hq1
        exact Bool.noConfusion hq1.1

theorem general_length (moves : List SpillMovOp) (hg : ∀ p ∈ moves, generalMove p = true)
    (hnd : (moves.map (fun p => p.second)).Nodup) : moves.length ≤ 16 := by
  have hsub : moves.map (fun p => p.second) ⊆ (List.range 16).map RegMemOp.reg := by
    intro x hx
    obtain ⟨p, hp, e⟩ := List.mem_map.mp hx
    obtain ⟨s, d, _, hs, _, hd, _⟩ := generalMove_spec p (hg p hp)
    rw [← e, hs]
    exact List.mem_map_of_mem _ (List.mem_range.mpr hd)
  have h := (List.Nodup.subperm hnd hsub).length_le
  simpa using h

/-- C26: for a non-empty list of edge moves between general registers `rax` to `r15`
other than the stack pointer with pairwise distinct destinations, and no topological
sorting, `insertEdgeInstructions` appends the pushes of the sources in list order and
the pops of the destinations in reverse order; run on a machine, that code leaves in
every destination the value that its source had before, and leaves the stack pointer
and every register that is no destination as they were. If an operand of a non-empty
list is not a general register, the fallback raises `std::runtime_error`. -/
theorem fallback_moves_values (moves : List SpillMovOp) (buf : List Nat) (m : Machine)
    (hne : moves ≠ []) (hg : ∀ p ∈ moves, generalMove p = true)
    (hnd : (moves.map (fun p => p.second)).Nodup)
    (hsp : m.regs RSP < 18446744073709551616) :
    (∃ m1, insertEdgeInstructions buf moves [] =
        Except.ok (buf ++ (pushesOf moves ++ popsOf moves.reverse)) ∧
      execStack (pushesOf moves ++ popsOf moves.reverse) false m = some m1 ∧
      (∀ p ∈ moves, ∀ s d, p.first = RegMemOp.reg s → p.second = RegMemOp.reg d →
        m1.regs d = m.regs s) ∧
      m1.regs RSP = m.regs RSP ∧
      (∀ r, (∀ p ∈ moves, p.second ≠ RegMemOp.reg r) → m1.regs r = m.regs r)) ∧
    (∀ (others : List SpillMovOp) (buf1 : List Nat), others ≠ [] →
      (∃ p ∈ others, p.first.isReg = false ∨ p.second.isReg = false) →
      insertEdgeInstructions buf1 others [] = Except.error Err.runtimeError) := by
  refine ⟨?_, ?_⟩
  · obtain ⟨m1, hex, hval, hkeep, _⟩ := stack_roundtrip moves m [] hg hnd
      (general_length moves hg hnd) hsp
    have hgr : ∀ p ∈ moves.reverse, generalMove p = true :=
      fun p hp => hg p (List.mem_reverse.mp hp)
    refine ⟨m1, ?_, ?_, hval, ?_, hkeep⟩
    · unfold insertEdgeInstructions
      have h1 : moves.isEmpty = false := by
        cases moves with
        | nil => exact absurd rfl hne
        | cons _ _ => rfl
      rw [h1]
      simp only [Bool.false_eq_true, if_false, List.isEmpty_nil, if_true]
      rw [pushSources_general moves buf hg]
      simp only
      rw [popDestinations_general moves.reverse _ hgr, List.append_assoc]
    · rw [List.append_nil] at hex
      rw [hex]
      rfl
    · apply hkeep
      intro q hq e
      obtain ⟨s1, d1, _, h2, _, _, _, h6⟩ := generalMove_spec q (hg q hq)
      rw [h2] at e
      exact h6 (RegMemOp.reg.inj e)
  · intro others buf1 hne1 hbad
    unfold insertEdgeInstructions
    have h1 : others.isEmpty = false := by
      cases others with
      | nil => exact absurd rfl hne1
      | cons _ _ => rfl
    rw [h1]
    simp only [Bool.false_eq_true, if_false, List.isEmpty_nil, if_true]
    rw [pushSources_not_reg others buf1 hbad]

/-- C26 at the swap of `rax` and `r9`: the code is `50 41 51 58 41 59` (push rax, push
r9, pop rax, pop r9), after which `rax` holds 109, `r9` holds 100 and the stack pointer
is 4096 as before. -/
theorem fallback_moves_values_witness :
    insertEdgeInstructions [] swapMoves [] = Except.ok [0x50, 0x41, 0x51, 0x58, 0x41, 0x59] ∧
    sampleMachine.regs RAX = 100 ∧ sampleMachine.regs R9 = 109 ∧
    ∃ m1, execStack [0x50, 0x41, 0x51, 0x58, 0x41, 0x59] false sampleMachine = some m1 ∧
      m1.regs RAX = 109 ∧ m1.regs R9 = 100 ∧ m1.regs RSP = 4096 :=
  have h := fallback_moves_values swapMoves [] sampleMachine (by decide) (by decide) (by decide)
    (by decide)
  match h.1 with
  | ⟨m1, h1, h2, h3, h4, _⟩ =>
    ⟨by rfl, by rfl, by rfl, m1, h2,
      h3 ⟨RegMemOp.reg R9, RegMemOp.reg RAX, OperandSize.QWORD⟩ (by decide) R9 RAX rfl rfl,
      h3 ⟨RegMemOp.reg RAX, RegMemOp.reg R9, OperandSize.QWORD⟩ (by decide) RAX R9 rfl rfl,
      h4⟩

/-! ## Dead definitions and parameters in the lifetime analysis -/

theorem analyseInstruction_outputs (b : Block) (st : List Interval × List Nat)
    (instruction : Instruction) (h : instruction.operation ≠ Operation.PHI)
    (output : List Nat) (ho : instruction.dst = Except.ok output)
    (hi : instruction.inputs = Except.ok []) (hc : instruction.clears = Except.ok []) :
    analyseInstruction b st instruction = loopE (defineOutput b instruction) st output := by
  unfold analyseInstruction
  rw [if_neg h, ho]
  simp only
  have hd : (fun (s : List Interval × List Nat) (dstIdx : Nat) =>
      match updateAt s.1 dstIdx (fun iv =>
          let r : Except Err Interval :=
            if iv.lifespans = [] then
              match b.lirs.getLast? with
              | none => Except.error Err.undefined
              | some lastI => iv.addRange ⟨-1, lastI.id⟩
            else Except.ok iv
          match r with
          | Except.error e => Except.error e
          | Except.ok iv1 =>
            match iv1.lifespans with
            | [] => Except.error Err.undefined
            | front :: rest =>
              Except.ok { iv1 with lifespans := { front with from_ := instruction.id } :: rest })
      with
      | Except.error e => Except.error e
      | Except.ok ivs => Except.ok (ivs, osErase natLt dstIdx s.2)) =
      defineOutput b instruction := rfl
  rw [hd, hi, hc]
  cases loopE (defineOutput b instruction) st output with
  | error e => rfl
  | ok st1 => rfl

/-- C27 (counterexample): in the block `(0) mov i0, $1; (1) ret` the register `i0` is
defined at id 0 and used nowhere; after `LifetimeAnalyzer::run` its interval is the
range `[0,1]`, up to the last instruction of the block, not `[0,0]`. -/
theorem dead_definition_reaches_block_end :
    deadBlock.lirs.map Instruction.inputs = [Except.ok [], Except.ok []] ∧
    (∃ r, LifetimeAnalyzer.run 0 [deadBlock] 1 = Except.ok [r] ∧ r.vr = 0 ∧
      r.lifespans = [⟨0, 1⟩] ∧ r.lifespans ≠ [⟨0, 0⟩]) := by
  refine ⟨by rfl, _, by rfl, by rfl, by rfl, by decide⟩

/-- C27 (amended): when an instruction with id `d` of a block defines a virtual register
whose interval has no range yet, the step of `LifetimeAnalyzer::run` for that output
operand leaves the interval with exactly one range, from `d` to the id of the last
instruction of the block; so does the whole step for an instruction without inputs and
cleared registers whose only output is that register. -/
theorem dead_definition_range (b : Block) (instruction lastI : Instruction)
    (ivs : List Interval) (live : List Nat) (v : Nat) (iv : Interval)
    (hv : ivs[v]? = some iv) (he : iv.lifespans = []) (hl : b.lirs.getLast? = some lastI) :
    defineOutput b instruction (ivs, live) v =
      Except.ok (ivs.set v { iv with lifespans := [⟨instruction.id, lastI.id⟩] },
        osErase natLt v live) ∧
    (instruction.operation ≠ Operation.PHI → instruction.dst = Except.ok [v] →
      instruction.inputs = Except.ok [] → instruction.clears = Except.ok [] →
      analyseInstruction b (ivs, live) instruction =
        Except.ok (ivs.set v { iv with lifespans := [⟨instruction.id, lastI.id⟩] },
          osErase natLt v live)) := by
  have h1 : defineOutput b instruction (ivs, live) v =
      Except.ok (ivs.set v { iv with lifespans := [⟨instruction.id, lastI.id⟩] },
        osErase natLt v live) := by
    unfold defineOutput updateAt
    simp only [hv, he, hl, if_true, Interval.addRange, Cij.addRange]
  refine ⟨h1, ?_⟩
  intro hp hd hi hc
  rw [analyseInstruction_outputs b _ instruction hp [v] hd hi hc]
  simp only [loopE, h1]

/-- C27 at the block `(0) mov i0, $1; (1) ret` and the fresh interval of `i0`. -/
theorem dead_definition_range_witness :
    defineOutput deadBlock ⟨Operation.MOV, 0, Payload.mov true 1 0 0 OperandSize.DWORD⟩
        ([{ Interval.fresh with vr := 0 }], []) 0 =
      Except.ok ([{ Interval.fresh with vr := 0, lifespans := [⟨0, 1⟩] }], []) :=
  (dead_definition_range deadBlock ⟨Operation.MOV, 0, Payload.mov true 1 0 0 OperandSize.DWORD⟩
    ⟨Operation.RET, 1, Payload.none⟩ [{ Interval.fresh with vr := 0 }] [] 0
    { Interval.fresh with vr := 0 } rfl rfl rfl).1


theorem updateAt_ok (ivs ivs1 : List Interval) (idx : Nat) (f : Interval → Except Err Interval)
    (h : updateAt ivs idx f = Except.ok ivs1) :
    ∃ iv iv1, ivs[idx]? = some iv ∧ f iv = Except.ok iv1 ∧ ivs1 = ivs.set idx iv1 := by
  unfold updateAt at h
  split at h
  · exact Except.noConfusion h
  · rename_i iv hiv
    split at h
    · exact Except.noConfusion h
    · rename_i iv1 hf
      exact ⟨iv, iv1, hiv, hf, (Except.ok.inj h).symm⟩

theorem flagParameter_at (s s1 : List Interval) (i : Nat)
    (h : updateAt s i (fun iv =>
        match iv.lifespans with
        | [] => Except.error Err.undefined
        | front :: rest =>
          Except.ok { iv with argument := true,
                              lifespans := { front with from_ := -1 } :: rest }) =
      Except.ok s1) :
    ∃ iv front rest, s1[i]? = some iv ∧ iv.argument = true ∧ iv.lifespans = front :: rest ∧
      front.from_ = -1 := by
  obtain ⟨iv, iv1, hiv, hf, hs⟩ := updateAt_ok _ _ _ _ h
  have hlt : i < s.length := by
    rcases Nat.lt_or_ge i s.length with hl | hl
    · exact hl
    · rw [List.getElem?_eq_none hl] at hiv
      exact Option.noConfusion hiv
  split at hf
  · exact Except.noConfusion hf
  · rename_i front rest hl
    have e := (Except.ok.inj hf).symm
    refine ⟨iv1, { front with from_ := -1 }, rest, ?_, ?_, ?_, rfl⟩
    · rw [hs]
      simp [hlt]
    · rw [e]
    · rw [e]

/-- C28 (failing input): for a function with one parameter that no instruction uses
(the block `(0) ret`), the interval of the parameter has no range when
`LifetimeAnalyzer::run` reaches `intervals[i].startingSpan().from = -1`, and
`startingSpan()` takes `front()` of an empty deque: undefined behaviour. With a use
(`(0) test i0; (1) ret`) the interval of the parameter is flagged and is `[-1,0]`; and
whenever `run` returns, the interval of every parameter is flagged as argument and has
a first range that starts at -1. -/
theorem unused_parameter_has_no_range :
    LifetimeAnalyzer.run 1 [idleBlock] 1 = Except.error Err.undefined ∧
    (∃ r, LifetimeAnalyzer.run 1 [testBlock] 1 = Except.ok [r] ∧ r.vr = 0 ∧
      r.argument = true ∧ r.lifespans = [⟨-1, 0⟩]) ∧
    (∀ (nParams : Nat) (blocks : List Block) (lirCount : Nat) (ivs : List Interval) (i : Nat),
      LifetimeAnalyzer.run nParams blocks lirCount = Except.ok ivs → i < nParams →
      ∃ iv front rest, ivs[i]? = some iv ∧ iv.argument = true ∧
        iv.lifespans = front :: rest ∧ front.from_ = -1) := by
  refine ⟨by rfl, ⟨_, by rfl, by rfl, by rfl, by rfl⟩, ?_⟩
  intro nParams blocks lirCount ivs i h hi
  unfold LifetimeAnalyzer.run at h
  simp only at h
  split at h
  · exact Except.noConfusion h
  · rename_i st _
    refine loopE_reach _ (fun s => ∃ iv front rest, s[i]? = some iv ∧ iv.argument = true ∧
      iv.lifespans = front :: rest ∧ front.from_ = -1) i (List.range nParams) st.1 ivs h
      (List.mem_range.mpr hi) ?_ ?_
    · intro s s1 hb
      exact flagParameter_at s s1 i hb
    · intro s x s1 _ hq hb
      by_cases hx : x = i
      · subst hx
        exact flagParameter_at s s1 x hb
      · obtain ⟨iv, iv1, _, _, hs⟩ := updateAt_ok _ _ _ _ hb
        obtain ⟨jv, front, rest, h1, h2, h3, h4⟩ := hq
        refine ⟨jv, front, rest, ?_, h2, h3, h4⟩
        rw [hs, List.getElem?_set_ne hx]
        exact h1

/-! ## The order of intervals -/

theorem keyLt_iff (a b : OrderKey) : keyLt a b = true ↔ keyBefore a b := by
  obtain ⟨s1, g1, v1, f1, h1, u1⟩ := a
  obtain ⟨s2, g2, v2, f2, h2, u2⟩ := b
  have hs : s1 < s2 ∨ s1 = s2 ∨ s2 < s1 := Int.lt_trichotomy s1 s2
  rcases hs with hs | hs | hs
  · simp [keyLt, keyBefore, hs]
  · subst hs
    cases g1 <;> cases g2 <;> cases f1 <;> cases f2 <;> cases h1 <;> cases h2 <;>
      simp [keyLt, keyBefore]
  · have h1' : ¬ s1 < s2 := by omega
    have h2' : ¬ s1 = s2 := by omega
    simp [keyLt, keyBefore, h1', h2']

/-- The lexicographic order of ranks. -/
theorem keyBefore_iff_rank (a b : OrderKey) :
    keyBefore a b ↔ a.start < b.start ∨ (a.start = b.start ∧
      (a.rank.1 < b.rank.1 ∨ (a.rank.1 = b.rank.1 ∧
        (a.rank.2.1 < b.rank.2.1 ∨ (a.rank.2.1 = b.rank.2.1 ∧
          (a.rank.2.2.1 < b.rank.2.2.1 ∨ (a.rank.2.2.1 = b.rank.2.2.1 ∧
            a.rank.2.2.2 < b.rank.2.2.2))))))) := by
  obtain ⟨s1, g1, v1, f1, h1, u1⟩ := a
  obtain ⟨s2, g2, v2, f2, h2, u2⟩ := b
  cases g1 <;> cases g2 <;> cases f1 <;> cases f2 <;> cases h1 <;> cases h2 <;>
    simp [keyBefore, OrderKey.rank]

theorem keyBefore_irrefl (a : OrderKey) : ¬ keyBefore a a := by
  rw [keyBefore_iff_rank]
  omega

theorem keyBefore_trans (a b c : OrderKey) (h1 : keyBefore a b) (h2 : keyBefore b c) :
    keyBefore a c := by
  rw [keyBefore_iff_rank] at h1 h2 ⊢
  generalize a.rank = ra at *
  generalize b.rank = rb at *
  generalize c.rank = rc at *
  obtain ⟨a1, a2, a3, a4⟩ := ra
  obtain ⟨b1, b2, b3, b4⟩ := rb
  obtain ⟨c1, c2, c3, c4⟩ := rc
  simp only at h1 h2 ⊢
  omega

theorem keyBefore_incomparable (a b c : OrderKey) (h1 : ¬ keyBefore a b) (h2 : ¬ keyBefore b a)
    (h3 : ¬ keyBefore b c) (h4 : ¬ keyBefore c b) : ¬ keyBefore a c ∧ ¬ keyBefore c a := by
  rw [keyBefore_iff_rank] at h1 h2 h3 h4 ⊢
  rw [keyBefore_iff_rank]
  generalize a.rank = ra at *
  generalize b.rank = rb at *
  generalize c.rank = rc at *
  obtain ⟨a1, a2, a3, a4⟩ := ra
  obtain ⟨b1, b2, b3, b4⟩ := rb
  obtain ⟨c1, c2, c3, c4⟩ := rc
  simp only at h1 h2 h3 h4 ⊢
  omega

theorem find_of_any {T : Type} (p : T → Bool) (l : List T) (h : l.any p = true) :
    ∃ x, l.find? p = some x := by
  induction l with
  | nil => simp at h
  | cons y rest ih =>
    by_cases hy : p y = true
    · exact ⟨y, by simp [List.find?, hy]⟩
    · have hr : rest.any p = true := by
        simp only [List.any_cons, Bool.or_eq_true] at h
        rcases h with h | h
        · exact absurd h hy
        · exact h
      obtain ⟨x, hx⟩ := ih hr
      refine ⟨x, ?_⟩
      have hy1 : p y = false := by
        cases hp : p y
        · rfl
        · exact absurd hp hy
      simp [List.find?, hy1, hx]

theorem key_of_interval (a : Interval) (ha : a.lifespans ≠ []) :
    a.start = Except.ok a.orderKey.start ∧ a.hasUsage = Except.ok a.orderKey.hasUsage ∧
      (a.orderKey.hasUsage = true → a.firstUsage = Except.ok a.orderKey.firstUsage) ∧
      a.orderKey.argument = a.argument ∧ a.orderKey.vr = a.vr ∧
      a.orderKey.isFixed = a.isFixed := by
  cases hla : a.lifespans with
  | nil => exact absurd hla ha
  | cons fa ra =>
    have hsa : a.start = Except.ok fa.from_ := by
      unfold Interval.start
      rw [hla]
      rfl
    have hk1 : a.orderKey.start = fa.from_ := by
      unfold Interval.orderKey
      rw [hla]
      rfl
    have hk2 : a.orderKey.hasUsage = a.usages.any (fun pair => decide (pair.1 ≥ fa.from_)) := by
      unfold Interval.orderKey
      rw [hla]
      rfl
    have hk3 : a.orderKey.firstUsage =
        (match a.usages.find? (fun pair => decide (pair.1 ≥ fa.from_)) with
          | some pair => toU16 pair.1
          | none => 0) := by
      unfold Interval.orderKey
      rw [hla]
      rfl
    refine ⟨by rw [hsa, hk1], ?_, ?_, rfl, rfl, rfl⟩
    · unfold Interval.hasUsage
      rw [hsa, hk2]
    · intro hu
      rw [hk2] at hu
      obtain ⟨x, hx⟩ := find_of_any _ _ hu
      unfold Interval.firstUsage
      rw [hsa, hk3]
      simp only [hx]

theorem lt_eq_key (a b : Interval) (ha : a.lifespans ≠ []) (hb : b.lifespans ≠ []) :
    a.lt b = Except.ok (keyLt a.orderKey b.orderKey) := by
  obtain ⟨a1, a2, a3, a4, a5, a6⟩ := key_of_interval a ha
  obtain ⟨b1, b2, b3, b4, b5, b6⟩ := key_of_interval b hb
  unfold Interval.lt keyLt
  rw [a1, b1, a2, b2, a4, b4, a6, b6, a5, b5]
  simp only
  by_cases c1 : a.orderKey.start < b.orderKey.start
  · rw [if_pos c1, if_pos c1]
  · rw [if_neg c1, if_neg c1]
    split
    · rfl
    · split
      · rfl
      · split
        · rfl
        · split
          · split
            · rfl
            · split
              · rename_i hu
                rw [a3 hu.1, b3 hu.2]
              · rfl
          · rfl

/-- C29: on intervals with non-empty range lists `Interval::operator<` returns, is
irreflexive and transitive, and its incomparability is transitive; `a < b` holds
exactly when `a` starts earlier or, at equal starts, `a` is an argument and `b` is not,
or both are arguments and `a.vr < b.vr`, or neither is an argument and `a` is fixed and
`b` is not, or they agree in `isFixed` and `a` has no use at or after its start while
`b` has one, or both have one and `a.firstUsage() < b.firstUsage()`. The key of an
interval holds the values of `start()`, `hasUsage()` and `firstUsage()`. -/
theorem interval_lt_strict_weak (a b c : Interval) (ha : a.lifespans ≠ [])
    (hb : b.lifespans ≠ []) (hc : c.lifespans ≠ []) :
    (∃ r, a.lt b = Except.ok r) ∧
    a.lt a = Except.ok false ∧
    (a.lt b = Except.ok true → b.lt c = Except.ok true → a.lt c = Except.ok true) ∧
    (a.lt b = Except.ok false → b.lt a = Except.ok false → b.lt c = Except.ok false →
      c.lt b = Except.ok false → a.lt c = Except.ok false ∧ c.lt a = Except.ok false) ∧
    (a.lt b = Except.ok true ↔ keyBefore a.orderKey b.orderKey) ∧
    (a.start = Except.ok a.orderKey.start ∧ a.hasUsage = Except.ok a.orderKey.hasUsage ∧
      (a.orderKey.hasUsage = true → a.firstUsage = Except.ok a.orderKey.firstUsage) ∧
      a.orderKey.argument = a.argument ∧ a.orderKey.vr = a.vr ∧
      a.orderKey.isFixed = a.isFixed) := by
  have hT : ∀ x y : Interval, x.lifespans ≠ [] → y.lifespans ≠ [] →
      (x.lt y = Except.ok true ↔ keyBefore x.orderKey y.orderKey) := by
    intro x y hx hy
    rw [lt_eq_key x y hx hy, ← keyLt_iff]
    constructor
    · intro h
      exact Except.ok.inj h
    · intro h
      rw [h]
  have hF : ∀ x y : Interval, x.lifespans ≠ [] → y.lifespans ≠ [] →
      (x.lt y = Except.ok false ↔ ¬ keyBefore x.orderKey y.orderKey) := by
    intro x y hx hy
    rw [lt_eq_key x y hx hy, ← keyLt_iff]
    constructor
    · intro h
      rw [Except.ok.inj h]
      exact Bool.false_ne_true
    · intro h
      cases hk : keyLt x.orderKey y.orderKey
      · rfl
      · exact absurd hk h
  refine ⟨⟨_, lt_eq_key a b ha hb⟩, ?_, ?_, ?_, hT a b ha hb, key_of_interval a ha⟩
  · exact (hF a a ha ha).mpr (keyBefore_irrefl _)
  · intro h1 h2
    exact (hT a c ha hc).mpr (keyBefore_trans _ _ _ ((hT a b ha hb).mp h1)
      ((hT b c hb hc).mp h2))
  · intro h1 h2 h3 h4
    obtain ⟨g1, g2⟩ := keyBefore_incomparable _ _ _ ((hF a b ha hb).mp h1)
      ((hF b a hb ha).mp h2) ((hF b c hb hc).mp h3) ((hF c b hc hb).mp h4)
    exact ⟨(hF a c ha hc).mpr g1, (hF c a hc ha).mpr g2⟩

/-- C29 at three intervals that start at 0: the fixed one is before the one with the
first use at 2, which is before the one with the first use at 4, and so the first is
before the third. -/
theorem interval_lt_strict_weak_witness :
    orderedIntervals.1.lt orderedIntervals.2.1 = Except.ok true ∧
    orderedIntervals.2.1.lt orderedIntervals.2.2 = Except.ok true ∧
    orderedIntervals.1.lt orderedIntervals.2.2 = Except.ok true ∧
    orderedIntervals.1.lt orderedIntervals.1 = Except.ok false :=
  have h := interval_lt_strict_weak orderedIntervals.1 orderedIntervals.2.1
    orderedIntervals.2.2 (by decide) (by decide) (by decide)
  ⟨by rfl, by rfl, h.2.2.1 (by rfl) (by rfl), h.2.1⟩


/-! ## The cases NEG and NOT of `MachineCompiler::run` -/

theorem modrm_reg_byte (r k : Nat) (hk : k < 8) :
    ((0b11 <<< 6) ||| ((k &&& 0b111) <<< 3) ||| (r &&& 0b111)) % 256 = 192 + 8 * k + r % 8 := by
  have h : r &&& 0b111 = r % 8 := Nat.and_pow_two_sub_one_eq_mod r 3
  rw [h]
  have h8 : r % 8 < 8 := Nat.mod_lt _ (by decide)
  generalize r % 8 = m at h8
  interval_cases k <;> interval_cases m <;> rfl

theorem not_spec (buf : List Nat) (r : Nat) :
    not_ buf r = buf ++ [if isExtended r = true then 0x49 else 0x48, 0xF7, 0xD0 + r % 8] := by
  unfold not_ modrm opcode rex byte
  rw [modrm_reg_byte r 2 (by decide)]
  cases h : isExtended r <;> simp [rexFlags]

theorem prefixes_append (buf : List Nat) (size : OperandSize) (reg : Nat) (rm : RegMemOp) :
    prefixes buf size reg rm = buf ++ prefixes [] size reg rm := by
  unfold prefixes rex force_rex byte
  cases rm <;> simp only [] <;> repeat (first | split | simp)

theorem neg_spec (buf : List Nat) (r : Nat) (size : OperandSize) :
    neg buf r size = buf ++ prefixes [] size r (RegMemOp.reg r) ++
      [if size = OperandSize.BYTE then 0xF6 else 0xF7, 0xD8 + r % 8] := by
  unfold neg modrm opcode byte
  rw [modrm_reg_byte r 3 (by decide), prefixes_append]
  cases size <;> simp

theorem caseNOT_reg (intervals : List Interval) (stack : StackAllocator) (buf : List Nat)
    (id dst r : Nat) (hop : operandFor intervals stack id dst = Except.ok (RegMemOp.reg r)) :
    caseNOT intervals stack buf id dst = Except.ok (not_ buf r) := by
  unfold caseNOT
  rw [hop]
  rfl

theorem caseNEG_reg (intervals : List Interval) (stack : StackAllocator)
    (vrTypes : List (Nat × BType)) (buf : List Nat) (id dst r : Nat) (type : BType)
    (hop : operandFor intervals stack id dst = Except.ok (RegMemOp.reg r))
    (ht : omAt vrTypes dst = Except.ok type) :
    caseNEG intervals stack vrTypes buf id dst = Except.ok (neg buf r type.size) := by
  unfold caseNEG
  rw [hop]
  simp only [RegMemOp.rop, ht]

/-- C30 (the code departs from it): for a LIR `NEG` whose operand is held in the general
register `r`, the switch of `MachineCompiler::run` appends the `neg r` at the operand size
of the virtual register and then, because the case has no `break`, the three bytes of the
64-bit `not r`, exactly the bytes that a LIR `NOT` of the same operand appends. -/
theorem neg_falls_into_not (intervals : List Interval) (stack : StackAllocator)
    (vrTypes : List (Nat × BType)) (buf : List Nat) (id dst r : Nat) (type : BType)
    (hop : operandFor intervals stack id dst = Except.ok (RegMemOp.reg r))
    (ht : omAt vrTypes dst = Except.ok type) :
    runUnary intervals stack vrTypes buf ⟨Operation.NEG, id, Payload.unary dst⟩ =
      Except.ok (neg buf r type.size ++
        [if isExtended r = true then 0x49 else 0x48, 0xF7, 0xD0 + r % 8]) ∧
    neg buf r type.size = buf ++ prefixes [] type.size r (RegMemOp.reg r) ++
      [if type.size = OperandSize.BYTE then 0xF6 else 0xF7, 0xD8 + r % 8] ∧
    runUnary intervals stack vrTypes buf ⟨Operation.NEG, id, Payload.unary dst⟩ =
      runUnary intervals stack vrTypes (neg buf r type.size)
        ⟨Operation.NOT, id, Payload.unary dst⟩ := by
  have hneg : runUnary intervals stack vrTypes buf ⟨Operation.NEG, id, Payload.unary dst⟩ =
      Except.ok (not_ (neg buf r type.size) r) := by
    simp only [runUnary, caseNEG_reg intervals stack vrTypes buf id dst r type hop ht,
      caseNOT_reg intervals stack _ id dst r hop]
  have hnot : runUnary intervals stack vrTypes (neg buf r type.size)
      ⟨Operation.NOT, id, Payload.unary dst⟩ = Except.ok (not_ (neg buf r type.size) r) := by
    simp only [runUnary, caseNOT_reg intervals stack _ id dst r hop]
  refine ⟨?_, neg_spec buf r type.size, hneg.trans hnot.symm⟩
  rw [hneg, not_spec]

theorem neg_falls_into_not_witness :
    runUnary [unaryInterval RAX ⟨false, 6⟩] ⟨0, 0, 0, true⟩ [(0, ⟨false, 6⟩)] []
      ⟨Operation.NEG, 1, Payload.unary 0⟩ = Except.ok [0x48, 0xF7, 0xD8, 0x48, 0xF7, 0xD0] ∧
    runUnary [unaryInterval RAX ⟨false, 6⟩] ⟨0, 0, 0, true⟩ [(0, ⟨false, 6⟩)] []
      ⟨Operation.NEG, 1, Payload.unary 0⟩ =
      runUnary [unaryInterval RAX ⟨false, 6⟩] ⟨0, 0, 0, true⟩ [(0, ⟨false, 6⟩)]
        [0x48, 0xF7, 0xD8] ⟨Operation.NOT, 1, Payload.unary 0⟩ :=
  have h := neg_falls_into_not [unaryInterval RAX ⟨false, 6⟩] ⟨0, 0, 0, true⟩ [(0, ⟨false, 6⟩)]
    [] 1 0 RAX ⟨false, 6⟩ (by rfl) (by rfl)
  ⟨h.1, h.2.2⟩


/-! ## The register bank of a type -/

/-- C31 (the code departs from it): the type byte `0x87` is read as an array of `FLP32`,
for which neither `isInteger()` nor `isFloatingPoint()` holds although its size is that
of a pointer. Exactly one of the two holds for every other type: for every type that is
not an array of base type 7 or 8; the two never hold together, and every array type of
another base type is classified as integer. -/
theorem float_array_has_no_bank :
    Bytecode.readType [0x87] = Except.ok (⟨true, 7⟩, []) ∧
    BType.isInteger ⟨true, 7⟩ = false ∧ BType.isFloatingPoint ⟨true, 7⟩ = false ∧
    BType.size ⟨true, 7⟩ = OperandSize.QWORD ∧
    (∀ t : BType, ¬ (t.isInteger = true ∧ t.isFloatingPoint = true)) ∧
    (∀ t : BType, (t.isInteger = true ∨ t.isFloatingPoint = true) ↔
      ¬ (t.isArray = true ∧ (t.baseType = 7 ∨ t.baseType = 8))) ∧
    (∀ t : BType, t.isArray = true → t.baseType ≠ 7 → t.baseType ≠ 8 →
      t.isInteger = true ∧ t.isFloatingPoint = false) := by
  refine ⟨by rfl, by rfl, by rfl, by rfl, ?_, ?_, ?_⟩
  · intro t
    obtain ⟨a, b⟩ := t
    simp only [BType.isInteger, BType.isFloatingPoint, Bool.or_eq_true, Bool.and_eq_true,
      decide_eq_true_eq, Bool.not_eq_true']
    omega
  · intro t
    obtain ⟨a, b⟩ := t
    cases a <;>
      simp only [BType.isInteger, BType.isFloatingPoint, Bool.or_eq_true, Bool.and_eq_true,
        decide_eq_true_eq, Bool.not_true, Bool.not_false, Bool.false_eq_true, false_and,
        true_and, or_false, not_false_eq_true, iff_true] <;> omega
  · intro t ha h7 h8
    obtain ⟨a, b⟩ := t
    simp only at ha h7 h8
    subst ha
    simp only [BType.isInteger, BType.isFloatingPoint, Bool.or_eq_true, decide_eq_true_eq,
      Bool.not_true, Bool.false_and, and_true]
    omega

/-! ## `Interval::split` partitions the coverage -/

theorem splitLoop_fst_nil (pos : Int) (l : List Lifespan) :
    (splitLoop pos l).1 = [] ↔ l = [] ∨ ∃ x, l.head? = some x ∧ x.from_ = pos := by
  cases l with
  | nil => simp [splitLoop]
  | cons it rest =>
    unfold splitLoop
    by_cases h1 : it.from_ = pos
    · rw [if_pos h1]
      simp [h1]
    · rw [if_neg h1]
      by_cases h2 : it.from_ < pos ∧ it.to_ ≥ pos
      · rw [if_pos h2]
        simp [h1]
      · rw [if_neg h2]
        simp [h1]

theorem splitLoop_snd_nil (pos : Int) (l : List Lifespan) (hw : WellFormed l) :
    (splitLoop pos l).2 = [] ↔ ∀ a ∈ l, ¬ (a.from_ ≤ pos ∧ pos ≤ a.to_) := by
  induction l with
  | nil => simp [splitLoop]
  | cons it rest ih =>
    have hit := hw it (List.mem_cons_self _ _)
    have hrest : WellFormed rest := fun a ha => hw a (List.mem_cons_of_mem _ ha)
    unfold splitLoop
    by_cases h1 : it.from_ = pos
    · rw [if_pos h1]
      constructor
      · intro h
        exact absurd h (List.cons_ne_nil _ _)
      · intro h
        exact absurd ⟨le_of_eq h1, by omega⟩ (h it (List.mem_cons_self _ _))
    · rw [if_neg h1]
      by_cases h2 : it.from_ < pos ∧ it.to_ ≥ pos
      · rw [if_pos h2]
        constructor
        · intro h
          exact absurd h (List.cons_ne_nil _ _)
        · intro h
          exact absurd ⟨by omega, by omega⟩ (h it (List.mem_cons_self _ _))
      · rw [if_neg h2]
        simp only [List.mem_cons, forall_eq_or_imp]
        rw [ih hrest]
        constructor
        · intro h
          refine ⟨?_, h⟩
          intro hc
          apply h2
          constructor <;> omega
        · intro h
          exact h.2

theorem split_raises_iff (i : Interval) (pos : Nat) (hw : WellFormed i.lifespans) :
    (i.split pos = Except.error Err.invalidSplit ↔
      covers i.lifespans pos = false ∨ i.start = Except.ok (pos : Int)) ∧
    (∀ e, i.split pos = Except.error e → e = Err.invalidSplit) := by
  have key : ((splitLoop (pos : Int) i.lifespans).1 = [] ∨
      (splitLoop (pos : Int) i.lifespans).2 = []) ↔
      (covers i.lifespans pos = false ∨ i.start = Except.ok (pos : Int)) := by
    rw [splitLoop_fst_nil, splitLoop_snd_nil _ _ hw]
    have hc : covers i.lifespans pos = false ↔
        ∀ a ∈ i.lifespans, ¬ (a.from_ ≤ (pos : Int) ∧ (pos : Int) ≤ a.to_) := by
      rw [← Bool.not_eq_true, covers_iff]
      simp
    rw [hc]
    unfold Interval.start
    constructor
    · rintro ((h | ⟨x, hx, hx1⟩) | h)
      · left
        rw [h]
        simp
      · right
        rw [hx]
        show Except.ok x.from_ = Except.ok (pos : Int)
        rw [hx1]
      · left
        exact h
    · rintro (h | h)
      · right
        exact h
      · left
        right
        cases hh : i.lifespans.head? with
        | none => rw [hh] at h; exact Except.noConfusion h
        | some x =>
          rw [hh] at h
          simp only [Except.ok.injEq] at h
          exact ⟨x, rfl, h⟩
  unfold Interval.split
  simp only
  constructor
  · rw [← key]
    constructor
    · intro h
      by_contra hn
      rw [if_neg hn] at h
      exact Except.noConfusion h
    · intro h
      rw [if_pos h]
  · intro e he
    split at he
    · simp only [Except.error.injEq] at he
      exact he.symm
    · exact Except.noConfusion he

/-- C33: for an interval whose range list is sorted by `from`, pairwise disjoint and made
of ranges with `from <= to`, a `split(at)` that returns leaves a predecessor that covers
exactly the positions below `at` that the interval covered, and a successor that covers
exactly the covered positions from `at` on; `split(at)` raises
`InvalidIntervalSplittingException` exactly when `at` is not covered or is the start of
the interval, and raises nothing else. -/
theorem split_partitions_coverage (i : Interval) (pos : Nat)
    (hs : SortedByFrom i.lifespans) (hd : PairwiseDisjoint i.lifespans)
    (hw : WellFormed i.lifespans) :
    (∀ predecessor successor, i.split pos = Except.ok (predecessor, successor) →
      ∀ p : Nat,
        (covers predecessor.lifespans p = true ↔ covers i.lifespans p = true ∧ p < pos) ∧
        (covers successor.lifespans p = true ↔ covers i.lifespans p = true ∧ pos ≤ p)) ∧
    (i.split pos = Except.error Err.invalidSplit ↔
      covers i.lifespans pos = false ∨ i.start = Except.ok (pos : Int)) ∧
    (∀ e, i.split pos = Except.error e → e = Err.invalidSplit) := by
  refine ⟨?_, split_raises_iff i pos hw⟩
  intro predecessor successor h p
  have hok : RangesOK i.lifespans := rangesOK_of_shape hs hd hw
  obtain ⟨hne1, hne2⟩ := split_ne h
  obtain ⟨rfl, rfl⟩ := split_ok h
  simp only at hne1 hne2 ⊢
  obtain ⟨hokh, hokt, hbef, hwh, hwt, hcov⟩ :=
    splitLoop_spec (pos : Int) i.lifespans _ _ hok rfl
  obtain ⟨⟨x, hx, hx1⟩, _⟩ := splitLoop_border (pos : Int) i.lifespans _ _ rfl hne1 hne2
  have hxm : x ∈ (splitLoop (pos : Int) i.lifespans).2 := List.mem_of_mem_head? hx
  have hlow : ∀ a ∈ (splitLoop (pos : Int) i.lifespans).1, a.to_ < (pos : Int) := by
    intro a ha
    have := hbef a ha x hxm
    omega
  have hhigh : ∀ b ∈ (splitLoop (pos : Int) i.lifespans).2, (pos : Int) ≤ b.from_ := by
    intro b hb
    obtain ⟨y, hy, hy1⟩ := head_le_of_mem hokt hb
    rw [hx] at hy
    simp only [Option.some.injEq] at hy
    subst hy
    omega
  have hpre : covers (splitLoop (pos : Int) i.lifespans).1 p = true →
      covers i.lifespans p = true ∧ p < pos := by
    intro hc
    rw [covers_iff] at hc
    obtain ⟨a, ha, h1, h2⟩ := hc
    obtain ⟨b, hb, hb1, hb2⟩ := hwh a ha
    have := hlow a ha
    refine ⟨(covers_iff _ _).mpr ⟨b, hb, by omega, by omega⟩, by omega⟩
  have hsuc : covers (splitLoop (pos : Int) i.lifespans).2 p = true →
      covers i.lifespans p = true ∧ pos ≤ p := by
    intro hc
    rw [covers_iff] at hc
    obtain ⟨a, ha, h1, h2⟩ := hc
    obtain ⟨b, hb, hb1, hb2⟩ := hwt a ha
    have := hhigh a ha
    refine ⟨(covers_iff _ _).mpr ⟨b, hb, by omega, by omega⟩, by omega⟩
  constructor
  · refine ⟨hpre, ?_⟩
    rintro ⟨hc, hlt⟩
    rcases hcov p hc with h1 | h1
    · exact h1
    · have := (hsuc h1).2
      omega
  · refine ⟨hsuc, ?_⟩
    rintro ⟨hc, hle⟩
    rcases hcov p hc with h1 | h1
    · have := (hpre h1).2
      omega
    · exact h1

/-- C33 at the interval `[0,2] [10,12]`: split at 11, at the uncovered position 5 and
at the start 0. -/
theorem split_partitions_coverage_witness :
    gapInterval.split 11 = Except.ok
      ({ gapInterval with lifespans := [⟨0, 2⟩, ⟨10, 10⟩], hasFollower := true },
       { Interval.fresh with vr := gapInterval.vr, hasFollower := gapInterval.hasFollower,
                             usages := gapInterval.usages, type := gapInterval.type,
                             lifespans := [⟨11, 12⟩] }) ∧
    (∀ p : Nat,
      (covers [⟨0, 2⟩, ⟨10, 10⟩] p = true ↔ covers gapInterval.lifespans p = true ∧ p < 11) ∧
      (covers [⟨11, 12⟩] p = true ↔ covers gapInterval.lifespans p = true ∧ 11 ≤ p)) ∧
    gapInterval.split 5 = Except.error Err.invalidSplit ∧
    gapInterval.split 0 = Except.error Err.invalidSplit :=
  have hr : RangesOK gapInterval.lifespans := by
    unfold RangesOK
    decide
  have h := split_partitions_coverage gapInterval 11 (shape_of_rangesOK hr).1
    (shape_of_rangesOK hr).2.1 (shape_of_rangesOK hr).2.2
  ⟨by rfl, h.1 _ _ (by rfl), by rfl, by rfl⟩

/-! ## `Interval::intersectsWith` and `Interval::intersect` -/

theorem inRanges_cons (a : Lifespan) (l : List Lifespan) (p : Int) :
    InRanges (a :: l) p ↔ (a.from_ ≤ p ∧ p ≤ a.to_) ∨ InRanges l p := by
  simp [InRanges]

theorem inRanges_ge {l : List Lifespan} {a : Lifespan} (hok : RangesOK (a :: l)) {p : Int}
    (h : InRanges (a :: l) p) : a.from_ ≤ p := by
  obtain ⟨b, hb, h1, h2⟩ := h
  obtain ⟨x, hx, hx1⟩ := head_le_of_mem hok hb
  simp only [List.head?_cons, Option.some.injEq] at hx
  subst hx
  omega

theorem intersectLoop_spec : ∀ (fuel : Nat) (l m : List Lifespan), RangesOK l → RangesOK m →
    l.length + m.length ≤ fuel →
    (intersectLoop fuel l m = Except.ok none ∧ ∀ p, ¬ Common l m p) ∨
    (∃ a b, intersectLoop fuel l m = Except.ok (some (a, b)) ∧ a ∈ l ∧ b ∈ m ∧
      b.from_ ≤ a.to_ ∧ a.from_ ≤ b.to_ ∧ a.from_ ≤ a.to_ ∧ b.from_ ≤ b.to_ ∧
      ∀ p, Common l m p → a.from_ ≤ p ∧ b.from_ ≤ p) := by
  intro fuel
  induction fuel with
  | zero =>
    intro l m _ _ hf
    have hl : l = [] := List.eq_nil_of_length_eq_zero (by omega)
    subst hl
    left
    refine ⟨by simp [intersectLoop], ?_⟩
    rintro p ⟨⟨a, ha, _⟩, _⟩
    simp at ha
  | succ fuel ih =>
    intro l m hl hm hf
    cases l with
    | nil =>
      left
      refine ⟨by simp [intersectLoop], ?_⟩
      rintro p ⟨⟨a, ha, _⟩, _⟩
      simp at ha
    | cons that ts =>
      cases m with
      | nil =>
        left
        refine ⟨by simp [intersectLoop], ?_⟩
        rintro p ⟨_, ⟨a, ha, _⟩⟩
        simp at ha
      | cons those os =>
        obtain ⟨hw1, hlt1, hts⟩ := rangesOK_cons.mp hl
        obtain ⟨hw2, hlt2, hos⟩ := rangesOK_cons.mp hm
        simp only [List.length_cons] at hf
        unfold intersectLoop
        by_cases c1 : that.to_ < those.from_
        · rw [if_pos c1]
          have hnot : ∀ p, Common (that :: ts) (those :: os) p → Common ts (those :: os) p := by
            rintro p ⟨h1, h2⟩
            have hge := inRanges_ge hm h2
            rcases (inRanges_cons _ _ _).mp h1 with h | h
            · omega
            · exact ⟨h, h2⟩
          rcases ih ts (those :: os) hts hm (by simp only [List.length_cons]; omega) with
            ⟨hr, hn⟩ | ⟨a, b, hr, ha, hb, h1, h2, h3, h4, hmin⟩
          · left
            exact ⟨hr, fun p hp => hn p (hnot p hp)⟩
          · right
            exact ⟨a, b, hr, List.mem_cons_of_mem _ ha, hb, h1, h2, h3, h4,
              fun p hp => hmin p (hnot p hp)⟩
        · rw [if_neg c1]
          by_cases c2 : those.to_ < that.from_
          · rw [if_pos c2]
            have hnot : ∀ p, Common (that :: ts) (those :: os) p →
                Common (that :: ts) os p := by
              rintro p ⟨h1, h2⟩
              have hge := inRanges_ge hl h1
              rcases (inRanges_cons _ _ _).mp h2 with h | h
              · omega
              · exact ⟨h1, h⟩
            rcases ih (that :: ts) os hl hos (by simp only [List.length_cons]; omega) with
              ⟨hr, hn⟩ | ⟨a, b, hr, ha, hb, h1, h2, h3, h4, hmin⟩
            · left
              exact ⟨hr, fun p hp => hn p (hnot p hp)⟩
            · right
              exact ⟨a, b, hr, ha, List.mem_cons_of_mem _ hb, h1, h2, h3, h4,
                fun p hp => hmin p (hnot p hp)⟩
          · rw [if_neg c2, if_pos ⟨by omega, by omega⟩]
            right
            refine ⟨that, those, rfl, List.mem_cons_self _ _, List.mem_cons_self _ _,
              by omega, by omega, hw1, hw2, ?_⟩
            rintro p ⟨h1, h2⟩
            exact ⟨inRanges_ge hl h1, inRanges_ge hm h2⟩

theorem intersectLoop_returns : ∀ (fuel : Nat) (l m : List Lifespan),
    l.length + m.length ≤ fuel → ∃ r, intersectLoop fuel l m = Except.ok r := by
  intro fuel
  induction fuel with
  | zero =>
    intro l m hf
    have hl : l = [] := List.eq_nil_of_length_eq_zero (by omega)
    subst hl
    exact ⟨none, by simp [intersectLoop]⟩
  | succ fuel ih =>
    intro l m hf
    cases l with
    | nil => exact ⟨none, by simp [intersectLoop]⟩
    | cons that ts =>
      cases m with
      | nil => exact ⟨none, by simp [intersectLoop]⟩
      | cons those os =>
        simp only [List.length_cons] at hf
        unfold intersectLoop
        by_cases c1 : that.to_ < those.from_
        · rw [if_pos c1]
          exact ih ts (those :: os) (by simp only [List.length_cons]; omega)
        · rw [if_neg c1]
          by_cases c2 : those.to_ < that.from_
          · rw [if_pos c2]
            exact ih (that :: ts) os (by simp only [List.length_cons]; omega)
          · rw [if_neg c2, if_pos ⟨by omega, by omega⟩]
            exact ⟨_, rfl⟩

theorem intersectLoop_fuel : ∀ (fuel fuel1 : Nat) (l m : List Lifespan),
    l.length + m.length ≤ fuel → l.length + m.length ≤ fuel1 →
    intersectLoop fuel l m = intersectLoop fuel1 l m := by
  intro fuel
  induction fuel with
  | zero =>
    intro fuel1 l m hf _
    have hl : l = [] := List.eq_nil_of_length_eq_zero (by omega)
    subst hl
    simp [intersectLoop]
  | succ fuel ih =>
    intro fuel1 l m hf hf1
    cases l with
    | nil => simp [intersectLoop]
    | cons that ts =>
      cases m with
      | nil => simp [intersectLoop]
      | cons those os =>
        simp only [List.length_cons] at hf hf1
        cases fuel1 with
        | zero => omega
        | succ fuel1 =>
          simp only [intersectLoop]
          by_cases c1 : that.to_ < those.from_
          · rw [if_pos c1, if_pos c1]
            exact ih fuel1 ts (those :: os) (by simp only [List.length_cons]; omega)
              (by simp only [List.length_cons]; omega)
          · rw [if_neg c1, if_neg c1]
            by_cases c2 : those.to_ < that.from_
            · rw [if_pos c2, if_pos c2]
              exact ih fuel1 (that :: ts) os (by simp only [List.length_cons]; omega)
                (by simp only [List.length_cons]; omega)
            · rw [if_neg c2, if_neg c2, if_pos ⟨by omega, by omega⟩,
                if_pos ⟨by omega, by omega⟩]

theorem intersect_spec (i other : Interval) (hi : RangesOK i.lifespans)
    (ho : RangesOK other.lifespans) :
    (i.intersectsWith other = Except.ok false ∧
      i.intersect other = Except.error Err.invalidResult ∧
      ∀ p, ¬ Common i.lifespans other.lifespans p) ∨
    (∃ q, i.intersectsWith other = Except.ok true ∧ i.intersect other = Except.ok (toU16 q) ∧
      Common i.lifespans other.lifespans q ∧
      ∀ p, Common i.lifespans other.lifespans p → q ≤ p) := by
  unfold Interval.intersectsWith Interval.intersect
  rcases intersectLoop_spec _ i.lifespans other.lifespans hi ho (le_refl _) with
    ⟨hr, hn⟩ | ⟨a, b, hr, ha, hb, h1, h2, h3, h4, hmin⟩
  · left
    rw [hr]
    exact ⟨rfl, rfl, hn⟩
  · right
    rw [hr]
    by_cases c : a.from_ ≤ b.from_
    · refine ⟨b.from_, rfl, ?_, ⟨⟨a, ha, c, h1⟩, ⟨b, hb, le_refl _, h4⟩⟩, ?_⟩
      · simp only [if_pos c]
      · intro p hp
        exact (hmin p hp).2
    · refine ⟨a.from_, rfl, ?_, ⟨⟨a, ha, le_refl _, h3⟩, ⟨b, hb, by omega, h2⟩⟩, ?_⟩
      · simp only [if_neg c]
      · intro p hp
        exact (hmin p hp).1

theorem toU16_of_nonneg (q : Int) (h0 : 0 ≤ q) (h1 : q < 65536) : toU16 q = q.toNat := by
  unfold toU16
  rw [Int.emod_eq_of_lt h0 h1]

/-- C34 (counterexample): two parameter intervals `[-1,3]` and `[-1,5]` have sorted,
pairwise disjoint range lists and the smallest position in both is -1, but `intersect`
returns 65535, the conversion of -1 to `u16`, a position that neither interval
covers. -/
theorem intersect_wraps_before_entry :
    (SortedByFrom entryIntervals.1.lifespans ∧ PairwiseDisjoint entryIntervals.1.lifespans ∧
      WellFormed entryIntervals.1.lifespans) ∧
    (SortedByFrom entryIntervals.2.lifespans ∧ PairwiseDisjoint entryIntervals.2.lifespans ∧
      WellFormed entryIntervals.2.lifespans) ∧
    Common entryIntervals.1.lifespans entryIntervals.2.lifespans (-1) ∧
    (∀ p, Common entryIntervals.1.lifespans entryIntervals.2.lifespans p → -1 ≤ p) ∧
    entryIntervals.1.intersectsWith entryIntervals.2 = Except.ok true ∧
    entryIntervals.1.intersect entryIntervals.2 = Except.ok 65535 ∧
    ¬ Common entryIntervals.1.lifespans entryIntervals.2.lifespans 65535 ∧
    covers entryIntervals.1.lifespans 65535 = false ∧
    covers entryIntervals.2.lifespans 65535 = false := by
  have h1 : RangesOK entryIntervals.1.lifespans := by unfold RangesOK; decide
  have h2 : RangesOK entryIntervals.2.lifespans := by unfold RangesOK; decide
  refine ⟨shape_of_rangesOK h1, shape_of_rangesOK h2, ?_, ?_, by rfl, by rfl, ?_, by rfl,
    by rfl⟩
  · exact ⟨⟨⟨-1, 3⟩, List.mem_singleton.mpr rfl, by decide, by decide⟩,
      ⟨⟨-1, 5⟩, List.mem_singleton.mpr rfl, by decide, by decide⟩⟩
  · rintro p ⟨⟨a, ha, h, _⟩, _⟩
    have ha1 : a = ⟨-1, 3⟩ := List.mem_singleton.mp ha
    subst ha1
    exact h
  · rintro ⟨⟨a, ha, _, h⟩, _⟩
    have ha1 : a = ⟨-1, 3⟩ := List.mem_singleton.mp ha
    subst ha1
    have h3 : (65535 : Int) ≤ 3 := h
    omega

/-- C34 (amended): for two intervals whose range lists are sorted by `from`, pairwise
disjoint and made of ranges with `from <= to`, the loop of `intersectsWith` and
`intersect` returns with every bound of at least the two lengths together and with the
same result; `intersectsWith` returns true exactly when some position lies in a range of
both; in that case `intersect` returns the smallest such position converted to `u16`,
which is that position when it lies in 0..65535; when no position is common,
`intersect` raises `InvalidResultException`. -/
theorem intersect_finds_first_common (i other : Interval)
    (hs : SortedByFrom i.lifespans) (hd : PairwiseDisjoint i.lifespans)
    (hw : WellFormed i.lifespans) (hs1 : SortedByFrom other.lifespans)
    (hd1 : PairwiseDisjoint other.lifespans) (hw1 : WellFormed other.lifespans) :
    (∀ fuel, i.lifespans.length + other.lifespans.length ≤ fuel →
      (∃ r, intersectLoop fuel i.lifespans other.lifespans = Except.ok r) ∧
      intersectLoop fuel i.lifespans other.lifespans =
        intersectLoop (i.lifespans.length + other.lifespans.length) i.lifespans
          other.lifespans) ∧
    (∃ b, i.intersectsWith other = Except.ok b ∧
      (b = true ↔ ∃ p, Common i.lifespans other.lifespans p)) ∧
    ((∃ p, Common i.lifespans other.lifespans p) →
      ∃ q, Common i.lifespans other.lifespans q ∧
        (∀ p, Common i.lifespans other.lifespans p → q ≤ p) ∧
        i.intersect other = Except.ok (toU16 q) ∧
        (0 ≤ q → q < 65536 → i.intersect other = Except.ok q.toNat)) ∧
    ((¬ ∃ p, Common i.lifespans other.lifespans p) →
      i.intersect other = Except.error Err.invalidResult) := by
  have hi : RangesOK i.lifespans := rangesOK_of_shape hs hd hw
  have ho : RangesOK other.lifespans := rangesOK_of_shape hs1 hd1 hw1
  refine ⟨?_, ?_, ?_, ?_⟩
  · intro fuel hf
    exact ⟨intersectLoop_returns fuel _ _ hf, intersectLoop_fuel fuel _ _ _ hf (le_refl _)⟩
  · rcases intersect_spec i other hi ho with ⟨h1, _, hn⟩ | ⟨q, h1, _, hc, _⟩
    · refine ⟨false, h1, ?_⟩
      constructor
      · intro h
        exact Bool.noConfusion h
      · rintro ⟨p, hp⟩
        exact absurd hp (hn p)
    · exact ⟨true, h1, fun _ => ⟨q, hc⟩, fun _ => rfl⟩
  · rintro ⟨p, hp⟩
    rcases intersect_spec i other hi ho with ⟨_, _, hn⟩ | ⟨q, _, h2, hc, hmin⟩
    · exact absurd hp (hn p)
    · refine ⟨q, hc, hmin, h2, ?_⟩
      intro h0 h1
      rw [h2, toU16_of_nonneg q h0 h1]
  · intro hno
    rcases intersect_spec i other hi ho with ⟨_, h2, _⟩ | ⟨q, _, _, hc, _⟩
    · exact h2
    · exact absurd ⟨q, hc⟩ hno

/-- C34 at the intervals `[0,2] [10,12]` and `[4,6] [11,20]`: the first common position
is 11. -/
theorem intersect_finds_first_common_witness :
    holeIntervals.1.intersectsWith holeIntervals.2 = Except.ok true ∧
    holeIntervals.1.intersect holeIntervals.2 = Except.ok 11 ∧
    ∃ q, Common holeIntervals.1.lifespans holeIntervals.2.lifespans q ∧
      (∀ p, Common holeIntervals.1.lifespans holeIntervals.2.lifespans p → q ≤ p) ∧
      holeIntervals.1.intersect holeIntervals.2 = Except.ok (toU16 q) :=
  have h1 : RangesOK holeIntervals.1.lifespans := by unfold RangesOK; decide
  have h2 : RangesOK holeIntervals.2.lifespans := by unfold RangesOK; decide
  have h := intersect_finds_first_common holeIntervals.1 holeIntervals.2
    (shape_of_rangesOK h1).1 (shape_of_rangesOK h1).2.1 (shape_of_rangesOK h1).2.2
    (shape_of_rangesOK h2).1 (shape_of_rangesOK h2).2.1 (shape_of_rangesOK h2).2.2
  have hc : Common holeIntervals.1.lifespans holeIntervals.2.lifespans 11 :=
    ⟨⟨⟨10, 12⟩, List.mem_cons_of_mem _ (List.mem_singleton.mpr rfl), by decide, by decide⟩,
      ⟨⟨11, 20⟩, List.mem_cons_of_mem _ (List.mem_singleton.mpr rfl), by decide, by decide⟩⟩
  have h3 := h.2.2.1 ⟨11, hc⟩
  ⟨by rfl, by rfl, h3.elim fun q hq => ⟨q, hq.1, hq.2.1, hq.2.2.1⟩⟩


/-! ## The frame layout of the stack allocator -/

theorem reserveSlots_spec (A : Nat) (hA : A ≤ 65535) : ∀ (calls : List Reservation)
    (a : StackAllocator), a.frozen = false →
    (∀ i ∈ argumentIndices calls, 8 * i + 8 ≤ A) → (argumentIndices calls).Nodup →
    a.bytesScratch + 8 * scratchCount calls ≤ 65535 →
    a.bytesArguments + 8 * (argumentIndices calls).length ≤ 65535 →
    ∃ slots r, reserveSlots a calls = Except.ok (slots, r) ∧ r.frozen = false ∧
      r.padding = a.padding ∧
      r.bytesArguments = a.bytesArguments + 8 * (argumentIndices calls).length ∧
      r.bytesScratch = a.bytesScratch + 8 * scratchCount calls ∧
      slots.length = calls.length ∧
      (∀ s ∈ slots, (s.type = StackType.ARGUMENT ∧ ∃ i ∈ argumentIndices calls, s.index = 8 * i) ∨
        (s.type = StackType.SCRATCH ∧ a.bytesScratch ≤ s.index ∧
          s.index + 8 ≤ a.bytesScratch + 8 * scratchCount calls)) ∧
      slots.Pairwise (fun s t => s.type = t.type →
        s.index + 8 ≤ t.index ∨ t.index + 8 ≤ s.index) := by
  intro calls
  induction calls with
  | nil =>
    intro a ha _ _ _ _
    refine ⟨[], a, rfl, ha, rfl, by simp [argumentIndices], by simp [scratchCount], rfl, ?_,
      List.Pairwise.nil⟩
    intro s hs
    simp at hs
  | cons c rest ih =>
    intro a ha hidx hnd hS hAr
    cases c with
    | argument index =>
      simp only [argumentIndices, List.mem_cons, forall_eq_or_imp, List.nodup_cons,
        List.length_cons, scratchCount] at hidx hnd hS hAr
      obtain ⟨slots, r, hr, hf, hp, hba, hbs, hlen, hsl, hpw⟩ :=
        ih { a with bytesArguments := (a.bytesArguments + 8) % 65536 } ha hidx.2 hnd.2 hS
          (by show (a.bytesArguments + 8) % 65536 + _ ≤ _; omega)
      refine ⟨⟨StackType.ARGUMENT, OperandSize.QWORD, (index * 8) % 65536⟩ :: slots, r, ?_, hf,
        hp, ?_, ?_, by simp [hlen], ?_, ?_⟩
      · unfold reserveSlots StackAllocator.reserveArgument
        simp only [ha] at hr
        simp only [ha, Bool.false_eq_true, if_false, hr]
      · rw [hba]
        show (a.bytesArguments + 8) % 65536 + _ = _
        simp only [argumentIndices, List.length_cons]
        omega
      · rw [hbs]
        rfl
      · intro s hs
        rcases List.mem_cons.mp hs with rfl | hs
        · left
          refine ⟨rfl, index, by simp [argumentIndices], ?_⟩
          show index * 8 % 65536 = 8 * index
          omega
        · rcases hsl s hs with ⟨h1, i, hi, h2⟩ | ⟨h1, h2, h3⟩
          · left
            exact ⟨h1, i, by simp [argumentIndices, hi], h2⟩
          · right
            exact ⟨h1, h2, by simpa [scratchCount] using h3⟩
      · refine List.pairwise_cons.mpr ⟨?_, hpw⟩
        intro t ht hty
        rcases hsl t ht with ⟨_, i, hi, h2⟩ | ⟨h1, _, _⟩
        · have hne : index ≠ i := fun h => hnd.1 (h ▸ hi)
          show index * 8 % 65536 + 8 ≤ t.index ∨ t.index + 8 ≤ index * 8 % 65536
          have := hidx.1
          omega
        · rw [h1] at hty
          exact StackType.noConfusion hty
    | scratch =>
      simp only [argumentIndices, scratchCount] at hidx hnd hS hAr
      obtain ⟨slots, r, hr, hf, hp, hba, hbs, hlen, hsl, hpw⟩ :=
        ih { a with bytesScratch := (a.bytesScratch + 8) % 65536 } ha hidx hnd
          (by show (a.bytesScratch + 8) % 65536 + _ ≤ _; omega) hAr
      refine ⟨⟨StackType.SCRATCH, OperandSize.QWORD, a.bytesScratch⟩ :: slots, r, ?_, hf,
        hp, ?_, ?_, by simp [hlen], ?_, ?_⟩
      · unfold reserveSlots StackAllocator.reserveScratch
        simp only [ha] at hr
        simp only [ha, Bool.false_eq_true, if_false, hr]
      · rw [hba]
        rfl
      · rw [hbs]
        show (a.bytesScratch + 8) % 65536 + _ = _
        simp only [scratchCount]
        omega
      · intro s hs
        rcases List.mem_cons.mp hs with rfl | hs
        · right
          refine ⟨rfl, le_refl _, ?_⟩
          simp only [scratchCount]
          omega
        · rcases hsl s hs with ⟨h1, i, hi, h2⟩ | ⟨h1, h2, h3⟩
          · left
            exact ⟨h1, i, by simpa [argumentIndices] using hi, h2⟩
          · right
            have h2a : (a.bytesScratch + 8) % 65536 ≤ s.index := h2
            have h3a : s.index + 8 ≤ (a.bytesScratch + 8) % 65536 + 8 * scratchCount rest := h3
            refine ⟨h1, by omega, ?_⟩
            simp only [scratchCount]
            omega
      · refine List.pairwise_cons.mpr ⟨?_, hpw⟩
        intro t ht hty
        rcases hsl t ht with ⟨h1, _⟩ | ⟨_, h2, _⟩
        · rw [h1] at hty
          exact StackType.noConfusion hty
        · have h2a : (a.bytesScratch + 8) % 65536 ≤ t.index := h2
          show a.bytesScratch + 8 ≤ t.index ∨ t.index + 8 ≤ a.bytesScratch
          omega

theorem freeze_fields (a : StackAllocator) :
    a.freeze.bytesArguments = a.bytesArguments ∧ a.freeze.bytesScratch = a.bytesScratch ∧
    a.freeze.frozen = true ∧
    (a.bytesArguments % 8 = 0 → a.bytesScratch % 8 = 0 → a.freeze.padding ≤ 8) := by
  refine ⟨rfl, rfl, rfl, ?_⟩
  intro h1 h2
  unfold StackAllocator.freeze
  simp only
  split
  · omega
  · split <;> omega

theorem addresses_argument (a : StackAllocator) (hf : a.frozen = true) (size : OperandSize)
    (index : Nat) : a.Addresses ⟨StackType.ARGUMENT, size, index⟩ (index : Int) := by
  unfold StackAllocator.Addresses StackAllocator.getAddressing
  simp only [hf, Bool.not_true, Bool.false_eq_true, if_false]

theorem addresses_scratch (a : StackAllocator) (hf : a.frozen = true) (size : OperandSize)
    (index : Nat) :
    a.Addresses ⟨StackType.SCRATCH, size, index⟩
      ((a.bytesArguments : Int) + a.padding + index) := by
  unfold StackAllocator.Addresses StackAllocator.getAddressing
  simp only [hf, Bool.not_true, Bool.false_eq_true, if_false]

theorem addresses_parameter (a : StackAllocator) (hf : a.frozen = true) (size : OperandSize)
    (index : Nat) :
    a.Addresses ⟨StackType.PARAMETER, size, index⟩
      ((a.getStackSize : Int) + 8 + index) := by
  unfold StackAllocator.Addresses StackAllocator.getAddressing
  simp only [hf, Bool.not_true, Bool.false_eq_true, if_false]

theorem addresses_unique (a : StackAllocator) (s : StackSlot) (o1 o2 : Int)
    (h1 : a.Addresses s o1) (h2 : a.Addresses s o2) : o1 = o2 := by
  unfold StackAllocator.Addresses at h1 h2
  rw [h1] at h2
  simp only [Except.ok.injEq, MemOp.mk.injEq, true_and] at h2
  exact h2

theorem frame_layout (calls : List Reservation) (n : Nat)
    (hperm : (argumentIndices calls).Perm (List.range n))
    (hb : 8 * (n + scratchCount calls) + 8 ≤ 65535) :
    ∃ slots a, reserveSlots ⟨0, 0, 0, false⟩ calls = Except.ok (slots, a) ∧
      a.frozen = false ∧ slots.length = calls.length ∧
      (∀ s ∈ slots, ∃ off : Int, a.freeze.Addresses s off ∧ 0 ≤ off ∧
        off + 8 ≤ (a.freeze.getStackSize : Int)) ∧
      slots.Pairwise (fun s t => ∀ o1 o2, a.freeze.Addresses s o1 → a.freeze.Addresses t o2 →
        RegionsDisjoint o1 o2) := by
  have hmem : ∀ i ∈ argumentIndices calls, 8 * i + 8 ≤ 8 * n := by
    intro i hi
    have := List.mem_range.mp (hperm.mem_iff.mp hi)
    omega
  have hnd : (argumentIndices calls).Nodup := hperm.nodup_iff.mpr (List.nodup_range n)
  have hlen : (argumentIndices calls).length = n := by
    rw [hperm.length_eq, List.length_range]
  obtain ⟨slots, r, hr, hf, hp, hba, hbs, hl, hsl, hpw⟩ :=
    reserveSlots_spec (8 * n) (by omega) calls ⟨0, 0, 0, false⟩ rfl hmem hnd
      (by show 0 + _ ≤ _; omega) (by show 0 + _ ≤ _; rw [hlen]; omega)
  rw [hlen] at hba
  have hba1 : r.bytesArguments = 8 * n := by rw [hba]; show 0 + _ = _; omega
  have hbs1 : r.bytesScratch = 8 * scratchCount calls := by rw [hbs]; show 0 + _ = _; omega
  obtain ⟨f1, f2, f3, f4⟩ := freeze_fields r
  have hpad := f4 (by omega) (by omega)
  have hsize : r.freeze.getStackSize =
      8 * n + r.freeze.padding + 8 * scratchCount calls := by
    unfold StackAllocator.getStackSize
    rw [f1, f2, hba1, hbs1]
    omega
  have haddr : ∀ s ∈ slots, ∃ off : Int, r.freeze.Addresses s off ∧ 0 ≤ off ∧
      off + 8 ≤ (r.freeze.getStackSize : Int) ∧
      ((s.type = StackType.ARGUMENT ∧ off = s.index ∧ s.index + 8 ≤ 8 * n) ∨
        (s.type = StackType.SCRATCH ∧ off = (8 * n : Nat) + r.freeze.padding + s.index)) := by
    intro s hs
    obtain ⟨ty, sz, idx⟩ := s
    rcases hsl _ hs with ⟨h1, i, hi, h2⟩ | ⟨h1, h2, h3⟩
    · simp only at h1 h2
      subst h1
      have := hmem i hi
      refine ⟨(idx : Int), addresses_argument _ f3 _ _, by omega, ?_, Or.inl ⟨rfl, rfl, ?_⟩⟩
      · rw [hsize]
        push_cast
        omega
      · show idx + 8 ≤ 8 * n
        omega
    · simp only at h1 h2 h3
      subst h1
      have h3a : idx + 8 ≤ 0 + 8 * scratchCount calls := h3
      refine ⟨_, addresses_scratch _ f3 _ _, by omega, ?_, Or.inr ⟨rfl, ?_⟩⟩
      · rw [hsize, f1, hba1]
        push_cast
        omega
      · rw [f1, hba1]
  refine ⟨slots, r, hr, hf, hl, ?_, ?_⟩
  · intro s hs
    obtain ⟨off, h1, h2, h3, _⟩ := haddr s hs
    exact ⟨off, h1, h2, h3⟩
  · refine hpw.imp_of_mem ?_
    intro s t hs ht hrel o1 o2 ho1 ho2
    obtain ⟨p1, a1, _, _, c1⟩ := haddr s hs
    obtain ⟨p2, a2, _, _, c2⟩ := haddr t ht
    have e1 := addresses_unique _ _ _ _ ho1 a1
    have e2 := addresses_unique _ _ _ _ ho2 a2
    subst e1 e2
    unfold RegionsDisjoint
    rcases c1 with ⟨t1, q1, b1⟩ | ⟨t1, q1⟩ <;> rcases c2 with ⟨t2, q2, b2⟩ | ⟨t2, q2⟩
    · have := hrel (t1.trans t2.symm)
      omega
    · push_cast at q2
      omega
    · push_cast at q1
      omega
    · have := hrel (t1.trans t2.symm)
      push_cast at q1 q2
      omega

theorem reserveSlots_scratch : ∀ (k : Nat) (a : StackAllocator), a.frozen = false →
    a.bytesScratch < 65536 →
    reserveSlots a (List.replicate k Reservation.scratch) =
      Except.ok ((List.range k).map (fun j =>
          (⟨StackType.SCRATCH, OperandSize.QWORD, (a.bytesScratch + 8 * j) % 65536⟩ : StackSlot)),
        { a with bytesScratch := (a.bytesScratch + 8 * k) % 65536 }) := by
  intro k
  induction k with
  | zero =>
    intro a _ hb
    simp only [List.replicate, reserveSlots, List.range_zero, List.map_nil, Nat.mul_zero,
      Nat.add_zero, Nat.mod_eq_of_lt hb]
  | succ k ih =>
    intro a ha hb
    have h1 := ih { a with bytesScratch := (a.bytesScratch + 8) % 65536 } ha
      (Nat.mod_lt _ (by decide))
    simp only [List.replicate]
    unfold reserveSlots StackAllocator.reserveScratch
    simp only [ha] at h1
    simp only [ha, Bool.false_eq_true, if_false, h1, List.range_succ_eq_map, List.map_cons,
      List.map_map, Nat.mul_zero, Nat.add_zero, Nat.mod_eq_of_lt hb, Except.ok.injEq,
      Prod.mk.injEq, List.cons.injEq, true_and, StackAllocator.mk.injEq, and_true]
    constructor
    · apply List.map_congr_left
      intro j _
      simp only [Function.comp, StackSlot.mk.injEq, true_and]
      omega
    · omega

/-- C36 (counterexample): 8193 calls of `reserveScratch` on a new allocator (and no
argument) wrap the `u16` counter `bytesScratch`: the first and the last slot returned are
both the scratch slot with index 0, addressed at `RSP + 0` after `freeze()`, and the
frame size is 8. -/
theorem scratch_slots_wrap :
    argumentIndices (List.replicate 8193 Reservation.scratch) = List.range 0 ∧
    ∃ slots a, reserveSlots ⟨0, 0, 0, false⟩ (List.replicate 8193 Reservation.scratch) =
        Except.ok (slots, a) ∧
      slots[0]? = some ⟨StackType.SCRATCH, OperandSize.QWORD, 0⟩ ∧
      slots[8192]? = some ⟨StackType.SCRATCH, OperandSize.QWORD, 0⟩ ∧
      a.freeze.Addresses ⟨StackType.SCRATCH, OperandSize.QWORD, 0⟩ 0 ∧
      a.freeze.getStackSize = 8 ∧ ¬ RegionsDisjoint 0 0 := by
  constructor
  · have h : ∀ k, argumentIndices (List.replicate k Reservation.scratch) = [] := by
      intro k
      induction k with
      | zero => rfl
      | succ k ih => simpa [List.replicate, argumentIndices] using ih
    rw [h]
    rfl
  · refine ⟨_, _, reserveSlots_scratch 8193 ⟨0, 0, 0, false⟩ rfl (by decide), ?_, ?_, ?_, ?_, ?_⟩
    · rw [List.getElem?_map, List.getElem?_range (by norm_num)]
      rfl
    · rw [List.getElem?_map, List.getElem?_range (by norm_num)]
      rfl
    · have e : (0 + 8 * 8193) % 65536 = 8 := by norm_num
      show StackAllocator.Addresses (StackAllocator.freeze ⟨0, (0 + 8 * 8193) % 65536, 0, false⟩) _ _
      rw [e]
      rfl
    · have e : (0 + 8 * 8193) % 65536 = 8 := by norm_num
      show StackAllocator.getStackSize (StackAllocator.freeze ⟨0, (0 + 8 * 8193) % 65536, 0, false⟩) = 8
      rw [e]
      rfl
    · unfold RegionsDisjoint
      omega

/-- C36 (amended): when `reserveArgument` is called exactly once for each index below `n`
and `reserveScratch` `m` times, in any order, on a new allocator, and the frame stays
below 64 KiB (`8 * (n + m) + 8 <= 65535`), then after `freeze()` the 8-byte regions that
`getAddressing` gives for the returned slots are pairwise disjoint and lie inside
`[RSP, RSP + getStackSize())`; a PARAMETER slot with index `8 * i` is addressed at
`RSP + getStackSize() + 8 + 8 * i`; a reservation after `freeze()` raises
`StackModificationException`, and `getAddressing` before `freeze()` raises
`std::runtime_error`. -/
theorem frame_slots_disjoint (calls : List Reservation) (n : Nat)
    (hperm : (argumentIndices calls).Perm (List.range n))
    (hb : 8 * (n + scratchCount calls) + 8 ≤ 65535) :
    ∃ slots a, reserveSlots ⟨0, 0, 0, false⟩ calls = Except.ok (slots, a) ∧
      slots.length = calls.length ∧
      (∀ s ∈ slots, ∃ off : Int, a.freeze.Addresses s off ∧ 0 ≤ off ∧
        off + 8 ≤ (a.freeze.getStackSize : Int)) ∧
      slots.Pairwise (fun s t => ∀ o1 o2, a.freeze.Addresses s o1 → a.freeze.Addresses t o2 →
        RegionsDisjoint o1 o2) ∧
      (∀ (i : Nat) (size : OperandSize),
        a.freeze.Addresses ⟨StackType.PARAMETER, size, 8 * i⟩
          ((a.freeze.getStackSize : Int) + 8 + 8 * i)) ∧
      (∀ index, a.freeze.reserveArgument index = Except.error Err.stackModification) ∧
      a.freeze.reserveScratch = Except.error Err.stackModification ∧
      (∀ slot, a.getAddressing slot = Except.error Err.runtimeError) := by
  obtain ⟨slots, a, h1, hf, h2, h3, h4⟩ := frame_layout calls n hperm hb
  refine ⟨slots, a, h1, h2, h3, h4, ?_, ?_, ?_, ?_⟩
  · intro i size
    have := addresses_parameter a.freeze rfl size (8 * i)
    push_cast at this
    exact this
  · intro index
    rfl
  · rfl
  · intro slot
    unfold StackAllocator.getAddressing
    simp only [hf, Bool.not_false, if_true]

/-- C36 at the calls `reserveArgument(1)`, `reserveScratch`, `reserveArgument(0)`,
`reserveScratch`: the arguments are at `RSP + 8` and `RSP + 0`, the scratch slots at
`RSP + 24` and `RSP + 32` in a frame of 40 bytes. -/
theorem frame_slots_disjoint_witness :
    ∃ slots a, reserveSlots ⟨0, 0, 0, false⟩ [Reservation.argument 1, Reservation.scratch,
        Reservation.argument 0, Reservation.scratch] = Except.ok (slots, a) ∧
      slots = [⟨StackType.ARGUMENT, OperandSize.QWORD, 8⟩, ⟨StackType.SCRATCH, OperandSize.QWORD, 0⟩,
        ⟨StackType.ARGUMENT, OperandSize.QWORD, 0⟩, ⟨StackType.SCRATCH, OperandSize.QWORD, 8⟩] ∧
      a.freeze.getStackSize = 40 ∧
      a.freeze.Addresses ⟨StackType.SCRATCH, OperandSize.QWORD, 0⟩ 24 ∧
      slots.Pairwise (fun s t => ∀ o1 o2, a.freeze.Addresses s o1 → a.freeze.Addresses t o2 →
        RegionsDisjoint o1 o2) :=
  have h := frame_slots_disjoint [Reservation.argument 1, Reservation.scratch,
    Reservation.argument 0, Reservation.scratch] 2
    (by
      show List.Perm [1, 0] [0, 1]
      exact List.Perm.swap 0 1 [])
    (by decide)
  h.elim fun slots hs => hs.elim fun a ha =>
    ⟨slots, a, ha.1, by
      have e := ha.1
      have e1 : reserveSlots ⟨0, 0, 0, false⟩ [Reservation.argument 1, Reservation.scratch,
        Reservation.argument 0, Reservation.scratch] = Except.ok
          ([⟨StackType.ARGUMENT, OperandSize.QWORD, 8⟩, ⟨StackType.SCRATCH, OperandSize.QWORD, 0⟩,
            ⟨StackType.ARGUMENT, OperandSize.QWORD, 0⟩, ⟨StackType.SCRATCH, OperandSize.QWORD, 8⟩],
            ⟨16, 16, 0, false⟩) := by rfl
      rw [e1] at e
      simp only [Except.ok.injEq, Prod.mk.injEq] at e
      refine ⟨e.1.symm, ?_, ?_, ha.2.2.2.1⟩
      · rw [← e.2]
        rfl
      · rw [← e.2]
        rfl⟩


/-! ## The QWORD store is injective -/

theorem store_bytes_eq (buf : List Nat) (src : Nat) (m : MemOp)
    (hsrc : src ≤ R15) (hbase : m.base ≤ R15)
    (hidx : m.index = NONE ∨ (m.index ≤ R15 ∧ m.index ≠ RSP ∧
      (m.scale = 1 ∨ m.scale = 2 ∨ m.scale = 4 ∨ m.scale = 8))) :
    movRegToRegMem buf src (RegMemOp.mem m) OperandSize.QWORD = buf ++ storeSpec src m := by
  have hsrc15 : (src : Nat) ≤ 15 := hsrc
  have hbase15 : (m.base : Nat) ≤ 15 := hbase
  have hsrcN : src ≠ NONE := fun h => by rw [h] at hsrc15; exact absurd hsrc15 (by decide)
  have hbaseN : m.base ≠ NONE := fun h => by rw [h] at hbase15; exact absurd hbase15 (by decide)
  have hpre := store_prefix buf src m hsrcN hbaseN
  have h1 : (1 : Nat) = 1 ∨ (1 : Nat) = 2 ∨ (1 : Nat) = 4 ∨ (1 : Nat) = 8 := Or.inl rfl
  simp only [movRegToRegMem, operands, operandsMem]
  rw [show (if OperandSize.QWORD = OperandSize.BYTE then (0x88 : Nat) else 0x89) = 0x89 from rfl,
    hpre]
  have hf := fitsIntoI8_iff m.offset
  have e4 : (4 &&& 7 : Nat) = 4 := rfl
  have e5 : (5 &&& 7 : Nat) = 5 := rfl
  have e0 : u8OfInt 0 = 0 := rfl
  have e36 : ((4 : Nat) <<< 3 ||| 4) = 36 := rfl
  have elt : u8OfInt m.offset % 256 = u8OfInt m.offset := by
    unfold u8OfInt; omega
  rcases hidx with hi | ⟨hi15, hiRSP, hsc⟩
  · by_cases h0 : m.offset = 0 <;> by_cases hfit : -128 ≤ m.offset ∧ m.offset ≤ 127 <;>
      by_cases b4 : m.base &&& 7 = 4 <;> by_cases b5 : m.base &&& 7 = 5 <;>
      first
      | (exfalso; omega)
      | simp [hi, h0, hfit, b4, b5, storeSpec, modrm_eq, sib_eq, byte, dword, leBytes_one,
          leBytes_four, hf, scaleLog, e4, e5, e0, e36, elt]
  · have hiN : m.index ≠ NONE := fun h => by
      have h15 : (m.index : Nat) ≤ 15 := hi15
      rw [h] at h15; exact absurd h15 (by decide)
    by_cases h0 : m.offset = 0 <;> by_cases hfit : -128 ≤ m.offset ∧ m.offset ≤ 127 <;>
      by_cases b5 : m.base &&& 7 = 5 <;>
      first
      | (exfalso; omega)
      | simp [hiN, h0, hfit, b5, storeSpec, modrm_eq, sib_eq, hsc, byte, dword, leBytes_one,
          leBytes_four, hf, e4, e5, e0, e36, elt]

theorem field_byte (a b c : Nat) (ha : a < 4) (hb : b < 8) (hc : c < 8) :
    (a <<< 6) ||| (b <<< 3) ||| c = 64 * a + 8 * b + c := by
  interval_cases a <;> interval_cases b <;> interval_cases c <;> rfl

theorem and7_mod (a : Nat) : a &&& 7 = a % 8 := Nat.and_pow_two_sub_one_eq_mod a 3

theorem rex_byte (r x b : Nat) (hr : r ≤ 1) (hx : x ≤ 1) (hb : b ≤ 1) :
    0x48 ||| (4 * r) ||| (2 * x) ||| b = 72 + 4 * r + 2 * x + b := by
  interval_cases r <;> interval_cases x <;> interval_cases b <;> rfl

theorem storeSpec_shape (src : Nat) (m : MemOp) (hsrc : src ≤ 15) (hbase : m.base ≤ 15)
    (hidx : m.index = NONE ∨ (m.index ≤ 15 ∧ m.index ≠ 4)) :
    ∃ (X rm md : Nat) (sibs disp : List Nat),
      storeSpec src m = [72 + 4 * (src / 8) + 2 * X + m.base / 8, 137,
        64 * md + 8 * (src % 8) + rm] ++ sibs ++ disp ∧
      X ≤ 1 ∧ rm < 8 ∧ md < 3 ∧
      (m.index = NONE → X = 0 ∧
        ((m.base % 8 = 4 ∧ rm = 4 ∧ sibs = [32 + m.base % 8]) ∨
         (m.base % 8 ≠ 4 ∧ rm = m.base % 8 ∧ sibs = []))) ∧
      (m.index ≠ NONE → X = m.index / 8 ∧ rm = 4 ∧
        sibs = [64 * scaleLog m.scale + 8 * (m.index % 8) + m.base % 8]) ∧
      ((md = 0 ∧ m.offset = 0 ∧ m.base % 8 ≠ 5 ∧ disp = []) ∨
       (md = 1 ∧ -128 ≤ m.offset ∧ m.offset ≤ 127 ∧ (m.offset = 0 → m.base % 8 = 5) ∧
         disp = [u8OfInt m.offset]) ∨
       (md = 2 ∧ ¬ (-128 ≤ m.offset ∧ m.offset ≤ 127) ∧
         disp = [u8OfInt m.offset, u8OfInt (m.offset / 256), u8OfInt (m.offset / 65536),
           u8OfInt (m.offset / 16777216)])) := by
  have hrexR : (if R8 ≤ src then 4 else 0) = 4 * (src / 8) := by
    unfold R8
    split <;> omega
  have hrexB : (if R8 ≤ m.base then 1 else 0) = m.base / 8 := by
    unfold R8
    split <;> omega
  have hsl := scaleLog_lt m.scale
  have hbl : m.base % 8 < 8 := Nat.mod_lt _ (by decide)
  have hlo : src % 8 < 8 := Nat.mod_lt _ (by decide)
  have hil : m.index % 8 < 8 := Nat.mod_lt _ (by decide)
  have hX : (if m.index ≠ NONE ∧ R8 ≤ m.index then 2 else 0) =
      2 * (if m.index = NONE then 0 else m.index / 8) := by
    unfold R8 NONE
    rcases hidx with h | ⟨h1, _⟩
    · have h' : m.index = 255 := h
      simp [h']
    · have hne : m.index ≠ 255 := by omega
      simp only [ne_eq, hne, not_false_eq_true, true_and, if_false]
      split <;> omega
  have hXle : (if m.index = NONE then 0 else m.index / 8) ≤ 1 := by
    rcases hidx with h | ⟨h1, _⟩
    · simp [h]
    · split <;> omega
  have hrm : (if m.index ≠ NONE ∨ m.base % 8 = 4 then 4 else m.base % 8) < 8 := by
    split <;> omega
  have hmd : (if m.offset = 0 ∧ m.base % 8 ≠ 5 then 0
      else if -128 ≤ m.offset ∧ m.offset ≤ 127 then 1 else 2) < 3 := by
    split
    · omega
    · split <;> omega
  refine ⟨if m.index = NONE then 0 else m.index / 8,
    if m.index ≠ NONE ∨ m.base % 8 = 4 then 4 else m.base % 8,
    if m.offset = 0 ∧ m.base % 8 ≠ 5 then 0
      else if -128 ≤ m.offset ∧ m.offset ≤ 127 then 1 else 2,
    if (if m.index ≠ NONE ∨ m.base % 8 = 4 then 4 else m.base % 8) = 4 then
      [if m.index ≠ NONE then 64 * scaleLog m.scale + 8 * (m.index % 8) + m.base % 8
       else 32 + m.base % 8]
    else [],
    if (if m.offset = 0 ∧ m.base % 8 ≠ 5 then 0
      else if -128 ≤ m.offset ∧ m.offset ≤ 127 then 1 else 2) = 0 then []
    else if (if m.offset = 0 ∧ m.base % 8 ≠ 5 then 0
      else if -128 ≤ m.offset ∧ m.offset ≤ 127 then 1 else 2) = 1 then [u8OfInt m.offset]
    else [u8OfInt m.offset, u8OfInt (m.offset / 256), u8OfInt (m.offset / 65536),
           u8OfInt (m.offset / 16777216)], ?_, hXle, hrm, hmd, ?_, ?_, ?_⟩
  · unfold storeSpec
    simp only [and7_mod, leBytes_one, leBytes_four]
    rw [hrexR, hX, hrexB, rex_byte _ _ _ (by omega) hXle (by omega),
      field_byte _ _ _ (by omega) hlo hrm]
    have e1 : (scaleLog m.scale <<< 6) ||| ((m.index % 8) <<< 3) ||| (m.base % 8) =
        64 * scaleLog m.scale + 8 * (m.index % 8) + m.base % 8 := field_byte _ _ _ hsl hil hbl
    have e2 : ((0 : Nat) <<< 6) ||| (4 <<< 3) ||| (m.base % 8) = 32 + m.base % 8 := by
      rw [field_byte 0 4 _ (by decide) (by decide) hbl]
    rw [e1, e2]
  · intro hi
    refine ⟨by simp [hi], ?_⟩
    by_cases b4 : m.base % 8 = 4
    · left
      simp [hi, b4]
    · right
      simp [hi, b4]
  · intro hi
    simp [hi]
  · by_cases h0 : m.offset = 0 ∧ m.base % 8 ≠ 5
    · left
      simp [h0]
    · right
      by_cases hfit : -128 ≤ m.offset ∧ m.offset ≤ 127
      · left
        refine ⟨by simp [h0, hfit], hfit.1, hfit.2, ?_, by simp [h0, hfit]⟩
        intro hz
        by_contra hb
        exact h0 ⟨hz, hb⟩
      · right
        refine ⟨by simp [h0, hfit], hfit, by simp [h0, hfit]⟩

theorem u8OfInt_lt (v : Int) : u8OfInt v < 256 := by
  unfold u8OfInt
  omega

theorem scaleLog_inj (s t : Nat) (hs : s = 1 ∨ s = 2 ∨ s = 4 ∨ s = 8)
    (ht : t = 1 ∨ t = 2 ∨ t = 4 ∨ t = 8) (h : scaleLog s = scaleLog t) : s = t := by
  rcases hs with rfl | rfl | rfl | rfl <;> rcases ht with rfl | rfl | rfl | rfl <;>
    first | rfl | exact absurd h (by decide)

theorem head_fields (s1 s2 X1 X2 B1 B2 md1 md2 rm1 rm2 : Nat) (hs1 : s1 ≤ 15) (hs2 : s2 ≤ 15)
    (hX1 : X1 ≤ 1) (hX2 : X2 ≤ 1) (hB1 : B1 ≤ 1) (hB2 : B2 ≤ 1) (hmd1 : md1 < 3)
    (hmd2 : md2 < 3) (hrm1 : rm1 < 8) (hrm2 : rm2 < 8)
    (hrex : 72 + 4 * (s1 / 8) + 2 * X1 + B1 = 72 + 4 * (s2 / 8) + 2 * X2 + B2)
    (hmodrm : 64 * md1 + 8 * (s1 % 8) + rm1 = 64 * md2 + 8 * (s2 % 8) + rm2) :
    md1 = md2 ∧ rm1 = rm2 ∧ s1 = s2 ∧ B1 = B2 ∧ X1 = X2 := by
  omega

theorem disp8_inj (a b : Int) (ha : -128 ≤ a ∧ a ≤ 127) (hb : -128 ≤ b ∧ b ≤ 127)
    (h : u8OfInt a = u8OfInt b) : a = b := by
  unfold u8OfInt at h
  omega

theorem disp32_inj (a b : Int) (ha : -2147483648 ≤ a ∧ a ≤ 2147483647)
    (hb : -2147483648 ≤ b ∧ b ≤ 2147483647)
    (h0 : u8OfInt a = u8OfInt b) (h1 : u8OfInt (a / 256) = u8OfInt (b / 256))
    (h2 : u8OfInt (a / 65536) = u8OfInt (b / 65536))
    (h3 : u8OfInt (a / 16777216) = u8OfInt (b / 16777216)) : a = b := by
  unfold u8OfInt at h0 h1 h2 h3
  omega

theorem sib_fields (sl1 sl2 il1 il2 bl1 bl2 : Nat) (h1 : sl1 < 4) (h2 : sl2 < 4)
    (h3 : il1 < 8) (h4 : il2 < 8) (h5 : bl1 < 8) (h6 : bl2 < 8)
    (h : 64 * sl1 + 8 * il1 + bl1 = 64 * sl2 + 8 * il2 + bl2) :
    sl1 = sl2 ∧ il1 = il2 ∧ bl1 = bl2 := by
  omega

theorem reg_of_parts (a b : Nat) (ha : a ≤ 15) (hb : b ≤ 15) (h1 : a / 8 = b / 8)
    (h2 : a % 8 = b % 8) : a = b := by
  omega

theorem storeSpec_injective (src1 src2 : Nat) (m1 m2 : MemOp)
    (hs1 : src1 ≤ 15) (hb1 : m1.base ≤ 15)
    (hi1 : m1.index = NONE ∨ (m1.index ≤ 15 ∧ m1.index ≠ 4 ∧
      (m1.scale = 1 ∨ m1.scale = 2 ∨ m1.scale = 4 ∨ m1.scale = 8)))
    (ho1 : -2147483648 ≤ m1.offset ∧ m1.offset ≤ 2147483647)
    (hs2 : src2 ≤ 15) (hb2 : m2.base ≤ 15)
    (hi2 : m2.index = NONE ∨ (m2.index ≤ 15 ∧ m2.index ≠ 4 ∧
      (m2.scale = 1 ∨ m2.scale = 2 ∨ m2.scale = 4 ∨ m2.scale = 8)))
    (ho2 : -2147483648 ≤ m2.offset ∧ m2.offset ≤ 2147483647)
    (h : storeSpec src1 m1 = storeSpec src2 m2) :
    src1 = src2 ∧ m1.base = m2.base ∧ m1.index = m2.index ∧ m1.offset = m2.offset ∧
      (m1.index ≠ NONE → m1.scale = m2.scale) := by
  obtain ⟨X1, rm1, md1, sibs1, disp1, e1, hX1, hrm1, hmd1, hn1, hy1, hd1⟩ :=
    storeSpec_shape src1 m1 hs1 hb1 (hi1.imp id (fun h => ⟨h.1, h.2.1⟩))
  obtain ⟨X2, rm2, md2, sibs2, disp2, e2, hX2, hrm2, hmd2, hn2, hy2, hd2⟩ :=
    storeSpec_shape src2 m2 hs2 hb2 (hi2.imp id (fun h => ⟨h.1, h.2.1⟩))
  rw [e1, e2] at h
  simp only [List.cons_append, List.nil_append, List.cons.injEq, true_and] at h
  obtain ⟨hrex, hmodrm, htail⟩ := h
  have hsl1 := scaleLog_lt m1.scale
  have hsl2 := scaleLog_lt m2.scale
  have hil1 : m1.index % 8 < 8 := Nat.mod_lt _ (by decide)
  have hil2 : m2.index % 8 < 8 := Nat.mod_lt _ (by decide)
  have hbl1 : m1.base % 8 < 8 := Nat.mod_lt _ (by decide)
  have hbl2 : m2.base % 8 < 8 := Nat.mod_lt _ (by decide)
  obtain ⟨hmdeq, hrmeq, hsrc, hB, hXeq⟩ := head_fields src1 src2 X1 X2 (m1.base / 8)
    (m2.base / 8) md1 md2 rm1 rm2 hs1 hs2 hX1 hX2 (by omega) (by omega) hmd1 hmd2 hrm1 hrm2
    hrex hmodrm
  subst hmdeq hrmeq hsrc hXeq
  clear hrex hmodrm e1 e2
  -- the SIB part and the displacement part have the same lengths on both sides
  have hlen : sibs1.length = sibs2.length := by
    by_cases c1 : m1.index = NONE
    · rcases (hn1 c1).2 with ⟨p1, p2, q1⟩ | ⟨p1, p2, q1⟩
      · by_cases c2 : m2.index = NONE
        · rcases (hn2 c2).2 with ⟨r1, r2, q2⟩ | ⟨r1, r2, q2⟩
          · rw [q1, q2]
            rfl
          · exact absurd (r2.symm.trans p2) r1
        · rw [q1, (hy2 c2).2.2]
          rfl
      · by_cases c2 : m2.index = NONE
        · rcases (hn2 c2).2 with ⟨r1, r2, q2⟩ | ⟨r1, r2, q2⟩
          · exact absurd (p2.symm.trans r2) p1
          · rw [q1, q2]
        · exact absurd (p2.symm.trans (hy2 c2).2.1) p1
    · by_cases c2 : m2.index = NONE
      · rcases (hn2 c2).2 with ⟨r1, r2, q2⟩ | ⟨r1, r2, q2⟩
        · rw [q2, (hy1 c1).2.2]
          rfl
        · exact absurd (r2.symm.trans (hy1 c1).2.1) r1
      · rw [(hy1 c1).2.2, (hy2 c2).2.2]
        rfl
  obtain ⟨hsib, hdisp⟩ := List.append_inj htail hlen
  have hoff : m1.offset = m2.offset := by
    rcases hd1 with ⟨a1, a2, _, a4⟩ | ⟨a1, a2, a3, _, a5⟩ | ⟨a1, a2, a3⟩
    · rcases hd2 with ⟨b1, b2, _, b4⟩ | ⟨b1, b2, b3, _, b5⟩ | ⟨b1, b2, b3⟩
      · rw [a2, b2]
      · exact absurd (a1.symm.trans b1) (by decide)
      · exact absurd (a1.symm.trans b1) (by decide)
    · rcases hd2 with ⟨b1, b2, _, b4⟩ | ⟨b1, b2, b3, _, b5⟩ | ⟨b1, b2, b3⟩
      · exact absurd (a1.symm.trans b1) (by decide)
      · rw [a5, b5] at hdisp
        simp only [List.cons.injEq, and_true] at hdisp
        exact disp8_inj _ _ ⟨a2, a3⟩ ⟨b2, b3⟩ hdisp
      · exact absurd (a1.symm.trans b1) (by decide)
    · rcases hd2 with ⟨b1, b2, _, b4⟩ | ⟨b1, b2, b3, _, b5⟩ | ⟨b1, b2, b3⟩
      · exact absurd (a1.symm.trans b1) (by decide)
      · exact absurd (a1.symm.trans b1) (by decide)
      · rw [a3, b3] at hdisp
        simp only [List.cons.injEq, and_true] at hdisp
        exact disp32_inj _ _ ho1 ho2 hdisp.1 hdisp.2.1 hdisp.2.2.1 hdisp.2.2.2
  clear hd1 hd2 hdisp htail hlen
  have hNONE : NONE = 255 := rfl
  by_cases c1 : m1.index = NONE
  · obtain ⟨y1, hc1⟩ := hn1 c1
    by_cases c2 : m2.index = NONE
    · obtain ⟨y2, hc2⟩ := hn2 c2
      have hbl : m1.base % 8 = m2.base % 8 := by
        rcases hc1 with ⟨p1, p2, q1⟩ | ⟨p1, p2, q1⟩
        · rcases hc2 with ⟨r1, r2, q2⟩ | ⟨r1, r2, q2⟩
          · exact p1.trans r1.symm
          · exact absurd (r2.symm.trans p2) r1
        · rcases hc2 with ⟨r1, r2, q2⟩ | ⟨r1, r2, q2⟩
          · exact absurd (p2.symm.trans r2) p1
          · exact p2.symm.trans r2
      exact ⟨rfl, reg_of_parts _ _ hb1 hb2 hB hbl, c1.trans c2.symm, hoff,
        fun hne => absurd c1 hne⟩
    · exfalso
      obtain ⟨x2, r2, q2⟩ := hy2 c2
      rcases hi2 with hh | ⟨k1, k2, _⟩
      · exact c2 hh
      · rcases hc1 with ⟨p1, p2, q1⟩ | ⟨p1, p2, q1⟩
        · rw [q1, q2] at hsib
          simp only [List.cons.injEq, and_true] at hsib
          have hs := sib_fields 0 (scaleLog m2.scale) 4 (m2.index % 8) (m1.base % 8)
            (m2.base % 8) (by decide) hsl2 (by decide) hil2 hbl1 hbl2 (by omega)
          clear hsib hn1 hn2 hy1 hy2
          omega
        · exact absurd (p2.symm.trans r2) p1
  · obtain ⟨x1, r1, q1⟩ := hy1 c1
    rcases hi1 with hh | ⟨k1, k2, k3⟩
    · exact absurd hh c1
    · by_cases c2 : m2.index = NONE
      · exfalso
        obtain ⟨y2, hc2⟩ := hn2 c2
        rcases hc2 with ⟨p1, p2, q2⟩ | ⟨p1, p2, q2⟩
        · rw [q1, q2] at hsib
          simp only [List.cons.injEq, and_true] at hsib
          have hs := sib_fields (scaleLog m1.scale) 0 (m1.index % 8) 4 (m1.base % 8)
            (m2.base % 8) hsl1 (by decide) hil1 (by decide) hbl1 hbl2 (by omega)
          clear hsib hn1 hn2 hy1 hy2
          omega
        · exact absurd (p2.symm.trans r1) p1
      · obtain ⟨x2, r2, q2⟩ := hy2 c2
        rcases hi2 with hh | ⟨l1, l2, l3⟩
        · exact absurd hh c2
        · rw [q1, q2] at hsib
          simp only [List.cons.injEq, and_true] at hsib
          obtain ⟨g1, g2, g3⟩ := sib_fields _ _ _ _ _ _ hsl1 hsl2 hil1 hil2 hbl1 hbl2 hsib
          clear hsib hn1 hn2 hy1 hy2
          exact ⟨rfl, reg_of_parts _ _ hb1 hb2 hB g3,
            reg_of_parts _ _ k1 l1 (x1.symm.trans x2) g2, hoff,
            fun _ => scaleLog_inj _ _ k3 l3 g1⟩

/-- C35 (counterexample): the stores `mov(RAX, MemOp(RAX, NONE, 1, 0), QWORD)` and
`mov(RAX, MemOp(RAX, NONE, 2, 0), QWORD)` append the same bytes `48 89 00`, although the
two operands differ in `scale`: without an index register the scale is not encoded. -/
theorem store_ignores_scale_without_index :
    movRegToRegMem [] RAX (RegMemOp.mem ⟨RAX, NONE, 1, 0⟩) OperandSize.QWORD =
      [0x48, 0x89, 0x00] ∧
    movRegToRegMem [] RAX (RegMemOp.mem ⟨RAX, NONE, 2, 0⟩) OperandSize.QWORD =
      [0x48, 0x89, 0x00] ∧
    (⟨RAX, NONE, 1, 0⟩ : MemOp) ≠ ⟨RAX, NONE, 2, 0⟩ := by
  refine ⟨by rfl, by rfl, by decide⟩

/-- C35 (amended): for source registers RAX..R15 and memory operands with a base register
RAX..R15, either no index or an index register RAX..R15 other than RSP with scale in
{1,2,4,8}, and an offset of 32 bits, two calls of `mov(src, MemOp, QWORD)` that append
the same bytes were given the same source register, base, index and offset, and the same
scale when an index is present; operands without index that carry the scale 0 of
`MemOp(base, offset)` are then equal altogether. -/
theorem store_qword_injective (buf1 buf2 code : List Nat) (src1 src2 : Nat) (m1 m2 : MemOp)
    (hs1 : src1 ≤ R15) (hb1 : m1.base ≤ R15)
    (hi1 : m1.index = NONE ∨ (m1.index ≤ R15 ∧ m1.index ≠ RSP ∧
      (m1.scale = 1 ∨ m1.scale = 2 ∨ m1.scale = 4 ∨ m1.scale = 8)))
    (ho1 : -2147483648 ≤ m1.offset ∧ m1.offset ≤ 2147483647)
    (hs2 : src2 ≤ R15) (hb2 : m2.base ≤ R15)
    (hi2 : m2.index = NONE ∨ (m2.index ≤ R15 ∧ m2.index ≠ RSP ∧
      (m2.scale = 1 ∨ m2.scale = 2 ∨ m2.scale = 4 ∨ m2.scale = 8)))
    (ho2 : -2147483648 ≤ m2.offset ∧ m2.offset ≤ 2147483647)
    (h1 : movRegToRegMem buf1 src1 (RegMemOp.mem m1) OperandSize.QWORD = buf1 ++ code)
    (h2 : movRegToRegMem buf2 src2 (RegMemOp.mem m2) OperandSize.QWORD = buf2 ++ code) :
    src1 = src2 ∧ m1.base = m2.base ∧ m1.index = m2.index ∧ m1.offset = m2.offset ∧
      (m1.index ≠ NONE → m1.scale = m2.scale) ∧
      ((m1.index = NONE → m1.scale = 0) → (m2.index = NONE → m2.scale = 0) → m1 = m2) := by
  rw [store_bytes_eq buf1 src1 m1 hs1 hb1 hi1] at h1
  rw [store_bytes_eq buf2 src2 m2 hs2 hb2 hi2] at h2
  have e : storeSpec src1 m1 = storeSpec src2 m2 :=
    (List.append_cancel_left h1).trans (List.append_cancel_left h2).symm
  obtain ⟨r1, r2, r3, r4, r5⟩ :=
    storeSpec_injective src1 src2 m1 m2 hs1 hb1 hi1 ho1 hs2 hb2 hi2 ho2 e
  refine ⟨r1, r2, r3, r4, r5, ?_⟩
  intro z1 z2
  obtain ⟨b1, i1, s1, o1⟩ := m1
  obtain ⟨b2, i2, s2, o2⟩ := m2
  simp only at r2 r3 r4 r5 z1 z2
  subst r2 r3 r4
  by_cases c : i1 = NONE
  · rw [z1 c, z2 c]
  · rw [r5 c]

/-- C35 at the store `mov [rbp + r15*8 + 13371337], r15` of the test suite. -/
theorem store_qword_injective_witness :
    movRegToRegMem [] R15 (RegMemOp.mem ⟨RBP, R15, 8, 13371337⟩) OperandSize.QWORD =
      [0x4E, 0x89, 0xBC, 0xFD, 0xC9, 0x07, 0xCC, 0x00] ∧
    (R15 = R15 ∧ (⟨RBP, R15, 8, 13371337⟩ : MemOp) = ⟨RBP, R15, 8, 13371337⟩) :=
  have h := store_qword_injective [] [] [0x4E, 0x89, 0xBC, 0xFD, 0xC9, 0x07, 0xCC, 0x00]
    R15 R15 ⟨RBP, R15, 8, 13371337⟩ ⟨RBP, R15, 8, 13371337⟩
    (by decide) (by decide) (Or.inr ⟨by decide, by decide, Or.inr (Or.inr (Or.inr rfl))⟩)
    (by decide) (by decide) (by decide)
    (Or.inr ⟨by decide, by decide, Or.inr (Or.inr (Or.inr rfl))⟩) (by decide) (by rfl) (by rfl)
  ⟨by rfl, h.1, h.2.2.2.2.2 (fun hn => absurd hn (by decide)) (fun hn => absurd hn (by decide))⟩


/-! ## `Instruction::dstIdx()` and the numbering of temporaries -/

/-- C37 (the code departs from it): `countTemporaries` numbers the body `OBJ_LOAD`,
`GLOB_LOAD`, `MEMBER_CALL`, `GLOB_STORE`, `VOID_MEMBER_CALL` with the destinations 0, 1
and 2, and `dstIdx()` raises `std::runtime_error` for each of the five instructions: the
five opcodes reach the `default` of its switch. For every other opcode but `NOP`, on an
instruction that holds the member of its opcode, `dstIdx()` returns the index that
`countTemporaries` assigned when the opcode defines a temporary and no value when it
defines none. -/
theorem dstIdx_misses_object_opcodes :
    (∃ out, Bytecode.countTemporaries [] Bytecode.objectBody = Except.ok (3, out) ∧
      out = [⟨Bytecode.Opcode.OBJ_LOAD, 0, Bytecode.Payload.access 0 1 0 0⟩,
        ⟨Bytecode.Opcode.GLOB_LOAD, 1, Bytecode.Payload.global 0 1⟩,
        ⟨Bytecode.Opcode.MEMBER_CALL, 2, Bytecode.Payload.member_call 2 0 2 [0]⟩,
        ⟨Bytecode.Opcode.GLOB_STORE, 3, Bytecode.Payload.global 0 1⟩,
        ⟨Bytecode.Opcode.VOID_MEMBER_CALL, 4, Bytecode.Payload.member_call 0 0 2 [0]⟩] ∧
      out.map Bytecode.Instruction.destination = [some 0, some 1, some 2, some 1, some 0] ∧
      out.map Bytecode.Instruction.dstIdx =
        [Except.error Err.runtimeError, Except.error Err.runtimeError,
         Except.error Err.runtimeError, Except.error Err.runtimeError,
         Except.error Err.runtimeError]) ∧
    (∀ i : Bytecode.Instruction,
      i.opcode = Bytecode.Opcode.OBJ_LOAD ∨ i.opcode = Bytecode.Opcode.GLOB_LOAD ∨
        i.opcode = Bytecode.Opcode.MEMBER_CALL ∨ i.opcode = Bytecode.Opcode.GLOB_STORE ∨
        i.opcode = Bytecode.Opcode.VOID_MEMBER_CALL →
      i.dstIdx = Except.error Err.runtimeError) ∧
    (∀ (op : Bytecode.Opcode) (id id1 : Nat) (payload payload1 : Bytecode.Payload)
      (r r1 : Nat), op ≠ Bytecode.Opcode.NOP →
      Bytecode.Instruction.fits ⟨op, id, payload⟩ = true →
      op ≠ Bytecode.Opcode.OBJ_LOAD → op ≠ Bytecode.Opcode.GLOB_LOAD →
      op ≠ Bytecode.Opcode.MEMBER_CALL → op ≠ Bytecode.Opcode.GLOB_STORE →
      op ≠ Bytecode.Opcode.VOID_MEMBER_CALL →
      Bytecode.countStep op payload r = Except.ok (payload1, r1) →
      Bytecode.Instruction.dstIdx ⟨op, id1, payload1⟩ =
        Except.ok (if op.defines = true then some r else none)) := by
  refine ⟨⟨_, rfl, rfl, rfl, rfl⟩, ?_, ?_⟩
  · intro i h
    obtain ⟨op, id, payload⟩ := i
    simp only at h
    rcases h with h | h | h | h | h <;> subst h <;> rfl
  · intro op id id1 payload payload1 r r1 hnop hfit h1 h2 h3 h4 h5 hc
    cases op <;> cases payload <;>
      first
      | exact absurd rfl hnop
      | exact absurd rfl h1
      | exact absurd rfl h2
      | exact absurd rfl h3
      | exact absurd rfl h4
      | exact absurd rfl h5
      | exact Bool.noConfusion hfit
      | (simp only [Bytecode.countStep, Except.ok.injEq, Prod.mk.injEq] at hc
         obtain ⟨rfl, _⟩ := hc
         rfl)

/-! ## The receiver of a member call -/

/-- C38 (the code departs from it): for the bytes `6a 00 00 00` (`MEMBER_CALL`, function
0, an argument vector of length 0) and `69 00 00 00` (`VOID_MEMBER_CALL`) the instruction
reader reads `args[0]` of an empty vector, which is undefined; it does not raise
`BytecodeLoaderException`. With a non-empty argument vector the reader returns the
instruction with `ptrIdx = args[0]`; a vector cut short raises
`BytecodeLoaderException`. -/
theorem member_call_reads_missing_receiver :
    Bytecode.readInstruction [0x6a, 0x00, 0x00, 0x00] = Except.error Err.undefined ∧
    Bytecode.readInstruction [0x69, 0x00, 0x00, 0x00] = Except.error Err.undefined ∧
    Bytecode.readVector Bytecode.readU16 [0x00, 0x00] = Except.ok ([], []) ∧
    Bytecode.readInstruction [0x6a, 0x02, 0x01, 0x00, 0x07, 0x00] =
      Except.ok (⟨Bytecode.Opcode.MEMBER_CALL, 0, Bytecode.Payload.member_call 0 7 2 [7]⟩, []) ∧
    Bytecode.readInstruction [0x6a, 0x02, 0x01, 0x00, 0x07] =
      Except.error Err.bytecodeLoader ∧
    (∀ (op : Bytecode.Opcode) (is rest : List Nat) (functionIdx : Nat),
      op = Bytecode.Opcode.MEMBER_CALL ∨ op = Bytecode.Opcode.VOID_MEMBER_CALL →
      Bytecode.readU8 is = Except.ok (functionIdx, rest) →
      (∀ rest1, Bytecode.readVector Bytecode.readU16 rest = Except.ok ([], rest1) →
        Bytecode.readPayload op is = Except.error Err.undefined) ∧
      (∀ ptrIdx args rest1,
        Bytecode.readVector Bytecode.readU16 rest = Except.ok (ptrIdx :: args, rest1) →
        Bytecode.readPayload op is =
          Except.ok (Bytecode.Payload.member_call 0 ptrIdx functionIdx (ptrIdx :: args),
            rest1))) := by
  refine ⟨by rfl, by rfl, by rfl, by rfl, by rfl, ?_⟩
  intro op is rest functionIdx hop hr
  rcases hop with rfl | rfl
  · constructor
    · intro rest1 hv
      simp only [Bytecode.readPayload, hr, hv]
    · intro ptrIdx args rest1 hv
      simp only [Bytecode.readPayload, hr, hv]
  · constructor
    · intro rest1 hv
      simp only [Bytecode.readPayload, hr, hv]
    · intro ptrIdx args rest1 hv
      simp only [Bytecode.readPayload, hr, hv]

/-! ## The function table of the engine -/

theorem vecSet_length {T : Type} (v v1 : List T) (i : Nat) (x : T)
    (h : vecSet v i x = Except.ok v1) : v1.length = v.length := by
  unfold vecSet at h
  split at h
  · simp only [Except.ok.injEq] at h
    subst h
    exact List.length_set _ _ _
  · exact Except.noConfusion h

theorem stubLoop_length (xs : List Nat) : ∀ (t t1 : List TableEntry),
    loopE (fun t fIdx => vecSet t (fIdx + 1 + 1 + SPECIAL_FUNCTIONS) TableEntry.memberStub)
      t xs = Except.ok t1 → t1.length = t.length := by
  induction xs with
  | nil =>
    intro t t1 h
    simp only [loopE, Except.ok.injEq] at h
    rw [h]
  | cons x rest ih =>
    intro t t1 h
    unfold loopE at h
    cases hv : vecSet t (x + 1 + 1 + SPECIAL_FUNCTIONS) TableEntry.memberStub with
    | error e => rw [hv] at h; exact Except.noConfusion h
    | ok t2 =>
      rw [hv] at h
      rw [ih t2 t1 h, vecSet_length _ _ _ _ hv]

theorem headLoop_spec (t1 : List TableEntry) (h : 10 ≤ t1.length) :
    ∃ table, loopE (fun t p => vecSet t p.1 p.2) t1 headAssignments = Except.ok table ∧
      table.length = t1.length ∧
      table.take 10 = [TableEntry.special SpecialFunction.EXIT,
        TableEntry.special SpecialFunction.PRINT_DOUBLE,
        TableEntry.special SpecialFunction.PRINTA_INT,
        TableEntry.special SpecialFunction.ALLOC_ARRAY,
        TableEntry.special SpecialFunction.PRINT_FLOAT,
        TableEntry.special SpecialFunction.END,
        TableEntry.special SpecialFunction.START,
        TableEntry.special SpecialFunction.ALLOCATE,
        TableEntry.globals, TableEntry.engine] ∧
      table.drop 10 = t1.drop 10 := by
  match t1, h with
  | a0 :: a1 :: a2 :: a3 :: a4 :: a5 :: a6 :: a7 :: a8 :: a9 :: rest, _ =>
    refine ⟨[TableEntry.special SpecialFunction.EXIT,
        TableEntry.special SpecialFunction.PRINT_DOUBLE,
        TableEntry.special SpecialFunction.PRINTA_INT,
        TableEntry.special SpecialFunction.ALLOC_ARRAY,
        TableEntry.special SpecialFunction.PRINT_FLOAT,
        TableEntry.special SpecialFunction.END,
        TableEntry.special SpecialFunction.START,
        TableEntry.special SpecialFunction.ALLOCATE,
        TableEntry.globals, TableEntry.engine] ++ rest, ?_, ?_, rfl, rfl⟩
    · simp [loopE, headAssignments, vecSet, SPECIAL_FUNCTIONS, SpecialFunction.idx]
    · simp

theorem functionTable_head (program : Bytecode.Program) (table : List TableEntry)
    (h : JitEngine.functionTable program = Except.ok table) :
    table.length = program.functions.length + 10 ∧
    table.take 10 = [TableEntry.special SpecialFunction.EXIT,
      TableEntry.special SpecialFunction.PRINT_DOUBLE,
      TableEntry.special SpecialFunction.PRINTA_INT,
      TableEntry.special SpecialFunction.ALLOC_ARRAY,
      TableEntry.special SpecialFunction.PRINT_FLOAT,
      TableEntry.special SpecialFunction.END,
      TableEntry.special SpecialFunction.START,
      TableEntry.special SpecialFunction.ALLOCATE,
      TableEntry.globals, TableEntry.engine] := by
  unfold JitEngine.functionTable at h
  simp only at h
  split at h
  · exact Except.noConfusion h
  · rename_i t1 h1
    have hl := stubLoop_length _ _ _ h1
    rw [List.length_replicate] at hl
    have hl1 : t1.length = program.functions.length + 10 := by
      rw [hl]
      unfold SPECIAL_FUNCTIONS
      omega
    obtain ⟨table1, e1, e2, e3, _⟩ := headLoop_spec t1 (by omega)
    rw [e1] at h
    simp only [Except.ok.injEq] at h
    subst h
    exact ⟨by rw [e2, hl1], e3⟩

theorem getElem?_of_take {T : Type} (l : List T) (n p : Nat) (hp : p < n) :
    l[p]? = (l.take n)[p]? := by
  rw [List.getElem?_take]
  simp [hp]

/-- C39: in the table that the constructor of `JitEngine` leaves, the entry of the
special function with index `k` is at position `SPECIAL_FUNCTIONS - 1 - k`, which is
the position `SPECIAL_FUNCTIONS + 2 + specialFunctionIndex(k)`: the entry that the index
`specialFunctionIndex(k)` addresses relative to `fptable`, and that `call [RBP + 8 *
specialFunctionIndex(k)]` reaches. The entries at the relative indices -1 and -2 are the
engine and the globals, read at the offsets -8 and -16 that `loadJitEngine` and the
lowering of `GLOB_LOAD` / `GLOB_STORE` use, and `specialFunctionIndex(k)` is negative
for every `k`. -/
theorem special_functions_addressed (program : Bytecode.Program) (table : List TableEntry)
    (h : JitEngine.functionTable program = Except.ok table) :
    (∀ k, k < SPECIAL_FUNCTIONS → ∃ f : SpecialFunction, f.idx = k) ∧
    (∀ f : SpecialFunction,
      table[SPECIAL_FUNCTIONS - 1 - f.idx]? = some (TableEntry.special f) ∧
      (SPECIAL_FUNCTIONS : Int) + 2 + specialFunctionIndex f.idx =
        (SPECIAL_FUNCTIONS : Int) - 1 - (f.idx : Int) ∧
      entryAt table (specialFunctionIndex f.idx) = some (TableEntry.special f) ∧
      entryAtOffset table (callOffset (specialFunctionIndex f.idx)) =
        some (TableEntry.special f)) ∧
    (∀ k : Nat, (fptable : Int) + specialFunctionIndex k =
        (SPECIAL_FUNCTIONS : Int) - 1 - (k : Int) ∧ specialFunctionIndex k < 0) ∧
    entryAt table (-1) = some TableEntry.engine ∧
    entryAt table (-2) = some TableEntry.globals ∧
    entryAtOffset table engineOffset = some TableEntry.engine ∧
    entryAtOffset table globalAddressOffset = some TableEntry.globals ∧
    (∀ c c1, loadJitEngine c = Except.ok c1 → ∃ a b, c1.lirs = c.lirs ++
      [⟨Operation.MOV_MEM, c.id,
        Payload.memmov a b engineOffset false 0 0 OperandSize.QWORD false⟩]) := by
  obtain ⟨hlen, htake⟩ := functionTable_head program table h
  have hget : ∀ p, p < 10 → table[p]? = [TableEntry.special SpecialFunction.EXIT,
      TableEntry.special SpecialFunction.PRINT_DOUBLE,
      TableEntry.special SpecialFunction.PRINTA_INT,
      TableEntry.special SpecialFunction.ALLOC_ARRAY,
      TableEntry.special SpecialFunction.PRINT_FLOAT,
      TableEntry.special SpecialFunction.END,
      TableEntry.special SpecialFunction.START,
      TableEntry.special SpecialFunction.ALLOCATE,
      TableEntry.globals, TableEntry.engine][p]? := by
    intro p hp
    rw [getElem?_of_take table 10 p hp, htake]
  refine ⟨?_, ?_, ?_, ?_, ?_, ?_, ?_, ?_⟩
  · intro k hk
    unfold SPECIAL_FUNCTIONS at hk
    interval_cases k
    · exact ⟨SpecialFunction.ALLOCATE, rfl⟩
    · exact ⟨SpecialFunction.START, rfl⟩
    · exact ⟨SpecialFunction.END, rfl⟩
    · exact ⟨SpecialFunction.PRINT_FLOAT, rfl⟩
    · exact ⟨SpecialFunction.ALLOC_ARRAY, rfl⟩
    · exact ⟨SpecialFunction.PRINTA_INT, rfl⟩
    · exact ⟨SpecialFunction.PRINT_DOUBLE, rfl⟩
    · exact ⟨SpecialFunction.EXIT, rfl⟩
  · intro f
    cases f <;>
      refine ⟨by rw [hget _ (by decide)]; rfl, by rfl, ?_, ?_⟩ <;>
      simp only [entryAtOffset, callOffset, entryAt, specialFunctionIndex, fptable,
        SPECIAL_FUNCTIONS, SpecialFunction.idx] <;>
      norm_num <;> rw [hget _ (by decide)] <;> rfl
  · intro k
    unfold specialFunctionIndex fptable SPECIAL_FUNCTIONS
    constructor
    · push_cast
      omega
    · omega
  · simp only [entryAt, fptable, SPECIAL_FUNCTIONS]
    norm_num
    rw [hget _ (by decide)]
    rfl
  · simp only [entryAt, fptable, SPECIAL_FUNCTIONS]
    norm_num
    rw [hget _ (by decide)]
    rfl
  · simp only [entryAtOffset, engineOffset, entryAt, fptable, SPECIAL_FUNCTIONS]
    norm_num
    rw [hget _ (by decide)]
    rfl
  · simp only [entryAtOffset, globalAddressOffset, entryAt, fptable, SPECIAL_FUNCTIONS]
    norm_num
    rw [hget _ (by decide)]
    rfl
  · intro c c1 hc
    unfold loadJitEngine at hc
    simp only at hc
    split at hc
    · exact Except.noConfusion hc
    · split at hc
      · exact Except.noConfusion hc
      · simp only [Except.ok.injEq] at hc
        subst hc
        exact ⟨_, _, rfl⟩

/-- C39 at a program with two functions, of which function 1 is virtual: `EXIT`, index
7, is reached with the relative index -10 at position 0, `ALLOCATE`, index 0, with the
relative index -3 at position 7. -/
theorem special_functions_addressed_witness :
    JitEngine.functionTable tableProgram = Except.ok tableOfProgram ∧
    specialFunctionIndex SpecialFunction.EXIT.idx = -10 ∧
    entryAt tableOfProgram (specialFunctionIndex SpecialFunction.EXIT.idx) =
      some (TableEntry.special SpecialFunction.EXIT) ∧
    specialFunctionIndex SpecialFunction.ALLOCATE.idx = -3 ∧
    entryAt tableOfProgram (specialFunctionIndex SpecialFunction.ALLOCATE.idx) =
      some (TableEntry.special SpecialFunction.ALLOCATE) ∧
    entryAt tableOfProgram (-1) = some TableEntry.engine :=
  have h := special_functions_addressed tableProgram tableOfProgram (by rfl)
  ⟨by rfl, by rfl, (h.2.1 SpecialFunction.EXIT).2.2.1, by rfl,
    (h.2.1 SpecialFunction.ALLOCATE).2.2.1, h.2.2.2.1⟩


/-! ## Two intervals in one register -/

theorem pushedOff_returns_early (xmm : Bool) (reg : Nat) (w : Work)
    (h : w.st.active.any (fun a => decide (a.regOf xmm = reg)) = false) :
    handleIntervalBeingPushedOffRegister xmm reg w = Except.ok w := by
  unfold handleIntervalBeingPushedOffRegister
  rw [h]
  rfl

/-- C32 (the code departs from it): for a function whose parameter `i0` has a lifetime
hole `[-1,1] [5,7]` and whose fixed interval of `RDI` is `[2,3] [5,6]`, the result of
`RegisterAllocation::run` holds both intervals in `RDI`, and both cover the positions 5
and 6. When the fixed interval is processed the parameter is inactive, and
`handleIntervalBeingPushedOffRegister` returns as soon as it finds no active interval in
the register, before its loop over the inactive intervals. Two arrays of floats that live
at the same time both end in `XMM0`. -/
theorem parameter_and_fixed_share_register :
    LifetimeAnalyzer.run 1 branchBlocks 2 = Except.ok branchIntervals ∧
    RegisterAllocation.run branchEnv 20 branchIntervals = Except.ok branchResult ∧
    allocate branchEnv 20 branchBlocks 2 = Except.ok branchResult ∧
    branchResult.handled = [fixedRdi, paramRdi] ∧
    fixedRdi.vr ≠ paramRdi.vr ∧ fixedRdi._reg = RDI ∧ paramRdi._reg = RDI ∧
    fixedRdi.isFixed = true ∧
    covers fixedRdi.lifespans 5 = true ∧ covers paramRdi.lifespans 5 = true ∧
    covers fixedRdi.lifespans 6 = true ∧ covers paramRdi.lifespans 6 = true ∧
    (∀ (xmm : Bool) (reg : Nat) (w : Work),
      w.st.active.any (fun a => decide (a.regOf xmm = reg)) = false →
      handleIntervalBeingPushedOffRegister xmm reg w = Except.ok w) ∧
    RegisterAllocation.run arrayEnv 10 arrayIntervals = Except.ok arrayResult ∧
    arrayResult.handled.map (fun i => (i.vr, i._xmm)) = [(0, 0), (1, 0)] ∧
    arrayResult.handled.map (fun i => covers i.lifespans 1) = [true, true] := by
  refine ⟨by rfl, by rfl, by rfl, by rfl, by decide, by rfl, by rfl, by rfl, by rfl, by rfl,
    by rfl, by rfl, pushedOff_returns_early, by rfl, by rfl, by rfl⟩

end Cij
